import Mathlib

/-! nwdevice-visualizer: SNMP reconciliation, naming and view mapping.

A shallow embedding of `internal/snmp/snmp.go` and `internal/handlers/handlers.go`.

Conventions of the embedding.

* A Go `string` is a Lean `String`; the functions that scan it work on its list of
  code points (`String.data`).  All characters the code compares against are ASCII, so
  scanning code points and scanning UTF-8 bytes agree.  An octet string received from the
  device becomes a string by UTF-8 decoding (`bytesToString`).
* A Go `int` is a Lean `Int`; `int` is 64 bits wide (`minInt ≤ i ≤ maxInt`), and the places
  where the source can leave that interval are modelled explicitly (`Atoi` saturates,
  `wrapInt` wraps).
* A Go `uint64` is a Lean `Nat` below `2 ^ 64`, arithmetic on it is reduced `% 2 ^ 64`.
* A Go map that is only looked up is a function `Int → Option α`; a map that is ranged
  over is the list of its entries in the order the `range` statement happens to visit them.
-/

namespace NwViz

/-! ## Machine integers -/

/-- Largest value of a Go `int` (64 bit). -/
def maxInt : Int := 9223372036854775807

/-- Smallest value of a Go `int` (64 bit). -/
def minInt : Int := -9223372036854775808

/-- Two's complement wrap-around of a Go `int` computation. -/
def wrapInt (i : Int) : Int := (i + 9223372036854775808) % 18446744073709551616 - 9223372036854775808

/-- Wrap-around of a Go `uint64` computation. -/
def wrapU64 (n : Nat) : Nat := n % 18446744073709551616

/-! ## Characters and the `strconv` / `strings` helpers the source calls -/

/-- The regular expression class `\d`, and the digits `strconv` accepts: `0` to `9`. -/
def isDigit (c : Char) : Bool := decide (48 ≤ c.toNat) && decide (c.toNat ≤ 57)

/-- The regular expression class `\s` of Go (RE2): tab, newline, form feed, carriage
return and space. -/
def isSpaceRe (c : Char) : Bool :=
  decide (c.toNat = 9) || decide (c.toNat = 10) || decide (c.toNat = 12) ||
    decide (c.toNat = 13) || decide (c.toNat = 32)

/-- The white space of `unicode.IsSpace`, which `strings.TrimSpace` removes. -/
def isSpaceUnicode (c : Char) : Bool :=
  decide (9 ≤ c.toNat ∧ c.toNat ≤ 13) || decide (c.toNat = 32) || decide (c.toNat = 0x85) ||
    decide (c.toNat = 0xA0) || decide (c.toNat = 0x1680) ||
    decide (0x2000 ≤ c.toNat ∧ c.toNat ≤ 0x200A) || decide (c.toNat = 0x2028) ||
    decide (c.toNat = 0x2029) || decide (c.toNat = 0x202F) || decide (c.toNat = 0x205F) ||
    decide (c.toNat = 0x3000)

/-- The number written by a list of decimal digits. -/
def digitsValue (ds : List Char) : Nat :=
  ds.foldl (fun n c => n * 10 + (c.toNat - 48)) 0

/-- The unsigned part of `strconv.Atoi`: a non-empty run of decimal digits, read as a
64-bit integer of the given sign.  A value outside the `int` range is a range error and
yields the nearest representable value; anything else that is not a digit run is a
syntax error and yields `0`.  The second component is `err == nil`. -/
def atoiBody (neg : Bool) (body : List Char) : Int × Bool :=
  if body = [] ∨ body.all isDigit = false then (0, false)
  else if neg then
    (if (9223372036854775808 : Int) < digitsValue body then (minInt, false)
     else (-(digitsValue body : Int), true))
  else
    (if maxInt < digitsValue body then (maxInt, false) else ((digitsValue body : Int), true))

/-- Go `strconv.Atoi`: an optional sign followed by decimal digits.  Returns the value and
whether the error is nil; the value is meaningful also when the error is not nil, because
the source discards the error in `GetPhysicalIndex`. -/
def Atoi (s : List Char) : Int × Bool :=
  match s with
  | [] => (0, false)
  | c :: r =>
    if c = '-' then atoiBody true r
    else if c = '+' then atoiBody false r
    else atoiBody false (c :: r)

/-- Go `unicode.ToLower` as far as a comparison with ASCII text can see it: the ASCII
capitals, and the only two other runes whose lower case is an ASCII letter (U+0130 and the
Kelvin sign U+212A).  Every other rune is left as it is; its real lower case is never an
ASCII character. -/
def toLowerRune (c : Char) : Char :=
  if 65 ≤ c.toNat ∧ c.toNat ≤ 90 then Char.ofNat (c.toNat + 32)
  else if c.toNat = 0x130 then 'i'
  else if c.toNat = 0x212A then 'k'
  else c

/-- Go `strings.ToLower`. -/
def ToLower (s : List Char) : List Char := s.map toLowerRune

/-- Go `strings.HasPrefix`. -/
def HasPrefix (s p : List Char) : Bool := p.isPrefixOf s

/-! ## The four regular expressions of `snmp.go`

`FindStringSubmatch` returns the leftmost match and prefers, at one start position, the
greedy choice.  In each of the four patterns two neighbouring pieces never accept the same
character (white space, digits, `/`, `:`), so at a given start position every repetition
has to take its maximal run: a match that starts there is unique, and `takeWhile` /
`dropWhile` compute it. -/

/-- Leftmost search: the result of the first start position, scanning from the left, at
which `m` matches. -/
def findFirst {α : Type} (m : List Char → Option α) : List Char → Option α
  | [] => m []
  | c :: cs =>
    match m (c :: cs) with
    | some r => some r
    | none => findFirst m cs

/-- A match of `\/(\d+):\d+$` that starts at the head of `s`; the value is capture 1. -/
def matchColonSubAt (s : List Char) : Option (List Char) :=
  match s with
  | [] => none
  | c :: rest =>
    if c = '/' then
      match rest.dropWhile isDigit with
      | [] => none
      | c2 :: tail =>
        if rest.takeWhile isDigit ≠ [] ∧ c2 = ':' ∧ tail ≠ [] ∧ tail.all isDigit = true then
          some (rest.takeWhile isDigit)
        else none
    else none

/-- The source's `reColonSub.FindStringSubmatch`, reduced to capture 1 (`matches[1]`);
`none` stands for "no match" (`len(matches) ≤ 1`). -/
def reColonSub (s : List Char) : Option (List Char) := findFirst matchColonSubAt s

/-- The letters `E`, `t`, `h` under the flag `(?i)`: none of them has a further case
variant in Unicode simple folding. -/
def isEth (e t h : Char) : Bool :=
  (decide (e = 'E') || decide (e = 'e')) && (decide (t = 'T') || decide (t = 't')) &&
    (decide (h = 'H') || decide (h = 'h'))

/-- A match of `(?i)Eth\s*(\d+)\s*/\s*(\d+)` that starts at the head of `s`; the value is
capture 1. -/
def matchSonicBreakoutAt (s : List Char) : Option (List Char) :=
  match s with
  | e :: t :: h :: r0 =>
    if isEth e t h then
      match ((r0.dropWhile isSpaceRe).dropWhile isDigit).dropWhile isSpaceRe with
      | [] => none
      | c :: r3 =>
        if (r0.dropWhile isSpaceRe).takeWhile isDigit ≠ [] ∧ c = '/' ∧
            ((r3.dropWhile isSpaceRe).head?.any isDigit) = true then
          some ((r0.dropWhile isSpaceRe).takeWhile isDigit)
        else none
    else none
  | _ => none

/-- The source's `reSonicBreakout.FindStringSubmatch`, reduced to capture 1. -/
def reSonicBreakout (s : List Char) : Option (List Char) := findFirst matchSonicBreakoutAt s

/-- A match of `(?i)Eth\s*(\d+)$` that starts at the head of `s`; the value is capture 1. -/
def matchSonicSimpleAt (s : List Char) : Option (List Char) :=
  match s with
  | e :: t :: h :: r0 =>
    if isEth e t h ∧ r0.dropWhile isSpaceRe ≠ [] ∧
        (r0.dropWhile isSpaceRe).all isDigit = true then
      some (r0.dropWhile isSpaceRe)
    else none
  | _ => none

/-- The source's `reSonicSimple.FindStringSubmatch`, reduced to capture 1. -/
def reSonicSimple (s : List Char) : Option (List Char) := findFirst matchSonicSimpleAt s

/-- A match of `(\d+)$` that starts at the head of `s`. -/
def matchLastNumAt (s : List Char) : Option (List Char) :=
  if s ≠ [] ∧ s.all isDigit = true then some s else none

/-- The source's `reLastNum.FindStringSubmatch`, reduced to capture 1. -/
def reLastNum (s : List Char) : Option (List Char) := findFirst matchLastNumAt s

/-! ## Naming and classification -/

/-- The alias branch of `GetPhysicalIndex` (`if alias != "" { ... }`): the digits the alias
yields, if it yields any. -/
def aliasDigits (al : List Char) : Option (List Char) :=
  if al ≠ [] then
    match reSonicBreakout al with
    | some d => some d
    | none => reSonicSimple al
  else none

/-- The name branch of `GetPhysicalIndex` that follows the alias branch. -/
def nameDigits (name : List Char) : Option (List Char) :=
  match reSonicBreakout name with
  | some d => some d
  | none =>
    match reSonicSimple name with
    | some d => some d
    | none => reLastNum name

/-- `GetPhysicalIndex(name, alias)` of `snmp.go`: the physical index and the `ok` flag.
Every branch converts its digits with `idx, _ := strconv.Atoi(...)`, discarding the
error. -/
def GetPhysicalIndex (name al : String) : Int × Bool :=
  if '.' ∈ name.data then (0, false)
  else
    match reColonSub name.data with
    | some d => ((Atoi d).1, true)
    | none =>
      match aliasDigits al.data with
      | some d => ((Atoi d).1, true)
      | none =>
        match nameDigits name.data with
        | some d => ((Atoi d).1, true)
        | none => (0, false)

/-- The prefix table of `IsIgnoredInterface`. -/
def ignoredPrefixes : List String :=
  ["vl", "nu", "lo", "po", "st", "mg", "ma", "in", "bl", "co", "tu", "bd", "vi", "cpu",
   "bridge-aggregation", "br", "ap", "us", "lan"]

/-- `IsIgnoredInterface(name)` of `snmp.go`. -/
def IsIgnoredInterface (name : String) : Bool :=
  if '.' ∈ name.data then true
  else if ToLower name.data = "eth0".data ∨ HasPrefix (ToLower name.data) "tunnel".data then true
  else ignoredPrefixes.any (fun p => HasPrefix (ToLower name.data) p.data)

/-- Go `strings.Contains` for a substring. -/
def Contains (s sub : List Char) : Bool := s.tails.any (fun t => sub.isPrefixOf t)

/-- Go `strings.Split` for a one-character separator: `Split sep ""` is `[""]`. -/
def Split (sep : Char) : List Char → List (List Char)
  | [] => [[]]
  | c :: cs =>
    if c = sep then [] :: Split sep cs
    else
      match Split sep cs with
      | [] => [[c]]
      | p :: ps => (c :: p) :: ps

/-- Go `strings.TrimSpace`. -/
def TrimSpace (s : List Char) : List Char :=
  ((s.dropWhile isSpaceUnicode).reverse.dropWhile isSpaceUnicode).reverse

/-- Go `strings.Join`. -/
def Join (parts : List (List Char)) (sep : List Char) : List Char := sep.intercalate parts

/-- The decimal digits of a natural number, most significant first (`fuel` bounds the
number of digits). -/
def natDecimalAux : Nat → Nat → List Char → List Char
  | 0, _, acc => acc
  | fuel + 1, n, acc =>
    if n < 10 then Char.ofNat (48 + n) :: acc
    else natDecimalAux fuel (n / 10) (Char.ofNat (48 + n % 10) :: acc)

/-- The decimal numeral of a natural number. -/
def natDecimal (n : Nat) : List Char := natDecimalAux (n + 1) n []

/-- Go `fmt.Sprintf("%d", i)` for an `int`. -/
def Itoa (i : Int) : List Char :=
  if i < 0 then '-' :: natDecimal i.natAbs else natDecimal i.natAbs

/-- Go `sort.Ints`: the ascending rearrangement of a list of integers (it is unique, so
the sorting algorithm does not matter). -/
def sortInts (l : List Int) : List Int := l.insertionSort (fun a b => a ≤ b)

/-- Go's `<=` on strings: lexicographic by byte, which on UTF-8 text is lexicographic by
code point. -/
def strLe : List Char → List Char → Bool
  | [], _ => true
  | _ :: _, [] => false
  | a :: as, b :: bs =>
    if a.toNat < b.toNat then true
    else if a.toNat = b.toNat then strLe as bs
    else false

/-! ## Data model (`internal/models/models.go`) -/

/-- A `float64` reading, kept as its IEEE 754 bit pattern. -/
structure F64 where
  bits : Nat
  deriving DecidableEq, Repr

/-- Go `models.DOMInfo`; a nil pointer is `none`. -/
structure DOMInfo where
  Temperature : Option F64 := none
  Voltage : Option F64 := none
  TxPower : Option F64 := none
  RxPower : Option F64 := none
  BiasCurrent : Option F64 := none
  deriving DecidableEq, Repr

/-- Go `models.SNMPResult`: one interface row. -/
structure SNMPResult where
  IfIndex : Int := 0
  IfName : String := ""
  IfAlias : String := ""
  OperStatus : Int := 0
  HighSpeed : Nat := 0
  InOctets : Nat := 0
  OutOctets : Nat := 0
  InRate : Nat := 0
  OutRate : Nat := 0
  VlanID : Int := 0
  AllowedVlans : String := ""
  Mode : String := ""
  DOM : DOMInfo := {}
  deriving DecidableEq, Repr

/-- Go `models.PortStatus`. -/
structure PortStatus where
  PhysicalIndex : Int := 0
  PortType : String := ""
  Status : String := ""
  IfName : String := ""
  IfDesc : String := ""
  Speed : Nat := 0
  InTraffic : Nat := 0
  OutTraffic : Nat := 0
  InRate : Nat := 0
  OutRate : Nat := 0
  VlanID : Int := 0
  AllowedVlans : String := ""
  Mode : String := ""
  IsBreakout : Bool := false
  BreakoutPorts : List PortStatus := []
  DOM : DOMInfo := {}

/-- Go `models.PortSection`; the `Ports` of a view section hold `PortStatus` values. -/
structure PortSection where
  ID : String := ""
  Title : String := ""
  Type_ : String := ""
  PortType : String := ""
  Layout : String := ""
  LayoutType : String := ""
  Rows : Int := 0
  PortRanges : String := ""
  IsCombo : Bool := false
  Ports : List PortStatus := []

/-- Go `models.SwitchConfig`. -/
structure SwitchConfig where
  Sections : List PortSection := []

/-! ## Range codecs -/

/-- One item of a range string: `N` for a run of one element, `A-B` otherwise. -/
def rangeItem (start prev : Int) : List Char :=
  if start = prev then Itoa start else Itoa start ++ '-' :: Itoa prev

/-- The loop of `indicesToRangeString` over `indices[1:]`, with its variables `start`,
`prev` and `parts`; the last line is the item emitted after the loop. -/
def rangeLoop (start prev : Int) (parts : List (List Char)) : List Int → List (List Char)
  | [] => parts ++ [rangeItem start prev]
  | curr :: rest =>
    if curr = wrapInt (prev + 1) then rangeLoop start curr parts rest
    else rangeLoop curr curr (parts ++ [rangeItem start prev]) rest

/-- The items of `indicesToRangeString(indices)`, before they are joined. -/
def rangeItems (indices : List Int) : List (List Char) :=
  match sortInts indices with
  | [] => []
  | x :: rest => rangeLoop x x [] rest

/-- `indicesToRangeString(indices)` of `snmp.go`. -/
def indicesToRangeString (indices : List Int) : String :=
  if indices = [] then "" else String.mk (Join (rangeItems indices) ", ".data)

/-- The loop `for i := start; i <= end; i++ { ports = append(ports, i) }` of
`parsePortRanges`, entered with `start ≤ end`.  With `end` equal to the largest `int` the
condition `i <= end` never fails (`i++` wraps around), the loop does not end and there is
no result: `none`. -/
def expandRange (start stop : Int) : Option (List Int) :=
  if stop = maxInt then none
  else some ((List.range (stop + 1 - start).toNat).map (fun k => start + (k : Int)))

/-- The integers one comma-separated item of a range expression contributes; `none` when
its expansion loop does not end. -/
def parsePart (part : List Char) : Option (List Int) :=
  if TrimSpace part = [] then some []
  else if '-' ∈ TrimSpace part then
    match Split '-' (TrimSpace part) with
    | [a, b] =>
      if (Atoi (TrimSpace a)).2 = true ∧ (Atoi (TrimSpace b)).2 = true ∧
          (Atoi (TrimSpace a)).1 ≤ (Atoi (TrimSpace b)).1 then
        expandRange (Atoi (TrimSpace a)).1 (Atoi (TrimSpace b)).1
      else some []
    | _ => some []
  else if (Atoi (TrimSpace part)).2 = true then some [(Atoi (TrimSpace part)).1]
  else some []

/-- The loop of `parsePortRanges` over the comma-separated items: the unsorted `ports`. -/
def parseParts : List (List Char) → Option (List Int)
  | [] => some []
  | part :: rest =>
    match parsePart part with
    | none => none
    | some l =>
      match parseParts rest with
      | none => none
      | some ls => some (l ++ ls)

/-- `parsePortRanges(rangeStr)` of `handlers.go`; `none` when the call does not return. -/
def parsePortRanges (rangeStr : String) : Option (List Int) :=
  (parseParts (Split ',' rangeStr.data)).map sortInts

/-! ## View mapper (`internal/handlers/handlers.go`) -/

/-- `createPortStatus(phyIdx, pType, res, isChild)` of `handlers.go`. -/
def createPortStatus (phyIdx : Int) (pType : String) (res : SNMPResult) (isChild : Bool) :
    PortStatus :=
  { PhysicalIndex := phyIdx
    PortType :=
      if isChild then
        (if Contains pType.data "QSFP28".data then "SFP28"
         else if Contains pType.data "QSFP+".data then "SFP+"
         else pType)
      else pType
    Status := if res.OperStatus = 1 then "UP" else "DOWN"
    IfName := res.IfName
    IfDesc := res.IfAlias
    Speed := wrapU64 (res.HighSpeed * 1000000)
    InTraffic := res.InOctets
    OutTraffic := res.OutOctets
    InRate := res.InRate
    OutRate := res.OutRate
    VlanID := res.VlanID
    AllowedVlans := res.AllowedVlans
    Mode := res.Mode
    BreakoutPorts := []
    DOM := res.DOM }

/-- Assignment `m[k] = v` on a map that is only looked up afterwards. -/
def mapSet {α : Type} (m : Int → Option α) (k : Int) (v : α) : Int → Option α :=
  fun j => if j = k then some v else m j

/-- The body of the first loop of `mapConfigToView`: one row is appended to the list of
its physical index, unless it is ignored, unclassified, or classified to 0 while port zero
is not allowed. -/
def groupStep (allowPortZero : Bool) (m : Int → Option (List SNMPResult)) (res : SNMPResult) :
    Int → Option (List SNMPResult) :=
  if IsIgnoredInterface res.IfName then m
  else if (GetPhysicalIndex res.IfName res.IfAlias).2 = true then
    (if (GetPhysicalIndex res.IfName res.IfAlias).1 = 0 ∧ allowPortZero = false then m
     else mapSet m (GetPhysicalIndex res.IfName res.IfAlias).1
        ((m (GetPhysicalIndex res.IfName res.IfAlias).1).getD [] ++ [res]))
  else m

/-- The map `snmpByPhyIdx` of `mapConfigToView` after its first loop; `snmpData` lists the
rows of the poll result in the order the `range` statement visits them. -/
def snmpByPhyIdx (snmpData : List SNMPResult) (allowPortZero : Bool) :
    Int → Option (List SNMPResult) :=
  snmpData.foldl (groupStep allowPortZero) (fun _ => none)

/-- The order on rows that `sort.Slice` establishes in `mapConfigToView`: ascending by
`IfName`. -/
def nameLe (a b : SNMPResult) : Prop := strLe a.IfName.data b.IfName.data = true

instance nameLe_decidable : DecidableRel nameLe :=
  fun a b => inferInstanceAs (Decidable (strLe a.IfName.data b.IfName.data = true))

/-- Go `sort.Slice(results, func(i, j) bool { return results[i].IfName < results[j].IfName })`.
`sort.Slice` is not stable; the embedding sorts by insertion, and what is proved of the
result (sorted by name, a rearrangement of the rows) holds of every sorting algorithm. -/
def sortByIfName (results : List SNMPResult) : List SNMPResult :=
  results.insertionSort nameLe

/-- The port status `mapConfigToView` appends for an index `idx` that passed the port-zero
guard, given the rows `results, found := snmpByPhyIdx[idx]`. -/
def portEntry (sec : PortSection) (idx : Int) (lookup : Option (List SNMPResult)) : PortStatus :=
  match lookup with
  | none =>
    { PhysicalIndex := idx, PortType := sec.PortType, Status := "DOWN",
      IfName := String.mk ("Port ".data ++ Itoa idx), BreakoutPorts := [] }
  | some [] =>
    { PhysicalIndex := idx, PortType := sec.PortType, Status := "DOWN",
      IfName := String.mk ("Port ".data ++ Itoa idx), BreakoutPorts := [] }
  | some [r] => createPortStatus idx sec.PortType r false
  | some (r :: r2 :: rs) =>
    { PhysicalIndex := idx, PortType := sec.PortType, Status := "UP", IsBreakout := true,
      IfName := String.mk ("Port ".data ++ Itoa idx ++ " (Breakout)".data),
      BreakoutPorts :=
        (sortByIfName (r :: r2 :: rs)).map (fun subRes => createPortStatus idx sec.PortType subRes true) }

/-- The inner loop of `mapConfigToView` over the indices of one section: `portStatuses`. -/
def sectionPorts (m : Int → Option (List SNMPResult)) (allowPortZero : Bool)
    (sec : PortSection) : List Int → List PortStatus
  | [] => []
  | idx :: rest =>
    if idx = 0 ∧ allowPortZero = false then sectionPorts m allowPortZero sec rest
    else portEntry sec idx (m idx) :: sectionPorts m allowPortZero sec rest

/-- The outer loop of `mapConfigToView` over the sections; `none` when the expansion of a
port-range expression does not return. -/
def mapSections (m : Int → Option (List SNMPResult)) (allowPortZero : Bool) :
    List PortSection → Option (List PortSection)
  | [] => some []
  | sec :: rest =>
    match parsePortRanges sec.PortRanges with
    | none => none
    | some indices =>
      match mapSections m allowPortZero rest with
      | none => none
      | some views =>
        some ({ sec with Ports := sectionPorts m allowPortZero sec indices } :: views)

/-- `mapConfigToView(config, snmpData, allowPortZero)` of `handlers.go`. -/
def mapConfigToView (config : SwitchConfig) (snmpData : List SNMPResult)
    (allowPortZero : Bool) : Option (List PortSection) :=
  mapSections (snmpByPhyIdx snmpData allowPortZero) allowPortZero config.Sections

/-! ## Config synthesizer (`GenerateConfigFromSNMP`) -/

/-- The loop of `GenerateConfigFromSNMP` that collects `phyIndices` from the poll result. -/
def collectPhyIndices (allowPortZero : Bool) : List SNMPResult → List Int
  | [] => []
  | res :: rest =>
    if IsIgnoredInterface res.IfName then collectPhyIndices allowPortZero rest
    else if (GetPhysicalIndex res.IfName res.IfAlias).2 = true then
      (if (GetPhysicalIndex res.IfName res.IfAlias).1 = 0 ∧ allowPortZero = false then
        collectPhyIndices allowPortZero rest
       else (GetPhysicalIndex res.IfName res.IfAlias).1 :: collectPhyIndices allowPortZero rest)
    else collectPhyIndices allowPortZero rest

/-- The loop of `GenerateConfigFromSNMP` that drops an element equal to its predecessor:
`uniqueIndices`, for a non-empty sorted `phyIndices = first :: rest`. -/
def uniqueLoop (prev : Int) : List Int → List Int
  | [] => []
  | x :: rest => if x ≠ prev then x :: uniqueLoop x rest else uniqueLoop x rest

/-- `uniqueIndices` of `GenerateConfigFromSNMP`, from the unsorted `phyIndices`. -/
def uniqueIndices (phyIndices : List Int) : List Int :=
  match sortInts phyIndices with
  | [] => []
  | x :: rest => x :: uniqueLoop x rest

/-- `GenerateConfigFromSNMP` after its call of `PollSNMP` has succeeded with `snmpData`:
the layout and `maxPort`, or the error text. -/
def GenerateConfigFromSNMP (snmpData : List SNMPResult) (allowPortZero : Bool) :
    Except String (SwitchConfig × Int) :=
  if collectPhyIndices allowPortZero snmpData = [] then Except.error "no valid ports found"
  else
    Except.ok
      ({ Sections :=
          [{ ID := "sec-1", Title := "All Ports", Type_ := "RJ45", PortType := "RJ45",
             Layout := "odd_top", LayoutType := "odd_top", Rows := 2,
             PortRanges := indicesToRangeString (uniqueIndices (collectPhyIndices allowPortZero snmpData)),
             Ports := [] }] },
       (uniqueIndices (collectPhyIndices allowPortZero snmpData)).getLastD 0)

/-! ## `float64` arithmetic of the rate computation

A finite `float64` is kept as the rational number it denotes.  `roundF64` is IEEE 754
rounding to the nearest value with a 53 bit significand, ties to even; the exponent range
is not bounded, which is exact for the magnitudes of this program (durations between one
nanosecond and `2 ^ 63` nanoseconds, counters below `2 ^ 64`). -/

/-- The number of binary digits of `n` (`fuel ≥ n` suffices). -/
def bitLen : Nat → Nat → Nat
  | 0, _ => 0
  | fuel + 1, n => if n = 0 then 0 else bitLen fuel (n / 2) + 1

/-- The integer `⌊log₂ q⌋` of a positive rational `q`. -/
def ilog2 (q : ℚ) : ℤ :=
  if (2 : ℚ) ^ ((bitLen q.num.natAbs q.num.natAbs : ℤ) - (bitLen q.den q.den : ℤ)) ≤ q then
    (bitLen q.num.natAbs q.num.natAbs : ℤ) - (bitLen q.den q.den : ℤ)
  else (bitLen q.num.natAbs q.num.natAbs : ℤ) - (bitLen q.den q.den : ℤ) - 1

/-- Rounding to the nearest integer, ties to the even one. -/
def roundEven (t : ℚ) : ℤ :=
  if t - ⌊t⌋ < 1 / 2 then ⌊t⌋
  else if 1 / 2 < t - ⌊t⌋ then ⌊t⌋ + 1
  else if ⌊t⌋ % 2 = 0 then ⌊t⌋ else ⌊t⌋ + 1

/-- The `float64` nearest to the rational `q`, ties to even. -/
def roundF64 (q : ℚ) : ℚ :=
  if q = 0 then 0
  else if 0 < q then roundEven (q / 2 ^ (ilog2 q - 52)) * 2 ^ (ilog2 q - 52)
  else -(roundEven (-q / 2 ^ (ilog2 (-q) - 52)) * 2 ^ (ilog2 (-q) - 52))

/-- Go `time.Time.Sub`: the difference of two clock readings in nanoseconds, saturated to
the range of a `time.Duration` (an `int64`). -/
def satDuration (d : Int) : Int :=
  if maxInt < d then maxInt else if d < minInt then minInt else d

/-- Go `time.Duration.Seconds`: `float64(d / Second) + float64(d % Second) / 1e9`. -/
def Seconds (d : Int) : ℚ :=
  roundF64 (roundF64 (Int.tdiv d 1000000000 : ℤ) +
    roundF64 (roundF64 (Int.tmod d 1000000000 : ℤ) / roundF64 1000000000))

/-- The conversion `uint64(f)` of a `float64`: truncation toward zero.  For a value that
does not fit Go leaves the result to the implementation; `outOfRange` stands for it. -/
def f64ToU64 (outOfRange : Nat) (f : ℚ) : Nat :=
  if f ≤ -1 ∨ 18446744073709551616 ≤ f then outOfRange
  else if f < 0 then 0
  else ⌊f⌋.toNat

/-- The rate of one counter in `PollSNMP`, inside `if duration > 0`:
`uint64(float64(diff*8) / duration)` with `diff = now - prev` when `now >= prev` and `0`
otherwise. -/
def rateOf (outOfRange : Nat) (now prev : Nat) (duration : ℚ) : Nat :=
  f64ToU64 outOfRange
    (roundF64 (roundF64 (wrapU64 ((if prev ≤ now then now - prev else 0) * 8) : ℕ) / duration))

/-! ## SNMP values and the walk callbacks of `PollSNMP` -/

/-- The value of an SNMP variable binding, as far as `PollSNMP` distinguishes it: an octet
string (`[]byte`), a number (a value of one of the types `gosnmp.ToBigInt` converts, with
the integer it converts to), or something else (which `ToBigInt` converts to 0). -/
inductive PduValue where
  | octets (bytes : List Nat)
  | number (n : Int)
  | other
  deriving DecidableEq, Repr

/-- Go `gosnmp.SnmpPDU`, reduced to its name and value. -/
structure SnmpPDU where
  Name : String
  Value : PduValue
  deriving DecidableEq, Repr

/-- `int(gosnmp.ToBigInt(v).Int64())`: `ToBigInt` never returns nil and yields 0 for a value
that is not a number. -/
def pduInt (v : PduValue) : Int :=
  match v with
  | PduValue.number n => wrapInt n
  | _ => 0

/-- `gosnmp.ToBigInt(v).Uint64()`. -/
def pduU64 (v : PduValue) : Nat :=
  match v with
  | PduValue.number n => wrapU64 n.natAbs
  | _ => 0

/-- Go `utf8.RuneError`, the rune U+FFFD that stands for a byte which starts no valid
encoding. -/
def runeError : Char := Char.ofNat 0xFFFD

/-- Go `utf8.DecodeRune` on bytes that have UTF-8 meaning only together: the rune at the
head of the octet string and the number of bytes it takes.  A byte that starts no valid
encoding (a stray continuation byte, an overlong or surrogate form, a truncated sequence, a
value above U+10FFFF) gives `utf8.RuneError` and takes one byte. -/
def decodeRune : List Nat → Char × Nat
  | [] => (runeError, 0)
  | p0 :: rest =>
    if p0 < 0x80 then (Char.ofNat p0, 1)
    else if 0xC2 ≤ p0 ∧ p0 ≤ 0xDF then
      match rest with
      | b1 :: _ =>
        if 0x80 ≤ b1 ∧ b1 ≤ 0xBF then (Char.ofNat (p0 % 32 * 64 + b1 % 64), 2)
        else (runeError, 1)
      | _ => (runeError, 1)
    else if 0xE0 ≤ p0 ∧ p0 ≤ 0xEF then
      match rest with
      | b1 :: b2 :: _ =>
        if (if p0 = 0xE0 then 0xA0 else 0x80) ≤ b1 ∧ b1 ≤ (if p0 = 0xED then 0x9F else 0xBF) ∧
            0x80 ≤ b2 ∧ b2 ≤ 0xBF then
          (Char.ofNat (p0 % 16 * 4096 + b1 % 64 * 64 + b2 % 64), 3)
        else (runeError, 1)
      | _ => (runeError, 1)
    else if 0xF0 ≤ p0 ∧ p0 ≤ 0xF4 then
      match rest with
      | b1 :: b2 :: b3 :: _ =>
        if (if p0 = 0xF0 then 0x90 else 0x80) ≤ b1 ∧ b1 ≤ (if p0 = 0xF4 then 0x8F else 0xBF) ∧
            0x80 ≤ b2 ∧ b2 ≤ 0xBF ∧ 0x80 ≤ b3 ∧ b3 ≤ 0xBF then
          (Char.ofNat (p0 % 8 * 262144 + b1 % 64 * 4096 + b2 % 64 * 64 + b3 % 64), 4)
        else (runeError, 1)
      | _ => (runeError, 1)
    else (runeError, 1)

/-- The runes of an octet string, as a Go `range` over the string or `strings.ToLower` and
the regular expressions of this program read them (`fuel` is the number of bytes left at
most). -/
def decodeRunes : Nat → List Nat → List Char
  | 0, _ => []
  | _, [] => []
  | fuel + 1, b :: bs =>
    (decodeRune (b :: bs)).1 :: decodeRunes fuel ((b :: bs).drop (decodeRune (b :: bs)).2)

/-- Go `string(bytes)`, kept as the runes its UTF-8 bytes encode: this is how every
consumer of the names in this program reads the string (`strings.ToLower`, the regular
expressions; for the ASCII prefixes and separators bytes and runes agree).  An invalid byte
is read as U+FFFD, as Go reads it. -/
def bytesToString (bytes : List Nat) : String := String.mk (decodeRunes bytes.length bytes)

/-- Go `strings.TrimPrefix`. -/
def TrimPrefix (s p : List Char) : List Char := if p.isPrefixOf s then s.drop p.length else s

/-- `extractIndex(oid, rootOid)` of `snmp.go`. -/
def extractIndex (oid rootOid : String) : Int :=
  if HasPrefix oid.data rootOid.data = false then -1
  else if (Atoi (TrimPrefix (TrimPrefix oid.data rootOid.data) ".".data)).2 = true then
    (Atoi (TrimPrefix (TrimPrefix oid.data rootOid.data) ".".data)).1
  else -1

/-- The test `(b>>(7-bit))&1 == 1` on a byte. -/
def bitSet (b bit : Nat) : Bool := (b / 2 ^ (7 - bit)) % 2 = 1

/-- The inner loop of `parseVlanBitmap` for byte `b` at position `i`, over the given bits. -/
def vlanBits (offset : Int) (i b : Nat) : List Nat → List Int
  | [] => []
  | bit :: bits =>
    if bitSet b bit = true ∧ 0 < offset + (i : Int) * 8 + (bit : Int) ∧
        offset + (i : Int) * 8 + (bit : Int) < 4096 then
      (offset + (i : Int) * 8 + (bit : Int)) :: vlanBits offset i b bits
    else vlanBits offset i b bits

/-- The outer loop of `parseVlanBitmap` from byte position `i` on. -/
def parseVlanBitmapFrom (offset : Int) : Nat → List Nat → List Int
  | _, [] => []
  | i, b :: bs => vlanBits offset i b (List.range 8) ++ parseVlanBitmapFrom offset (i + 1) bs

/-- `parseVlanBitmap(bytes, offset)` of `snmp.go`. -/
def parseVlanBitmap (bytes : List Nat) (offset : Int) : List Int :=
  parseVlanBitmapFrom offset 0 bytes

/-- The inner loop of `parsePortBitmap` for byte `b` at position `i`. -/
def portBits (i b : Nat) : List Nat → List Int
  | [] => []
  | bit :: bits =>
    if bitSet b bit = true then ((i : Int) * 8 + (bit : Int) + 1) :: portBits i b bits
    else portBits i b bits

/-- The outer loop of `parsePortBitmap` from byte position `i` on. -/
def parsePortBitmapFrom : Nat → List Nat → List Int
  | _, [] => []
  | i, b :: bs => portBits i b (List.range 8) ++ parsePortBitmapFrom (i + 1) bs

/-- `parsePortBitmap(bytes)` of `snmp.go`. -/
def parsePortBitmap (bytes : List Nat) : List Int := parsePortBitmapFrom 0 bytes

/-- OID constant of `snmp.go`. -/
def oidVlanTrunkPortVlansEnabled : String := ".1.3.6.1.4.1.9.9.46.1.6.1.1.4"

/-- OID constant of `snmp.go`. -/
def oidVlanTrunkPortVlansXEnabled : String := ".1.3.6.1.4.1.9.9.46.1.6.1.1.17"

/-- OID constant of `snmp.go`. -/
def oidVlanTrunkPortVlans2kEnabled : String := ".1.3.6.1.4.1.9.9.46.1.6.1.1.18"

/-- OID constant of `snmp.go`. -/
def oidVlanTrunkPortVlans3kEnabled : String := ".1.3.6.1.4.1.9.9.46.1.6.1.1.19"

/-- The callback of `walkVlanBitmap(oid, offset)` for one variable binding (not cancelled):
`trunkAllowedVlans[idx] = append(trunkAllowedVlans[idx], parseVlanBitmap(bytes, offset)...)`. -/
def walkVlanBitmapStep (oid : String) (offset : Int) (m : Int → Option (List Int))
    (pdu : SnmpPDU) : Int → Option (List Int) :=
  if 0 < extractIndex pdu.Name oid then
    match pdu.Value with
    | PduValue.octets bytes =>
      mapSet m (extractIndex pdu.Name oid)
        ((m (extractIndex pdu.Name oid)).getD [] ++ parseVlanBitmap bytes offset)
    | _ => m
  else m

/-- The closure `walkVlanBitmap(oid, offset)` of `PollSNMP`, run over the variable bindings
the walk delivers. -/
def walkVlanBitmap (oid : String) (offset : Int) (m : Int → Option (List Int))
    (pdus : List SnmpPDU) : Int → Option (List Int) :=
  pdus.foldl (walkVlanBitmapStep oid offset) m

/-- The map `trunkAllowedVlans` after the four calls of `walkVlanBitmap`, given what each
of the four walks delivers. -/
def collectTrunkAllowed (vlans vlansX vlans2k vlans3k : List SnmpPDU) : Int → Option (List Int) :=
  walkVlanBitmap oidVlanTrunkPortVlans3kEnabled 3072
    (walkVlanBitmap oidVlanTrunkPortVlans2kEnabled 2048
      (walkVlanBitmap oidVlanTrunkPortVlansXEnabled 1024
        (walkVlanBitmap oidVlanTrunkPortVlansEnabled 0 (fun _ => none) vlans) vlansX) vlans2k)
    vlans3k

/-! ## Reconciliation (`PollSNMP`, after the workers have joined) -/

/-- Go `TrafficCacheEntry`; the time stamp is a clock reading in nanoseconds. -/
structure TrafficCacheEntry where
  Timestamp : Int
  InOctets : Nat
  OutOctets : Nat
  deriving DecidableEq, Repr

/-- The element type of `qBridgeVlanInfo`. -/
structure QBridgeInfo where
  NativeVlan : Int := 0
  AllowedVlans : List Int := []
  deriving DecidableEq, Repr

/-- What the reconciliation loop of `PollSNMP` reads: the device id, the maps the workers
and the Q-BRIDGE phase have filled, the DOM map, the clock (the reading `time.Since` and
the reading `time.Now` take while the row of a given ifIndex is processed), and the result
of an out-of-range `uint64` conversion on the platform. -/
structure PollEnv where
  ID : Int
  accessVlanMap : Int → Option Int
  trunkNativeMap : Int → Option Int
  trunkAllowedVlans : Int → Option (List Int)
  trunkStatusMap : Int → Option Int
  pvidMap : Int → Option Int
  qBridgeVlanInfo : Int → Option QBridgeInfo
  domMap : Int → Option DOMInfo
  clockSince : Int → Int
  clockNow : Int → Int
  outOfRange : Nat

/-- The global `trafficCache`. -/
abbrev TrafficCache := String → Option TrafficCacheEntry

/-- Assignment `trafficCache[key] = entry`. -/
def cacheSet (c : TrafficCache) (key : String) (e : TrafficCacheEntry) : TrafficCache :=
  fun k => if k = key then some e else c k

/-- `fmt.Sprintf("%d-%d", s.ID, idx)`. -/
def cacheKey (id idx : Int) : String := String.mk (Itoa id ++ '-' :: Itoa idx)

/-- `trunkAllowedMap[idx]`: the range string of every entry of `trunkAllowedVlans`. -/
def trunkAllowedMap (env : PollEnv) (idx : Int) : Option String :=
  (env.trunkAllowedVlans idx).map indicesToRangeString

/-- The pair `inRate, outRate` of one row (`snmp.go` lines 532 to 546). -/
def rowRates (env : PollEnv) (cache : TrafficCache) (idx : Int) (res : SNMPResult) : Nat × Nat :=
  match cache (cacheKey env.ID idx) with
  | some prev =>
    if 0 < Seconds (satDuration (env.clockSince idx - prev.Timestamp)) then
      (rateOf env.outOfRange res.InOctets prev.InOctets
          (Seconds (satDuration (env.clockSince idx - prev.Timestamp))),
       rateOf env.outOfRange res.OutOctets prev.OutOctets
          (Seconds (satDuration (env.clockSince idx - prev.Timestamp))))
    else (0, 0)
  | none => (0, 0)

/-- The DOM attachment of one row (lines 551 to 556). -/
def attachDOM (env : PollEnv) (res : SNMPResult) : SNMPResult :=
  if (GetPhysicalIndex res.IfName res.IfAlias).2 = true then
    match env.domMap (GetPhysicalIndex res.IfName res.IfAlias).1 with
    | some dom => { res with DOM := dom }
    | none => res
  else res

/-- The variable `isTrunk` of one row (lines 558 to 567). -/
def isTrunk (env : PollEnv) (res : SNMPResult) : Bool :=
  match env.trunkStatusMap res.IfIndex with
  | some status => decide (status = 1)
  | none => (trunkAllowedMap env res.IfIndex).isSome

/-- The trunk branch (lines 570 to 576). -/
def applyTrunk (env : PollEnv) (res : SNMPResult) : SNMPResult :=
  { res with
    Mode := "trunk"
    VlanID := (env.trunkNativeMap res.IfIndex).getD res.VlanID
    AllowedVlans := (trunkAllowedMap env res.IfIndex).getD res.AllowedVlans }

/-- The access branch (lines 578 to 585). -/
def applyAccess (env : PollEnv) (res : SNMPResult) : SNMPResult :=
  { res with
    Mode := "access"
    VlanID :=
      match env.accessVlanMap res.IfIndex with
      | some v => v
      | none =>
        match env.trunkNativeMap res.IfIndex with
        | some v => v
        | none =>
          match env.pvidMap res.IfIndex with
          | some v => v
          | none => res.VlanID }

/-- The mode, `vlan_id` and `allowed_vlans` of one row from the vendor tables (lines 558 to
586). -/
def applyVendorTables (env : PollEnv) (res : SNMPResult) : SNMPResult :=
  if isTrunk env res = true then applyTrunk env res else applyAccess env res

/-- The Q-BRIDGE fallback of one row (lines 588 to 597). -/
def applyQBridge (env : PollEnv) (res : SNMPResult) : SNMPResult :=
  if res.VlanID = 0 ∧ res.Mode = "access" ∧ res.AllowedVlans.data.length = 0 then
    match env.qBridgeVlanInfo res.IfIndex with
    | some info =>
      { res with
        AllowedVlans :=
          if 0 < info.AllowedVlans.length then indicesToRangeString info.AllowedVlans
          else res.AllowedVlans
        VlanID := if 0 < info.NativeVlan then info.NativeVlan else res.VlanID }
    | none => res
  else res

/-- The row after the vendor tables have been applied (lines 531 to 586), for the raw row
`res` found under key `idx`. -/
def vendorRow (env : PollEnv) (cache : TrafficCache) (idx : Int) (res : SNMPResult) :
    SNMPResult :=
  applyVendorTables env (attachDOM env
    { res with InRate := (rowRates env cache idx res).1, OutRate := (rowRates env cache idx res).2 })

/-- The row stored in `finalResults` for the raw row `res` found under key `idx`. -/
def reconcileRow (env : PollEnv) (cache : TrafficCache) (idx : Int) (res : SNMPResult) :
    SNMPResult :=
  applyQBridge env (vendorRow env cache idx res)

/-- The cache after the row under key `idx` has been processed (line 547). -/
def cacheAfterRow (env : PollEnv) (cache : TrafficCache) (idx : Int) (res : SNMPResult) :
    TrafficCache :=
  cacheSet cache (cacheKey env.ID idx)
    { Timestamp := env.clockNow idx, InOctets := res.InOctets, OutOctets := res.OutOctets }

/-- The reconciliation loop `for idx, res := range rawResults` of `PollSNMP`: the cache it
leaves and the entries of `finalResults`, for the entries of `rawResults` in the order the
`range` statement visits them. -/
def reconcileLoop (env : PollEnv) :
    TrafficCache → List (Int × SNMPResult) → TrafficCache × List (String × SNMPResult)
  | cache, [] => (cache, [])
  | cache, (idx, res) :: rest =>
    if res.IfName.data = [] then reconcileLoop env cache rest
    else
      ((reconcileLoop env (cacheAfterRow env cache idx res) rest).1,
       (String.mk (Itoa idx), reconcileRow env cache idx res) ::
         (reconcileLoop env (cacheAfterRow env cache idx res) rest).2)

/-! ## Collection of the interface rows (the six IF-MIB walks) -/

/-- The six interface tables `PollSNMP` walks. -/
inductive IfOid where
  | ifName | ifAlias | ifOperStatus | ifHighSpeed | ifHCInOctets | ifHCOutOctets
  deriving DecidableEq, Repr

/-- The OID constant of each interface table. -/
def IfOid.oid : IfOid → String
  | IfOid.ifName => ".1.3.6.1.2.1.31.1.1.1.1"
  | IfOid.ifAlias => ".1.3.6.1.2.1.31.1.1.1.18"
  | IfOid.ifOperStatus => ".1.3.6.1.2.1.2.2.1.8"
  | IfOid.ifHighSpeed => ".1.3.6.1.2.1.31.1.1.1.15"
  | IfOid.ifHCInOctets => ".1.3.6.1.2.1.31.1.1.1.6"
  | IfOid.ifHCOutOctets => ".1.3.6.1.2.1.31.1.1.1.10"

/-- The effect of `getResult(idx).field = v` on `rawResults`: the row of `idx` is created as
`SNMPResult{IfIndex: idx}` when it is missing, and then assigned. -/
def updateRow (f : SNMPResult → SNMPResult) (idx : Int) :
    List (Int × SNMPResult) → List (Int × SNMPResult)
  | [] => [(idx, f { IfIndex := idx })]
  | (k, r) :: rest =>
    if k = idx then (k, f r) :: rest else (k, r) :: updateRow f idx rest

/-- The callback of the walk of table `o` for one variable binding (not cancelled); `none`
when the type assertion `pdu.Value.([]byte)` fails, which panics. -/
def ifWalkStep (o : IfOid) (raw : List (Int × SNMPResult)) (pdu : SnmpPDU) :
    Option (List (Int × SNMPResult)) :=
  if 0 < extractIndex pdu.Name o.oid then
    match o with
    | IfOid.ifName =>
      match pdu.Value with
      | PduValue.octets b =>
        some (updateRow (fun r => { r with IfName := bytesToString b }) (extractIndex pdu.Name o.oid) raw)
      | _ => none
    | IfOid.ifAlias =>
      match pdu.Value with
      | PduValue.octets b =>
        some (updateRow (fun r => { r with IfAlias := bytesToString b }) (extractIndex pdu.Name o.oid) raw)
      | _ => none
    | IfOid.ifOperStatus =>
      some (updateRow (fun r => { r with OperStatus := pduInt pdu.Value }) (extractIndex pdu.Name o.oid) raw)
    | IfOid.ifHighSpeed =>
      some (updateRow (fun r => { r with HighSpeed := pduU64 pdu.Value }) (extractIndex pdu.Name o.oid) raw)
    | IfOid.ifHCInOctets =>
      some (updateRow (fun r => { r with InOctets := pduU64 pdu.Value }) (extractIndex pdu.Name o.oid) raw)
    | IfOid.ifHCOutOctets =>
      some (updateRow (fun r => { r with OutOctets := pduU64 pdu.Value }) (extractIndex pdu.Name o.oid) raw)
  else some raw

/-- The map `rawResults` after the six interface walks, whose callbacks ran in the given
interleaving; `none` when one of them panicked. -/
def collectIf : List (Int × SNMPResult) → List (IfOid × SnmpPDU) → Option (List (Int × SNMPResult))
  | raw, [] => some raw
  | raw, (o, pdu) :: rest =>
    match ifWalkStep o raw pdu with
    | none => none
    | some raw2 => collectIf raw2 rest

/-! ## The patterns, read declaratively

What the claims call "ends in `/<digits>:<digits>`", "contains `Eth <a> / <b>`" and "ends in
`Eth <a>`", stated as decompositions of the text and independently of the matchers above. -/

/-- The text `s` ends in `/<digits>:<digits>`, and `a` is the run of digits between `/` and
`:`. -/
def EndsInColonSub (s a : List Char) : Prop :=
  ∃ pre b, s = pre ++ '/' :: (a ++ ':' :: b) ∧ a ≠ [] ∧ a.all isDigit = true ∧
    b ≠ [] ∧ b.all isDigit = true

/-- The text `s` begins, ignoring letter case, with `Eth`, optional white space, the
digits `a`, optional white space, `/`, optional white space and at least one digit. -/
def SonicBreakoutAt (s a : List Char) : Prop :=
  ∃ e t h ws1 ws2 ws3 b post,
    s = e :: t :: h :: (ws1 ++ (a ++ (ws2 ++ '/' :: (ws3 ++ (b ++ post))))) ∧
    isEth e t h = true ∧ ws1.all isSpaceRe = true ∧ a ≠ [] ∧ a.all isDigit = true ∧
    ws2.all isSpaceRe = true ∧ ws3.all isSpaceRe = true ∧ b ≠ [] ∧ b.all isDigit = true

/-- The text `s` contains the breakout pattern somewhere. -/
def ContainsSonicBreakout (s : List Char) : Prop :=
  ∃ pre t a, s = pre ++ t ∧ SonicBreakoutAt t a

/-- The leftmost place at which `s` contains the breakout pattern carries the digits `a`. -/
def FirstSonicBreakout (s a : List Char) : Prop :=
  ∃ pre t, s = pre ++ t ∧ SonicBreakoutAt t a ∧
    ∀ p1 p2 a2, pre = p1 ++ p2 → p2 ≠ [] → ¬ SonicBreakoutAt (p2 ++ t) a2

/-- The text `s` ends, ignoring letter case, in `Eth`, optional white space and the digits
`a`. -/
def EndsInSonicSimple (s a : List Char) : Prop :=
  ∃ pre e t h ws, s = pre ++ e :: t :: h :: (ws ++ a) ∧ isEth e t h = true ∧
    ws.all isSpaceRe = true ∧ a ≠ [] ∧ a.all isDigit = true

/-! ## The grouping of rows, read declaratively -/

/-- The poll row `res` is not ignored and classifies to the physical index `idx`, index 0
counting only when port zero is allowed: the rows the view mapper and the config
synthesizer work with. -/
def classifiesTo (allowPortZero : Bool) (idx : Int) (res : SNMPResult) : Bool :=
  !IsIgnoredInterface res.IfName && (GetPhysicalIndex res.IfName res.IfAlias).2 &&
    decide ((GetPhysicalIndex res.IfName res.IfAlias).1 = idx) &&
    !(decide (idx = 0) && !allowPortZero)

/-- The rows of the poll result that classify to `idx`, in the order of the poll result. -/
def rowsAt (snmpData : List SNMPResult) (allowPortZero : Bool) (idx : Int) : List SNMPResult :=
  snmpData.filter (classifiesTo allowPortZero idx)

/-- The placeholder of a port without a row. -/
def placeholder (sec : PortSection) (idx : Int) : PortStatus :=
  { PhysicalIndex := idx, PortType := sec.PortType, Status := "DOWN",
    IfName := String.mk ("Port ".data ++ Itoa idx), BreakoutPorts := [] }

/-- The indices of an expansion that pass the guard `if idx == 0 && !allowPortZero`. -/
def ownedIndices (allowPortZero : Bool) (indices : List Int) : List Int :=
  indices.filter (fun idx => !(decide (idx = 0) && !allowPortZero))

/-- What C7 says of the entry `p` of index `idx` in a section `sec`: it is a breakout
parent exactly when two or more rows classify to `idx`; the parent has status "UP", the
section's port type, the name `Port <idx> (Breakout)` and, as children, the child port
statuses of those rows in ascending order of `ifName`; with exactly one row it is the
port status of that row. -/
def IsEntryOf (rows : List SNMPResult) (allow : Bool) (sec : PortSection) (idx : Int)
    (p : PortStatus) : Prop :=
  p.PhysicalIndex = idx ∧
  (p.IsBreakout = true ↔ 2 ≤ (rowsAt rows allow idx).length) ∧
  (2 ≤ (rowsAt rows allow idx).length →
    p.Status = "UP" ∧ p.PortType = sec.PortType ∧
    p.IfName = String.mk ("Port ".data ++ Itoa idx ++ " (Breakout)".data) ∧
    ∃ sorted : List SNMPResult, sorted.Perm (rowsAt rows allow idx) ∧ sorted.Sorted nameLe ∧
      p.BreakoutPorts = sorted.map (fun r => createPortStatus idx sec.PortType r true)) ∧
  (∀ r, rowsAt rows allow idx = [r] → p = createPortStatus idx sec.PortType r false)

/-- A trunk-allowed bitmap row for `idx` was collected: one of the walked variable
bindings is an octet string whose name yields the positive index `idx`. -/
def HasBitmapRow (oid : String) (pdus : List SnmpPDU) (idx : Int) : Prop :=
  ∃ pdu ∈ pdus, extractIndex pdu.Name oid = idx ∧ 0 < idx ∧ ∃ bytes, pdu.Value = PduValue.octets bytes

/-- A raw row as the workers leave it: created by `getResult` under its own index, with
only the six walked fields assigned. -/
def AsCollected (idx : Int) (res : SNMPResult) : Prop :=
  res.IfIndex = idx ∧ res.InRate = 0 ∧ res.OutRate = 0 ∧ res.VlanID = 0 ∧
    res.AllowedVlans = "" ∧ res.Mode = "" ∧ res.DOM = {}

/-! ## Example data of the end-to-end scenarios -/

/-- A poll of device 1 in which no VLAN, sensor or bridge table answered. -/
def emptyEnv : PollEnv :=
  { ID := 1
    accessVlanMap := fun _ => none
    trunkNativeMap := fun _ => none
    trunkAllowedVlans := fun _ => none
    trunkStatusMap := fun _ => none
    pvidMap := fun _ => none
    qBridgeVlanInfo := fun _ => none
    domMap := fun _ => none
    clockSince := fun _ => 0
    clockNow := fun _ => 0
    outOfRange := 0 }

/-- Octet string of the name `Gi0/7`. -/
def nameGi07 : List Nat := [71, 105, 48, 47, 55]

/-- Octet string of the name `GigabitEthernet0/10`. -/
def nameGi010 : List Nat :=
  [71, 105, 103, 97, 98, 105, 116, 69, 116, 104, 101, 114, 110, 101, 116, 48, 47, 49, 48]

/-- The `vlanTrunkPortVlansEnabled` bitmap with the VLANs 1, 2, 3 and 100. -/
def bitmap_1_2_3_100 : List Nat := [112, 0, 0, 0, 0, 0, 0, 0, 0, 0, 0, 0, 8]

/-- Scenario 2 of the specification: ifIndex 7 with trunk status 1, native VLAN 99 and the
allowed VLANs 1, 2, 3, 100. -/
def trunkEnv : PollEnv :=
  { emptyEnv with
    trunkStatusMap := fun i => if i = 7 then some 1 else none
    trunkNativeMap := fun i => if i = 7 then some 99 else none
    trunkAllowedVlans :=
      collectTrunkAllowed [{ Name := ".1.3.6.1.4.1.9.9.46.1.6.1.1.4.7",
                             Value := PduValue.octets bitmap_1_2_3_100 }] [] [] [] }

/-- Scenario 1 of the specification: `vmVlan[10] = 20` and no trunk rows. -/
def accessEnv : PollEnv :=
  { emptyEnv with accessVlanMap := fun i => if i = 10 then some 20 else none }

/-- Scenario 5 of the specification, first poll of device 1: the clock reads 1000 ns when
the cache entry is written. -/
def firstPoll : PollEnv := { emptyEnv with clockNow := fun _ => 1000 }

/-- Scenario 5, the raw row of ifIndex 5 in the first poll. -/
def firstRaw : List (Int × SNMPResult) :=
  [(5, { IfIndex := 5, IfName := "Ethernet5", InOctets := 1000000, OutOctets := 500000 })]

/-- Scenario 5, second poll: `time.Since` reads the clock 10 s after the first time stamp. -/
def secondPoll : PollEnv :=
  { emptyEnv with clockSince := fun _ => 10000001000, clockNow := fun _ => 10000002000 }

/-- Scenario 5, the raw row of ifIndex 5 in the second poll. -/
def secondRaw : List (Int × SNMPResult) :=
  [(5, { IfIndex := 5, IfName := "Ethernet5", InOctets := 2250000, OutOctets := 1100000 })]

/-- A cache that holds one entry, for ifIndex 5 of device 1, stamped at 0 ns. -/
def cacheWith (inOctets outOctets : Nat) : TrafficCache :=
  cacheSet (fun _ => none) (cacheKey 1 5)
    { Timestamp := 0, InOctets := inOctets, OutOctets := outOctets }

/-- A poll of device 1 whose `time.Since` reads the clock at `t` ns. -/
def pollAt (t : Int) : PollEnv := { emptyEnv with clockSince := fun _ => t, clockNow := fun _ => t }

/-- A raw row of ifIndex 5 with the given counters. -/
def rawWith (inOctets outOctets : Nat) : List (Int × SNMPResult) :=
  [(5, { IfIndex := 5, IfName := "Ethernet5", InOctets := inOctets, OutOctets := outOctets })]

/-- A poll in which the only VLAN data is an all-zero `vlanTrunkPortVlansEnabled` bitmap
for ifIndex 7. -/
def zeroBitmapEnv : PollEnv :=
  { emptyEnv with
    trunkAllowedVlans :=
      collectTrunkAllowed [{ Name := ".1.3.6.1.4.1.9.9.46.1.6.1.1.4.7",
                             Value := PduValue.octets [0, 0] }] [] [] [] }

/-- Scenario 3 of the specification: four SONiC rows of one QSFP28 port. -/
def sonicRows : List SNMPResult :=
  [{ IfIndex := 51, IfName := "Ethernet51", IfAlias := "Eth 13/4", OperStatus := 2 },
   { IfIndex := 48, IfName := "Ethernet48", IfAlias := "Eth 13/1", OperStatus := 1 },
   { IfIndex := 50, IfName := "Ethernet50", IfAlias := "Eth 13/3", OperStatus := 2 },
   { IfIndex := 49, IfName := "Ethernet49", IfAlias := "Eth 13/2", OperStatus := 1 }]

/-- Scenario 3 of the specification: a section that owns port 13. -/
def sonicConfig : SwitchConfig :=
  { Sections := [{ ID := "sec-1", Title := "Uplinks", PortType := "QSFP28", PortRanges := "13" }] }

/-- A poll result with two interfaces that classify to index 0. -/
def twoZeroRows : List SNMPResult :=
  [{ IfIndex := 1, IfName := "Ethernet0", OperStatus := 1 },
   { IfIndex := 2, IfName := "GigabitEthernet0", OperStatus := 1 }]

/-- A layout whose only section owns the ports 0, 1 and 2. -/
def zeroConfig : SwitchConfig :=
  { Sections := [{ ID := "sec-1", Title := "All Ports", PortType := "RJ45", PortRanges := "0-2" }] }

/-- A poll result with an interface that classifies to index 0 and one that classifies to
index 2. -/
def zeroRows : List SNMPResult :=
  [{ IfIndex := 1, IfName := "Ethernet0", OperStatus := 1 },
   { IfIndex := 2, IfName := "Ethernet2", OperStatus := 1 }]

/-! ## Declarative notions of the later claims -/

/-- The text `s` contains the text `sub` as a substring. -/
def IsSubstring (sub s : List Char) : Prop := ∃ a b, s = a ++ sub ++ b

/-- A 128 byte string that is all zero but for the lowest bit of its last byte: the VLAN
bitmap of VLAN `offset + 1023` alone. -/
def lastBitBitmap : List Nat := List.replicate 127 0 ++ [1]

/-- Example row: an interface that is up at 1 Gbit/s. -/
def upRow : SNMPResult :=
  { IfIndex := 10, IfName := "GigabitEthernet0/10", OperStatus := 1, HighSpeed := 1000 }

/-- Example row: an interface that is down. -/
def downRow : SNMPResult := { IfIndex := 48, IfName := "Ethernet48", OperStatus := 2 }

/-- Example row: an interface whose `highSpeed` is 18 446 744 073 710 Mbit/s. -/
def fastRow : SNMPResult :=
  { IfIndex := 1, IfName := "Ethernet1", OperStatus := 1, HighSpeed := 18446744073710 }

/-- Scenario of the config synthesizer: rows whose physical indices are 3, 1, 2, 10, 5, 6
and 5 again, next to a loopback and a subinterface. -/
def rangeRows : List SNMPResult :=
  [{ IfIndex := 103, IfName := "GigabitEthernet0/3" },
   { IfIndex := 101, IfName := "GigabitEthernet0/1" },
   { IfIndex := 500, IfName := "Loopback0" },
   { IfIndex := 102, IfName := "GigabitEthernet0/2" },
   { IfIndex := 110, IfName := "GigabitEthernet0/10" },
   { IfIndex := 105, IfName := "GigabitEthernet0/5" },
   { IfIndex := 106, IfName := "GigabitEthernet0/6" },
   { IfIndex := 205, IfName := "TenGigabitEthernet1/5" },
   { IfIndex := 301, IfName := "GigabitEthernet0/7.100" }]

/-- The variable bindings of a poll in which ifIndex 7 answers with the name `Gi0/7` and with
a counter, and ifIndex 8 answers with a counter only. -/
def mixedPdus : List (IfOid × SnmpPDU) :=
  [(IfOid.ifHCInOctets, { Name := ".1.3.6.1.2.1.31.1.1.1.6.8", Value := PduValue.number 4000 }),
   (IfOid.ifName, { Name := ".1.3.6.1.2.1.31.1.1.1.1.7", Value := PduValue.octets nameGi07 }),
   (IfOid.ifHCInOctets, { Name := ".1.3.6.1.2.1.31.1.1.1.6.7", Value := PduValue.number 1000 })]

/-- The rows collected from `mixedPdus`: the row of ifIndex 8 has no name. -/
def mixedRaw : List (Int × SNMPResult) :=
  [(8, { IfIndex := 8, InOctets := 4000 }),
   (7, { IfIndex := 7, IfName := "Gi0/7", InOctets := 1000 })]

/-- The text of a run of consecutive integers from `r.1` to `r.2`, as the specification
words it: `N` for a run of one element, `first-last` for a longer one. -/
def runText (r : Int × Int) : List Char :=
  if r.1 = r.2 then Itoa r.1 else Itoa r.1 ++ '-' :: Itoa r.2

/-- The item `t` of a range expression is a number: it has no `-` and `Atoi` accepts it as
`N`. -/
def IsNumberItem (t : List Char) (N : Int) : Prop := '-' ∉ t ∧ Atoi t = (N, true)

/-- The item `t` of a range expression is a range: it is `a-b` with one `-`, and `Atoi`
accepts `a` and `b`, white space around them removed, as `A` and `B`. -/
def IsRangeItem (t : List Char) (A B : Int) : Prop :=
  ∃ a b, t = a ++ '-' :: b ∧ '-' ∉ a ∧ '-' ∉ b ∧
    Atoi (TrimSpace a) = (A, true) ∧ Atoi (TrimSpace b) = (B, true)

/-- What the item `t` of a range expression contributes: `[N]` for the number `N`; the
integers from `A` to `B`, ascending, for the range from `A` to `B` with `A ≤ B`; nothing
when it is neither. -/
def ItemYields (t : List Char) (l : List Int) : Prop :=
  (∃ N, IsNumberItem t N ∧ l = [N]) ∨
  (∃ A B, IsRangeItem t A B ∧ A ≤ B ∧ l.Pairwise (fun x y => x < y) ∧
    ∀ k, k ∈ l ↔ A ≤ k ∧ k ≤ B) ∨
  ((∀ N, ¬ IsNumberItem t N) ∧ (∀ A B, IsRangeItem t A B → B < A) ∧ l = [])

/-- The integers from `a` to `b`, ascending. -/
def intRange (a b : Int) : List Int :=
  (List.range (b + 1 - a).toNat).map (fun k : Nat => a + (k : Int))

/-- The octet string `bytes` of offset `O` encodes the VLAN set `V`, as the specification
words it: it has 128 bytes, and bit `7 - k` of byte `i` is set exactly when the VLAN
`O + 8·i + k` is in `V`. -/
def EncodesVlans (V : List Int) (O : Int) (bytes : List Nat) : Prop :=
  bytes.length = 128 ∧
  ∀ i : Nat, i < 128 → ∀ k : Nat, k < 8 →
    ((bytes.getD i 0).testBit (7 - k) = true ↔ O + 8 * (i : Int) + (k : Int) ∈ V)

/-- Example: the 128-byte string of offset 0 with the VLANs 1, 2, 3 and 100. -/
def vlanString0 : List Nat := bitmap_1_2_3_100 ++ List.replicate 115 0

/-- Example: the 128-byte string of offset 1024 with the VLAN 1024. -/
def vlanString1 : List Nat := 128 :: List.replicate 127 0

/-- Example: the 128-byte string of offset 2048 with the VLAN 2049. -/
def vlanString2 : List Nat := 64 :: List.replicate 127 0

/-- Example: the 128-byte string of offset 3072 with the VLAN 4094. -/
def vlanString3 : List Nat := List.replicate 127 0 ++ [2]

instance EncodesVlans_decidable (V : List Int) (O : Int) (bytes : List Nat) :
    Decidable (EncodesVlans V O bytes) :=
  inferInstanceAs (Decidable (bytes.length = 128 ∧
    ∀ i : Nat, i < 128 → ∀ k : Nat, k < 8 →
      ((bytes.getD i 0).testBit (7 - k) = true ↔ O + 8 * (i : Int) + (k : Int) ∈ V)))

/-- The number of bits that are set in a byte. -/
def setBitCount (b : Nat) : Nat := ((List.range 8).filter (fun k => b.testBit k)).length

/-! ## The wait of `PollSNMP` and what it returns -/

/-- Go `models.SystemInfo`. -/
structure SystemInfo where
  Name : String := ""
  Descr : String := ""
  UpTime : String := ""
  Contact : String := ""
  Location : String := ""
  deriving DecidableEq, Repr

/-- The three results of `PollSNMP`: the map (`none` is `nil`), the system information and
the error (`none` is `nil`; an error is kept as its text). -/
structure PollReturn where
  results : Option (List (String × SNMPResult))
  sysInfo : SystemInfo
  err : Option String
  deriving DecidableEq, Repr

/-- The two cases of the statement `select { case <-ctx.Done(): ... case <-doneChan: ... }`. -/
inductive SelectCase where
  | ctxDone
  | workersDone
  deriving DecidableEq, Repr

/-- What the workers have left behind when the main goroutine goes on after the `select`:
`sysInfo`, the errors buffered in `errChan` in the order they were sent (every one is a
non-nil error of `params.Connect`), and `rawResults`. -/
structure Collected where
  sysInfo : SystemInfo := {}
  errs : List String := []
  raw : List (Int × SNMPResult) := []

/-- `PollSNMP` from `close(errChan)` on (lines 422 to 603): the error return of lines 424 to
428, and otherwise the reconciliation.  `env` holds the maps as the reconciliation loop
finds them, after the Q-BRIDGE phase and the sensor loop. -/
def pollAfterWait (env : PollEnv) (cache : TrafficCache) (w : Collected) :
    PollReturn × TrafficCache :=
  if 0 < w.errs.length ∧ w.raw.length = 0 then
    ({ results := none, sysInfo := w.sysInfo, err := w.errs.head? }, cache)
  else
    ({ results := some (reconcileLoop env cache w.raw).2, sysInfo := w.sysInfo, err := none },
     (reconcileLoop env cache w.raw).1)

/-- `PollSNMP` from its `select` statement on, given the case the statement takes: what it
returns and the rate cache it leaves.  `ctxErr` is `ctx.Err()`. -/
def PollSNMP (env : PollEnv) (cache : TrafficCache) (ctxErr : String) (sel : SelectCase)
    (w : Collected) : PollReturn × TrafficCache :=
  match sel with
  | SelectCase.ctxDone => ({ results := none, sysInfo := {}, err := some ctxErr }, cache)
  | SelectCase.workersDone => pollAfterWait env cache w

/-- The timing of one poll as its main goroutine meets it: whether `ctx.Done()` and
`doneChan` are closed when the `select` statement completes, the case the runtime picks
when both are, and whether the token is tripped later, between the `select` and the return
of `PollSNMP`. -/
structure PollTiming where
  ctxAtSelect : Bool
  doneAtSelect : Bool
  pick : SelectCase
  ctxAfterSelect : Bool
  deriving DecidableEq, Repr

/-- Go `select` over the two channels: a case whose channel is closed is taken; when both
are closed the runtime picks one; when neither ever is, the statement blocks for ever
(`none`). -/
def selectTakes (t : PollTiming) : Option SelectCase :=
  match t.ctxAtSelect, t.doneAtSelect with
  | true, false => some SelectCase.ctxDone
  | false, true => some SelectCase.workersDone
  | true, true => some t.pick
  | false, false => none

/-- One run of `PollSNMP` from its `select` statement on; `none` when it never returns.
After the `select` the function does not read the token again. -/
def PollSNMPRun (env : PollEnv) (cache : TrafficCache) (ctxErr : String) (t : PollTiming)
    (w : Collected) : Option (PollReturn × TrafficCache) :=
  (selectTakes t).map (fun sel => PollSNMP env cache ctxErr sel w)

/-- The token is tripped at some moment of the run. -/
def TrippedDuringPoll (t : PollTiming) : Prop := t.ctxAtSelect = true ∨ t.ctxAfterSelect = true

/-- Example: the workers have collected the row of `firstRaw`, and one of them could not
connect. -/
def oneRowOneError : Collected := { errs := ["dial udp: i/o timeout"], raw := firstRaw }

/-- Example: no worker could connect. -/
def noRowTwoErrors : Collected :=
  { errs := ["dial udp: i/o timeout", "dial udp: no route to host"], raw := [] }

/-- Example: the token is tripped only after the `select` has taken the workers-done
case. -/
def lateCancel : PollTiming :=
  { ctxAtSelect := false, doneAtSelect := true, pick := SelectCase.ctxDone,
    ctxAfterSelect := true }

/-- Example: the token is tripped and the workers are done when the `select` completes, and
the runtime picks the workers-done case. -/
def bothReady : PollTiming :=
  { ctxAtSelect := true, doneAtSelect := true, pick := SelectCase.workersDone,
    ctxAfterSelect := true }

/-- Example: the token is tripped while the workers are still running. -/
def earlyCancel : PollTiming :=
  { ctxAtSelect := true, doneAtSelect := false, pick := SelectCase.workersDone,
    ctxAfterSelect := true }

/-! ## The workers of `PollSNMP` and their error channel -/

/-- The capacity of `errChan` (`make(chan error, 10)`). -/
def errChanCapacity : Nat := 10

/-- The slice `ifOids` of `PollSNMP`: one worker each. -/
def ifOids : List String :=
  [IfOid.ifName.oid, IfOid.ifAlias.oid, IfOid.ifOperStatus.oid, IfOid.ifHighSpeed.oid,
   IfOid.ifHCInOctets.oid, IfOid.ifHCOutOctets.oid]

/-- The slice `domOids` of `PollSNMP`: one worker each. -/
def domOids : List String :=
  [".1.3.6.1.2.1.47.1.1.1.1.2", ".1.3.6.1.2.1.99.1.1.1.1", ".1.3.6.1.2.1.99.1.1.1.2",
   ".1.3.6.1.2.1.99.1.1.1.4"]

/-- The goroutines `PollSNMP` registers with `wg.Add(1)`, in the order it starts them: the
system GET, one walk per element of `ifOids`, the VLAN walker, one walk per element of
`domOids`.  Each of them runs `if err := params.Connect(); err != nil { errChan <- err;
return }` and sends nothing else to `errChan`. -/
def pollWorkers : List String :=
  ["system"] ++ ifOids ++ ["vlan"] ++ domOids

/-- The workers and the error channel while the main goroutine waits in its `select`:
`failing` workers whose `Connect` has failed and whose send `errChan <- err` has not
completed, `connected` workers that run their walks, the number of errors buffered in
`errChan`, and the number of workers that have returned (`wg.Done`). -/
structure WorkerState where
  failing : Nat
  connected : Nat
  buffered : Nat
  finished : Nat
  deriving DecidableEq, Repr

/-- The states one step of one worker leads to.  A send on `errChan` completes only while
the buffer has room: nothing receives from `errChan` before `doneChan` is closed.  A
connected worker returns without touching `errChan`. -/
def workerSteps (s : WorkerState) : List WorkerState :=
  (if 0 < s.failing ∧ s.buffered < errChanCapacity then
    [{ failing := s.failing - 1, connected := s.connected, buffered := s.buffered + 1,
       finished := s.finished + 1 }]
   else []) ++
  (if 0 < s.connected then
    [{ failing := s.failing, connected := s.connected - 1, buffered := s.buffered,
       finished := s.finished + 1 }]
   else [])

/-- The state in which `failing` of the workers of a poll fail to connect. -/
def workersStart (failing : Nat) : WorkerState :=
  { failing := failing, connected := pollWorkers.length - failing, buffered := 0, finished := 0 }

/-- A state the workers can reach from `s`, in any interleaving. -/
def WorkersReach (s t : WorkerState) : Prop :=
  Relation.ReflTransGen (fun a b => b ∈ workerSteps a) s t

/-- The state in which `wg.Wait()` returns and `doneChan` is closed: every worker has
returned. -/
def allWorkersDone (s : WorkerState) : Prop := s.finished = pollWorkers.length

/-! ## Sensor decoding (`getScaleMultiplier` and the sensor loop of `PollSNMP`) -/

/-- `getScaleMultiplier(scaleCode)` of `snmp.go`.  Each constant of the source (`1e-24`, …,
`1e9`) is the `float64` nearest to the number the literal writes. -/
def getScaleMultiplier (scaleCode : Int) : ℚ :=
  if scaleCode = 1 then roundF64 (1 / 1000000000000000000000000)
  else if scaleCode = 2 then roundF64 (1 / 1000000000000000000000)
  else if scaleCode = 3 then roundF64 (1 / 1000000000000000000)
  else if scaleCode = 4 then roundF64 (1 / 1000000000000000)
  else if scaleCode = 5 then roundF64 (1 / 1000000000000)
  else if scaleCode = 6 then roundF64 (1 / 1000000000)
  else if scaleCode = 7 then roundF64 (1 / 1000000)
  else if scaleCode = 8 then roundF64 (1 / 1000)
  else if scaleCode = 9 then roundF64 1
  else if scaleCode = 10 then roundF64 1000
  else if scaleCode = 11 then roundF64 1000000
  else if scaleCode = 12 then roundF64 1000000000
  else roundF64 1

/-- The scaled value of a sensor entry (line 493):
`float64(sData.Value) * getScaleMultiplier(sData.Scale)`. -/
def scaledValue (value scale : Int) : ℚ :=
  roundF64 (roundF64 (value : ℚ) * getScaleMultiplier scale)

/-- The exponent of ten the specification gives for a scale code from 1 to 12. -/
def scaleExponent (scaleCode : Int) : Int := 3 * (scaleCode - 9)

/-- Go `models.SensorData`: one entry of `sensorRawMap`. -/
structure SensorData where
  Index : Int := 0
  Descr : String := ""
  Type_ : Int := 0
  Scale : Int := 0
  Value : Int := 0
  deriving DecidableEq, Repr

/-- The IEEE 754 bit pattern of a finite `float64` value of the normal range, or of `+0`:
sign, biased exponent, fraction. -/
def f64Bits (q : ℚ) : F64 :=
  if q = 0 then { bits := 0 }
  else if 0 < q then
    { bits := (ilog2 q + 1023).toNat * 2 ^ 52 + (⌊q / 2 ^ (ilog2 q - 52)⌋.toNat - 2 ^ 52) }
  else
    { bits := 2 ^ 63 + (ilog2 (-q) + 1023).toNat * 2 ^ 52 +
        (⌊-q / 2 ^ (ilog2 (-q) - 52)⌋.toNat - 2 ^ 52) }

/-- The `switch sData.Type` of the sensor loop (lines 495 to 513): the DOM block after the
entry `s` has been decoded into `dom`.  `log10` is `math.Log10` on positive `float64`
values. -/
def sensorDom (log10 : ℚ → ℚ) (dom : DOMInfo) (s : SensorData) : DOMInfo :=
  if s.Type_ = 8 then { dom with Temperature := some (f64Bits (scaledValue s.Value s.Scale)) }
  else if s.Type_ = 9 then { dom with Voltage := some (f64Bits (scaledValue s.Value s.Scale)) }
  else if s.Type_ = 10 then
    { dom with BiasCurrent := some (f64Bits (roundF64 (scaledValue s.Value s.Scale * 1000))) }
  else if s.Type_ = 11 then
    if 0 < scaledValue s.Value s.Scale then
      { dom with
        TxPower :=
          if Contains (ToLower s.Descr.data) "tx".data = true ∨
              Contains (ToLower s.Descr.data) "output".data = true then
            some (f64Bits (roundF64 (10 * log10 (roundF64 (scaledValue s.Value s.Scale * 1000)))))
          else dom.TxPower
        RxPower :=
          if Contains (ToLower s.Descr.data) "rx".data = true ∨
              Contains (ToLower s.Descr.data) "input".data = true then
            some (f64Bits (roundF64 (10 * log10 (roundF64 (scaledValue s.Value s.Scale * 1000)))))
          else dom.RxPower }
    else dom
  else dom

/-- The entry `s` passes the two `continue` tests of the sensor loop: it has a description
and a type, and its description classifies to a physical index. -/
def sensorUsable (s : SensorData) : Bool :=
  !(decide (s.Descr.data = []) || decide (s.Type_ = 0)) && (GetPhysicalIndex s.Descr "").2

/-- The body of the sensor loop `for _, sData := range sensorRawMap` (lines 481 to 515)
for one entry. -/
def sensorStep (log10 : ℚ → ℚ) (domMap : Int → Option DOMInfo) (s : SensorData) :
    Int → Option DOMInfo :=
  if s.Descr.data = [] ∨ s.Type_ = 0 then domMap
  else if (GetPhysicalIndex s.Descr "").2 = true then
    mapSet domMap (GetPhysicalIndex s.Descr "").1
      (sensorDom log10 ((domMap (GetPhysicalIndex s.Descr "").1).getD {}) s)
  else domMap

/-- The map `domMap` after the sensor loop has visited the entries of `sensorRawMap` in the
given order. -/
def sensorLoop (log10 : ℚ → ℚ) (entries : List SensorData) : Int → Option DOMInfo :=
  entries.foldl (sensorStep log10) (fun _ => none)

/-- The DOM block `c` laid over the block `d`: a reading of `c` replaces that of `d`. -/
def mergeDom (d c : DOMInfo) : DOMInfo :=
  { Temperature := if c.Temperature.isSome then c.Temperature else d.Temperature
    Voltage := if c.Voltage.isSome then c.Voltage else d.Voltage
    TxPower := if c.TxPower.isSome then c.TxPower else d.TxPower
    RxPower := if c.RxPower.isSome then c.RxPower else d.RxPower
    BiasCurrent := if c.BiasCurrent.isSome then c.BiasCurrent else d.BiasCurrent }

/-- Two optional readings do not compete: one is absent, or they are equal. -/
def readingsAgree (x y : Option F64) : Prop := x = none ∨ y = none ∨ x = y

instance readingsAgree_decidable (x y : Option F64) : Decidable (readingsAgree x y) :=
  inferInstanceAs (Decidable (x = none ∨ y = none ∨ x = y))

/-- Two DOM blocks do not compete for any reading. -/
def DomAgree (x y : DOMInfo) : Prop :=
  readingsAgree x.Temperature y.Temperature ∧ readingsAgree x.Voltage y.Voltage ∧
  readingsAgree x.TxPower y.TxPower ∧ readingsAgree x.RxPower y.RxPower ∧
  readingsAgree x.BiasCurrent y.BiasCurrent

instance DomAgree_decidable (x y : DOMInfo) : Decidable (DomAgree x y) :=
  inferInstanceAs (Decidable (readingsAgree x.Temperature y.Temperature ∧
    readingsAgree x.Voltage y.Voltage ∧ readingsAgree x.TxPower y.TxPower ∧
    readingsAgree x.RxPower y.RxPower ∧ readingsAgree x.BiasCurrent y.BiasCurrent))

/-- Two sensor entries do not compete: when both are usable and classify to the same
physical index, the readings they set do not compete. -/
def SensorsAgree (log10 : ℚ → ℚ) (a b : SensorData) : Prop :=
  sensorUsable a = true → sensorUsable b = true →
    (GetPhysicalIndex a.Descr "").1 = (GetPhysicalIndex b.Descr "").1 →
    DomAgree (sensorDom log10 {} a) (sensorDom log10 {} b)

/-- Example: the temperature sensor of port 5, reading 30. -/
def tempA : SensorData :=
  { Index := 1001, Descr := "Temperature A port 5", Type_ := 8, Scale := 9, Value := 30 }

/-- Example: a second temperature sensor of port 5, reading 40. -/
def tempB : SensorData :=
  { Index := 1002, Descr := "Temperature B port 5", Type_ := 8, Scale := 9, Value := 40 }

/-- Example: the voltage sensor of port 5, reading 3300 mV. -/
def voltA : SensorData :=
  { Index := 1003, Descr := "Voltage port 5", Type_ := 9, Scale := 8, Value := 3300 }

/-! ## The Q-BRIDGE phase of `PollSNMP` (lines 430 to 478) -/

/-- OID constant of `snmp.go`. -/
def oidDot1qVlanStaticEgressPorts : String := ".1.3.6.1.2.1.17.7.1.4.3.1.2"

/-- OID constant of `snmp.go`. -/
def oidDot1qVlanStaticUntaggedPorts : String := ".1.3.6.1.2.1.17.7.1.4.3.1.4"

/-- The loop `for _, basePort := range ports` of the egress walk: `vlanID` is appended to
the allowed list of the ifIndex of every base port that `basePortToIfIndex` maps. -/
def qbAddAllowed (base : Int → Option Int) (vlanID : Int) :
    (Int → Option QBridgeInfo) → List Int → (Int → Option QBridgeInfo)
  | info, [] => info
  | info, basePort :: rest =>
    match base basePort with
    | some ifIndex =>
      qbAddAllowed base vlanID
        (mapSet info ifIndex
          { NativeVlan := ((info ifIndex).getD {}).NativeVlan
            AllowedVlans := ((info ifIndex).getD {}).AllowedVlans ++ [vlanID] }) rest
    | none => qbAddAllowed base vlanID info rest

/-- The loop `for _, basePort := range ports` of the untagged walk: `vlanID` becomes the
native VLAN of the ifIndex of every base port that `basePortToIfIndex` maps. -/
def qbSetNative (base : Int → Option Int) (vlanID : Int) :
    (Int → Option QBridgeInfo) → List Int → (Int → Option QBridgeInfo)
  | info, [] => info
  | info, basePort :: rest =>
    match base basePort with
    | some ifIndex =>
      qbSetNative base vlanID
        (mapSet info ifIndex
          { NativeVlan := vlanID
            AllowedVlans := ((info ifIndex).getD {}).AllowedVlans }) rest
    | none => qbSetNative base vlanID info rest

/-- The callback of the walk of `dot1qVlanStaticEgressPorts` for one variable binding. -/
def egressStep (base : Int → Option Int) (info : Int → Option QBridgeInfo) (pdu : SnmpPDU) :
    Int → Option QBridgeInfo :=
  if 0 < extractIndex pdu.Name oidDot1qVlanStaticEgressPorts then
    match pdu.Value with
    | PduValue.octets b =>
      qbAddAllowed base (extractIndex pdu.Name oidDot1qVlanStaticEgressPorts) info
        (parsePortBitmap b)
    | _ => info
  else info

/-- The callback of the walk of `dot1qVlanStaticUntaggedPorts` for one variable binding. -/
def untaggedStep (base : Int → Option Int) (info : Int → Option QBridgeInfo) (pdu : SnmpPDU) :
    Int → Option QBridgeInfo :=
  if 0 < extractIndex pdu.Name oidDot1qVlanStaticUntaggedPorts then
    match pdu.Value with
    | PduValue.octets b =>
      qbSetNative base (extractIndex pdu.Name oidDot1qVlanStaticUntaggedPorts) info
        (parsePortBitmap b)
    | _ => info
  else info

/-- The map `qBridgeVlanInfo` after the Q-BRIDGE phase: `base` is `basePortToIfIndex`,
`egress` and `untagged` are the variable bindings the two walks deliver, in order (none
when the phase does not run or cannot connect). -/
def qBridgeWalks (base : Int → Option Int) (egress untagged : List SnmpPDU) :
    Int → Option QBridgeInfo :=
  untagged.foldl (untaggedStep base) (egress.foldl (egressStep base) (fun _ => none))

/-- The static egress port bitmap of VLAN `v` contains a base port mapped to `ifIndex`: a
variable binding of the egress walk is indexed by `v`, positive, carries an octet string,
and a port that string holds is mapped to `ifIndex`. -/
def EgressHas (base : Int → Option Int) (egress : List SnmpPDU) (ifIndex v : Int) : Prop :=
  ∃ pdu ∈ egress, extractIndex pdu.Name oidDot1qVlanStaticEgressPorts = v ∧ 0 < v ∧
    ∃ b, pdu.Value = PduValue.octets b ∧ ∃ port ∈ parsePortBitmap b, base port = some ifIndex

/-- The allowed list of the record of `i`, empty when there is no record. -/
def allowedOf (info : Int → Option QBridgeInfo) (i : Int) : List Int :=
  ((info i).getD {}).AllowedVlans

/-- Example: base port 3 is ifIndex 10. -/
def qbBase : Int → Option Int := fun p => if p = 3 then some 10 else none

/-- Example: the egress bitmaps of the VLANs 20 and 30 hold port 3 (and VLAN 30 port 1). -/
def qbEgress : List SnmpPDU :=
  [{ Name := ".1.3.6.1.2.1.17.7.1.4.3.1.2.20", Value := PduValue.octets [32] },
   { Name := ".1.3.6.1.2.1.17.7.1.4.3.1.2.30", Value := PduValue.octets [160] }]

/-- Example: the untagged bitmap of VLAN 20 holds port 3. -/
def qbUntagged : List SnmpPDU :=
  [{ Name := ".1.3.6.1.2.1.17.7.1.4.3.1.4.20", Value := PduValue.octets [32] }]

/-- Example: a poll whose only VLAN data is the Q-BRIDGE record of ifIndex 10. -/
def qbEnv : PollEnv := { emptyEnv with qBridgeVlanInfo := qBridgeWalks qbBase qbEgress qbUntagged }

/-- Example: two interfaces whose names end in the two largest values of an `int`. -/
def largestRows : List SNMPResult :=
  [{ IfIndex := 1, IfName := "Gi0/9223372036854775806" },
   { IfIndex := 2, IfName := "Gi0/9223372036854775807" }]

/-- The VLANs that one variable binding of a walk of `oid` contributes to the trunk-allowed
entry of `idx`: the ids `parseVlanBitmap` decodes from its octet string when its index is
`idx` and positive, nothing otherwise. -/
def decodedOf (oid : String) (offset : Int) (idx : Int) (pdu : SnmpPDU) : List Int :=
  if 0 < extractIndex pdu.Name oid ∧ extractIndex pdu.Name oid = idx then
    match pdu.Value with
    | PduValue.octets bytes => parseVlanBitmap bytes offset
    | _ => []
  else []

/-- The VLANs decoded for `idx`, in walk order, from the bindings a walk of `oid` delivers. -/
def decodedFor (oid : String) (offset : Int) (pdus : List SnmpPDU) (idx : Int) : List Int :=
  (pdus.map (decodedOf oid offset idx)).flatten

/-- A trunk on ifIndex 7 whose allowed VLANs come from two tables: 1, 2, 3, 100 from
`vlanTrunkPortVlansEnabled` and 1024 from `vlanTrunkPortVlansXEnabled`. -/
def wideTrunkEnv : PollEnv :=
  { emptyEnv with
    trunkStatusMap := fun i => if i = 7 then some 1 else none
    trunkAllowedVlans :=
      collectTrunkAllowed [{ Name := ".1.3.6.1.4.1.9.9.46.1.6.1.1.4.7",
                             Value := PduValue.octets bitmap_1_2_3_100 }]
                          [{ Name := ".1.3.6.1.4.1.9.9.46.1.6.1.1.17.7",
                             Value := PduValue.octets [128] }] [] [] }

/-- The entries one variable binding of the egress walk appends to the allowed list of
`ifIndex`: its VLAN, once for every port of its bitmap that `basePortToIfIndex` maps to
`ifIndex`, when its index is positive and its value an octet string. -/
def egressOf (base : Int → Option Int) (ifIndex : Int) (pdu : SnmpPDU) : List Int :=
  if 0 < extractIndex pdu.Name oidDot1qVlanStaticEgressPorts then
    match pdu.Value with
    | PduValue.octets b =>
      ((parsePortBitmap b).filter (fun p => decide (base p = some ifIndex))).map
        (fun _ => extractIndex pdu.Name oidDot1qVlanStaticEgressPorts)
    | _ => []
  else []

/-- The VLANs whose static egress port bitmap contains a base port mapped to `ifIndex`, in
walk order, each once for every such port of its bitmap. -/
def egressVlans (base : Int → Option Int) (egress : List SnmpPDU) (ifIndex : Int) : List Int :=
  (egress.map (egressOf base ifIndex)).flatten

/-- The static untagged port bitmap of the binding contains a base port mapped to
`ifIndex`: its index is positive, its value an octet string, and a port that string holds
is mapped to `ifIndex`. -/
def untaggedHits (base : Int → Option Int) (ifIndex : Int) (pdu : SnmpPDU) : Bool :=
  decide (0 < extractIndex pdu.Name oidDot1qVlanStaticUntaggedPorts) &&
    match pdu.Value with
    | PduValue.octets b => (parsePortBitmap b).any (fun p => decide (base p = some ifIndex))
    | _ => false

/-- The untagged VLAN of `ifIndex`: the VLAN of the last binding of the untagged walk whose
bitmap contains a base port mapped to `ifIndex`, and 0 when there is none. -/
def untaggedVlan (base : Int → Option Int) (untagged : List SnmpPDU) (ifIndex : Int) : Int :=
  ((untagged.reverse.find? (untaggedHits base ifIndex)).map
    (fun pdu => extractIndex pdu.Name oidDot1qVlanStaticUntaggedPorts)).getD 0

/-- The native VLAN of the record of `i`, 0 when there is no record. -/
def nativeOf (info : Int → Option QBridgeInfo) (i : Int) : Int :=
  ((info i).getD {}).NativeVlan

/-- Example: the base ports 3 and 4 are both ifIndex 10. -/
def qbBaseTwo : Int → Option Int := fun p => if p = 3 ∨ p = 4 then some 10 else none

/-- Example: the egress bitmaps of the VLANs 20 and 21 hold the ports 3 and 4. -/
def qbEgressTwo : List SnmpPDU :=
  [{ Name := ".1.3.6.1.2.1.17.7.1.4.3.1.2.20", Value := PduValue.octets [48] },
   { Name := ".1.3.6.1.2.1.17.7.1.4.3.1.2.21", Value := PduValue.octets [48] }]

/-- Example: a poll whose only VLAN data is the Q-BRIDGE record of ifIndex 10, built from
two base ports of that ifIndex. -/
def qbEnvTwo : PollEnv :=
  { emptyEnv with qBridgeVlanInfo := qBridgeWalks qbBaseTwo qbEgressTwo [] }

/-- Example: the untagged bitmaps of the VLANs 20 and then 30 hold port 3. -/
def qbUntaggedTwo : List SnmpPDU :=
  [{ Name := ".1.3.6.1.2.1.17.7.1.4.3.1.4.20", Value := PduValue.octets [32] },
   { Name := ".1.3.6.1.2.1.17.7.1.4.3.1.4.30", Value := PduValue.octets [32] }]

/-- The duration `time.Since(prev.Timestamp)` that a poll `env2` computes, in nanoseconds,
for the row of `idx` whose cache entry the poll `env1` has stamped. -/
def elapsed (env1 env2 : PollEnv) (idx : Int) : Int :=
  satDuration (env2.clockSince idx - env1.clockNow idx)

/-- The quotient of a number of bits by the seconds of `d` nanoseconds, as a rational. -/
def bitsPerSecond (bits : Nat) (d : Int) : ℚ := (bits : ℚ) / ((d : ℚ) / 1000000000)

/-- A poll of device 1 whose `time.Since` reads the clock at 1 ns, on a platform whose
conversion of an out-of-range `float64` to `uint64` gives `2^63`. -/
def overflowPoll : PollEnv := { pollAt 1 with outOfRange := 9223372036854775808 }

/-- The multiplier the specification gives for a scale code: ten raised to the exponent of
the code for the codes 1 to 12, and 1 for every other code. -/
def scalePower (scaleCode : Int) : ℚ :=
  if 1 ≤ scaleCode ∧ scaleCode ≤ 12 then (10 : ℚ) ^ scaleExponent scaleCode else 1

/-! ## Lemmas on scanning -/

theorem takeWhile_append_stop (p : Char → Bool) (a : List Char) (c : Char) (rest : List Char)
    (ha : a.all p = true) (hc : p c = false) :
    (a ++ c :: rest).takeWhile p = a ∧ (a ++ c :: rest).dropWhile p = c :: rest := by
  induction a with
  | nil => simp [List.takeWhile, List.dropWhile, hc]
  | cons x xs ih =>
    simp only [List.all_cons, Bool.and_eq_true] at ha
    simp [List.takeWhile, List.dropWhile, ha.1, ih ha.2]

theorem takeWhile_all (p : Char → Bool) (a : List Char) (ha : a.all p = true) :
    a.takeWhile p = a ∧ a.dropWhile p = [] := by
  induction a with
  | nil => simp
  | cons x xs ih =>
    simp only [List.all_cons, Bool.and_eq_true] at ha
    simp [List.takeWhile, List.dropWhile, ha.1, ih ha.2]

theorem all_takeWhile (p : Char → Bool) (l : List Char) : (l.takeWhile p).all p = true := by
  induction l with
  | nil => simp
  | cons x xs ih =>
    by_cases h : p x = true
    · simp [List.takeWhile, h, ih]
    · simp [List.takeWhile, h]

theorem dropWhile_head (p : Char → Bool) (l : List Char) (c : Char) (r : List Char)
    (h : l.dropWhile p = c :: r) : p c = false := by
  induction l with
  | nil => simp at h
  | cons x xs ih =>
    by_cases hx : p x = true
    · simp [List.dropWhile, hx] at h
      exact ih h
    · simp [List.dropWhile, hx] at h
      rw [← h.1]
      simpa using hx

/-- Soundness of the leftmost search: a result comes from a match at some start position. -/
theorem findFirst_some {α : Type} (m : List Char → Option α) (s : List Char) (r : α)
    (h : findFirst m s = some r) : ∃ pre t, s = pre ++ t ∧ m t = some r := by
  induction s with
  | nil => exact ⟨[], [], rfl, by simpa [findFirst] using h⟩
  | cons c cs ih =>
    rw [findFirst] at h
    cases hm : m (c :: cs) with
    | some r2 =>
      rw [hm] at h
      exact ⟨[], c :: cs, rfl, by rw [hm]; simpa using h⟩
    | none =>
      rw [hm] at h
      obtain ⟨pre, t, hs, ht⟩ := ih h
      exact ⟨c :: pre, t, by simp [hs], ht⟩

/-- The leftmost search fails exactly when no start position matches. -/
theorem findFirst_none {α : Type} (m : List Char → Option α) (s : List Char)
    (h : ∀ pre t, s = pre ++ t → m t = none) : findFirst m s = none := by
  induction s with
  | nil => simpa [findFirst] using h [] [] rfl
  | cons c cs ih =>
    rw [findFirst, h [] (c :: cs) rfl]
    exact ih (fun pre t hs => h (c :: pre) t (by simp [hs]))

/-- The leftmost search returns the match at a start position before which nothing
matches. -/
theorem findFirst_leftmost {α : Type} (m : List Char → Option α) (pre t : List Char) (r : α)
    (ht : m t = some r)
    (hpre : ∀ p1 p2, pre = p1 ++ p2 → p2 ≠ [] → m (p2 ++ t) = none) :
    findFirst m (pre ++ t) = some r := by
  induction pre with
  | nil =>
    cases t with
    | nil => simpa [findFirst] using ht
    | cons c cs => simp [findFirst, ht]
  | cons c cs ih =>
    have h0 := hpre [] (c :: cs) rfl (by simp)
    simp only [List.cons_append] at h0 ⊢
    rw [findFirst, h0]
    exact ih (fun p1 p2 h hne => hpre (c :: p1) p2 (by simp [h]) hne)

/-- The leftmost search succeeds as soon as some start position matches. -/
theorem findFirst_isSome {α : Type} (m : List Char → Option α) (pre t : List Char) (r : α)
    (ht : m t = some r) : ∃ r2, findFirst m (pre ++ t) = some r2 := by
  induction pre with
  | nil =>
    cases t with
    | nil => exact ⟨r, by simpa [findFirst] using ht⟩
    | cons c cs => exact ⟨r, by simp [findFirst, ht]⟩
  | cons c cs ih =>
    simp only [List.cons_append]
    rw [findFirst]
    cases hm : m (c :: (cs ++ t)) with
    | some r2 => exact ⟨r2, rfl⟩
    | none => exact ih

/-! ## Lemmas on `Atoi` and the patterns -/

theorem atoiBody_digits (a : List Char) (hne : a ≠ []) (ha : a.all isDigit = true) :
    atoiBody false a =
      if maxInt < (digitsValue a : Int) then (maxInt, false) else ((digitsValue a : Int), true) := by
  unfold atoiBody
  simp [hne, ha]

/-- `Atoi` on a non-empty run of digits: the number it writes, saturated at the largest
`int`. -/
theorem Atoi_digits (a : List Char) (hne : a ≠ []) (ha : a.all isDigit = true) :
    (Atoi a).1 = min (digitsValue a : Int) maxInt := by
  cases a with
  | nil => exact absurd rfl hne
  | cons c r =>
    have hc : isDigit c = true := by
      simp only [List.all_cons, Bool.and_eq_true] at ha
      exact ha.1
    have h1 : c ≠ '-' := by
      intro h
      rw [h] at hc
      exact absurd hc (by decide)
    have h2 : c ≠ '+' := by
      intro h
      rw [h] at hc
      exact absurd hc (by decide)
    unfold Atoi
    simp only [h1, h2, if_false]
    rw [atoiBody_digits (c :: r) hne ha]
    by_cases hlt : maxInt < (digitsValue (c :: r) : Int)
    · simp only [hlt, if_true]
      exact (min_eq_right (le_of_lt hlt)).symm
    · simp only [hlt, if_false]
      exact (min_eq_left (not_lt.mp hlt)).symm

/-- A match of `\/(\d+):\d+$` at the head of `s` has the shape `/ digits : digits`. -/
theorem matchColonSubAt_some (s r : List Char) (h : matchColonSubAt s = some r) :
    ∃ tail, s = '/' :: (r ++ ':' :: tail) ∧ r ≠ [] ∧ r.all isDigit = true ∧
      tail ≠ [] ∧ tail.all isDigit = true := by
  cases s with
  | nil => simp [matchColonSubAt] at h
  | cons c rest =>
    unfold matchColonSubAt at h
    by_cases hc : c = '/'
    · simp only [hc, if_true] at h
      cases hd : rest.dropWhile isDigit with
      | nil => rw [hd] at h; simp at h
      | cons c2 tail =>
        rw [hd] at h
        simp only at h
        split_ifs at h with hcond
        obtain ⟨h1, h2, h3, h4⟩ := hcond
        have hr : rest.takeWhile isDigit = r := by simpa using h
        refine ⟨tail, ?_, ?_, ?_, h3, h4⟩
        · rw [hc, ← hr, ← h2, ← hd, List.takeWhile_append_dropWhile]
        · rw [← hr]; exact h1
        · rw [← hr]; exact all_takeWhile isDigit rest
    · simp [hc] at h

/-- The pattern `\/(\d+):\d+$` matches a text of the shape `/ digits : digits`. -/
theorem matchColonSubAt_shape (a b : List Char) (ha : a ≠ []) (had : a.all isDigit = true)
    (hb : b ≠ []) (hbd : b.all isDigit = true) :
    matchColonSubAt ('/' :: (a ++ ':' :: b)) = some a := by
  have h := takeWhile_append_stop isDigit a ':' b had (by decide)
  unfold matchColonSubAt
  simp only [if_true]
  rw [h.2]
  simp only [h.1]
  simp [ha, hb, hbd]

/-- A text has one decomposition into a prefix, a character outside a class, and a run
inside the class. -/
theorem split_unique (p : Char → Bool) (xs ys a b : List Char) (c d : Char)
    (h : xs ++ c :: a = ys ++ d :: b) (ha : a.all p = true) (hb : b.all p = true)
    (hc : p c = false) (hd : p d = false) : xs = ys ∧ c = d ∧ a = b := by
  have hr : a.reverse ++ c :: xs.reverse = b.reverse ++ d :: ys.reverse := by
    have := congrArg List.reverse h
    simpa using this
  have ha2 : a.reverse.all p = true := by simpa using ha
  have hb2 : b.reverse.all p = true := by simpa using hb
  have h1 := takeWhile_append_stop p a.reverse c xs.reverse ha2 hc
  have h2 := takeWhile_append_stop p b.reverse d ys.reverse hb2 hd
  have e1 : a.reverse = b.reverse := by rw [← h1.1, ← h2.1, hr]
  have e2 : c :: xs.reverse = d :: ys.reverse := by rw [← h1.2, ← h2.2, hr]
  have e3 : a = b := List.reverse_injective e1
  simp only [List.cons.injEq] at e2
  exact ⟨List.reverse_injective e2.2, e2.1, e3⟩

/-- On a name that ends in `/<digits>:<digits>` the pattern `reColonSub` captures the digits
between `/` and `:`. -/
theorem reColonSub_shape (pre a b : List Char) (ha : a ≠ []) (had : a.all isDigit = true)
    (hb : b ≠ []) (hbd : b.all isDigit = true) :
    reColonSub (pre ++ '/' :: (a ++ ':' :: b)) = some a := by
  obtain ⟨r2, hr2⟩ := findFirst_isSome matchColonSubAt pre ('/' :: (a ++ ':' :: b)) a
    (matchColonSubAt_shape a b ha had hb hbd)
  obtain ⟨pre2, t, hs, ht⟩ := findFirst_some matchColonSubAt _ r2 hr2
  obtain ⟨tail, hshape, _, hr2d, _, htd⟩ := matchColonSubAt_some t r2 ht
  rw [hshape] at hs
  have e1 : (pre ++ '/' :: a) ++ ':' :: b = (pre2 ++ '/' :: r2) ++ ':' :: tail := by
    simpa using hs
  have u1 := split_unique isDigit _ _ b tail ':' ':' e1 hbd htd (by decide) (by decide)
  have u2 := split_unique isDigit pre pre2 a r2 '/' '/' u1.1 had hr2d (by decide) (by decide)
  unfold reColonSub
  rw [hr2, u2.2.2]

/-- When `reColonSub` matches, the name ends in `/<digits>:<digits>`. -/
theorem reColonSub_some (s r : List Char) (h : reColonSub s = some r) :
    ∃ pre b, s = pre ++ '/' :: (r ++ ':' :: b) ∧ r ≠ [] ∧ r.all isDigit = true ∧
      b ≠ [] ∧ b.all isDigit = true := by
  obtain ⟨pre, t, hs, ht⟩ := findFirst_some matchColonSubAt s r h
  obtain ⟨tail, hshape, h1, h2, h3, h4⟩ := matchColonSubAt_some t r ht
  exact ⟨pre, tail, by rw [hs, hshape], h1, h2, h3, h4⟩

theorem isDigit_not_space (c : Char) (h : isDigit c = true) : isSpaceRe c = false := by
  unfold isDigit at h
  unfold isSpaceRe
  simp only [Bool.and_eq_true, decide_eq_true_eq] at h
  simp only [Bool.or_eq_false_iff, decide_eq_false_iff_not]
  omega

theorem isSpaceRe_not_digit (c : Char) (h : isSpaceRe c = true) : isDigit c = false := by
  cases hd : isDigit c with
  | false => rfl
  | true => rw [isDigit_not_space c hd] at h; exact absurd h (by decide)

theorem isEth_not_digit (e t h : Char) (he : isEth e t h = true) : isDigit h = false := by
  unfold isEth at he
  simp only [Bool.and_eq_true, Bool.or_eq_true, decide_eq_true_eq] at he
  rcases he.2 with h1 | h1 <;> rw [h1] <;> decide

/-- A run inside a class followed by a text that does not start inside the class. -/
theorem takeWhile_append_head (p : Char → Bool) (a rest : List Char) (ha : a.all p = true)
    (hrest : ∀ c r, rest = c :: r → p c = false) :
    (a ++ rest).takeWhile p = a ∧ (a ++ rest).dropWhile p = rest := by
  cases rest with
  | nil => simpa using takeWhile_all p a ha
  | cons c r => exact takeWhile_append_stop p a c r ha (hrest c r rfl)

/-- A match of the breakout pattern at the head of `s` is an occurrence in the declarative
sense. -/
theorem matchSonicBreakoutAt_some (s a : List Char) (h : matchSonicBreakoutAt s = some a) :
    SonicBreakoutAt s a := by
  unfold matchSonicBreakoutAt at h
  split at h
  · rename_i e t hh r0
    split_ifs at h with heth
    split at h
    · exact absurd h (by simp)
    · rename_i c r3 hdrop
      split_ifs at h with hcond
      obtain ⟨h1, h2, h3⟩ := hcond
      have ha : (r0.dropWhile isSpaceRe).takeWhile isDigit = a := by simpa using h
      cases h4 : (r3.dropWhile isSpaceRe) with
      | nil => rw [h4] at h3; simp at h3
      | cons d post =>
        rw [h4] at h3
        have hd : isDigit d = true := by simpa using h3
        refine ⟨e, t, hh, r0.takeWhile isSpaceRe, ((r0.dropWhile isSpaceRe).dropWhile isDigit).takeWhile isSpaceRe,
          r3.takeWhile isSpaceRe, [d], post, ?_, heth, all_takeWhile _ _, ?_, ?_, all_takeWhile _ _,
          all_takeWhile _ _, by simp, by simp [hd]⟩
        · have e1 : r0 = r0.takeWhile isSpaceRe ++ r0.dropWhile isSpaceRe :=
            (List.takeWhile_append_dropWhile _ _).symm
          have e2 : r0.dropWhile isSpaceRe = a ++ (r0.dropWhile isSpaceRe).dropWhile isDigit := by
            rw [← ha]; exact (List.takeWhile_append_dropWhile _ _).symm
          have e3 : (r0.dropWhile isSpaceRe).dropWhile isDigit =
              ((r0.dropWhile isSpaceRe).dropWhile isDigit).takeWhile isSpaceRe ++ c :: r3 := by
            rw [← hdrop]; exact (List.takeWhile_append_dropWhile _ _).symm
          have e4 : r3 = r3.takeWhile isSpaceRe ++ d :: post := by
            rw [← h4]; exact (List.takeWhile_append_dropWhile _ _).symm
          have e5 : r0 = r0.takeWhile isSpaceRe ++ (a ++
              (((r0.dropWhile isSpaceRe).dropWhile isDigit).takeWhile isSpaceRe ++
                '/' :: (r3.takeWhile isSpaceRe ++ ([d] ++ post)))) := by
            rw [← h2]
            simp only [List.singleton_append]
            rw [← e4, ← e3, ← e2, ← e1]
          rw [← e5]
        · rw [← ha]; exact h1
        · rw [← ha]; exact all_takeWhile _ _
  · exact absurd h (by simp)

/-- An occurrence of the breakout pattern at the head of `s` is matched, with its digits
`a` as capture 1. -/
theorem matchSonicBreakoutAt_of (s a : List Char) (h : SonicBreakoutAt s a) :
    matchSonicBreakoutAt s = some a := by
  obtain ⟨e, t, hh, ws1, ws2, ws3, b, post, hs, heth, hw1, hane, had, hw2, hw3, hbne, hbd⟩ := h
  have ha_head : ∀ c r, a ++ (ws2 ++ '/' :: (ws3 ++ (b ++ post))) = c :: r → isSpaceRe c = false := by
    intro c r hc
    cases a with
    | nil => exact absurd rfl hane
    | cons x xs =>
      simp only [List.cons_append, List.cons.injEq] at hc
      simp only [List.all_cons, Bool.and_eq_true] at had
      rw [← hc.1]
      exact isDigit_not_space x had.1
  have hw2_head : ∀ c r, ws2 ++ '/' :: (ws3 ++ (b ++ post)) = c :: r → isDigit c = false := by
    intro c r hc
    cases ws2 with
    | nil =>
      simp only [List.nil_append, List.cons.injEq] at hc
      rw [← hc.1]; decide
    | cons x xs =>
      simp only [List.cons_append, List.cons.injEq] at hc
      simp only [List.all_cons, Bool.and_eq_true] at hw2
      rw [← hc.1]
      exact isSpaceRe_not_digit x hw2.1
  have hb_head : ∀ c r, b ++ post = c :: r → isSpaceRe c = false := by
    intro c r hc
    cases b with
    | nil => exact absurd rfl hbne
    | cons x xs =>
      simp only [List.cons_append, List.cons.injEq] at hc
      simp only [List.all_cons, Bool.and_eq_true] at hbd
      rw [← hc.1]
      exact isDigit_not_space x hbd.1
  have k1 := takeWhile_append_head isSpaceRe ws1 _ hw1 ha_head
  have k2 := takeWhile_append_head isDigit a _ had hw2_head
  have k3 := takeWhile_append_stop isSpaceRe ws2 '/' (ws3 ++ (b ++ post)) hw2 (by decide)
  have k4 := takeWhile_append_head isSpaceRe ws3 _ hw3 hb_head
  rw [hs]
  unfold matchSonicBreakoutAt
  simp only [heth, if_true]
  rw [k1.2, k2.2, k2.1, k3.2]
  simp only [k4.2]
  cases b with
  | nil => exact absurd rfl hbne
  | cons x xs =>
    simp only [List.all_cons, Bool.and_eq_true] at hbd
    simp [hane, hbd.1]

/-- A match of `(?i)Eth\s*(\d+)$` at the head of `s` has the shape `Eth`, white space,
digits. -/
theorem matchSonicSimpleAt_some (s r : List Char) (h : matchSonicSimpleAt s = some r) :
    ∃ e t hh ws, s = e :: t :: hh :: (ws ++ r) ∧ isEth e t hh = true ∧
      ws.all isSpaceRe = true ∧ r ≠ [] ∧ r.all isDigit = true := by
  unfold matchSonicSimpleAt at h
  split at h
  · rename_i e t hh r0
    split_ifs at h with hcond
    obtain ⟨h1, h2, h3⟩ := hcond
    have hr : r0.dropWhile isSpaceRe = r := by simpa using h
    refine ⟨e, t, hh, r0.takeWhile isSpaceRe, ?_, h1, all_takeWhile _ _, ?_, ?_⟩
    · rw [← hr, List.takeWhile_append_dropWhile]
    · rw [← hr]; exact h2
    · rw [← hr]; exact h3
  · exact absurd h (by simp)

/-- The pattern `(?i)Eth\s*(\d+)$` matches a text of the shape `Eth`, white space, digits. -/
theorem matchSonicSimpleAt_of (e t hh : Char) (ws a : List Char) (heth : isEth e t hh = true)
    (hws : ws.all isSpaceRe = true) (hane : a ≠ []) (had : a.all isDigit = true) :
    matchSonicSimpleAt (e :: t :: hh :: (ws ++ a)) = some a := by
  have ha_head : ∀ c r, a = c :: r → isSpaceRe c = false := by
    intro c r hc
    rw [hc] at had
    simp only [List.all_cons, Bool.and_eq_true] at had
    exact isDigit_not_space c had.1
  have k := takeWhile_append_head isSpaceRe ws a hws ha_head
  unfold matchSonicSimpleAt
  simp only [k.2]
  simp [heth, hane, had]

/-- The letter `h` of `Eth` and the white space after it end in a character that is not a
digit. -/
theorem last_not_digit (hh : Char) (ws : List Char) (h1 : isDigit hh = false)
    (h2 : ws.all isSpaceRe = true) : ∃ X c, hh :: ws = X ++ [c] ∧ isDigit c = false := by
  rcases List.eq_nil_or_concat ws with hnil | ⟨w, c, hw⟩
  · exact ⟨[], hh, by simp [hnil], h1⟩
  · refine ⟨hh :: w, c, by simp [hw], ?_⟩
    have h3 : isSpaceRe c = true := List.all_eq_true.mp h2 c (by simp [hw])
    exact isSpaceRe_not_digit c h3

/-- On a text that ends in `Eth <a>` the pattern `reSonicSimple` captures `a`. -/
theorem reSonicSimple_of (s a : List Char) (h : EndsInSonicSimple s a) :
    reSonicSimple s = some a := by
  obtain ⟨pre, e, t, hh, ws, hs, heth, hws, hane, had⟩ := h
  obtain ⟨r2, hr2⟩ := findFirst_isSome matchSonicSimpleAt pre (e :: t :: hh :: (ws ++ a)) a
    (matchSonicSimpleAt_of e t hh ws a heth hws hane had)
  rw [← hs] at hr2
  obtain ⟨pre2, u, hs2, hu⟩ := findFirst_some matchSonicSimpleAt s r2 hr2
  obtain ⟨e2, t2, hh2, ws2, hu2, heth2, hws2, _, hr2d⟩ := matchSonicSimpleAt_some u r2 hu
  obtain ⟨X, c, hX, hc⟩ := last_not_digit hh ws (isEth_not_digit e t hh heth) hws
  obtain ⟨X2, c2, hX2, hc2⟩ := last_not_digit hh2 ws2 (isEth_not_digit e2 t2 hh2 heth2) hws2
  have e1 : s = (pre ++ e :: t :: X) ++ c :: a := by
    rw [hs]
    have : hh :: (ws ++ a) = X ++ c :: a := by
      have := congrArg (fun l => l ++ a) hX
      simpa using this
    simp [this]
  have e2' : s = (pre2 ++ e2 :: t2 :: X2) ++ c2 :: r2 := by
    rw [hs2, hu2]
    have : hh2 :: (ws2 ++ r2) = X2 ++ c2 :: r2 := by
      have := congrArg (fun l => l ++ r2) hX2
      simpa using this
    simp [this]
  have u := split_unique isDigit _ _ a r2 c c2 (e1.symm.trans e2') had hr2d hc hc2
  unfold reSonicSimple
  rw [hr2, u.2.2]

/-- On a text whose leftmost breakout occurrence carries the digits `a`, the pattern
`reSonicBreakout` captures `a`. -/
theorem reSonicBreakout_of (s a : List Char) (h : FirstSonicBreakout s a) :
    reSonicBreakout s = some a := by
  obtain ⟨pre, t, hs, hocc, hfirst⟩ := h
  rw [hs]
  unfold reSonicBreakout
  apply findFirst_leftmost matchSonicBreakoutAt pre t a (matchSonicBreakoutAt_of t a hocc)
  intro p1 p2 hp hne
  cases hm : matchSonicBreakoutAt (p2 ++ t) with
  | none => rfl
  | some a2 => exact absurd (matchSonicBreakoutAt_some _ a2 hm) (hfirst p1 p2 a2 hp hne)

/-- On a text without any breakout occurrence the pattern `reSonicBreakout` fails. -/
theorem reSonicBreakout_none (s : List Char) (h : ¬ ContainsSonicBreakout s) :
    reSonicBreakout s = none := by
  unfold reSonicBreakout
  apply findFirst_none
  intro pre t hs
  cases hm : matchSonicBreakoutAt t with
  | none => rfl
  | some a2 => exact absurd ⟨pre, t, a2, hs, matchSonicBreakoutAt_some _ a2 hm⟩ h

/-- On a text that does not end in `/<digits>:<digits>` the pattern `reColonSub` fails. -/
theorem reColonSub_none (s : List Char) (h : ∀ a, ¬ EndsInColonSub s a) :
    reColonSub s = none := by
  cases hm : reColonSub s with
  | none => rfl
  | some r =>
    obtain ⟨pre, b, hs, h1, h2, h3, h4⟩ := reColonSub_some s r hm
    exact absurd ⟨pre, b, hs, h1, h2, h3, h4⟩ (h r)

/-- A text on which `reColonSub` fails does not end in `/<digits>:<digits>`. -/
theorem not_endsInColonSub (s : List Char) (h : reColonSub s = none) :
    ∀ a, ¬ EndsInColonSub s a := by
  intro a ⟨pre, b, hs, h1, h2, h3, h4⟩
  have := reColonSub_shape pre a b h1 h2 h3 h4
  rw [← hs, h] at this
  exact absurd this (by simp)

/-- A text on which `reSonicBreakout` fails contains no breakout occurrence. -/
theorem not_containsSonicBreakout (s : List Char) (h : reSonicBreakout s = none) :
    ¬ ContainsSonicBreakout s := by
  intro ⟨pre, t, a, hs, hocc⟩
  obtain ⟨r2, hr2⟩ := findFirst_isSome matchSonicBreakoutAt pre t a (matchSonicBreakoutAt_of t a hocc)
  unfold reSonicBreakout at h
  rw [← hs, h] at hr2
  exact absurd hr2 (by simp)

/-! ## Naming and classification: the claims -/

/-- C10. A name that contains `.` is never classified (`GetPhysicalIndex` is not ok, whatever
the alias) and is always ignored; in particular appending `.N` to any name makes it
ignored and unclassified. -/
theorem C10_subinterface_excluded (name al : String) :
    ('.' ∈ name.data →
      (GetPhysicalIndex name al).2 = false ∧ IsIgnoredInterface name = true) ∧
    ∀ n : Nat,
      IsIgnoredInterface (String.mk (name.data ++ '.' :: natDecimal n)) = true ∧
      (GetPhysicalIndex (String.mk (name.data ++ '.' :: natDecimal n)) al).2 = false := by
  constructor
  · intro h
    simp [GetPhysicalIndex, IsIgnoredInterface, h]
  · intro n
    simp [GetPhysicalIndex, IsIgnoredInterface]

/-- Witness of C10: the subinterface `Gi0/0.100`, and `Ethernet48` with `.7` appended. -/
theorem C10_subinterface_excluded_witness :
    '.' ∈ "Gi0/0.100".data ∧
    ((GetPhysicalIndex "Gi0/0.100" "Eth 1/1").2 = false ∧ IsIgnoredInterface "Gi0/0.100" = true) ∧
    IsIgnoredInterface "Ethernet48" = false ∧
    IsIgnoredInterface (String.mk ("Ethernet48".data ++ '.' :: natDecimal 7)) = true :=
  ⟨by decide, (C10_subinterface_excluded "Gi0/0.100" "Eth 1/1").1 (by decide), by decide,
    ((C10_subinterface_excluded "Ethernet48" "").2 7).1⟩

/-- C3, as the code has it. For a name without `.` that ends in `/<digits>:<digits>`,
`GetPhysicalIndex` returns the number written by the digits between `/` and `:`, saturated
at the largest `int` (`2^63 - 1`), and ok, whatever the alias is. -/
theorem C3_colon_breakout_outranks_alias (name al : String) (a : List Char)
    (hdot : '.' ∉ name.data) (hname : EndsInColonSub name.data a) :
    GetPhysicalIndex name al = (min (digitsValue a : Int) maxInt, true) := by
  obtain ⟨pre, b, hs, ha, had, hb, hbd⟩ := hname
  have hre : reColonSub name.data = some a := by
    rw [hs]; exact reColonSub_shape pre a b ha had hb hbd
  unfold GetPhysicalIndex
  simp only [hdot, if_false, hre]
  rw [Atoi_digits a ha had]

/-- Witness of C3: `GetPhysicalIndex("ethernet1/1/11:3", "Eth 1/1") = (11, true)`. -/
theorem C3_colon_breakout_outranks_alias_witness :
    GetPhysicalIndex "ethernet1/1/11:3" "Eth 1/1" = (11, true) :=
  (C3_colon_breakout_outranks_alias "ethernet1/1/11:3" "Eth 1/1" "11".data (by decide)
    ⟨"ethernet1/1".data, "3".data, by decide, by decide, by decide, by decide, by decide⟩).trans
    (by decide)

/-- Counterexample to C3 as stated: the digits between `/` and `:` write `2^63`, the name has no
`.`, and the index returned is `2^63 - 1`, not the number written. -/
theorem C3_counterexample :
    '.' ∉ "ethernet1/9223372036854775808:1".data ∧
    "ethernet1/9223372036854775808:1".data =
      "ethernet1".data ++ '/' :: ("9223372036854775808".data ++ ':' :: "1".data) ∧
    "9223372036854775808".data.all isDigit = true ∧
    digitsValue "9223372036854775808".data = 9223372036854775808 ∧
    GetPhysicalIndex "ethernet1/9223372036854775808:1" "" = (9223372036854775807, true) := by
  decide

/-- C4, as the code has it. For a name without `.` that does not end in
`/<digits>:<digits>`: if the alias contains the breakout pattern `Eth <a> / <b>` (letter
case ignored, white space optional) and `a` are the digits of its leftmost occurrence, the
result is `a`, saturated at the largest `int`, and ok; otherwise, if the alias ends in
`Eth <a>`, the result is again `a`, saturated, and ok.  The name plays no part in either
case. -/
theorem C4_alias_before_name (name al : String)
    (hdot : '.' ∉ name.data) (hcolon : ∀ x, ¬ EndsInColonSub name.data x) :
    (∀ a, FirstSonicBreakout al.data a →
        GetPhysicalIndex name al = (min (digitsValue a : Int) maxInt, true)) ∧
    (∀ a, ¬ ContainsSonicBreakout al.data → EndsInSonicSimple al.data a →
        GetPhysicalIndex name al = (min (digitsValue a : Int) maxInt, true)) := by
  have hre : reColonSub name.data = none := reColonSub_none name.data hcolon
  constructor
  · intro a hfirst
    have hb := reSonicBreakout_of al.data a hfirst
    obtain ⟨pre, t, hs, ⟨e, t2, hh, ws1, ws2, ws3, b, post, ht, _, _, hane, had, _⟩, _⟩ := hfirst
    have hne : al.data ≠ [] := by
      rw [hs, ht]; simp
    unfold GetPhysicalIndex
    simp only [hdot, if_false, hre, aliasDigits, hne, ne_eq, not_false_eq_true, if_true, hb]
    rw [Atoi_digits a hane had]
  · intro a hno hsimple
    have hb := reSonicBreakout_none al.data hno
    have hsi := reSonicSimple_of al.data a hsimple
    obtain ⟨pre, e, t, hh, ws, hs, _, _, hane, had⟩ := hsimple
    have hne : al.data ≠ [] := by
      rw [hs]; simp
    unfold GetPhysicalIndex
    simp only [hdot, if_false, hre, aliasDigits, hne, ne_eq, not_false_eq_true, if_true, hb, hsi]
    rw [Atoi_digits a hane had]

/-- Witness of C4: `GetPhysicalIndex("Ethernet48", "Eth 13/1") = (13, true)`, not 48, and
`GetPhysicalIndex("Ethernet48", "uplink eth 7") = (7, true)`. -/
theorem C4_alias_before_name_witness :
    GetPhysicalIndex "Ethernet48" "Eth 13/1" = (13, true) ∧
    GetPhysicalIndex "Ethernet48" "uplink eth 7" = (7, true) :=
  ⟨((C4_alias_before_name "Ethernet48" "Eth 13/1" (by decide)
      (not_endsInColonSub _ (by decide))).1 "13".data
      ⟨[], "Eth 13/1".data, by decide,
        ⟨'E', 't', 'h', " ".data, [], [], "1".data, [], by decide, by decide, by decide,
          by decide, by decide, by decide, by decide, by decide, by decide⟩,
        fun p1 p2 _ hp hne => absurd (List.append_eq_nil.mp hp.symm).2 hne⟩).trans (by decide),
   ((C4_alias_before_name "Ethernet48" "uplink eth 7" (by decide)
      (not_endsInColonSub _ (by decide))).2 "7".data
      (not_containsSonicBreakout _ (by decide))
      ⟨"uplink ".data, 'e', 't', 'h', " ".data, by decide, by decide, by decide, by decide,
        by decide⟩).trans (by decide)⟩

/-- Counterexample to C4 as stated.  First, digits `a` that write `2^63`: the index
returned is `2^63 - 1`.  Second, an alias that contains `Eth 2/2` after `Eth 1/1`: the index
returned is 1, the digits of the leftmost occurrence, not 2. -/
theorem C4_counterexample :
    ('.' ∉ "Ethernet48".data ∧ (∀ x, ¬ EndsInColonSub "Ethernet48".data x)) ∧
    (SonicBreakoutAt "Eth 9223372036854775808/1".data "9223372036854775808".data ∧
      digitsValue "9223372036854775808".data = 9223372036854775808 ∧
      GetPhysicalIndex "Ethernet48" "Eth 9223372036854775808/1" = (9223372036854775807, true)) ∧
    ("Eth 1/1 Eth 2/2".data = "Eth 1/1 ".data ++ "Eth 2/2".data ∧
      SonicBreakoutAt "Eth 2/2".data "2".data ∧
      GetPhysicalIndex "Ethernet48" "Eth 1/1 Eth 2/2" = (1, true)) :=
  ⟨⟨by decide, not_endsInColonSub _ (by decide)⟩,
   ⟨⟨'E', 't', 'h', " ".data, [], [], "1".data, [], by decide, by decide, by decide,
      by decide, by decide, by decide, by decide, by decide, by decide⟩, by decide, by decide⟩,
   ⟨by decide,
    ⟨'E', 't', 'h', " ".data, [], [], "2".data, [], by decide, by decide, by decide,
      by decide, by decide, by decide, by decide, by decide, by decide⟩, by decide⟩⟩

/-! ## Lemmas on the view mapper -/

theorem strLe_total (a b : List Char) : strLe a b = true ∨ strLe b a = true := by
  induction a generalizing b with
  | nil => left; cases b <;> rfl
  | cons x xs ih =>
    cases b with
    | nil => right; rfl
    | cons y ys =>
      simp only [strLe]
      rcases Nat.lt_trichotomy x.toNat y.toNat with h | h | h
      · left; simp [h]
      · have h2 : ¬ (y.toNat < x.toNat) := by omega
        have h3 : ¬ (x.toNat < y.toNat) := by omega
        rw [if_neg h3, if_pos h, if_neg h2, if_pos h.symm]
        exact ih ys
      · right; simp [h]

theorem strLe_trans (a b c : List Char) (h1 : strLe a b = true) (h2 : strLe b c = true) :
    strLe a c = true := by
  induction a generalizing b c with
  | nil => cases c <;> rfl
  | cons x xs ih =>
    cases b with
    | nil => simp [strLe] at h1
    | cons y ys =>
      cases c with
      | nil => simp [strLe] at h2
      | cons z zs =>
        simp only [strLe] at h1 h2 ⊢
        rcases Nat.lt_trichotomy x.toNat y.toNat with hxy | hxy | hxy
        · rcases Nat.lt_trichotomy y.toNat z.toNat with hyz | hyz | hyz
          · have : x.toNat < z.toNat := by omega
            rw [if_pos this]
          · have : x.toNat < z.toNat := by omega
            rw [if_pos this]
          · have a1 : ¬ y.toNat < z.toNat := by omega
            have a2 : ¬ y.toNat = z.toNat := by omega
            rw [if_neg a1, if_neg a2] at h2
            exact absurd h2 (by decide)
        · have b1 : ¬ x.toNat < y.toNat := by omega
          rw [if_neg b1, if_pos hxy] at h1
          rcases Nat.lt_trichotomy y.toNat z.toNat with hyz | hyz | hyz
          · have : x.toNat < z.toNat := by omega
            rw [if_pos this]
          · have c1 : ¬ y.toNat < z.toNat := by omega
            rw [if_neg c1, if_pos hyz] at h2
            have c2 : ¬ x.toNat < z.toNat := by omega
            have c3 : x.toNat = z.toNat := by omega
            rw [if_neg c2, if_pos c3]
            exact ih ys zs h1 h2
          · have a1 : ¬ y.toNat < z.toNat := by omega
            have a2 : ¬ y.toNat = z.toNat := by omega
            rw [if_neg a1, if_neg a2] at h2
            exact absurd h2 (by decide)
        · have a1 : ¬ x.toNat < y.toNat := by omega
          have a2 : ¬ x.toNat = y.toNat := by omega
          rw [if_neg a1, if_neg a2] at h1
          exact absurd h1 (by decide)

/-- The rows `sortByIfName` returns are the given rows, rearranged and ascending by name. -/
theorem sortByIfName_spec (l : List SNMPResult) :
    (sortByIfName l).Perm l ∧ (sortByIfName l).Sorted nameLe := by
  haveI : IsTotal SNMPResult nameLe := ⟨fun a b => strLe_total _ _⟩
  haveI : IsTrans SNMPResult nameLe := ⟨fun a b c => strLe_trans _ _ _⟩
  exact ⟨List.perm_insertionSort nameLe l, List.sorted_insertionSort nameLe l⟩

theorem groupStep_apply (allow : Bool) (m : Int → Option (List SNMPResult)) (res : SNMPResult)
    (idx : Int) :
    groupStep allow m res idx =
      if classifiesTo allow idx res = true then some ((m idx).getD [] ++ [res]) else m idx := by
  unfold groupStep classifiesTo
  by_cases h1 : IsIgnoredInterface res.IfName = true
  · simp [h1]
  · by_cases h2 : (GetPhysicalIndex res.IfName res.IfAlias).2 = true
    · by_cases h3 : (GetPhysicalIndex res.IfName res.IfAlias).1 = 0 ∧ allow = false
      · simp only [h1, h2, h3, and_self, if_true]
        by_cases h4 : (0 : Int) = idx
        · simp [← h4, h3.2]
        · simp [h4]
      · simp only [h1, h2, h3, if_false, if_true, mapSet]
        by_cases h4 : idx = (GetPhysicalIndex res.IfName res.IfAlias).1
        · have h5 : ¬ (idx = 0 ∧ allow = false) := by rw [h4]; exact h3
          have h6 : (decide (idx = 0) && !allow) = false := by
            cases hz : decide (idx = 0) <;> cases ha : allow <;> simp_all
          simp [mapSet, ← h4, h6]
        · have h5 : ¬ ((GetPhysicalIndex res.IfName res.IfAlias).1 = idx) := fun h => h4 h.symm
          simp [mapSet, h4, h5]
    · simp [h1, h2]

theorem foldl_groupStep (allow : Bool) (rows : List SNMPResult)
    (m : Int → Option (List SNMPResult)) (idx : Int) :
    rows.foldl (groupStep allow) m idx =
      if rows.filter (classifiesTo allow idx) = [] then m idx
      else some ((m idx).getD [] ++ rows.filter (classifiesTo allow idx)) := by
  induction rows generalizing m with
  | nil => simp
  | cons r rs ih =>
    simp only [List.foldl_cons]
    rw [ih, groupStep_apply]
    by_cases hc : classifiesTo allow idx r = true
    · simp only [hc, if_true, List.filter_cons_of_pos, Option.getD_some]
      by_cases hf : rs.filter (classifiesTo allow idx) = []
      · simp [hf]
      · simp [hf]
    · rw [List.filter_cons_of_neg hc]
      simp [hc]

/-- The map `snmpByPhyIdx` holds, for every index, the rows that classify to it, in the order
of the poll result, and no entry for an index without rows. -/
theorem snmpByPhyIdx_eq (rows : List SNMPResult) (allow : Bool) (idx : Int) :
    snmpByPhyIdx rows allow idx =
      if rowsAt rows allow idx = [] then none else some (rowsAt rows allow idx) := by
  unfold snmpByPhyIdx rowsAt
  rw [foldl_groupStep]
  simp

theorem sectionPorts_eq (m : Int → Option (List SNMPResult)) (allow : Bool) (sec : PortSection)
    (indices : List Int) :
    sectionPorts m allow sec indices =
      (indices.filter (fun idx => !(decide (idx = 0) && !allow))).map
        (fun idx => portEntry sec idx (m idx)) := by
  induction indices with
  | nil => rfl
  | cons idx rest ih =>
    unfold sectionPorts
    by_cases h : idx = 0 ∧ allow = false
    · have : (!(decide (idx = 0) && !allow)) = false := by simp [h.1, h.2]
      rw [if_pos h, ih, List.filter_cons_of_neg (by simp [this])]
    · have : (!(decide (idx = 0) && !allow)) = true := by
        cases hz : decide (idx = 0) <;> cases ha : allow <;> simp_all
      rw [if_neg h, ih, List.filter_cons_of_pos (by simp [this])]
      rfl

/-- What `mapSections` returns, section by section. -/
theorem mapSections_some (m : Int → Option (List SNMPResult)) (allow : Bool)
    (secs views : List PortSection) (h : mapSections m allow secs = some views) :
    List.Forall₂ (fun sec v => ∃ indices, parsePortRanges sec.PortRanges = some indices ∧
      v = { sec with Ports := sectionPorts m allow sec indices }) secs views := by
  induction secs generalizing views with
  | nil =>
    simp only [mapSections, Option.some.injEq] at h
    rw [← h]; exact List.Forall₂.nil
  | cons sec rest ih =>
    unfold mapSections at h
    cases hp : parsePortRanges sec.PortRanges with
    | none => rw [hp] at h; simp at h
    | some indices =>
      rw [hp] at h
      cases hr : mapSections m allow rest with
      | none => rw [hr] at h; simp at h
      | some vs =>
        rw [hr] at h
        simp only [Option.some.injEq] at h
        rw [← h]
        exact List.Forall₂.cons ⟨indices, hp, rfl⟩ (ih vs hr)

/-- `mapSections` returns as soon as every range expression expands. -/
theorem mapSections_isSome (m : Int → Option (List SNMPResult)) (allow : Bool)
    (secs : List PortSection) (h : ∀ sec ∈ secs, parsePortRanges sec.PortRanges ≠ none) :
    ∃ views, mapSections m allow secs = some views := by
  induction secs with
  | nil => exact ⟨[], rfl⟩
  | cons sec rest ih =>
    obtain ⟨vs, hvs⟩ := ih (fun s hs => h s (List.mem_cons_of_mem _ hs))
    cases hp : parsePortRanges sec.PortRanges with
    | none => exact absurd hp (h sec (by simp))
    | some indices =>
      exact ⟨_, by unfold mapSections; rw [hp, hvs]⟩

/-- The entry of an index is the placeholder, a single port or a breakout parent,
according to the number of rows that classify to the index. -/
theorem portEntry_rowsAt (sec : PortSection) (idx : Int) (rows : List SNMPResult) (allow : Bool) :
    (rowsAt rows allow idx = [] →
      portEntry sec idx (snmpByPhyIdx rows allow idx) = placeholder sec idx) ∧
    (∀ r, rowsAt rows allow idx = [r] →
      portEntry sec idx (snmpByPhyIdx rows allow idx) = createPortStatus idx sec.PortType r false) ∧
    (2 ≤ (rowsAt rows allow idx).length →
      portEntry sec idx (snmpByPhyIdx rows allow idx) =
        { PhysicalIndex := idx, PortType := sec.PortType, Status := "UP", IsBreakout := true,
          IfName := String.mk ("Port ".data ++ Itoa idx ++ " (Breakout)".data),
          BreakoutPorts := (sortByIfName (rowsAt rows allow idx)).map
            (fun subRes => createPortStatus idx sec.PortType subRes true) }) := by
  rw [snmpByPhyIdx_eq]
  refine ⟨?_, ?_, ?_⟩
  · intro h
    simp [h, portEntry, placeholder]
  · intro r h
    simp [h, portEntry]
  · intro h
    cases hr : rowsAt rows allow idx with
    | nil => rw [hr] at h; simp at h
    | cons r rest =>
      cases rest with
      | nil => rw [hr] at h; simp at h
      | cons r2 rs => simp [portEntry]

theorem portEntry_index (sec : PortSection) (idx : Int) (l : Option (List SNMPResult)) :
    (portEntry sec idx l).PhysicalIndex = idx := by
  unfold portEntry
  split <;> rfl

theorem forall₂_map_of {α β : Type} (f : α → β) (P : α → β → Prop) (l : List α)
    (h : ∀ a ∈ l, P a (f a)) : List.Forall₂ P l (l.map f) := by
  induction l with
  | nil => exact List.Forall₂.nil
  | cons a rest ih =>
    exact List.Forall₂.cons (h a (by simp)) (ih (fun b hb => h b (List.mem_cons_of_mem _ hb)))

/-- The view, section by section: the section is copied, and its ports are the entries of
the expanded indices that pass the port-zero guard, in the order of the expansion. -/
theorem mapConfigToView_some (config : SwitchConfig) (rows : List SNMPResult) (allow : Bool)
    (views : List PortSection) (h : mapConfigToView config rows allow = some views) :
    List.Forall₂ (fun sec v => ∃ indices, parsePortRanges sec.PortRanges = some indices ∧
      v.Ports = (indices.filter (fun idx => !(decide (idx = 0) && !allow))).map
          (fun idx => portEntry sec idx (snmpByPhyIdx rows allow idx)) ∧
      v = { sec with Ports := v.Ports })
      config.Sections views := by
  have := mapSections_some _ allow _ views h
  refine List.Forall₂.imp ?_ this
  intro sec v ⟨indices, h1, h2⟩
  exact ⟨indices, h1, by rw [h2, sectionPorts_eq], by rw [h2]⟩

/-! ## View mapper and config synthesizer: the claims -/

/-- C7, as the code has it. When the expansion of every section's range expression returns,
`mapConfigToView` returns a view in which every index a section owns, other than index 0
when port zero is not allowed, has an entry, in the order of the expansion; the entry is a
breakout parent exactly when two or more non-ignored rows classify to the index; the parent
has status "UP", `is_breakout` true, the section's port type and the name
`Port <idx> (Breakout)`, and its children are the child port statuses of exactly those
rows, rearranged into ascending order of `ifName`; with exactly one such row the entry is
the non-breakout port status of that row. -/
theorem C7_breakout_parent (config : SwitchConfig) (rows : List SNMPResult) (allow : Bool)
    (hexp : ∀ sec ∈ config.Sections, parsePortRanges sec.PortRanges ≠ none) :
    ∃ views, mapConfigToView config rows allow = some views ∧
      List.Forall₂ (fun sec v => ∃ indices, parsePortRanges sec.PortRanges = some indices ∧
        List.Forall₂ (IsEntryOf rows allow sec) (ownedIndices allow indices) v.Ports)
        config.Sections views := by
  obtain ⟨views, h⟩ := mapSections_isSome (snmpByPhyIdx rows allow) allow config.Sections hexp
  refine ⟨views, h, ?_⟩
  refine List.Forall₂.imp ?_ (mapConfigToView_some config rows allow views h)
  intro sec v ⟨indices, h1, h2, _⟩
  refine ⟨indices, h1, ?_⟩
  rw [h2]
  apply forall₂_map_of
  intro idx _
  obtain ⟨e0, e1, e2⟩ := portEntry_rowsAt sec idx rows allow
  refine ⟨portEntry_index _ _ _, ?_, ?_, ?_⟩
  · constructor
    · intro hb
      by_contra hlt
      have hlen : (rowsAt rows allow idx).length = 0 ∨ (rowsAt rows allow idx).length = 1 := by
        omega
      rcases hlen with h0 | h1'
      · rw [e0 (List.length_eq_zero.mp h0)] at hb
        simp [placeholder] at hb
      · obtain ⟨r, hr⟩ := List.length_eq_one.mp h1'
        rw [e1 r hr] at hb
        simp [createPortStatus] at hb
    · intro hlen
      rw [e2 hlen]
  · intro hlen
    rw [e2 hlen]
    exact ⟨rfl, rfl, rfl, sortByIfName (rowsAt rows allow idx),
      (sortByIfName_spec _).1, (sortByIfName_spec _).2, rfl⟩
  · intro r hr
    exact e1 r hr

/-- Witness of C7: the four rows `Ethernet48` to `Ethernet51` with the aliases `Eth 13/1` to
`Eth 13/4`, polled in another order, in a QSFP28 section that owns port 13, give one parent
with four children in `ifName` order. -/
theorem C7_breakout_parent_witness :
    (∀ sec ∈ sonicConfig.Sections, parsePortRanges sec.PortRanges ≠ none) ∧
    (mapConfigToView sonicConfig sonicRows false).map (fun views => views.map
      (fun v => v.Ports.map (fun p => (p.PhysicalIndex, p.IfName, p.Status, p.IsBreakout,
        p.BreakoutPorts.map (fun c => (c.IfName, c.PortType, c.Status)))))) =
      some [[(13, "Port 13 (Breakout)", "UP", true,
          [("Ethernet48", "SFP28", "UP"), ("Ethernet49", "SFP28", "UP"),
           ("Ethernet50", "SFP28", "DOWN"), ("Ethernet51", "SFP28", "DOWN")])]] ∧
    ∃ views, mapConfigToView sonicConfig sonicRows false = some views ∧
      List.Forall₂ (fun sec v => ∃ indices, parsePortRanges sec.PortRanges = some indices ∧
        List.Forall₂ (IsEntryOf sonicRows false sec) (ownedIndices false indices) v.Ports)
        sonicConfig.Sections views :=
  ⟨by decide, rfl, C7_breakout_parent sonicConfig sonicRows false (by decide)⟩

/-- Counterexample to C7 as stated.  The section owns index 0 and two non-ignored rows
classify to 0, but with port zero not allowed the view has no entry for index 0 at all,
hence no breakout parent; with port zero allowed the parent is there.  And a section with
the ranges `13, 1-9223372036854775807` owns index 13, to which four rows classify, but
there is no view and so no entry for 13: the expansion of the second item does not
return. -/
theorem C7_counterexample :
    ((IsIgnoredInterface "Ethernet0" = false ∧ GetPhysicalIndex "Ethernet0" "" = (0, true)) ∧
      (IsIgnoredInterface "GigabitEthernet0" = false ∧
        GetPhysicalIndex "GigabitEthernet0" "" = (0, true)) ∧
      parsePortRanges "0-2" = some [0, 1, 2] ∧
      (mapConfigToView zeroConfig twoZeroRows false).map
        (fun views => views.map (fun v => v.Ports.map (fun p => (p.PhysicalIndex, p.IsBreakout)))) =
        some [[(1, false), (2, false)]] ∧
      (mapConfigToView zeroConfig twoZeroRows true).map
        (fun views => views.map (fun v => v.Ports.map (fun p => (p.PhysicalIndex, p.IsBreakout)))) =
        some [[(0, true), (1, false), (2, false)]]) ∧
    ((rowsAt sonicRows false 13).length = 4 ∧
      (mapConfigToView
        { Sections := [{ PortType := "QSFP28", PortRanges := "13, 1-9223372036854775807" }] }
        sonicRows false).isNone = true) :=
  ⟨⟨by decide, by decide, by decide, rfl, rfl⟩, by decide, rfl⟩

/-- An item of a range expression has no expansion exactly when it is a range `A-B` that
`parsePortRanges` accepts and whose `B` is the largest `int`. -/
theorem parsePart_none_iff (part : List Char) :
    parsePart part = none ↔
      ∃ a b, Split '-' (TrimSpace part) = [a, b] ∧ TrimSpace part ≠ [] ∧
        '-' ∈ TrimSpace part ∧ (Atoi (TrimSpace a)).2 = true ∧ (Atoi (TrimSpace b)).2 = true ∧
        (Atoi (TrimSpace a)).1 ≤ (Atoi (TrimSpace b)).1 ∧ (Atoi (TrimSpace b)).1 = maxInt := by
  unfold parsePart
  constructor
  · intro h
    split_ifs at h with h1 h2 h3
    split at h
    · rename_i a b hs
      split_ifs at h with h4
      unfold expandRange at h
      split_ifs at h with h5
      exact ⟨a, b, hs, h1, h2, h4.1, h4.2.1, h4.2.2, h5⟩
    · exact absurd h (by simp)
  · rintro ⟨a, b, hs, h1, h2, h3, h4, h5, h6⟩
    rw [if_neg h1, if_pos h2, hs]
    simp only
    rw [if_pos ⟨h3, h4, h5⟩]
    unfold expandRange
    rw [if_pos h6]

/-- C8, as the code has it. When the expansion of every section's range expression returns,
`mapConfigToView` returns one section per layout section, in the same order and with the
section's own fields; the port list of a section has exactly one entry for each index of
the expansion, in the order of the expansion, except that index 0 has no entry when port
zero is not allowed; an index to which no non-ignored row classifies yields the
placeholder. -/
theorem C8_view_structure (config : SwitchConfig) (rows : List SNMPResult) (allow : Bool)
    (hexp : ∀ sec ∈ config.Sections, parsePortRanges sec.PortRanges ≠ none) :
    ∃ views, mapConfigToView config rows allow = some views ∧
      views.length = config.Sections.length ∧
      List.Forall₂ (fun sec v =>
        v = { sec with Ports := v.Ports } ∧
        ∃ indices, parsePortRanges sec.PortRanges = some indices ∧
          List.Forall₂ (fun idx p => p.PhysicalIndex = idx ∧
              (rowsAt rows allow idx = [] → p = placeholder sec idx))
            (ownedIndices allow indices) v.Ports)
        config.Sections views := by
  obtain ⟨views, hv⟩ := mapSections_isSome (snmpByPhyIdx rows allow) allow config.Sections hexp
  have hf := mapConfigToView_some config rows allow views hv
  refine ⟨views, hv, hf.length_eq.symm, List.Forall₂.imp ?_ hf⟩
  intro sec v ⟨indices, h1, h2, h3⟩
  refine ⟨h3, indices, h1, ?_⟩
  rw [h2]
  apply forall₂_map_of
  intro idx _
  exact ⟨portEntry_index _ _ _, (portEntry_rowsAt sec idx rows allow).1⟩

/-- Witness of C8: the layout with the range `0-2`, port zero allowed, and a poll result
without a row for port 1. -/
theorem C8_view_structure_witness :
    (∀ sec ∈ zeroConfig.Sections, parsePortRanges sec.PortRanges ≠ none) ∧
    (mapConfigToView zeroConfig zeroRows true).map
      (fun views => views.map (fun v => v.Ports.map
        (fun p => (p.PhysicalIndex, p.PortType, p.Status, p.IfName)))) =
      some [[(0, "RJ45", "UP", "Ethernet0"), (1, "RJ45", "DOWN", "Port 1"),
             (2, "RJ45", "UP", "Ethernet2")]] ∧
    ∃ views, mapConfigToView zeroConfig zeroRows true = some views ∧
      views.length = zeroConfig.Sections.length ∧
      List.Forall₂ (fun sec v =>
        v = { sec with Ports := v.Ports } ∧
        ∃ indices, parsePortRanges sec.PortRanges = some indices ∧
          List.Forall₂ (fun idx p => p.PhysicalIndex = idx ∧
              (rowsAt zeroRows true idx = [] → p = placeholder sec idx))
            (ownedIndices true indices) v.Ports)
        zeroConfig.Sections views :=
  ⟨by decide, rfl, C8_view_structure zeroConfig zeroRows true (by decide)⟩

/-- Counterexample to C8 as stated.  With port zero not allowed, the section with the range
`0-2` expands to the indices 0, 1, 2 but its port list has entries for 1 and 2 only; and a
section whose range ends at the largest `int` has no view at all, because its expansion
does not return. -/
theorem C8_counterexample :
    (parsePortRanges "0-2" = some [0, 1, 2] ∧
      (mapConfigToView zeroConfig zeroRows false).map
        (fun views => views.map (fun v => v.Ports.map (fun p => p.PhysicalIndex))) =
        some [[1, 2]]) ∧
    (mapConfigToView
      { Sections := [{ PortType := "RJ45", PortRanges := "1-9223372036854775807" }] }
      zeroRows true).isNone = true :=
  ⟨⟨by decide, rfl⟩, rfl⟩

theorem forall₂_mem_right {α β : Type} (R : α → β → Prop) (l1 : List α) (l2 : List β)
    (h : List.Forall₂ R l1 l2) : ∀ b ∈ l2, ∃ a ∈ l1, R a b := by
  induction h with
  | nil => intro b hb; simp at hb
  | cons hab _ ih =>
    intro b hb
    rcases List.mem_cons.mp hb with hb1 | hb2
    · exact ⟨_, by simp, hb1 ▸ hab⟩
    · obtain ⟨a, ha, hr⟩ := ih b hb2
      exact ⟨a, List.mem_cons_of_mem _ ha, hr⟩

theorem portEntry_children (sec : PortSection) (idx : Int) (l : Option (List SNMPResult)) :
    ∀ c ∈ (portEntry sec idx l).BreakoutPorts, c.PhysicalIndex = idx ∧ c.BreakoutPorts = [] := by
  intro c hc
  unfold portEntry at hc
  split at hc
  · simp at hc
  · simp at hc
  · simp [createPortStatus] at hc
  · simp only [List.mem_map] at hc
    obtain ⟨r, _, hr⟩ := hc
    rw [← hr]
    exact ⟨rfl, rfl⟩

theorem mem_uniqueLoop (prev x : Int) (l : List Int) (h : x ∈ uniqueLoop prev l) : x ∈ l := by
  induction l generalizing prev with
  | nil => simp [uniqueLoop] at h
  | cons y ys ih =>
    unfold uniqueLoop at h
    split_ifs at h with hne
    · rcases List.mem_cons.mp h with h1 | h2
      · simp [h1]
      · exact List.mem_cons_of_mem _ (ih y h2)
    · exact List.mem_cons_of_mem _ (ih y h)

theorem mem_sortInts (x : Int) (l : List Int) : x ∈ sortInts l ↔ x ∈ l :=
  (List.perm_insertionSort _ l).mem_iff

/-- Every index the synthesizer keeps is an index it collected. -/
theorem mem_uniqueIndices (x : Int) (l : List Int) (h : x ∈ uniqueIndices l) : x ∈ l := by
  unfold uniqueIndices at h
  split at h
  · simp at h
  · rename_i y rest hs
    rw [← mem_sortInts, hs]
    rcases List.mem_cons.mp h with h1 | h2
    · simp [h1]
    · exact List.mem_cons_of_mem _ (mem_uniqueLoop y x rest h2)

theorem collectPhyIndices_cons (allow : Bool) (r : SNMPResult) (rest : List SNMPResult) :
    collectPhyIndices allow (r :: rest) =
      (if classifiesTo allow (GetPhysicalIndex r.IfName r.IfAlias).1 r = true then
        [(GetPhysicalIndex r.IfName r.IfAlias).1] else []) ++ collectPhyIndices allow rest := by
  cases hi : IsIgnoredInterface r.IfName <;>
    cases ho : (GetPhysicalIndex r.IfName r.IfAlias).2 <;>
    cases ha : allow <;>
    by_cases hz : (GetPhysicalIndex r.IfName r.IfAlias).1 = 0 <;>
    simp [collectPhyIndices, classifiesTo, hi, ho, hz]

theorem classifiesTo_iff (allow : Bool) (x : Int) (r : SNMPResult) :
    classifiesTo allow x r = true ↔
      classifiesTo allow (GetPhysicalIndex r.IfName r.IfAlias).1 r = true ∧
        x = (GetPhysicalIndex r.IfName r.IfAlias).1 := by
  constructor
  · intro h
    have hx : (GetPhysicalIndex r.IfName r.IfAlias).1 = x := by
      unfold classifiesTo at h
      simp only [Bool.and_eq_true, decide_eq_true_eq] at h
      exact h.1.2
    rw [hx]
    exact ⟨h, rfl⟩
  · intro ⟨h, hx⟩
    rw [hx]; exact h

/-- The indices the synthesizer collects are the indices to which a row classifies. -/
theorem mem_collectPhyIndices (allow : Bool) (x : Int) (rows : List SNMPResult) :
    x ∈ collectPhyIndices allow rows ↔ ∃ r ∈ rows, classifiesTo allow x r = true := by
  induction rows with
  | nil => simp [collectPhyIndices]
  | cons r rest ih =>
    rw [collectPhyIndices_cons, List.mem_append, ih, List.exists_mem_cons_iff,
      classifiesTo_iff allow x r]
    by_cases hc : classifiesTo allow (GetPhysicalIndex r.IfName r.IfAlias).1 r = true
    · simp [hc]
    · simp [hc]

/-- C9. When `allow_port_zero` is false, no port of the view `mapConfigToView` returns has
physical index 0, neither a port built from a row, nor a placeholder, nor a breakout parent
or one of its children (and children have no children); and 0 is not among the indices the
config synthesizer writes into `port_ranges`. -/
theorem C9_no_port_zero (config : SwitchConfig) (rows : List SNMPResult) :
    (∀ views, mapConfigToView config rows false = some views →
      ∀ v ∈ views, ∀ p ∈ v.Ports, p.PhysicalIndex ≠ 0 ∧
        ∀ c ∈ p.BreakoutPorts, c.PhysicalIndex ≠ 0 ∧ c.BreakoutPorts = []) ∧
    0 ∉ uniqueIndices (collectPhyIndices false rows) ∧
    (∀ cfg maxPort, GenerateConfigFromSNMP rows false = Except.ok (cfg, maxPort) →
      cfg.Sections.map (fun sec => sec.PortRanges) =
        [indicesToRangeString (uniqueIndices (collectPhyIndices false rows))]) := by
  refine ⟨?_, ?_, ?_⟩
  · intro views h v hv p hp
    obtain ⟨sec, _, indices, _, hports, _⟩ :=
      forall₂_mem_right _ _ _ (mapConfigToView_some config rows false views h) v hv
    rw [hports] at hp
    obtain ⟨idx, hidx, hpe⟩ := List.mem_map.mp hp
    have hne : idx ≠ 0 := by
      have := (List.mem_filter.mp hidx).2
      simpa using this
    rw [← hpe]
    refine ⟨by rw [portEntry_index]; exact hne, ?_⟩
    intro c hc
    obtain ⟨h1, h2⟩ := portEntry_children _ _ _ c hc
    exact ⟨by rw [h1]; exact hne, h2⟩
  · intro h0
    obtain ⟨r, _, hr⟩ := (mem_collectPhyIndices false 0 rows).mp (mem_uniqueIndices 0 _ h0)
    simp [classifiesTo] at hr
  · intro cfg maxPort h
    unfold GenerateConfigFromSNMP at h
    split_ifs at h with hempty
    simp only [Except.ok.injEq, Prod.mk.injEq] at h
    rw [← h.1]
    rfl

/-- Witness of C9: with the layout `0-2`, a row that classifies to 0 and port zero not
allowed, the view has the ports 1 and 2 only, and the synthesizer writes the range `2`. -/
theorem C9_no_port_zero_witness :
    (mapConfigToView zeroConfig zeroRows false = some ((mapConfigToView zeroConfig zeroRows false).getD []) ∧
     ∀ v ∈ (mapConfigToView zeroConfig zeroRows false).getD [], ∀ p ∈ v.Ports,
        p.PhysicalIndex ≠ 0 ∧ ∀ c ∈ p.BreakoutPorts, c.PhysicalIndex ≠ 0 ∧ c.BreakoutPorts = []) ∧
    uniqueIndices (collectPhyIndices false zeroRows) = [2] ∧
    uniqueIndices (collectPhyIndices true zeroRows) = [0, 2] ∧
    (GenerateConfigFromSNMP zeroRows false).toOption.map
      (fun r => (r.1.Sections.map (fun sec => sec.PortRanges), r.2)) = some (["2"], 2) :=
  ⟨⟨rfl, (C9_no_port_zero zeroConfig zeroRows).1 _ rfl⟩, by decide, by decide, by decide⟩

/-! ## Lemmas on the reconciliation -/

theorem attachDOM_fields (env : PollEnv) (res : SNMPResult) :
    (attachDOM env res).IfIndex = res.IfIndex ∧ (attachDOM env res).VlanID = res.VlanID ∧
    (attachDOM env res).AllowedVlans = res.AllowedVlans ∧
    (attachDOM env res).InRate = res.InRate ∧ (attachDOM env res).OutRate = res.OutRate := by
  unfold attachDOM
  split_ifs
  · split <;> exact ⟨rfl, rfl, rfl, rfl, rfl⟩
  · exact ⟨rfl, rfl, rfl, rfl, rfl⟩

theorem isTrunk_congr (env : PollEnv) (r1 r2 : SNMPResult) (h : r1.IfIndex = r2.IfIndex) :
    isTrunk env r1 = isTrunk env r2 := by
  unfold isTrunk
  rw [h]

/-- The mode and the index of the row after the vendor tables. -/
theorem vendorRow_mode (env : PollEnv) (cache : TrafficCache) (idx : Int) (res : SNMPResult) :
    (vendorRow env cache idx res).IfIndex = res.IfIndex ∧
    (vendorRow env cache idx res).Mode = if isTrunk env res = true then "trunk" else "access" := by
  have hi := (attachDOM_fields env
    { res with InRate := (rowRates env cache idx res).1, OutRate := (rowRates env cache idx res).2 }).1
  have ht : isTrunk env (attachDOM env
      { res with InRate := (rowRates env cache idx res).1,
                 OutRate := (rowRates env cache idx res).2 }) = isTrunk env res :=
    isTrunk_congr env _ _ hi
  unfold vendorRow applyVendorTables
  rw [ht]
  by_cases h : isTrunk env res = true
  · simp only [h, if_true]
    exact ⟨hi, rfl⟩
  · simp only [h, if_false]
    exact ⟨hi, rfl⟩

theorem applyQBridge_fields (env : PollEnv) (res : SNMPResult) :
    (applyQBridge env res).IfIndex = res.IfIndex ∧ (applyQBridge env res).Mode = res.Mode ∧
    (applyQBridge env res).InRate = res.InRate ∧ (applyQBridge env res).OutRate = res.OutRate := by
  unfold applyQBridge
  split_ifs
  · split <;> exact ⟨rfl, rfl, rfl, rfl⟩
  · exact ⟨rfl, rfl, rfl, rfl⟩

/-- The mode and the index of the row stored in `finalResults`. -/
theorem reconcileRow_mode (env : PollEnv) (cache : TrafficCache) (idx : Int) (res : SNMPResult) :
    (reconcileRow env cache idx res).IfIndex = res.IfIndex ∧
    (reconcileRow env cache idx res).Mode = if isTrunk env res = true then "trunk" else "access" := by
  have h1 := applyQBridge_fields env (vendorRow env cache idx res)
  have h2 := vendorRow_mode env cache idx res
  unfold reconcileRow
  exact ⟨h1.1.trans h2.1, h1.2.1.trans h2.2⟩

/-- Every entry of `finalResults` is the reconciled row of a raw row with a non-empty name,
stored under the decimal string of that row's key. -/
theorem mem_reconcileLoop (env : PollEnv) (cache : TrafficCache) (raw : List (Int × SNMPResult))
    (e : String × SNMPResult) (h : e ∈ (reconcileLoop env cache raw).2) :
    ∃ idx res c, (idx, res) ∈ raw ∧ res.IfName.data ≠ [] ∧
      e = (String.mk (Itoa idx), reconcileRow env c idx res) := by
  induction raw generalizing cache with
  | nil => simp [reconcileLoop] at h
  | cons x rest ih =>
    obtain ⟨idx, res⟩ := x
    unfold reconcileLoop at h
    split_ifs at h with hname
    · obtain ⟨i2, r2, c, hm, hn, he⟩ := ih cache h
      exact ⟨i2, r2, c, List.mem_cons_of_mem _ hm, hn, he⟩
    · rcases List.mem_cons.mp h with h1 | h2
      · exact ⟨idx, res, cache, by simp, hname, h1⟩
      · obtain ⟨i2, r2, c, hm, hn, he⟩ := ih _ h2
        exact ⟨i2, r2, c, List.mem_cons_of_mem _ hm, hn, he⟩

theorem walkVlanBitmapStep_isSome (oid : String) (offset : Int) (m : Int → Option (List Int))
    (pdu : SnmpPDU) (idx : Int) :
    (walkVlanBitmapStep oid offset m pdu idx).isSome = true ↔
      (m idx).isSome = true ∨
        (extractIndex pdu.Name oid = idx ∧ 0 < idx ∧ ∃ bytes, pdu.Value = PduValue.octets bytes) := by
  unfold walkVlanBitmapStep
  by_cases hpos : 0 < extractIndex pdu.Name oid
  · simp only [hpos, if_true]
    cases hv : pdu.Value with
    | octets bytes =>
      simp only [mapSet]
      by_cases hi : idx = extractIndex pdu.Name oid
      · simp [hi, hpos]
      · have hi2 : ¬ (extractIndex pdu.Name oid = idx) := fun h => hi h.symm
        simp [hi, hi2]
    | number n => simp
    | other => simp
  · simp only [hpos, if_false]
    constructor
    · intro h; exact Or.inl h
    · rintro (h | ⟨h1, h2, _⟩)
      · exact h
      · rw [h1] at hpos; exact absurd h2 hpos

/-- After a walk of a trunk-allowed bitmap table the map has an entry for `idx` exactly
when it had one before or the walk delivered an octet string for `idx`. -/
theorem walkVlanBitmap_isSome (oid : String) (offset : Int) (pdus : List SnmpPDU)
    (m : Int → Option (List Int)) (idx : Int) :
    (walkVlanBitmap oid offset m pdus idx).isSome = true ↔
      (m idx).isSome = true ∨ HasBitmapRow oid pdus idx := by
  induction pdus generalizing m with
  | nil => simp [walkVlanBitmap, HasBitmapRow]
  | cons pdu rest ih =>
    have := ih (walkVlanBitmapStep oid offset m pdu)
    unfold walkVlanBitmap at this ⊢
    rw [List.foldl_cons, this, walkVlanBitmapStep_isSome]
    unfold HasBitmapRow
    simp only [List.exists_mem_cons_iff]
    tauto

/-! ## Reconciliation of the VLAN mode: the claims -/

/-- C1, as the code has it. For every row retained by the reconciliation, mode is "trunk"
exactly when the trunk-status map holds 1 for its ifIndex, or the trunk-status map has no
row for its ifIndex and the trunk-allowed map has an entry for it; in every other case
mode is "access".  The trunk-allowed map has an entry for an ifIndex exactly when one of
the four bitmap walks delivered an octet string for it, whether or not a VLAN was decoded
from it. -/
theorem C1_mode_trunk_iff (env : PollEnv) (cache : TrafficCache) (raw : List (Int × SNMPResult)) :
    (∀ e ∈ (reconcileLoop env cache raw).2,
      (e.2.Mode = "trunk" ↔
        env.trunkStatusMap e.2.IfIndex = some 1 ∨
        (env.trunkStatusMap e.2.IfIndex = none ∧
          (env.trunkAllowedVlans e.2.IfIndex).isSome = true)) ∧
      (e.2.Mode ≠ "trunk" → e.2.Mode = "access")) ∧
    (∀ vlans vlansX vlans2k vlans3k idx,
      (collectTrunkAllowed vlans vlansX vlans2k vlans3k idx).isSome = true ↔
        HasBitmapRow oidVlanTrunkPortVlansEnabled vlans idx ∨
        HasBitmapRow oidVlanTrunkPortVlansXEnabled vlansX idx ∨
        HasBitmapRow oidVlanTrunkPortVlans2kEnabled vlans2k idx ∨
        HasBitmapRow oidVlanTrunkPortVlans3kEnabled vlans3k idx) := by
  constructor
  · intro e he
    obtain ⟨idx, res, c, _, _, hee⟩ := mem_reconcileLoop env cache raw e he
    obtain ⟨hidx, hmode⟩ := reconcileRow_mode env c idx res
    rw [hee]
    simp only
    rw [hidx, hmode]
    unfold isTrunk trunkAllowedMap
    cases hs : env.trunkStatusMap res.IfIndex with
    | none =>
      cases ha : env.trunkAllowedVlans res.IfIndex with
      | none => simp
      | some l => simp
    | some st =>
      by_cases h1 : st = 1
      · simp [h1]
      · simp [h1]
  · intro vlans vlansX vlans2k vlans3k idx
    unfold collectTrunkAllowed
    rw [walkVlanBitmap_isSome, walkVlanBitmap_isSome, walkVlanBitmap_isSome, walkVlanBitmap_isSome]
    simp only [Option.isSome_none, Bool.false_eq_true, false_or]
    tauto

/-- Witness of C1: scenario 2 of the specification (trunk status 1 for ifIndex 7) yields a
trunk row. -/
theorem C1_mode_trunk_iff_witness :
    (reconcileLoop trunkEnv (fun _ => none) [(7, { IfIndex := 7, IfName := "Gi0/7" })]).2.map
      (fun e => (e.1, e.2.IfIndex)) = [("7", 7)] ∧
    trunkEnv.trunkStatusMap 7 = some 1 ∧
    (reconcileRow trunkEnv (fun _ => none) 7 { IfIndex := 7, IfName := "Gi0/7" }).Mode = "trunk" :=
  ⟨by decide, by decide,
    (((C1_mode_trunk_iff trunkEnv (fun _ => none) [(7, { IfIndex := 7, IfName := "Gi0/7" })]).1
      ("7", reconcileRow trunkEnv (fun _ => none) 7 { IfIndex := 7, IfName := "Gi0/7" })
      (by decide)).1).2 (Or.inl (by decide))⟩

/-- Counterexample to C1 as stated: the trunk-status map has no row for ifIndex 7 and the
only trunk-allowed bitmap collected for it is all zero, so that no VLAN is decoded and its
trunk-allowed entry is empty; the row is nevertheless "trunk", not "access". -/
theorem C1_counterexample :
    zeroBitmapEnv.trunkStatusMap 7 = none ∧
    parseVlanBitmap [0, 0] 0 = [] ∧
    zeroBitmapEnv.trunkAllowedVlans 7 = some [] ∧
    (reconcileLoop zeroBitmapEnv (fun _ => none) [(7, { IfIndex := 7, IfName := "Gi0/7" })]).2.map
      (fun e => (e.1, e.2.IfIndex, e.2.Mode, e.2.AllowedVlans)) = [("7", 7, "trunk", "")] := by
  decide

/-! ## Collected rows -/

/-- The octets `C4 B0 6E 31` are the name "İn1", whose lower case starts with `in`. -/
theorem bytesToString_utf8 :
    bytesToString [196, 176, 110, 49] = "İn1" ∧
    ToLower (bytesToString [196, 176, 110, 49]).data = "in1".data ∧
    IsIgnoredInterface (bytesToString [196, 176, 110, 49]) = true ∧
    bytesToString nameGi07 = "Gi0/7" := by
  decide

theorem updateRow_asCollected (f : SNMPResult → SNMPResult) (idx : Int)
    (raw : List (Int × SNMPResult))
    (hf : ∀ k r, AsCollected k r → AsCollected k (f r))
    (h : ∀ e ∈ raw, AsCollected e.1 e.2) :
    ∀ e ∈ updateRow f idx raw, AsCollected e.1 e.2 := by
  induction raw with
  | nil =>
    intro e he
    simp only [updateRow, List.mem_singleton] at he
    rw [he]
    exact hf idx _ ⟨rfl, rfl, rfl, rfl, rfl, rfl, rfl⟩
  | cons x rest ih =>
    obtain ⟨k, r⟩ := x
    intro e he
    unfold updateRow at he
    split_ifs at he with hk
    · rcases List.mem_cons.mp he with h1 | h2
      · rw [h1]
        exact hf k r (h (k, r) (by simp))
      · exact h e (List.mem_cons_of_mem _ h2)
    · rcases List.mem_cons.mp he with h1 | h2
      · rw [h1]
        exact h (k, r) (by simp)
      · exact ih (fun e2 he2 => h e2 (List.mem_cons_of_mem _ he2)) e h2

theorem ifWalkStep_asCollected (o : IfOid) (raw raw2 : List (Int × SNMPResult)) (pdu : SnmpPDU)
    (hs : ifWalkStep o raw pdu = some raw2) (h : ∀ e ∈ raw, AsCollected e.1 e.2) :
    ∀ e ∈ raw2, AsCollected e.1 e.2 := by
  unfold ifWalkStep at hs
  split_ifs at hs with hpos
  · cases o <;> simp only at hs
    · split at hs
      · simp only [Option.some.injEq] at hs
        rw [← hs]
        exact updateRow_asCollected _ _ raw (fun k r hr => hr) h
      · exact absurd hs (by simp)
    · split at hs
      · simp only [Option.some.injEq] at hs
        rw [← hs]
        exact updateRow_asCollected _ _ raw (fun k r hr => hr) h
      · exact absurd hs (by simp)
    all_goals
      simp only [Option.some.injEq] at hs
      rw [← hs]
      exact updateRow_asCollected _ _ raw (fun k r hr => hr) h
  · simp only [Option.some.injEq] at hs
    rw [← hs]
    exact h

/-- Every row the six interface walks leave in `rawResults` is stored under its own
ifIndex and has only its six walked fields assigned. -/
theorem collectIf_asCollected (pdus : List (IfOid × SnmpPDU)) (raw0 raw : List (Int × SNMPResult))
    (hs : collectIf raw0 pdus = some raw) (h : ∀ e ∈ raw0, AsCollected e.1 e.2) :
    ∀ e ∈ raw, AsCollected e.1 e.2 := by
  induction pdus generalizing raw0 with
  | nil =>
    simp only [collectIf, Option.some.injEq] at hs
    rw [← hs]; exact h
  | cons x rest ih =>
    obtain ⟨o, pdu⟩ := x
    unfold collectIf at hs
    cases hstep : ifWalkStep o raw0 pdu with
    | none => rw [hstep] at hs; exact absurd hs (by simp)
    | some raw2 =>
      rw [hstep] at hs
      exact ih raw2 hs (ifWalkStep_asCollected o raw0 raw2 pdu hstep h)

/-- The VLAN fields of the row after the vendor tables, for a raw row whose `vlan_id` is 0
and whose `allowed_vlans` is empty. -/
theorem vendorRow_vlan (env : PollEnv) (cache : TrafficCache) (idx : Int) (res : SNMPResult)
    (hc : AsCollected idx res) :
    (isTrunk env res = true →
      (vendorRow env cache idx res).VlanID = (env.trunkNativeMap idx).getD 0 ∧
      (vendorRow env cache idx res).AllowedVlans =
        indicesToRangeString ((env.trunkAllowedVlans idx).getD [])) ∧
    (isTrunk env res = false →
      (vendorRow env cache idx res).AllowedVlans = "" ∧
      (vendorRow env cache idx res).VlanID =
        match env.accessVlanMap idx with
        | some v => v
        | none =>
          match env.trunkNativeMap idx with
          | some v => v
          | none =>
            match env.pvidMap idx with
            | some v => v
            | none => 0) := by
  obtain ⟨hidx, _, _, hvlan, hallowed, _, _⟩ := hc
  obtain ⟨hi, hv, ha, _, _⟩ := attachDOM_fields env
    { res with InRate := (rowRates env cache idx res).1, OutRate := (rowRates env cache idx res).2 }
  simp only at hi hv ha
  have ht : isTrunk env (attachDOM env
      { res with InRate := (rowRates env cache idx res).1,
                 OutRate := (rowRates env cache idx res).2 }) = isTrunk env res :=
    isTrunk_congr env _ _ hi
  constructor
  · intro h
    unfold vendorRow applyVendorTables
    rw [ht]
    simp only [h, if_true, applyTrunk, trunkAllowedMap]
    rw [hi, hv, ha, hidx, hvlan, hallowed]
    refine ⟨rfl, ?_⟩
    cases env.trunkAllowedVlans idx with
    | none => simp [indicesToRangeString]
    | some l => simp
  · intro h
    unfold vendorRow applyVendorTables
    rw [ht]
    simp only [h, Bool.false_eq_true, if_false, applyAccess]
    rw [hi, hv, ha, hidx, hvlan, hallowed]
    exact ⟨rfl, rfl⟩

theorem walkVlanBitmapStep_getD (oid : String) (offset : Int) (m : Int → Option (List Int))
    (pdu : SnmpPDU) (idx : Int) :
    (walkVlanBitmapStep oid offset m pdu idx).getD [] =
      (m idx).getD [] ++ decodedOf oid offset idx pdu := by
  unfold walkVlanBitmapStep decodedOf
  by_cases hpos : 0 < extractIndex pdu.Name oid
  · simp only [hpos, if_true, true_and]
    cases hv : pdu.Value with
    | octets bytes =>
      simp only [mapSet]
      by_cases hi : idx = extractIndex pdu.Name oid
      · simp [hi]
      · have hi2 : ¬ (extractIndex pdu.Name oid = idx) := fun h => hi h.symm
        simp [hi, hi2]
    | number n => simp
    | other => simp
  · simp [hpos]

/-- After a walk of a trunk-allowed bitmap table the entry of `idx` is what it was before
followed by the VLANs decoded from every octet string the walk delivered for `idx`. -/
theorem walkVlanBitmap_getD (oid : String) (offset : Int) (pdus : List SnmpPDU)
    (m : Int → Option (List Int)) (idx : Int) :
    (walkVlanBitmap oid offset m pdus idx).getD [] =
      (m idx).getD [] ++ decodedFor oid offset pdus idx := by
  induction pdus generalizing m with
  | nil => simp [walkVlanBitmap, decodedFor]
  | cons pdu rest ih =>
    have := ih (walkVlanBitmapStep oid offset m pdu)
    unfold walkVlanBitmap at this ⊢
    rw [List.foldl_cons, this, walkVlanBitmapStep_getD]
    simp [decodedFor, List.append_assoc]

/-- The trunk-allowed entry of `idx` after the four walks: the VLANs decoded for `idx` from
the four tables, table after table, each with its offset. -/
theorem collectTrunkAllowed_getD (vlans vlansX vlans2k vlans3k : List SnmpPDU) (idx : Int) :
    (collectTrunkAllowed vlans vlansX vlans2k vlans3k idx).getD [] =
      decodedFor oidVlanTrunkPortVlansEnabled 0 vlans idx ++
      decodedFor oidVlanTrunkPortVlansXEnabled 1024 vlansX idx ++
      decodedFor oidVlanTrunkPortVlans2kEnabled 2048 vlans2k idx ++
      decodedFor oidVlanTrunkPortVlans3kEnabled 3072 vlans3k idx := by
  unfold collectTrunkAllowed
  rw [walkVlanBitmap_getD, walkVlanBitmap_getD, walkVlanBitmap_getD, walkVlanBitmap_getD]
  simp

/-- C2. For every collected row with a non-empty name, the row after the vendor tables is
either "trunk" or "access".  When it is trunk, `vlan_id` is the trunk-native entry of its
ifIndex if there is one and 0 otherwise, and `allowed_vlans` is the range format of the
VLANs decoded from its trunk-allowed bitmaps: the ids `parseVlanBitmap` decodes from every
octet string the four walks deliver for its ifIndex, table after table with the offsets 0,
1024, 2048 and 3072.  When it is access, `vlan_id` is the access-VLAN entry if one exists,
else the trunk-native entry if one exists, else the PVID entry if one exists, else 0 (an
existing entry wins whatever its value), and `allowed_vlans` is empty.  The row stored in
the result is this row after the Q-BRIDGE fallback. -/
theorem C2_vendor_vlan (env : PollEnv) (cache : TrafficCache) (pdus : List (IfOid × SnmpPDU))
    (raw : List (Int × SNMPResult)) (vlans vlansX vlans2k vlans3k : List SnmpPDU)
    (hcol : collectIf [] pdus = some raw)
    (henv : env.trunkAllowedVlans = collectTrunkAllowed vlans vlansX vlans2k vlans3k) :
    ∀ e ∈ raw, e.2.IfName.data ≠ [] →
      ((vendorRow env cache e.1 e.2).Mode = "trunk" ∨
        (vendorRow env cache e.1 e.2).Mode = "access") ∧
      ((vendorRow env cache e.1 e.2).Mode = "trunk" →
        (vendorRow env cache e.1 e.2).VlanID = (env.trunkNativeMap e.1).getD 0 ∧
        (vendorRow env cache e.1 e.2).AllowedVlans =
          indicesToRangeString
            (decodedFor oidVlanTrunkPortVlansEnabled 0 vlans e.1 ++
              decodedFor oidVlanTrunkPortVlansXEnabled 1024 vlansX e.1 ++
              decodedFor oidVlanTrunkPortVlans2kEnabled 2048 vlans2k e.1 ++
              decodedFor oidVlanTrunkPortVlans3kEnabled 3072 vlans3k e.1)) ∧
      ((vendorRow env cache e.1 e.2).Mode = "access" →
        (vendorRow env cache e.1 e.2).AllowedVlans = "" ∧
        (∀ v, env.accessVlanMap e.1 = some v → (vendorRow env cache e.1 e.2).VlanID = v) ∧
        (env.accessVlanMap e.1 = none → ∀ v, env.trunkNativeMap e.1 = some v →
          (vendorRow env cache e.1 e.2).VlanID = v) ∧
        (env.accessVlanMap e.1 = none → env.trunkNativeMap e.1 = none →
          ∀ v, env.pvidMap e.1 = some v → (vendorRow env cache e.1 e.2).VlanID = v) ∧
        (env.accessVlanMap e.1 = none → env.trunkNativeMap e.1 = none →
          env.pvidMap e.1 = none → (vendorRow env cache e.1 e.2).VlanID = 0)) ∧
      reconcileRow env cache e.1 e.2 = applyQBridge env (vendorRow env cache e.1 e.2) := by
  intro e he _
  have hc := collectIf_asCollected pdus [] raw hcol (by simp) e he
  obtain ⟨ht, ha⟩ := vendorRow_vlan env cache e.1 e.2 hc
  have hm := (vendorRow_mode env cache e.1 e.2).2
  have hdec := collectTrunkAllowed_getD vlans vlansX vlans2k vlans3k e.1
  rw [← henv] at hdec
  cases htr : isTrunk env e.2 with
  | true =>
    rw [htr] at hm
    simp only [if_true] at hm
    refine ⟨Or.inl hm, fun _ => ?_, ?_, rfl⟩
    · rw [← hdec]
      exact ht htr
    · intro hacc
      rw [hm] at hacc
      exact absurd hacc (by decide)
  | false =>
    rw [htr] at hm
    simp only [Bool.false_eq_true, if_false] at hm
    obtain ⟨ha1, ha2⟩ := ha htr
    refine ⟨Or.inr hm, ?_, ?_, rfl⟩
    · intro htk
      rw [hm] at htk
      exact absurd htk (by decide)
    · intro _
      refine ⟨ha1, ?_, ?_, ?_, ?_⟩
      · intro v hv
        rw [ha2, hv]
      · intro h1 v hv
        rw [ha2, h1, hv]
      · intro h1 h2 v hv
        rw [ha2, h1, h2, hv]
      · intro h1 h2 h3
        rw [ha2, h1, h2, h3]

/-- Witness of C2, the two scenarios of the specification: trunk status 1, native 99 and
the bitmap of 1, 2, 3, 100 give trunk, 99, "1-3, 100"; `vmVlan[10] = 20` with no trunk rows
gives access, 20, "".  A trunk whose second table carries VLAN 1024 gets "1-3, 100, 1024". -/
theorem C2_vendor_vlan_witness :
    collectIf [] [(IfOid.ifName, { Name := ".1.3.6.1.2.1.31.1.1.1.1.7",
                                   Value := PduValue.octets nameGi07 })] =
      some [(7, { IfIndex := 7, IfName := "Gi0/7" })] ∧
    (reconcileLoop trunkEnv (fun _ => none) [(7, { IfIndex := 7, IfName := "Gi0/7" })]).2.map
      (fun e => (e.1, e.2.Mode, e.2.VlanID, e.2.AllowedVlans)) = [("7", "trunk", 99, "1-3, 100")] ∧
    (reconcileLoop accessEnv (fun _ => none)
        [(10, { IfIndex := 10, IfName := "GigabitEthernet0/10" })]).2.map
      (fun e => (e.1, e.2.Mode, e.2.VlanID, e.2.AllowedVlans)) = [("10", "access", 20, "")] ∧
    (reconcileLoop wideTrunkEnv (fun _ => none) [(7, { IfIndex := 7, IfName := "Gi0/7" })]).2.map
      (fun e => (e.1, e.2.Mode, e.2.VlanID, e.2.AllowedVlans)) =
        [("7", "trunk", 0, "1-3, 100, 1024")] ∧
    (vendorRow trunkEnv (fun _ => none) 7 { IfIndex := 7, IfName := "Gi0/7" }).VlanID =
      (trunkEnv.trunkNativeMap 7).getD 0 ∧
    (vendorRow trunkEnv (fun _ => none) 7 { IfIndex := 7, IfName := "Gi0/7" }).AllowedVlans =
      indicesToRangeString
        (decodedFor oidVlanTrunkPortVlansEnabled 0
            [{ Name := ".1.3.6.1.4.1.9.9.46.1.6.1.1.4.7",
               Value := PduValue.octets bitmap_1_2_3_100 }] 7 ++
          decodedFor oidVlanTrunkPortVlansXEnabled 1024 [] 7 ++
          decodedFor oidVlanTrunkPortVlans2kEnabled 2048 [] 7 ++
          decodedFor oidVlanTrunkPortVlans3kEnabled 3072 [] 7) :=
  ⟨by decide, by decide, by decide, by decide,
    (C2_vendor_vlan trunkEnv (fun _ => none)
      [(IfOid.ifName, { Name := ".1.3.6.1.2.1.31.1.1.1.1.7", Value := PduValue.octets nameGi07 })]
      [(7, { IfIndex := 7, IfName := "Gi0/7" })]
      [{ Name := ".1.3.6.1.4.1.9.9.46.1.6.1.1.4.7", Value := PduValue.octets bitmap_1_2_3_100 }]
      [] [] [] (by decide) rfl
      (7, { IfIndex := 7, IfName := "Gi0/7" }) (by simp) (by decide)).2.1 (by decide)⟩

/-! ## Lemmas on the `float64` model -/

theorem bitLen_spec (fuel n : Nat) (hn : 0 < n) (hf : n ≤ fuel) :
    n < 2 ^ bitLen fuel n ∧ 2 ^ bitLen fuel n ≤ 2 * n := by
  induction fuel generalizing n with
  | zero => omega
  | succ f ih =>
    unfold bitLen
    have h0 : n ≠ 0 := by omega
    simp only [h0, if_false]
    by_cases h1 : n / 2 = 0
    · have hn1 : n = 1 := by omega
      subst hn1
      cases f with
      | zero => simp [bitLen]
      | succ g => simp [bitLen]
    · have hpos : 0 < n / 2 := Nat.pos_of_ne_zero h1
      have hle : n / 2 ≤ f := by omega
      obtain ⟨a, b⟩ := ih (n / 2) hpos hle
      rw [pow_succ]
      constructor <;> omega

theorem roundEven_bounds (t : ℚ) :
    ⌊t⌋ ≤ roundEven t ∧ roundEven t ≤ ⌊t⌋ + 1 ∧
      (roundEven t = ⌊t⌋ + 1 → 1 / 2 ≤ t - ⌊t⌋) := by
  unfold roundEven
  split_ifs with h1 h2 h3
  · exact ⟨le_refl _, by omega, fun h => by omega⟩
  · exact ⟨by omega, le_refl _, fun _ => le_of_lt h2⟩
  · exact ⟨le_refl _, by omega, fun h => by omega⟩
  · exact ⟨by omega, le_refl _, fun _ => not_lt.mp h1⟩

theorem roundEven_intCast (z : ℤ) : roundEven (z : ℚ) = z := by
  unfold roundEven
  simp

theorem roundF64_zero : roundF64 0 = 0 := by
  unfold roundF64
  simp

/-- Lower bound of `ilog2`: `2 ^ ilog2 q ≤ q` for a positive `q`. -/
theorem ilog2_le (q : ℚ) (hq : 0 < q) : (2 : ℚ) ^ ilog2 q ≤ q := by
  unfold ilog2
  split_ifs with h
  · exact h
  · have hnum : 0 < q.num := Rat.num_pos.mpr hq
    have ha : 0 < q.num.natAbs := Int.natAbs_pos.mpr (ne_of_gt hnum)
    have hb : 0 < q.den := q.den_pos
    obtain ⟨_, a2⟩ := bitLen_spec q.num.natAbs q.num.natAbs ha (le_refl _)
    obtain ⟨b1, _⟩ := bitLen_spec q.den q.den hb (le_refl _)
    have hqe : q = (q.num.natAbs : ℚ) / (q.den : ℚ) := by
      have h1 : (q.num.natAbs : ℤ) = q.num := Int.natAbs_of_nonneg (le_of_lt hnum)
      have h2 : ((q.num.natAbs : ℕ) : ℚ) = ((q.num.natAbs : ℤ) : ℚ) := (Int.cast_natCast _).symm
      rw [h2, h1]
      exact (Rat.num_div_den q).symm
    have e1 : (2 : ℚ) ^ ((bitLen q.num.natAbs q.num.natAbs : ℤ) - (bitLen q.den q.den : ℤ) - 1) =
        (2 : ℚ) ^ (bitLen q.num.natAbs q.num.natAbs) / (2 : ℚ) ^ (bitLen q.den q.den) / 2 := by
      rw [zpow_sub₀ (by norm_num), zpow_sub₀ (by norm_num), zpow_natCast, zpow_natCast, zpow_one]
    rw [e1]
    have a2' : (2 : ℚ) ^ (bitLen q.num.natAbs q.num.natAbs) ≤ 2 * (q.num.natAbs : ℚ) := by
      exact_mod_cast a2
    have b1' : (q.den : ℚ) ≤ (2 : ℚ) ^ (bitLen q.den q.den) := by
      exact_mod_cast le_of_lt b1
    have hbq : (0 : ℚ) < (q.den : ℚ) := by exact_mod_cast hb
    have hpow : (0 : ℚ) < (2 : ℚ) ^ (bitLen q.den q.den) := by positivity
    have haq : (0 : ℚ) ≤ (q.num.natAbs : ℚ) := by positivity
    rw [div_div, div_le_iff₀ (by positivity)]
    calc (2 : ℚ) ^ (bitLen q.num.natAbs q.num.natAbs)
        ≤ 2 * (q.num.natAbs : ℚ) := a2'
      _ = (q.num.natAbs : ℚ) / (q.den : ℚ) * ((q.den : ℚ) * 2) := by field_simp; ring
      _ ≤ (q.num.natAbs : ℚ) / (q.den : ℚ) * ((2 : ℚ) ^ (bitLen q.den q.den) * 2) := by
          apply mul_le_mul_of_nonneg_left _ (by positivity)
          linarith
      _ = q * ((2 : ℚ) ^ (bitLen q.den q.den) * 2) := by rw [← hqe]

/-- Below `2 ^ 53` the unit in the last place is the reciprocal of a natural number. -/
theorem ulp_nat (e : ℤ) (he : e ≤ 52) :
    ∃ P : ℕ, 0 < P ∧ (2 : ℚ) ^ (e - 52) = 1 / (P : ℚ) ∧ (2 : ℚ) ^ e * (P : ℚ) = 2 ^ 52 := by
  refine ⟨2 ^ (52 - e).toNat, by positivity, ?_, ?_⟩
  · have h1 : e - 52 = -((52 - e).toNat : ℤ) := by
      rw [Int.toNat_of_nonneg (by omega)]; ring
    rw [h1, zpow_neg, zpow_natCast]
    push_cast
    rw [one_div]
  · have h1 : ((2 : ℕ) ^ (52 - e).toNat : ℕ) = ((2 : ℚ) ^ (((52 - e).toNat : ℕ) : ℤ)) := by
      rw [zpow_natCast]; push_cast; rfl
    rw [h1, Int.toNat_of_nonneg (by omega), ← zpow_add₀ (by norm_num)]
    have : e + (52 - e) = ((52 : ℕ) : ℤ) := by push_cast; ring
    rw [this, zpow_natCast]

theorem ilog2_le_52 (q : ℚ) (hq : 0 < q) (h : q < 2 ^ 53) : ilog2 q ≤ 52 := by
  have h1 := ilog2_le q hq
  by_contra hcon
  have h2 : (53 : ℤ) ≤ ilog2 q := by omega
  have h3 : (2 : ℚ) ^ (53 : ℤ) ≤ (2 : ℚ) ^ ilog2 q := zpow_le_zpow_right₀ (by norm_num) h2
  have h4 : (2 : ℚ) ^ (53 : ℤ) = 2 ^ 53 := by norm_cast
  rw [h4] at h3
  linarith

/-- The `float64` of a positive rational below `2 ^ 53`, through the unit in the last
place. -/
theorem roundF64_small (q : ℚ) (hq : 0 < q) (h : q < 2 ^ 53) :
    ∃ P : ℕ, 0 < P ∧ (2 : ℚ) ^ 52 ≤ q * (P : ℚ) ∧
      roundF64 q = (roundEven (q * (P : ℚ)) : ℚ) / (P : ℚ) := by
  obtain ⟨P, hP, hu, hpe⟩ := ulp_nat (ilog2 q) (ilog2_le_52 q hq h)
  refine ⟨P, hP, ?_, ?_⟩
  · rw [← hpe]
    exact mul_le_mul_of_nonneg_right (ilog2_le q hq) (by positivity)
  · unfold roundF64
    rw [if_neg (ne_of_gt hq), if_pos hq, hu]
    have hPq : (0 : ℚ) < (P : ℚ) := by exact_mod_cast hP
    have e1 : q / (1 / (P : ℚ)) = q * (P : ℚ) := by field_simp
    rw [e1]
    field_simp

/-- A natural number below `2 ^ 53` is a `float64`. -/
theorem roundF64_natCast (n : ℕ) (h : n < 2 ^ 53) : roundF64 (n : ℚ) = (n : ℚ) := by
  rcases Nat.eq_zero_or_pos n with h0 | hpos
  · rw [h0]; simpa using roundF64_zero
  · have hq : (0 : ℚ) < (n : ℚ) := by exact_mod_cast hpos
    have hlt : (n : ℚ) < 2 ^ 53 := by exact_mod_cast h
    obtain ⟨P, hP, _, hr⟩ := roundF64_small (n : ℚ) hq hlt
    have hPq : (0 : ℚ) < (P : ℚ) := by exact_mod_cast hP
    have e1 : (n : ℚ) * (P : ℚ) = (((n * P : ℕ) : ℤ) : ℚ) := by push_cast; ring
    rw [hr, e1, roundEven_intCast]
    push_cast
    field_simp

/-- The `float64` quotient of a natural number below `2 ^ 53` by a positive natural number
lies between the integer quotient and its successor: truncating it gives the integer
quotient. -/
theorem roundF64_div_bounds_aux (x k N : ℕ) (hk : 0 < k) (hx : x < 2 ^ 53)
    (hNle : N * k ≤ x) (hNlt : x + 1 ≤ (N + 1) * k) :
    (N : ℚ) ≤ roundF64 ((x : ℚ) / (k : ℚ)) ∧
      roundF64 ((x : ℚ) / (k : ℚ)) < (N : ℚ) + 1 := by
  have hkq : (0 : ℚ) < (k : ℚ) := by exact_mod_cast hk
  rcases Nat.eq_zero_or_pos x with h0 | hx0
  · subst h0
    have hN0 : N = 0 := by
      rcases Nat.eq_zero_or_pos N with h | h
      · exact h
      · have : 1 * k ≤ N * k := Nat.mul_le_mul_right k h
        omega
    subst hN0
    simp [roundF64_zero]
  have hxq : (0 : ℚ) < (x : ℚ) := by exact_mod_cast hx0
  have hx53 : (x : ℚ) < 2 ^ 53 := by exact_mod_cast hx
  have hqpos : (0 : ℚ) < (x : ℚ) / (k : ℚ) := by positivity
  have hk1 : (1 : ℚ) ≤ (k : ℚ) := by exact_mod_cast hk
  have hq53 : (x : ℚ) / (k : ℚ) < 2 ^ 53 := by
    rw [div_lt_iff₀ hkq]
    nlinarith
  obtain ⟨P, hP, h52, hr⟩ := roundF64_small _ hqpos hq53
  have hPq : (0 : ℚ) < (P : ℚ) := by exact_mod_cast hP
  obtain ⟨b1, b2, b3⟩ := roundEven_bounds ((x : ℚ) / (k : ℚ) * (P : ℚ))
  have hN1 : (N : ℚ) * (k : ℚ) ≤ (x : ℚ) := by
    exact_mod_cast hNle
  have hN2 : (x : ℚ) + 1 ≤ ((N : ℚ) + 1) * (k : ℚ) := by
    exact_mod_cast hNlt
  have hqk : (x : ℚ) / (k : ℚ) * (k : ℚ) = (x : ℚ) := by field_simp
  have f1 : (((N * P : ℕ) : ℤ)) ≤ ⌊(x : ℚ) / (k : ℚ) * (P : ℚ)⌋ := by
    apply Int.le_floor.mpr
    push_cast
    apply mul_le_mul_of_nonneg_right _ (le_of_lt hPq)
    rw [le_div_iff₀ hkq]
    exact hN1
  have f2 : ⌊(x : ℚ) / (k : ℚ) * (P : ℚ)⌋ < ((((N + 1) * P : ℕ)) : ℤ) := by
    apply Int.floor_lt.mpr
    push_cast
    apply mul_lt_mul_of_pos_right _ hPq
    rw [div_lt_iff₀ hkq]
    linarith
  rw [hr]
  constructor
  · rw [le_div_iff₀ hPq]
    have : (((N * P : ℕ) : ℤ)) ≤ roundEven ((x : ℚ) / (k : ℚ) * (P : ℚ)) := le_trans f1 b1
    have h2 : ((((N * P : ℕ) : ℤ)) : ℚ) ≤ (roundEven ((x : ℚ) / (k : ℚ) * (P : ℚ)) : ℚ) := by
      exact_mod_cast this
    push_cast at h2
    exact h2
  · rw [div_lt_iff₀ hPq]
    by_contra hcon
    push_neg at hcon
    have hcon2 : ((((N + 1) * P : ℕ)) : ℤ) ≤ roundEven ((x : ℚ) / (k : ℚ) * (P : ℚ)) := by
      have : ((((N + 1) * P : ℕ) : ℤ) : ℚ) ≤
          (roundEven ((x : ℚ) / (k : ℚ) * (P : ℚ)) : ℚ) := by
        push_cast
        exact hcon
      exact_mod_cast this
    have hre : roundEven ((x : ℚ) / (k : ℚ) * (P : ℚ)) =
        ⌊(x : ℚ) / (k : ℚ) * (P : ℚ)⌋ + 1 := by omega
    have hfl : ⌊(x : ℚ) / (k : ℚ) * (P : ℚ)⌋ = ((((N + 1) * P : ℕ)) : ℤ) - 1 := by omega
    have hfrac := b3 hre
    rw [hfl] at hfrac
    push_cast at hfrac
    -- the quotient is within half a unit of the next multiple of `P`
    have h5 : ((N : ℚ) + 1) * (P : ℚ) - 1 / 2 ≤ (x : ℚ) / (k : ℚ) * (P : ℚ) := by
      linarith
    have h5k : (((N : ℚ) + 1) * (P : ℚ) - 1 / 2) * (k : ℚ) ≤
        (x : ℚ) / (k : ℚ) * (P : ℚ) * (k : ℚ) :=
      mul_le_mul_of_nonneg_right h5 (le_of_lt hkq)
    have e1 : (x : ℚ) / (k : ℚ) * (P : ℚ) * (k : ℚ) = (x : ℚ) * (P : ℚ) := by
      field_simp
    rw [e1] at h5k
    have h6 : (P : ℚ) * (((N : ℚ) + 1) * (k : ℚ) - (x : ℚ)) ≤ (k : ℚ) / 2 := by
      linarith
    have h7 : 2 * (P : ℚ) ≤ (k : ℚ) := by
      have : (P : ℚ) * 1 ≤ (P : ℚ) * (((N : ℚ) + 1) * (k : ℚ) - (x : ℚ)) :=
        mul_le_mul_of_nonneg_left (by linarith) (le_of_lt hPq)
      linarith
    have h8 : (2 : ℚ) ^ 52 * (k : ℚ) ≤ (x : ℚ) * (P : ℚ) := by
      have := mul_le_mul_of_nonneg_right h52 (le_of_lt hkq)
      rw [e1] at this
      exact this
    have h9 : (2 : ℚ) ^ 52 * (2 * (P : ℚ)) ≤ (2 : ℚ) ^ 52 * (k : ℚ) :=
      mul_le_mul_of_nonneg_left h7 (by positivity)
    have h10 : (2 : ℚ) ^ 53 * (P : ℚ) ≤ (x : ℚ) * (P : ℚ) := by
      have : (2 : ℚ) ^ 53 * (P : ℚ) = (2 : ℚ) ^ 52 * (2 * (P : ℚ)) := by ring
      rw [this]
      linarith
    have h11 : (2 : ℚ) ^ 53 ≤ (x : ℚ) := le_of_mul_le_mul_right h10 hPq
    linarith

/-- Truncating the `float64` quotient of a natural number below `2 ^ 53` by a positive
natural number gives the integer quotient. -/
theorem roundF64_div_bounds (x k : ℕ) (hk : 0 < k) (hx : x < 2 ^ 53) :
    ((x / k : ℕ) : ℚ) ≤ roundF64 ((x : ℚ) / (k : ℚ)) ∧
      roundF64 ((x : ℚ) / (k : ℚ)) < ((x / k : ℕ) : ℚ) + 1 := by
  apply roundF64_div_bounds_aux x k (x / k) hk hx (Nat.div_mul_le_self x k)
  have := Nat.lt_mul_div_succ x hk
  rw [Nat.mul_comm]
  exact this

/-- Truncation of a `float64` that lies between a natural number and its successor. -/
theorem f64ToU64_of_bounds (oor N : ℕ) (v : ℚ) (h1 : (N : ℚ) ≤ v) (h2 : v < (N : ℚ) + 1)
    (hN : N < 2 ^ 63) : f64ToU64 oor v = N := by
  have hv0 : (0 : ℚ) ≤ v := le_trans (by positivity) h1
  have hNq : (N : ℚ) < 2 ^ 63 := by exact_mod_cast hN
  unfold f64ToU64
  have c1 : ¬ (v ≤ -1 ∨ 18446744073709551616 ≤ v) := by
    intro h
    rcases h with h | h
    · linarith
    · have : (2 : ℚ) ^ 63 + 1 ≤ 18446744073709551616 := by norm_num
      linarith
  have c2 : ¬ v < 0 := not_lt.mpr hv0
  rw [if_neg c1, if_neg c2]
  have hfl : ⌊v⌋ = (N : ℤ) := by
    rw [Int.floor_eq_iff]
    constructor
    · exact_mod_cast h1
    · exact_mod_cast h2
  rw [hfl]
  simp

/-- A counter that did not grow has rate 0, whatever the duration. -/
theorem rateOf_not_grown (oor now prev : ℕ) (d : ℚ) (h : now ≤ prev) : rateOf oor now prev d = 0 := by
  have hx : (if prev ≤ now then now - prev else 0) = 0 := by
    split_ifs with h2
    · omega
    · rfl
  unfold rateOf
  rw [hx]
  simp only [Nat.zero_mul, wrapU64, Nat.zero_mod, Nat.cast_zero, roundF64_zero, zero_div]
  unfold f64ToU64
  norm_num

/-- A whole number of seconds, as `time.Duration.Seconds` returns it. -/
theorem Seconds_whole (k : ℕ) (hk : (k : ℤ) * 1000000000 ≤ maxInt) :
    Seconds (satDuration ((k : ℤ) * 1000000000)) = (k : ℚ) := by
  have hk2 : k < 2 ^ 53 := by
    unfold maxInt at hk
    have : (k : ℤ) < 2 ^ 53 := by
      have h0 : (0 : ℤ) ≤ (k : ℤ) := Int.natCast_nonneg k
      norm_num
      omega
    exact_mod_cast this
  have hs : satDuration ((k : ℤ) * 1000000000) = (k : ℤ) * 1000000000 := by
    unfold satDuration
    have h0 : (0 : ℤ) ≤ (k : ℤ) := Int.natCast_nonneg k
    have c1 : ¬ maxInt < (k : ℤ) * 1000000000 := not_lt.mpr hk
    have c2 : ¬ (k : ℤ) * 1000000000 < minInt := by
      unfold minInt
      omega
    rw [if_neg c1, if_neg c2]
  unfold Seconds
  rw [hs, Int.mul_tdiv_cancel _ (by norm_num), Int.mul_tmod_left]
  have e1 : (((k : ℤ) : ℤ) : ℚ) = ((k : ℕ) : ℚ) := by push_cast; rfl
  have e2 : roundF64 (((0 : ℤ) : ℤ) : ℚ) = 0 := by simpa using roundF64_zero
  rw [e1, e2, roundF64_natCast k hk2]
  simp only [zero_div, roundF64_zero, add_zero]
  exact roundF64_natCast k hk2

/-- The rate of a counter that grew by less than `2 ^ 53` bits over a whole number `k` of
seconds is the integer quotient of the bits by `k`. -/
theorem rateOf_whole_seconds (oor now prev k : ℕ) (hk : 0 < k) (hle : prev ≤ now)
    (hx : (now - prev) * 8 < 2 ^ 53) :
    rateOf oor now prev (k : ℚ) = (now - prev) * 8 / k := by
  unfold rateOf
  rw [if_pos hle]
  have hw : wrapU64 ((now - prev) * 8) = (now - prev) * 8 := by
    unfold wrapU64
    apply Nat.mod_eq_of_lt
    have : (2 : ℕ) ^ 53 ≤ 18446744073709551616 := by norm_num
    omega
  rw [hw, roundF64_natCast _ hx]
  obtain ⟨b1, b2⟩ := roundF64_div_bounds ((now - prev) * 8) k hk hx
  apply f64ToU64_of_bounds oor _ _ b1 b2
  have h1 : (now - prev) * 8 / k ≤ (now - prev) * 8 := Nat.div_le_self _ _
  have h2 : (2 : ℕ) ^ 53 ≤ 2 ^ 63 := by norm_num
  omega

/-- Rounding to the nearest integer moves a number by at most one half. -/
theorem roundEven_abs (t : ℚ) : |(roundEven t : ℚ) - t| ≤ 1 / 2 := by
  have h1 : (⌊t⌋ : ℚ) ≤ t := Int.floor_le t
  have h2 : t < (⌊t⌋ : ℚ) + 1 := Int.lt_floor_add_one t
  unfold roundEven
  rw [abs_le]
  split_ifs with a b c
  · constructor <;> linarith
  · push_cast
    constructor <;> linarith
  · have : t - (⌊t⌋ : ℚ) = 1 / 2 := le_antisymm (not_lt.mp b) (not_lt.mp a)
    constructor <;> linarith
  · have : t - (⌊t⌋ : ℚ) = 1 / 2 := le_antisymm (not_lt.mp b) (not_lt.mp a)
    push_cast
    constructor <;> linarith

/-- The `float64` nearest to a positive rational differs from it by at most `2^-53` of
it. -/
theorem roundF64_err_pos (q : ℚ) (hq : 0 < q) : |roundF64 q - q| * 2 ^ 53 ≤ q := by
  have hs : (0 : ℚ) < 2 ^ (ilog2 q - 52) := by positivity
  have he : (2 : ℚ) ^ (ilog2 q - 52) * 2 ^ 52 = 2 ^ ilog2 q := by
    have : (2 : ℚ) ^ (52 : ℕ) = (2 : ℚ) ^ ((52 : ℕ) : ℤ) := (zpow_natCast _ _).symm
    rw [this, ← zpow_add₀ (by norm_num)]
    congr 1
    push_cast
    ring
  have hr : roundF64 q - q =
      ((roundEven (q / 2 ^ (ilog2 q - 52)) : ℚ) - q / 2 ^ (ilog2 q - 52)) *
        2 ^ (ilog2 q - 52) := by
    unfold roundF64
    rw [if_neg (ne_of_gt hq), if_pos hq]
    field_simp
  rw [hr, abs_mul, abs_of_pos hs]
  have hb := roundEven_abs (q / 2 ^ (ilog2 q - 52))
  calc |(roundEven (q / 2 ^ (ilog2 q - 52)) : ℚ) - q / 2 ^ (ilog2 q - 52)| *
        2 ^ (ilog2 q - 52) * 2 ^ 53
      ≤ 1 / 2 * 2 ^ (ilog2 q - 52) * 2 ^ 53 := by
        apply mul_le_mul_of_nonneg_right _ (by positivity)
        exact mul_le_mul_of_nonneg_right hb (le_of_lt hs)
    _ = 2 ^ (ilog2 q - 52) * 2 ^ 52 := by ring
    _ = 2 ^ ilog2 q := he
    _ ≤ q := ilog2_le q hq

theorem roundF64_neg (q : ℚ) (hq : q < 0) : roundF64 q = -roundF64 (-q) := by
  have h1 : q ≠ 0 := ne_of_lt hq
  have h2 : ¬ (0 < q) := not_lt.mpr (le_of_lt hq)
  have h3 : -q ≠ 0 := by
    intro h
    apply h1
    linarith
  have h4 : 0 < -q := by linarith
  unfold roundF64
  rw [if_neg h1, if_neg h2, if_neg h3, if_pos h4]

/-- The `float64` nearest to a rational differs from it by at most `2^-53` of its
magnitude. -/
theorem roundF64_err (q : ℚ) : |roundF64 q - q| * 2 ^ 53 ≤ |q| := by
  rcases lt_trichotomy q 0 with h | h | h
  · have hp := roundF64_err_pos (-q) (by linarith)
    rw [roundF64_neg q h, abs_of_neg h]
    have : -roundF64 (-q) - q = -(roundF64 (-q) - -q) := by ring
    rw [this, abs_neg]
    exact hp
  · rw [h, roundF64_zero]
    simp
  · rw [abs_of_pos h]
    exact roundF64_err_pos q h

/-- The `float64` nearest to a rational that is not negative lies within `2^-53` of it,
relatively. -/
theorem roundF64_between (q : ℚ) (hq : 0 ≤ q) :
    q * (1 - 1 / 2 ^ 53) ≤ roundF64 q ∧ roundF64 q ≤ q * (1 + 1 / 2 ^ 53) := by
  have h := roundF64_err q
  rw [abs_of_nonneg hq] at h
  have h2 : |roundF64 q - q| ≤ q / 2 ^ 53 := by
    rw [le_div_iff₀ (by positivity)]
    exact h
  obtain ⟨a, b⟩ := abs_le.mp h2
  constructor
  · have : q * (1 - 1 / 2 ^ 53) = q - q / 2 ^ 53 := by ring
    linarith
  · have : q * (1 + 1 / 2 ^ 53) = q + q / 2 ^ 53 := by ring
    linarith

/-- An integer of magnitude below `2^53` is a `float64`. -/
theorem roundF64_intCast (z : Int) (h : z.natAbs < 2 ^ 53) : roundF64 (z : ℚ) = (z : ℚ) := by
  rcases lt_or_le z 0 with hneg | hpos
  · have hq : (z : ℚ) < 0 := by exact_mod_cast hneg
    have e : (-(z : ℚ)) = ((z.natAbs : ℕ) : ℚ) := by
      have : (z.natAbs : ℤ) = -z := by omega
      have h2 : ((z.natAbs : ℕ) : ℚ) = (((z.natAbs : ℕ) : ℤ) : ℚ) := (Int.cast_natCast _).symm
      rw [h2, this]
      push_cast
      ring
    rw [roundF64_neg _ hq, e, roundF64_natCast _ h, ← e]
    ring
  · have e : (z : ℚ) = ((z.natAbs : ℕ) : ℚ) := by
      have : (z.natAbs : ℤ) = z := by omega
      have h2 : ((z.natAbs : ℕ) : ℚ) = (((z.natAbs : ℕ) : ℤ) : ℚ) := (Int.cast_natCast _).symm
      rw [h2, this]
    rw [e]
    exact roundF64_natCast _ h

/-- The seconds of a positive duration, as `time.Duration.Seconds` returns them: within
two roundings of the nanoseconds divided by `10^9`. -/
theorem Seconds_bounds (d : ℤ) (hd : 0 < d) (hmax : d ≤ maxInt) :
    (d : ℚ) / 1000000000 * (1 - 1 / 2 ^ 53) ^ 2 ≤ Seconds d ∧
    Seconds d ≤ (d : ℚ) / 1000000000 * (1 + 1 / 2 ^ 53) ^ 2 := by
  unfold maxInt at hmax
  have e1 : Int.tdiv d 1000000000 = d / 1000000000 :=
    Int.tdiv_eq_ediv (le_of_lt hd) (by norm_num)
  have e2 : Int.tmod d 1000000000 = d % 1000000000 :=
    Int.tmod_eq_emod (le_of_lt hd) (by norm_num)
  have hq0 : 0 ≤ d / 1000000000 := by omega
  have hq1 : d / 1000000000 ≤ 9223372036 := by omega
  have hr0 : 0 ≤ d % 1000000000 := by omega
  have hr1 : d % 1000000000 < 1000000000 := by omega
  have hsum : d = 1000000000 * (d / 1000000000) + d % 1000000000 := by omega
  have f1 : roundF64 ((d / 1000000000 : ℤ) : ℚ) = ((d / 1000000000 : ℤ) : ℚ) :=
    roundF64_intCast _ (by
      have : (2 : ℕ) ^ 53 = 9007199254740992 := by norm_num
      omega)
  have f2 : roundF64 ((d % 1000000000 : ℤ) : ℚ) = ((d % 1000000000 : ℤ) : ℚ) :=
    roundF64_intCast _ (by
      have : (2 : ℕ) ^ 53 = 9007199254740992 := by norm_num
      omega)
  have f3 : roundF64 1000000000 = 1000000000 := by
    have := roundF64_natCast 1000000000 (by norm_num)
    simpa using this
  unfold Seconds
  rw [e1, e2, f1, f2, f3]
  have hqq : (0 : ℚ) ≤ ((d / 1000000000 : ℤ) : ℚ) := by exact_mod_cast hq0
  have hrq : (0 : ℚ) ≤ ((d % 1000000000 : ℤ) : ℚ) := by exact_mod_cast hr0
  have hT : (d : ℚ) / 1000000000 =
      ((d / 1000000000 : ℤ) : ℚ) + ((d % 1000000000 : ℤ) : ℚ) / 1000000000 := by
    have : (d : ℚ) = 1000000000 * ((d / 1000000000 : ℤ) : ℚ) + ((d % 1000000000 : ℤ) : ℚ) := by
      exact_mod_cast hsum
    rw [this]
    field_simp
    ring
  have hx0 : (0 : ℚ) ≤ ((d % 1000000000 : ℤ) : ℚ) / 1000000000 := by positivity
  obtain ⟨x1, x2⟩ := roundF64_between _ hx0
  have hs0 : (0 : ℚ) ≤ ((d / 1000000000 : ℤ) : ℚ) +
      roundF64 (((d % 1000000000 : ℤ) : ℚ) / 1000000000) := by
    have : (0 : ℚ) ≤ ((d % 1000000000 : ℤ) : ℚ) / 1000000000 * (1 - 1 / 2 ^ 53) := by
      apply mul_nonneg hx0
      norm_num
    linarith
  obtain ⟨s1, s2⟩ := roundF64_between _ hs0
  have hu1 : (0 : ℚ) ≤ 1 - 1 / 2 ^ 53 := by norm_num
  have hu2 : (0 : ℚ) ≤ 1 + 1 / 2 ^ 53 := by norm_num
  have hu3 : (0 : ℚ) ≤ 1 / 2 ^ 53 := by norm_num
  constructor
  · have low : (d : ℚ) / 1000000000 * (1 - 1 / 2 ^ 53) ≤
        ((d / 1000000000 : ℤ) : ℚ) + roundF64 (((d % 1000000000 : ℤ) : ℚ) / 1000000000) := by
      rw [hT]
      have : ((d / 1000000000 : ℤ) : ℚ) * (1 - 1 / 2 ^ 53) ≤ ((d / 1000000000 : ℤ) : ℚ) := by
        have := mul_nonneg hqq hu3
        linarith
      linarith
    calc (d : ℚ) / 1000000000 * (1 - 1 / 2 ^ 53) ^ 2
        = (d : ℚ) / 1000000000 * (1 - 1 / 2 ^ 53) * (1 - 1 / 2 ^ 53) := by ring
      _ ≤ _ := mul_le_mul_of_nonneg_right low hu1
      _ ≤ _ := s1
  · have high : ((d / 1000000000 : ℤ) : ℚ) +
        roundF64 (((d % 1000000000 : ℤ) : ℚ) / 1000000000) ≤
        (d : ℚ) / 1000000000 * (1 + 1 / 2 ^ 53) := by
      rw [hT]
      have : ((d / 1000000000 : ℤ) : ℚ) ≤ ((d / 1000000000 : ℤ) : ℚ) * (1 + 1 / 2 ^ 53) := by
        have := mul_nonneg hqq hu3
        linarith
      linarith
    calc _ ≤ _ := s2
      _ ≤ (d : ℚ) / 1000000000 * (1 + 1 / 2 ^ 53) * (1 + 1 / 2 ^ 53) :=
          mul_le_mul_of_nonneg_right high hu2
      _ = (d : ℚ) / 1000000000 * (1 + 1 / 2 ^ 53) ^ 2 := by ring

theorem Seconds_pos (d : ℤ) (hd : 0 < d) (hmax : d ≤ maxInt) : 0 < Seconds d := by
  have h := (Seconds_bounds d hd hmax).1
  have hdq : (0 : ℚ) < (d : ℚ) := by exact_mod_cast hd
  have : (0 : ℚ) < (d : ℚ) / 1000000000 * (1 - 1 / 2 ^ 53) ^ 2 := by
    apply mul_pos
    · positivity
    · norm_num
  linarith

/-- Truncation of a `float64` in the range of a `uint64`. -/
theorem f64ToU64_floor (oor : ℕ) (f : ℚ) (h0 : 0 ≤ f) (h1 : f < 2 ^ 64) :
    (f64ToU64 oor f : ℚ) ≤ f ∧ f < (f64ToU64 oor f : ℚ) + 1 := by
  unfold f64ToU64
  have c1 : ¬ (f ≤ -1 ∨ 18446744073709551616 ≤ f) := by
    intro h
    rcases h with h | h
    · linarith
    · have : (2 : ℚ) ^ 64 = 18446744073709551616 := by norm_num
      linarith
  have c2 : ¬ f < 0 := not_lt.mpr h0
  rw [if_neg c1, if_neg c2]
  have hfl : (0 : ℤ) ≤ ⌊f⌋ := Int.floor_nonneg.mpr h0
  have hc : ((⌊f⌋.toNat : ℕ) : ℚ) = ((⌊f⌋ : ℤ) : ℚ) := by
    have : ((⌊f⌋.toNat : ℕ) : ℤ) = ⌊f⌋ := Int.toNat_of_nonneg hfl
    have h2 : ((⌊f⌋.toNat : ℕ) : ℚ) = (((⌊f⌋.toNat : ℕ) : ℤ) : ℚ) := (Int.cast_natCast _).symm
    rw [h2, this]
  rw [hc]
  exact ⟨Int.floor_le f, Int.lt_floor_add_one f⟩

/-- The rate of a counter that grew by less than `2^61` octets over `d > 0` nanoseconds is
the integer part of a `float64` quotient that lies within `2^-50` of the bits divided by
the seconds, as long as that stays in the range of a `uint64`. -/
theorem rateOf_bounds (oor now prev : ℕ) (d : ℤ) (hd : 0 < d) (hmax : d ≤ maxInt)
    (hle : prev ≤ now) (hbits : now - prev < 2 ^ 61)
    (hrange : (((now - prev) * 8 : ℕ) : ℚ) / ((d : ℚ) / 1000000000) * (1 + 1 / 2 ^ 50) <
      2 ^ 64) :
    (((now - prev) * 8 : ℕ) : ℚ) / ((d : ℚ) / 1000000000) * (1 - 1 / 2 ^ 50) - 1 <
      (rateOf oor now prev (Seconds d) : ℚ) ∧
    (rateOf oor now prev (Seconds d) : ℚ) ≤
      (((now - prev) * 8 : ℕ) : ℚ) / ((d : ℚ) / 1000000000) * (1 + 1 / 2 ^ 50) := by
  have hw : wrapU64 ((now - prev) * 8) = (now - prev) * 8 := by
    unfold wrapU64
    apply Nat.mod_eq_of_lt
    have : (2 : ℕ) ^ 61 = 2305843009213693952 := by norm_num
    omega
  unfold rateOf
  rw [if_pos hle, hw]
  obtain ⟨S1, S2⟩ := Seconds_bounds d hd hmax
  have hS := Seconds_pos d hd hmax
  generalize Seconds d = S at S1 S2 hS
  have hdq : (0 : ℚ) < (d : ℚ) := by exact_mod_cast hd
  have hT : (0 : ℚ) < (d : ℚ) / 1000000000 := by positivity
  generalize (d : ℚ) / 1000000000 = T at S1 S2 hT hrange
  have hb : (0 : ℚ) ≤ (((now - prev) * 8 : ℕ) : ℚ) := by positivity
  generalize (((now - prev) * 8 : ℕ) : ℚ) = b at hb hrange
  obtain ⟨B1, B2⟩ := roundF64_between b hb
  have hB0 : 0 ≤ roundF64 b := by
    have : (0 : ℚ) ≤ b * (1 - 1 / 2 ^ 53) := mul_nonneg hb (by norm_num)
    linarith
  have hq0 : 0 ≤ roundF64 b / S := div_nonneg hB0 (le_of_lt hS)
  obtain ⟨F1, F2⟩ := roundF64_between _ hq0
  have hlowS : (0 : ℚ) < T * (1 - 1 / 2 ^ 53) ^ 2 := mul_pos hT (by norm_num)
  have hE : 0 ≤ b / T := div_nonneg hb (le_of_lt hT)
  -- the quotient from above
  have up1 : roundF64 b / S ≤ b * (1 + 1 / 2 ^ 53) / (T * (1 - 1 / 2 ^ 53) ^ 2) :=
    div_le_div₀ (mul_nonneg hb (by norm_num)) B2 hlowS S1
  have up2 : roundF64 (roundF64 b / S) ≤ b / T * (1 + 1 / 2 ^ 50) := by
    have h1 : roundF64 b / S * (1 + 1 / 2 ^ 53) ≤
        b * (1 + 1 / 2 ^ 53) / (T * (1 - 1 / 2 ^ 53) ^ 2) * (1 + 1 / 2 ^ 53) :=
      mul_le_mul_of_nonneg_right up1 (by norm_num)
    have h2 : b * (1 + 1 / 2 ^ 53) / (T * (1 - 1 / 2 ^ 53) ^ 2) * (1 + 1 / 2 ^ 53) =
        b / T * ((1 + 1 / 2 ^ 53) ^ 2 / (1 - 1 / 2 ^ 53) ^ 2) := by
      field_simp
      ring
    have h3 : ((1 : ℚ) + 1 / 2 ^ 53) ^ 2 / (1 - 1 / 2 ^ 53) ^ 2 ≤ 1 + 1 / 2 ^ 50 := by norm_num
    have h4 := mul_le_mul_of_nonneg_left h3 hE
    linarith
  -- the quotient from below
  have lo1 : b * (1 - 1 / 2 ^ 53) / (T * (1 + 1 / 2 ^ 53) ^ 2) ≤ roundF64 b / S :=
    div_le_div₀ hB0 B1 hS S2
  have lo2 : b / T * (1 - 1 / 2 ^ 50) ≤ roundF64 (roundF64 b / S) := by
    have h1 : b * (1 - 1 / 2 ^ 53) / (T * (1 + 1 / 2 ^ 53) ^ 2) * (1 - 1 / 2 ^ 53) ≤
        roundF64 b / S * (1 - 1 / 2 ^ 53) :=
      mul_le_mul_of_nonneg_right lo1 (by norm_num)
    have h2 : b * (1 - 1 / 2 ^ 53) / (T * (1 + 1 / 2 ^ 53) ^ 2) * (1 - 1 / 2 ^ 53) =
        b / T * ((1 - 1 / 2 ^ 53) ^ 2 / (1 + 1 / 2 ^ 53) ^ 2) := by
      field_simp
      ring
    have h3 : (1 : ℚ) - 1 / 2 ^ 50 ≤ (1 - 1 / 2 ^ 53) ^ 2 / (1 + 1 / 2 ^ 53) ^ 2 := by norm_num
    have h4 := mul_le_mul_of_nonneg_left h3 hE
    linarith
  have hf0 : 0 ≤ roundF64 (roundF64 b / S) := by
    have : (0 : ℚ) ≤ roundF64 b / S * (1 - 1 / 2 ^ 53) := mul_nonneg hq0 (by norm_num)
    linarith
  obtain ⟨t1, t2⟩ := f64ToU64_floor oor _ hf0 (lt_of_le_of_lt up2 hrange)
  constructor
  · linarith
  · linarith

/-! ## Lemmas on decimal numerals and cache keys -/

theorem foldl_digits (l : List Char) (a : ℕ) :
    l.foldl (fun n c => n * 10 + (c.toNat - 48)) a =
      a * 10 ^ l.length + l.foldl (fun n c => n * 10 + (c.toNat - 48)) 0 := by
  induction l generalizing a with
  | nil => simp
  | cons c cs ih =>
    simp only [List.foldl_cons, List.length_cons]
    rw [ih (a * 10 + (c.toNat - 48)), ih (0 * 10 + (c.toNat - 48))]
    ring

theorem char_digit (n : ℕ) (h : n < 10) :
    (Char.ofNat (48 + n)).toNat = 48 + n ∧ isDigit (Char.ofNat (48 + n)) = true := by
  interval_cases n <;> exact ⟨rfl, rfl⟩

theorem natDecimalAux_value (fuel n : ℕ) (acc : List Char) (h : n < fuel) :
    digitsValue (natDecimalAux fuel n acc) = n * 10 ^ acc.length + digitsValue acc := by
  induction fuel generalizing n acc with
  | zero => omega
  | succ f ih =>
    unfold natDecimalAux
    split_ifs with h10
    · unfold digitsValue
      rw [List.foldl_cons, foldl_digits, (char_digit n h10).1]
      simp
    · rw [ih (n / 10) _ (by omega)]
      unfold digitsValue
      rw [List.foldl_cons, foldl_digits acc, (char_digit (n % 10) (Nat.mod_lt _ (by norm_num))).1]
      simp only [List.length_cons, Nat.zero_mul, Nat.zero_add, Nat.add_sub_cancel_left]
      have hn : n = n / 10 * 10 + n % 10 := by omega
      generalize n / 10 = a at hn ⊢
      generalize n % 10 = b at hn ⊢
      rw [pow_succ, hn]
      ring

/-- The decimal numeral of `n` writes `n`. -/
theorem natDecimal_value (n : ℕ) : digitsValue (natDecimal n) = n := by
  unfold natDecimal
  rw [natDecimalAux_value (n + 1) n [] (by omega)]
  simp [digitsValue]

theorem natDecimalAux_digits (fuel n : ℕ) (acc : List Char) (h : n < fuel)
    (hacc : acc.all isDigit = true) :
    (natDecimalAux fuel n acc).all isDigit = true ∧ natDecimalAux fuel n acc ≠ [] := by
  induction fuel generalizing n acc with
  | zero => omega
  | succ f ih =>
    unfold natDecimalAux
    split_ifs with h10
    · simp [(char_digit n h10).2, hacc]
    · apply ih (n / 10) _ (by omega)
      simp [(char_digit (n % 10) (Nat.mod_lt _ (by norm_num))).2, hacc]

/-- A decimal numeral is a non-empty run of digits. -/
theorem natDecimal_digits (n : ℕ) : (natDecimal n).all isDigit = true ∧ natDecimal n ≠ [] :=
  natDecimalAux_digits (n + 1) n [] (by omega) (by simp)

theorem natDecimal_ne_minus (n : ℕ) (r : List Char) : natDecimal n ≠ '-' :: r := by
  intro h
  have := (natDecimal_digits n).1
  rw [h] at this
  simp only [List.all_cons, Bool.and_eq_true] at this
  exact absurd this.1 (by decide)

/-- `fmt.Sprintf("%d", i)` determines `i`. -/
theorem Itoa_injective (i j : Int) (h : Itoa i = Itoa j) : i = j := by
  unfold Itoa at h
  by_cases hi : i < 0
  · by_cases hj : j < 0
    · simp only [hi, hj, if_true, List.cons.injEq, true_and] at h
      have := congrArg digitsValue h
      rw [natDecimal_value, natDecimal_value] at this
      omega
    · simp only [hi, hj, if_true, if_false] at h
      exact absurd h.symm (natDecimal_ne_minus _ _)
  · by_cases hj : j < 0
    · simp only [hi, hj, if_true, if_false] at h
      exact absurd h (natDecimal_ne_minus _ _)
    · simp only [hi, hj, if_false] at h
      have := congrArg digitsValue h
      rw [natDecimal_value, natDecimal_value] at this
      omega

/-- The cache key of a device determines the ifIndex. -/
theorem cacheKey_injective (id i j : Int) (h : cacheKey id i = cacheKey id j) : i = j := by
  unfold cacheKey at h
  have h1 : Itoa id ++ '-' :: Itoa i = Itoa id ++ '-' :: Itoa j := congrArg String.data h
  have h2 := List.append_cancel_left h1
  simp only [List.cons.injEq, true_and] at h2
  exact Itoa_injective i j h2

/-! ## Lemmas on the reconciliation loop -/

theorem rowRates_congr (env : PollEnv) (c1 c2 : TrafficCache) (idx : Int) (res : SNMPResult)
    (h : c1 (cacheKey env.ID idx) = c2 (cacheKey env.ID idx)) :
    rowRates env c1 idx res = rowRates env c2 idx res := by
  unfold rowRates
  rw [h]

theorem reconcileRow_congr (env : PollEnv) (c1 c2 : TrafficCache) (idx : Int) (res : SNMPResult)
    (h : c1 (cacheKey env.ID idx) = c2 (cacheKey env.ID idx)) :
    reconcileRow env c1 idx res = reconcileRow env c2 idx res := by
  unfold reconcileRow vendorRow
  rw [rowRates_congr env c1 c2 idx res h]

/-- The rates of the row stored in `finalResults` are the rates computed from the cache. -/
theorem reconcileRow_rates (env : PollEnv) (cache : TrafficCache) (idx : Int) (res : SNMPResult) :
    (reconcileRow env cache idx res).InRate = (rowRates env cache idx res).1 ∧
    (reconcileRow env cache idx res).OutRate = (rowRates env cache idx res).2 := by
  obtain ⟨_, _, q1, q2⟩ := applyQBridge_fields env (vendorRow env cache idx res)
  obtain ⟨_, _, _, a1, a2⟩ := attachDOM_fields env
    { res with InRate := (rowRates env cache idx res).1, OutRate := (rowRates env cache idx res).2 }
  have v1 : (vendorRow env cache idx res).InRate = (rowRates env cache idx res).1 ∧
      (vendorRow env cache idx res).OutRate = (rowRates env cache idx res).2 := by
    unfold vendorRow applyVendorTables
    split_ifs
    · exact ⟨a1, a2⟩
    · exact ⟨a1, a2⟩
  unfold reconcileRow
  exact ⟨q1.trans v1.1, q2.trans v1.2⟩

theorem cacheAfterRow_other (env : PollEnv) (cache : TrafficCache) (i j : Int) (res : SNMPResult)
    (h : i ≠ j) :
    cacheAfterRow env cache i res (cacheKey env.ID j) = cache (cacheKey env.ID j) := by
  unfold cacheAfterRow cacheSet
  have : cacheKey env.ID j ≠ cacheKey env.ID i := fun hk => h (cacheKey_injective _ _ _ hk).symm
  simp [this]

/-- The loop leaves the cache entry of an ifIndex it does not visit as it was. -/
theorem reconcileLoop_cache_other (env : PollEnv) (cache : TrafficCache)
    (raw : List (Int × SNMPResult)) (idx : Int) (h : ∀ e ∈ raw, e.1 ≠ idx) :
    (reconcileLoop env cache raw).1 (cacheKey env.ID idx) = cache (cacheKey env.ID idx) := by
  induction raw generalizing cache with
  | nil => rfl
  | cons x rest ih =>
    obtain ⟨i, r⟩ := x
    have hrest : ∀ e ∈ rest, e.1 ≠ idx := fun e he => h e (List.mem_cons_of_mem _ he)
    have hi : i ≠ idx := h (i, r) (by simp)
    unfold reconcileLoop
    split_ifs with hname
    · exact ih cache hrest
    · simp only
      rw [ih _ hrest]
      exact cacheAfterRow_other env cache i idx r hi

/-- The loop over a map (distinct keys): the row of every raw row with a non-empty name is
computed from the cache as it was before the loop and stored under the decimal string of
its key, and the cache entry of the row holds its counters afterwards. -/
theorem reconcileLoop_entry (env : PollEnv) (cache : TrafficCache)
    (raw : List (Int × SNMPResult)) (hnd : (raw.map Prod.fst).Nodup)
    (idx : Int) (res : SNMPResult) (hm : (idx, res) ∈ raw) (hn : res.IfName.data ≠ []) :
    (String.mk (Itoa idx), reconcileRow env cache idx res) ∈ (reconcileLoop env cache raw).2 ∧
    (reconcileLoop env cache raw).1 (cacheKey env.ID idx) =
      some { Timestamp := env.clockNow idx, InOctets := res.InOctets,
             OutOctets := res.OutOctets } := by
  induction raw generalizing cache with
  | nil => simp at hm
  | cons x rest ih =>
    obtain ⟨i, r⟩ := x
    simp only [List.map_cons, List.nodup_cons] at hnd
    obtain ⟨hnotin, hnd2⟩ := hnd
    rcases List.mem_cons.mp hm with h1 | h2
    · simp only [Prod.mk.injEq] at h1
      obtain ⟨hi, hr⟩ := h1
      subst hi
      subst hr
      have hrest : ∀ e ∈ rest, e.1 ≠ idx := by
        intro e he heq
        apply hnotin
        rw [← heq]
        exact List.mem_map_of_mem _ he
      unfold reconcileLoop
      rw [if_neg hn]
      refine ⟨by simp, ?_⟩
      simp only
      rw [reconcileLoop_cache_other env _ rest idx hrest]
      unfold cacheAfterRow cacheSet
      simp
    · have hi : i ≠ idx := by
        intro heq
        apply hnotin
        rw [heq]
        exact List.mem_map_of_mem Prod.fst h2
      unfold reconcileLoop
      split_ifs with hname
      · exact ih cache hnd2 h2
      · obtain ⟨e1, e2⟩ := ih (cacheAfterRow env cache i r) hnd2 h2
        rw [reconcileRow_congr env _ cache idx res (cacheAfterRow_other env cache i idx r hi)] at e1
        exact ⟨List.mem_cons_of_mem _ e1, e2⟩

/-! ## Rates: the claims -/

/-- C6. For every row the reconciliation retains (a raw row with a non-empty name; its row
is stored under the decimal string of its key), `in_rate` is 0 when the rate cache holds no
entry for its device id and ifIndex, when `in_now < in_prev`, and when `in_now = in_prev`
(whatever the time between the polls); the same holds for `out_rate` with the out
counters. -/
theorem C6_rate_zero (env : PollEnv) (cache : TrafficCache) (raw : List (Int × SNMPResult))
    (hnd : (raw.map Prod.fst).Nodup) :
    ∀ e ∈ raw, e.2.IfName.data ≠ [] →
      (String.mk (Itoa e.1), reconcileRow env cache e.1 e.2) ∈ (reconcileLoop env cache raw).2 ∧
      (cache (cacheKey env.ID e.1) = none →
        (reconcileRow env cache e.1 e.2).InRate = 0 ∧
        (reconcileRow env cache e.1 e.2).OutRate = 0) ∧
      (∀ prev, cache (cacheKey env.ID e.1) = some prev →
        (e.2.InOctets < prev.InOctets → (reconcileRow env cache e.1 e.2).InRate = 0) ∧
        (e.2.InOctets = prev.InOctets → (reconcileRow env cache e.1 e.2).InRate = 0) ∧
        (e.2.OutOctets < prev.OutOctets → (reconcileRow env cache e.1 e.2).OutRate = 0) ∧
        (e.2.OutOctets = prev.OutOctets → (reconcileRow env cache e.1 e.2).OutRate = 0)) := by
  intro e he hn
  obtain ⟨r1, r2⟩ := reconcileRow_rates env cache e.1 e.2
  refine ⟨(reconcileLoop_entry env cache raw hnd e.1 e.2 he hn).1, ?_, ?_⟩
  · intro hnone
    rw [r1, r2]
    unfold rowRates
    rw [hnone]
    exact ⟨rfl, rfl⟩
  · intro prev hprev
    have hin : e.2.InOctets ≤ prev.InOctets → (rowRates env cache e.1 e.2).1 = 0 := by
      intro hle
      unfold rowRates
      rw [hprev]
      simp only
      split_ifs
      · exact rateOf_not_grown _ _ _ _ hle
      · rfl
    have hout : e.2.OutOctets ≤ prev.OutOctets → (rowRates env cache e.1 e.2).2 = 0 := by
      intro hle
      unfold rowRates
      rw [hprev]
      simp only
      split_ifs
      · exact rateOf_not_grown _ _ _ _ hle
      · rfl
    rw [r1, r2]
    exact ⟨fun h => hin (le_of_lt h), fun h => hin (le_of_eq h),
      fun h => hout (le_of_lt h), fun h => hout (le_of_eq h)⟩

/-- Witness of C6: the first poll of scenario 5 finds an empty cache and reports the rates
0; a poll 10 s after a cache entry with the counters 2 000 000 and 500 000 finds the in
counter at 1 000 000 (gone backwards) and the out counter unchanged and reports the rates
0. -/
theorem C6_rate_zero_witness :
    (firstRaw.map Prod.fst).Nodup ∧
    ((reconcileRow firstPoll (fun _ => none) 5
        { IfIndex := 5, IfName := "Ethernet5", InOctets := 1000000, OutOctets := 500000 }).InRate = 0 ∧
     (reconcileRow firstPoll (fun _ => none) 5
        { IfIndex := 5, IfName := "Ethernet5", InOctets := 1000000, OutOctets := 500000 }).OutRate = 0) ∧
    ((reconcileRow (pollAt 10000000000) (cacheWith 2000000 500000) 5
        { IfIndex := 5, IfName := "Ethernet5", InOctets := 1000000, OutOctets := 500000 }).InRate = 0 ∧
     (reconcileRow (pollAt 10000000000) (cacheWith 2000000 500000) 5
        { IfIndex := 5, IfName := "Ethernet5", InOctets := 1000000, OutOctets := 500000 }).OutRate = 0) :=
  ⟨by decide,
   (C6_rate_zero firstPoll (fun _ => none) firstRaw (by decide)
      (5, { IfIndex := 5, IfName := "Ethernet5", InOctets := 1000000, OutOctets := 500000 })
      (by simp [firstRaw]) (by decide)).2.1 rfl,
   ⟨((C6_rate_zero (pollAt 10000000000) (cacheWith 2000000 500000) (rawWith 1000000 500000)
      (by decide)
      (5, { IfIndex := 5, IfName := "Ethernet5", InOctets := 1000000, OutOctets := 500000 })
      (by simp [rawWith]) (by decide)).2.2
        { Timestamp := 0, InOctets := 2000000, OutOctets := 500000 } (by decide)).1 (by decide),
    ((C6_rate_zero (pollAt 10000000000) (cacheWith 2000000 500000) (rawWith 1000000 500000)
      (by decide)
      (5, { IfIndex := 5, IfName := "Ethernet5", InOctets := 1000000, OutOctets := 500000 })
      (by simp [rawWith]) (by decide)).2.2
        { Timestamp := 0, InOctets := 2000000, OutOctets := 500000 } (by decide)).2.2.2 rfl⟩⟩

theorem satDuration_le (x : Int) : satDuration x ≤ maxInt := by
  unfold satDuration
  split_ifs with h1 h2
  · exact le_refl _
  · unfold minInt maxInt
    norm_num
  · exact not_lt.mp h1

/-- A rate within the rounding tolerance of a quotient below `2^50` is within 1 of the
truncated quotient. -/
theorem within_one_of_floor (R : ℕ) (E : ℚ) (h0 : 0 ≤ E) (h50 : E < 2 ^ 50)
    (h1 : E * (1 - 1 / 2 ^ 50) - 1 < (R : ℚ)) (h2 : (R : ℚ) ≤ E * (1 + 1 / 2 ^ 50)) :
    ⌊E⌋ - 1 ≤ (R : ℤ) ∧ (R : ℤ) ≤ ⌊E⌋ + 1 := by
  have hfl1 : ((⌊E⌋ : ℤ) : ℚ) ≤ E := Int.floor_le E
  have hE0 : 0 ≤ E * (1 / 2 ^ 50) := mul_nonneg h0 (by norm_num)
  have hfl2 : E < ((⌊E⌋ : ℤ) : ℚ) + 1 := Int.lt_floor_add_one E
  have ht : E * (1 / 2 ^ 50) < 1 := by
    have : E * (1 / 2 ^ 50) < 2 ^ 50 * (1 / 2 ^ 50) :=
      mul_lt_mul_of_pos_right h50 (by norm_num)
    have e : (2 : ℚ) ^ 50 * (1 / 2 ^ 50) = 1 := by norm_num
    linarith
  have hR : ((R : ℤ) : ℚ) = (R : ℚ) := Int.cast_natCast R
  constructor
  · have : ((⌊E⌋ - 2 : ℤ) : ℚ) < ((R : ℤ) : ℚ) := by
      rw [hR]
      push_cast
      linarith
    have := Int.cast_lt.mp this
    omega
  · have : ((R : ℤ) : ℚ) < ((⌊E⌋ + 2 : ℤ) : ℚ) := by
      rw [hR]
      push_cast
      linarith
    have := Int.cast_lt.mp this
    omega

/-- C5, as the code has it. Two successive reconciliations of the same device id and
ifIndex, with the cache entry of that ifIndex untouched in between, the second one reading
the clock `d > 0` nanoseconds after the time stamp of the first.  When `in_now ≥ in_prev`,
the counter grew by less than `2^61` octets and the quotient of the `(in_now - in_prev) * 8`
bits by the seconds of `d`, with a tolerance of `2^-50` of it, is below `2^64`, the
`in_rate` of the second poll is the integer part of a `float64` within that tolerance of the
quotient: it lies between the quotient less its tolerance less 1 and the quotient plus its
tolerance, and it is within 1 of the truncated quotient when the quotient is below `2^50`.
When `d` is a whole number `k` of seconds and `(in_now - in_prev) * 8 < 2^53`, `in_rate` is
`(in_now - in_prev) * 8 / k` truncated to an integer.  The same holds for `out_rate` with
the out counters. -/
theorem C5_rate_two_polls (env1 env2 : PollEnv) (c0 c1 : TrafficCache)
    (raw1 raw2 : List (Int × SNMPResult))
    (hnd1 : (raw1.map Prod.fst).Nodup) (hnd2 : (raw2.map Prod.fst).Nodup)
    (idx : Int) (res1 res2 : SNMPResult)
    (hm1 : (idx, res1) ∈ raw1) (hm2 : (idx, res2) ∈ raw2)
    (hn1 : res1.IfName.data ≠ []) (hn2 : res2.IfName.data ≠ [])
    (hid : env1.ID = env2.ID)
    (hbetween : c1 (cacheKey env1.ID idx) = (reconcileLoop env1 c0 raw1).1 (cacheKey env1.ID idx))
    (hdt : 0 < elapsed env1 env2 idx) :
    (String.mk (Itoa idx), reconcileRow env2 c1 idx res2) ∈ (reconcileLoop env2 c1 raw2).2 ∧
    (res1.InOctets ≤ res2.InOctets → res2.InOctets - res1.InOctets < 2 ^ 61 →
      bitsPerSecond ((res2.InOctets - res1.InOctets) * 8) (elapsed env1 env2 idx) *
        (1 + 1 / 2 ^ 50) < 2 ^ 64 →
      (bitsPerSecond ((res2.InOctets - res1.InOctets) * 8) (elapsed env1 env2 idx) *
          (1 - 1 / 2 ^ 50) - 1 < ((reconcileRow env2 c1 idx res2).InRate : ℚ) ∧
        ((reconcileRow env2 c1 idx res2).InRate : ℚ) ≤
          bitsPerSecond ((res2.InOctets - res1.InOctets) * 8) (elapsed env1 env2 idx) *
            (1 + 1 / 2 ^ 50)) ∧
      (bitsPerSecond ((res2.InOctets - res1.InOctets) * 8) (elapsed env1 env2 idx) < 2 ^ 50 →
        ⌊bitsPerSecond ((res2.InOctets - res1.InOctets) * 8) (elapsed env1 env2 idx)⌋ - 1 ≤
          ((reconcileRow env2 c1 idx res2).InRate : ℤ) ∧
        ((reconcileRow env2 c1 idx res2).InRate : ℤ) ≤
          ⌊bitsPerSecond ((res2.InOctets - res1.InOctets) * 8) (elapsed env1 env2 idx)⌋ + 1)) ∧
    (res1.OutOctets ≤ res2.OutOctets → res2.OutOctets - res1.OutOctets < 2 ^ 61 →
      bitsPerSecond ((res2.OutOctets - res1.OutOctets) * 8) (elapsed env1 env2 idx) *
        (1 + 1 / 2 ^ 50) < 2 ^ 64 →
      (bitsPerSecond ((res2.OutOctets - res1.OutOctets) * 8) (elapsed env1 env2 idx) *
          (1 - 1 / 2 ^ 50) - 1 < ((reconcileRow env2 c1 idx res2).OutRate : ℚ) ∧
        ((reconcileRow env2 c1 idx res2).OutRate : ℚ) ≤
          bitsPerSecond ((res2.OutOctets - res1.OutOctets) * 8) (elapsed env1 env2 idx) *
            (1 + 1 / 2 ^ 50)) ∧
      (bitsPerSecond ((res2.OutOctets - res1.OutOctets) * 8) (elapsed env1 env2 idx) < 2 ^ 50 →
        ⌊bitsPerSecond ((res2.OutOctets - res1.OutOctets) * 8) (elapsed env1 env2 idx)⌋ - 1 ≤
          ((reconcileRow env2 c1 idx res2).OutRate : ℤ) ∧
        ((reconcileRow env2 c1 idx res2).OutRate : ℤ) ≤
          ⌊bitsPerSecond ((res2.OutOctets - res1.OutOctets) * 8) (elapsed env1 env2 idx)⌋ + 1)) ∧
    (∀ k : ℕ, elapsed env1 env2 idx = (k : ℤ) * 1000000000 →
      (res1.InOctets ≤ res2.InOctets → (res2.InOctets - res1.InOctets) * 8 < 2 ^ 53 →
        (reconcileRow env2 c1 idx res2).InRate = (res2.InOctets - res1.InOctets) * 8 / k) ∧
      (res1.OutOctets ≤ res2.OutOctets → (res2.OutOctets - res1.OutOctets) * 8 < 2 ^ 53 →
        (reconcileRow env2 c1 idx res2).OutRate = (res2.OutOctets - res1.OutOctets) * 8 / k)) := by
  have hcache := (reconcileLoop_entry env1 c0 raw1 hnd1 idx res1 hm1 hn1).2
  rw [← hbetween, hid] at hcache
  obtain ⟨r1, r2⟩ := reconcileRow_rates env2 c1 idx res2
  have hmax : elapsed env1 env2 idx ≤ maxInt := satDuration_le _
  have hrates : rowRates env2 c1 idx res2 =
      (rateOf env2.outOfRange res2.InOctets res1.InOctets (Seconds (elapsed env1 env2 idx)),
       rateOf env2.outOfRange res2.OutOctets res1.OutOctets
        (Seconds (elapsed env1 env2 idx))) := by
    unfold rowRates
    rw [hcache]
    simp only
    have hp : 0 < Seconds (satDuration (env2.clockSince idx - env1.clockNow idx)) :=
      Seconds_pos _ hdt hmax
    rw [if_pos hp]
    rfl
  have hgen : ∀ now prev : ℕ, prev ≤ now → now - prev < 2 ^ 61 →
      bitsPerSecond ((now - prev) * 8) (elapsed env1 env2 idx) * (1 + 1 / 2 ^ 50) < 2 ^ 64 →
      (bitsPerSecond ((now - prev) * 8) (elapsed env1 env2 idx) * (1 - 1 / 2 ^ 50) - 1 <
          (rateOf env2.outOfRange now prev (Seconds (elapsed env1 env2 idx)) : ℚ) ∧
        (rateOf env2.outOfRange now prev (Seconds (elapsed env1 env2 idx)) : ℚ) ≤
          bitsPerSecond ((now - prev) * 8) (elapsed env1 env2 idx) * (1 + 1 / 2 ^ 50)) ∧
      (bitsPerSecond ((now - prev) * 8) (elapsed env1 env2 idx) < 2 ^ 50 →
        ⌊bitsPerSecond ((now - prev) * 8) (elapsed env1 env2 idx)⌋ - 1 ≤
          (rateOf env2.outOfRange now prev (Seconds (elapsed env1 env2 idx)) : ℤ) ∧
        (rateOf env2.outOfRange now prev (Seconds (elapsed env1 env2 idx)) : ℤ) ≤
          ⌊bitsPerSecond ((now - prev) * 8) (elapsed env1 env2 idx)⌋ + 1) := by
    intro now prev hle hbits hrange
    have hb := rateOf_bounds env2.outOfRange now prev (elapsed env1 env2 idx) hdt hmax hle hbits
      hrange
    refine ⟨hb, fun h50 => ?_⟩
    apply within_one_of_floor _ _ _ h50 hb.1 hb.2
    unfold bitsPerSecond
    have : (0 : ℚ) < ((elapsed env1 env2 idx : ℤ) : ℚ) := by exact_mod_cast hdt
    positivity
  refine ⟨(reconcileLoop_entry env2 c1 raw2 hnd2 idx res2 hm2 hn2).1, ?_, ?_, ?_⟩
  · intro hle hbits hrange
    rw [r1, hrates]
    exact hgen _ _ hle hbits hrange
  · intro hle hbits hrange
    rw [r2, hrates]
    exact hgen _ _ hle hbits hrange
  · intro k hk
    have hkpos : 0 < k := by
      rw [hk] at hdt
      by_contra h0
      have : k = 0 := by omega
      rw [this] at hdt
      simp at hdt
    have hkmax : (k : ℤ) * 1000000000 ≤ maxInt := by
      rw [← hk]
      exact hmax
    have hsec : Seconds (elapsed env1 env2 idx) = (k : ℚ) := by
      have h := Seconds_whole k hkmax
      have hs : satDuration ((k : ℤ) * 1000000000) = (k : ℤ) * 1000000000 := by
        unfold satDuration
        have c1 : ¬ maxInt < (k : ℤ) * 1000000000 := not_lt.mpr hkmax
        have c2 : ¬ (k : ℤ) * 1000000000 < minInt := by
          unfold minInt
          have h0 : (0 : ℤ) ≤ (k : ℤ) := Int.natCast_nonneg k
          omega
        rw [if_neg c1, if_neg c2]
      rw [hs] at h
      rw [hk]
      exact h
    rw [r1, r2, hrates, hsec]
    exact ⟨fun hle hx => rateOf_whole_seconds _ _ _ k hkpos hle hx,
      fun hle hx => rateOf_whole_seconds _ _ _ k hkpos hle hx⟩

/-- Witness of C5, scenario 5 of the specification: in 1 000 000 then 2 250 000 and out
500 000 then 1 100 000, 10 s apart, give `in_rate` 1 000 000 and `out_rate` 480 000. -/
theorem C5_rate_two_polls_witness :
    elapsed firstPoll secondPoll 5 = 10000000000 ∧
    (reconcileRow secondPoll (reconcileLoop firstPoll (fun _ => none) firstRaw).1 5
      { IfIndex := 5, IfName := "Ethernet5", InOctets := 2250000, OutOctets := 1100000 }).InRate
      = 1000000 ∧
    (reconcileRow secondPoll (reconcileLoop firstPoll (fun _ => none) firstRaw).1 5
      { IfIndex := 5, IfName := "Ethernet5", InOctets := 2250000, OutOctets := 1100000 }).OutRate
      = 480000 :=
  ⟨by decide,
   (((C5_rate_two_polls firstPoll secondPoll (fun _ => none)
      (reconcileLoop firstPoll (fun _ => none) firstRaw).1 firstRaw secondRaw
      (by decide) (by decide) 5
      { IfIndex := 5, IfName := "Ethernet5", InOctets := 1000000, OutOctets := 500000 }
      { IfIndex := 5, IfName := "Ethernet5", InOctets := 2250000, OutOctets := 1100000 }
      (by simp [firstRaw]) (by simp [secondRaw]) (by decide) (by decide) rfl rfl
      (by decide)).2.2.2 10 (by decide)).1 (by decide) (by decide)).trans (by decide),
   (((C5_rate_two_polls firstPoll secondPoll (fun _ => none)
      (reconcileLoop firstPoll (fun _ => none) firstRaw).1 firstRaw secondRaw
      (by decide) (by decide) 5
      { IfIndex := 5, IfName := "Ethernet5", InOctets := 1000000, OutOctets := 500000 }
      { IfIndex := 5, IfName := "Ethernet5", InOctets := 2250000, OutOctets := 1100000 }
      (by simp [firstRaw]) (by simp [secondRaw]) (by decide) (by decide) rfl rfl
      (by decide)).2.2.2 10 (by decide)).2 (by decide) (by decide)).trans (by decide)⟩

/-- Counterexample to C5 as stated, second polls against a cache entry with the counters 0
stamped at 0 ns.  (1) 35 ms later the in counter is 7: the `float64` quotient `56 / 0.035`
lies below 1600 and the rate is 1599, while `56 / 0.035` truncated is 1600.  (2) 3 s later
the in counter is `2^51 + 2`: the `float64` quotient is rounded up to the next integer and
the rate is 6004799503160667, while `(2^51 + 2) * 8 / 3` truncated is 6004799503160666.
(3) 1 ns later the in counter is `2^40`: the quotient, `2^43 * 10^9`, is not a `uint64`, and
the rate is what the platform makes of the conversion (0, or `2^63`).  (4) 16 s later the in
counter is `2^61`: `diff * 8` wraps to 0 in 64 bits and the rate is 0, not
`2^61 * 8 / 16 = 2^60`. -/
theorem C5_counterexample :
    ((reconcileLoop (pollAt 35000000) (cacheWith 0 0) (rawWith 7 0)).2.map
        (fun e => (e.1, e.2.InRate)) = [("5", 1599)] ∧
      7 * 8 * 1000000000 / 35000000 = 1600) ∧
    ((reconcileLoop (pollAt 3000000000) (cacheWith 0 0) (rawWith 2251799813685250 0)).2.map
        (fun e => (e.1, e.2.InRate)) = [("5", 6004799503160667)] ∧
      2251799813685250 * 8 / 3 = 6004799503160666) ∧
    ((reconcileLoop (pollAt 1) (cacheWith 0 0) (rawWith 1099511627776 0)).2.map
        (fun e => (e.1, e.2.InRate)) = [("5", 0)] ∧
      (reconcileLoop overflowPoll (cacheWith 0 0) (rawWith 1099511627776 0)).2.map
        (fun e => (e.1, e.2.InRate)) = [("5", 9223372036854775808)] ∧
      18446744073709551616 ≤ 1099511627776 * 8 * 1000000000 / 1) ∧
    ((reconcileLoop (pollAt 16000000000) (cacheWith 0 0) (rawWith 2305843009213693952 0)).2.map
        (fun e => (e.1, e.2.InRate)) = [("5", 0)] ∧
      2305843009213693952 * 8 / 16 = 1152921504606846976) := by
  decide!

/-! ## VLAN bitmaps: lemmas and the bound of the decoded ids -/

theorem mem_vlanBits (offset : Int) (i b : Nat) (bits : List Nat) (v : Int) :
    v ∈ vlanBits offset i b bits ↔
      ∃ bit ∈ bits, bitSet b bit = true ∧ v = offset + (i : Int) * 8 + (bit : Int) ∧
        0 < v ∧ v < 4096 := by
  induction bits with
  | nil => simp [vlanBits]
  | cons bit rest ih =>
    unfold vlanBits
    split_ifs with h
    · rw [List.mem_cons, ih]
      constructor
      · rintro (h1 | ⟨k, hk, hrest⟩)
        · exact ⟨bit, by simp, h.1, h1, by rw [h1]; exact h.2.1, by rw [h1]; exact h.2.2⟩
        · exact ⟨k, List.mem_cons_of_mem _ hk, hrest⟩
      · rintro ⟨k, hk, h1, h2, h3, h4⟩
        rcases List.mem_cons.mp hk with hk1 | hk2
        · left; rw [h2, hk1]
        · right; exact ⟨k, hk2, h1, h2, h3, h4⟩
    · rw [ih]
      constructor
      · rintro ⟨k, hk, hrest⟩
        exact ⟨k, List.mem_cons_of_mem _ hk, hrest⟩
      · rintro ⟨k, hk, h1, h2, h3, h4⟩
        rcases List.mem_cons.mp hk with hk1 | hk2
        · exfalso
          apply h
          rw [hk1] at h1 h2
          exact ⟨h1, by rw [← h2]; exact h3, by rw [← h2]; exact h4⟩
        · exact ⟨k, hk2, h1, h2, h3, h4⟩

theorem mem_parseVlanBitmapFrom (offset : Int) (i : Nat) (bytes : List Nat) (v : Int) :
    v ∈ parseVlanBitmapFrom offset i bytes ↔
      ∃ j b, bytes.get? j = some b ∧ v ∈ vlanBits offset (i + j) b (List.range 8) := by
  induction bytes generalizing i with
  | nil => simp [parseVlanBitmapFrom]
  | cons b bs ih =>
    unfold parseVlanBitmapFrom
    rw [List.mem_append, ih]
    constructor
    · rintro (h | ⟨j, b2, hj, hv⟩)
      · exact ⟨0, b, rfl, by simpa using h⟩
      · refine ⟨j + 1, b2, by simpa using hj, ?_⟩
        have : i + (j + 1) = i + 1 + j := by omega
        rw [this]; exact hv
    · rintro ⟨j, b2, hj, hv⟩
      cases j with
      | zero =>
        left
        simp only [List.get?_cons_zero, Option.some.injEq] at hj
        rw [hj]; simpa using hv
      | succ j =>
        right
        refine ⟨j, b2, by simpa using hj, ?_⟩
        have : i + (j + 1) = i + 1 + j := by omega
        rw [this] at hv; exact hv

/-- C13, as the code has it. For every octet string and every offset, every VLAN id in the
list `parseVlanBitmap` returns satisfies `0 < v < 4096`: the ids 1 to 4095 can be emitted,
4095 included. -/
theorem C13_vlan_id_bounds (bytes : List Nat) (offset : Int) :
    ∀ v ∈ parseVlanBitmap bytes offset, 0 < v ∧ v < 4096 := by
  intro v hv
  unfold parseVlanBitmap at hv
  obtain ⟨j, b, _, hb⟩ := (mem_parseVlanBitmapFrom offset 0 bytes v).mp hv
  obtain ⟨_, _, _, _, h3, h4⟩ := (mem_vlanBits offset _ b _ v).mp hb
  exact ⟨h3, h4⟩

/-- Witness of C13: the bitmap with the VLANs 1, 2, 3 and 100 at offset 0 decodes to ids
that include 100, and 100 lies between 1 and 4095. -/
theorem C13_vlan_id_bounds_witness :
    parseVlanBitmap bitmap_1_2_3_100 0 = [1, 2, 3, 100] ∧
    (100 : Int) ∈ parseVlanBitmap bitmap_1_2_3_100 0 ∧ (0 : Int) < 100 ∧ (100 : Int) < 4096 :=
  ⟨by decide, by decide, C13_vlan_id_bounds bitmap_1_2_3_100 0 100 (by decide)⟩

/-- Counterexample to C13 as stated: the 128 byte bitmap of the table with offset 3072 whose
last bit is set decodes to the id 4095, which is not below 4095. -/
theorem C13_counterexample :
    lastBitBitmap.length = 128 ∧ parseVlanBitmap lastBitBitmap 3072 = [4095] := by
  decide!

/-! ## Port status: the claim -/

/-- `strings.Contains` is the substring test. -/
theorem Contains_iff (s sub : List Char) : Contains s sub = true ↔ IsSubstring sub s := by
  unfold Contains IsSubstring
  rw [List.any_eq_true]
  constructor
  · rintro ⟨t, ht, hp⟩
    obtain ⟨a, ha⟩ := (List.mem_tails t s).mp ht
    obtain ⟨b, hb⟩ := List.isPrefixOf_iff_prefix.mp hp
    exact ⟨a, b, by rw [← ha, ← hb, List.append_assoc]⟩
  · rintro ⟨a, b, h⟩
    refine ⟨sub ++ b, (List.mem_tails _ s).mpr ⟨a, by rw [h, List.append_assoc]⟩, ?_⟩
    exact List.isPrefixOf_iff_prefix.mpr ⟨b, rfl⟩

/-- C19, as the code has it. The port status `createPortStatus` builds has status "UP"
exactly when `operStatus` is 1 and "DOWN" otherwise; its speed is `highSpeed * 1_000_000`
reduced modulo `2^64`, which is `highSpeed * 1_000_000` whenever `highSpeed` is below
18 446 744 073 710; its totals are the octet counters of the row; `ifName`, `ifAlias`, the
rates, `vlan_id`, `allowed_vlans`, mode and DOM are those of the row; it is not a breakout
port and has no children; its port type is the section's, except that for a breakout child
a section type containing "QSFP28" is shown as "SFP28" and otherwise one containing "QSFP+"
as "SFP+". -/
theorem C19_createPortStatus (phyIdx : Int) (pType : String) (res : SNMPResult) (isChild : Bool) :
    (createPortStatus phyIdx pType res isChild).PhysicalIndex = phyIdx ∧
    ((createPortStatus phyIdx pType res isChild).Status = "UP" ↔ res.OperStatus = 1) ∧
    (res.OperStatus ≠ 1 → (createPortStatus phyIdx pType res isChild).Status = "DOWN") ∧
    (createPortStatus phyIdx pType res isChild).Speed =
      res.HighSpeed * 1000000 % 18446744073709551616 ∧
    (res.HighSpeed < 18446744073710 →
      (createPortStatus phyIdx pType res isChild).Speed = res.HighSpeed * 1000000) ∧
    (createPortStatus phyIdx pType res isChild).InTraffic = res.InOctets ∧
    (createPortStatus phyIdx pType res isChild).OutTraffic = res.OutOctets ∧
    (createPortStatus phyIdx pType res isChild).IfName = res.IfName ∧
    (createPortStatus phyIdx pType res isChild).IfDesc = res.IfAlias ∧
    (createPortStatus phyIdx pType res isChild).InRate = res.InRate ∧
    (createPortStatus phyIdx pType res isChild).OutRate = res.OutRate ∧
    (createPortStatus phyIdx pType res isChild).VlanID = res.VlanID ∧
    (createPortStatus phyIdx pType res isChild).AllowedVlans = res.AllowedVlans ∧
    (createPortStatus phyIdx pType res isChild).Mode = res.Mode ∧
    (createPortStatus phyIdx pType res isChild).DOM = res.DOM ∧
    (createPortStatus phyIdx pType res isChild).IsBreakout = false ∧
    (createPortStatus phyIdx pType res isChild).BreakoutPorts = [] ∧
    (isChild = false → (createPortStatus phyIdx pType res isChild).PortType = pType) ∧
    (isChild = true → IsSubstring "QSFP28".data pType.data →
      (createPortStatus phyIdx pType res isChild).PortType = "SFP28") ∧
    (isChild = true → ¬ IsSubstring "QSFP28".data pType.data →
      IsSubstring "QSFP+".data pType.data →
      (createPortStatus phyIdx pType res isChild).PortType = "SFP+") ∧
    (isChild = true → ¬ IsSubstring "QSFP28".data pType.data →
      ¬ IsSubstring "QSFP+".data pType.data →
      (createPortStatus phyIdx pType res isChild).PortType = pType) := by
  refine ⟨rfl, ?_, ?_, rfl, ?_, rfl, rfl, rfl, rfl, rfl, rfl, rfl, rfl, rfl, rfl, rfl, rfl,
    ?_, ?_, ?_, ?_⟩
  · unfold createPortStatus
    by_cases h : res.OperStatus = 1
    · simp [h]
    · simp only [h, if_false, iff_false]
      decide
  · intro h
    unfold createPortStatus
    simp [h]
  · intro h
    unfold createPortStatus wrapU64
    exact Nat.mod_eq_of_lt (by omega)
  · intro h
    unfold createPortStatus
    simp [h]
  · intro h h1
    unfold createPortStatus
    simp [h, (Contains_iff _ _).mpr h1]
  · intro h h1 h2
    have c1 : Contains pType.data "QSFP28".data = false := by
      cases hc : Contains pType.data "QSFP28".data with
      | false => rfl
      | true => exact absurd ((Contains_iff _ _).mp hc) h1
    unfold createPortStatus
    simp [h, c1, (Contains_iff _ _).mpr h2]
  · intro h h1 h2
    have c1 : Contains pType.data "QSFP28".data = false := by
      cases hc : Contains pType.data "QSFP28".data with
      | false => rfl
      | true => exact absurd ((Contains_iff _ _).mp hc) h1
    have c2 : Contains pType.data "QSFP+".data = false := by
      cases hc : Contains pType.data "QSFP+".data with
      | false => rfl
      | true => exact absurd ((Contains_iff _ _).mp hc) h2
    unfold createPortStatus
    simp [h, c1, c2]

/-- Witness of C19: `operStatus` 1 and `highSpeed` 1000 give status "UP" and speed
1 000 000 000; as a child of a section of type "4x QSFP28" the port is shown as "SFP28". -/
theorem C19_createPortStatus_witness :
    (createPortStatus 10 "RJ45" upRow false).Status = "UP" ∧
    (createPortStatus 10 "RJ45" upRow false).Speed = 1000000000 ∧
    (createPortStatus 13 "4x QSFP28" downRow
        true).PortType = "SFP28" :=
  ⟨(C19_createPortStatus 10 "RJ45" upRow false).2.1.mpr rfl,
   ((C19_createPortStatus 10 "RJ45" upRow false).2.2.2.2.1 (by decide)).trans (by decide),
   (C19_createPortStatus 13 "4x QSFP28" downRow true).2.2.2.2.2.2.2.2.2.2.2.2.2.2.2.2.2.2.1 rfl
      ⟨"4x ".data, [], by decide⟩⟩

/-- Counterexample to C19 as stated: with `highSpeed` 18 446 744 073 710 the product
`highSpeed * 1_000_000` exceeds `2^64 - 1` and the speed of the port status is 448 384. -/
theorem C19_counterexample :
    (createPortStatus 1 "RJ45" fastRow false).Speed = 448384 ∧
    18446744073710 * 1000000 = 18446744073710000000 ∧
    18446744073710 < 18446744073709551616 := by
  decide

/-! ## Ignored interfaces: the claim -/

/-- `strings.HasPrefix` is the prefix relation. -/
theorem HasPrefix_iff (s p : List Char) : HasPrefix s p = true ↔ p <+: s := by
  unfold HasPrefix
  exact List.isPrefixOf_iff_prefix

/-- C17, as the code has it. `IsIgnoredInterface(name)` is true exactly when the name contains
'.', or its lower-cased form equals `eth0`, or its lower-cased form begins with one of tunnel,
vl, nu, lo, po, st, mg, ma, in, bl, co, tu, bd, vi, cpu, bridge-aggregation, br, ap, us, lan;
the names `Eth1`, `Ethernet48` and `GigabitEthernet0/10` are not ignored. -/
theorem C17_ignored_iff (name : String) :
    (IsIgnoredInterface name = true ↔
      '.' ∈ name.data ∨ ToLower name.data = "eth0".data ∨
      ∃ p ∈ ["tunnel", "vl", "nu", "lo", "po", "st", "mg", "ma", "in", "bl", "co", "tu", "bd",
          "vi", "cpu", "bridge-aggregation", "br", "ap", "us", "lan"],
        String.data p <+: ToLower name.data) ∧
    IsIgnoredInterface "Eth1" = false ∧ IsIgnoredInterface "Ethernet48" = false ∧
    IsIgnoredInterface "GigabitEthernet0/10" = false := by
  refine ⟨?_, by decide, by decide, by decide⟩
  unfold IsIgnoredInterface
  by_cases h1 : '.' ∈ name.data
  · simp [h1]
  · by_cases h2 : ToLower name.data = "eth0".data
    · simp [h1, h2]
    · by_cases h3 : HasPrefix (ToLower name.data) "tunnel".data = true
      · simp only [h1, h2, h3, if_false, or_true, if_true, false_or, true_iff]
        exact ⟨"tunnel", by simp, (HasPrefix_iff _ _).mp h3⟩
      · simp only [h1, h2, h3, if_false, or_false, false_or, Bool.false_eq_true]
        rw [List.any_eq_true]
        constructor
        · rintro ⟨p, hp, hpre⟩
          exact ⟨p, List.mem_cons_of_mem _ hp, (HasPrefix_iff _ _).mp hpre⟩
        · rintro ⟨p, hp, hpre⟩
          rcases List.mem_cons.mp hp with rfl | hp
          · exact absurd ((HasPrefix_iff _ _).mpr hpre) h3
          · exact ⟨p, hp, (HasPrefix_iff _ _).mpr hpre⟩

/-- Counterexample to C17 as stated: the name `ETH0` contains no '.', is not `eth0`, and
begins, ignoring letter case, with none of the listed prefixes, yet it is ignored. -/
theorem C17_counterexample :
    IsIgnoredInterface "ETH0" = true ∧ '.' ∉ "ETH0".data ∧ "ETH0" ≠ "eth0" ∧
    ∀ p ∈ ["tunnel", "vl", "nu", "lo", "po", "st", "mg", "ma", "in", "bl", "co", "tu", "bd",
        "vi", "cpu", "bridge-aggregation", "br", "ap", "us", "lan"],
      HasPrefix (ToLower "ETH0".data) (String.data p) = false := by
  decide

/-! ## Trailing digits of the name: lemmas and the claim -/

theorem reSonicSimple_none (s : List Char) (h : ∀ a, ¬ EndsInSonicSimple s a) :
    reSonicSimple s = none := by
  cases hm : reSonicSimple s with
  | none => rfl
  | some r =>
    obtain ⟨pre, t, hs, ht⟩ := findFirst_some matchSonicSimpleAt s r hm
    obtain ⟨e, t2, hh, ws, hshape, heth, hws, hne, hd⟩ := matchSonicSimpleAt_some t r ht
    exact absurd ⟨pre, e, t2, hh, ws, by rw [hs, hshape], heth, hws, hne, hd⟩ (h r)

theorem not_endsInSonicSimple (s : List Char) (h : reSonicSimple s = none) :
    ∀ a, ¬ EndsInSonicSimple s a := by
  intro a ha
  have := reSonicSimple_of s a ha
  rw [h] at this
  exact absurd this (by simp)

/-- A match of `(\d+)$` begins where the maximal run of digits at the end of the text
begins. -/
theorem reLastNum_of (p d : List Char) (hd : d ≠ []) (hall : d.all isDigit = true)
    (hp : ∀ c, p.getLast? = some c → isDigit c = false) : reLastNum (p ++ d) = some d := by
  unfold reLastNum
  apply findFirst_leftmost matchLastNumAt p d d
  · unfold matchLastNumAt
    simp [hd, hall]
  · intro p1 p2 hsplit hne
    obtain ⟨c, hc⟩ : ∃ c, p2.getLast? = some c := by
      cases h : p2.getLast? with
      | none => exact absurd (List.getLast?_eq_none_iff.mp h) hne
      | some c => exact ⟨c, rfl⟩
    have hpc : p.getLast? = some c := by
      rw [hsplit, List.getLast?_append, hc]
      rfl
    have hmem : c ∈ p2 := List.mem_of_getLast?_eq_some hc
    have hnd : isDigit c = false := hp c hpc
    unfold matchLastNumAt
    have : (p2 ++ d).all isDigit = false := by
      rw [List.all_eq_false]
      exact ⟨c, List.mem_append_left _ hmem, by simp [hnd]⟩
    simp [this]

/-- The pattern `(\d+)$` has no match in a text that is empty or ends in a character that
is not a digit. -/
theorem reLastNum_none (s : List Char)
    (h : s = [] ∨ ∃ p c, s = p ++ [c] ∧ isDigit c = false) : reLastNum s = none := by
  unfold reLastNum
  apply findFirst_none
  intro pre t hs
  unfold matchLastNumAt
  by_cases ht : t = []
  · simp [ht]
  · rcases h with h | ⟨p, c, hpc, hc⟩
    · rw [h] at hs
      exact absurd (List.append_eq_nil.mp hs.symm).2 ht
    · have hlast : t.getLast? = some c := by
        have h1 : (pre ++ t).getLast? = some c := by
          rw [← hs, hpc]
          simp
        rw [List.getLast?_append] at h1
        cases hg : t.getLast? with
        | none => exact absurd (List.getLast?_eq_none_iff.mp hg) ht
        | some x =>
          rw [hg] at h1
          simpa using h1
      have hmem : c ∈ t := List.mem_of_getLast?_eq_some hlast
      have : t.all isDigit = false := by
        rw [List.all_eq_false]
        exact ⟨c, hmem, by simp [hc]⟩
      simp [this]

/-- C18, as the code has it. For a name that contains no '.', does not end in
`/<digits>:<digits>`, and such that neither the alias nor the name contains the pattern
`Eth <a> / <b>` or ends in `Eth <a>`: if the name is `p ++ d` with `d` a non-empty run of
digits and `p` not ending in a digit, `GetPhysicalIndex` returns the number `d` writes,
saturated at the largest `int` (`2^63 - 1`), and ok; if the name is empty or ends in a
character that is not a digit, it returns `(0, false)`. -/
theorem C18_trailing_digits (name al : String)
    (hdot : '.' ∉ name.data) (hcolon : ∀ x, ¬ EndsInColonSub name.data x)
    (hab : ¬ ContainsSonicBreakout al.data) (has : ∀ a, ¬ EndsInSonicSimple al.data a)
    (hnb : ¬ ContainsSonicBreakout name.data) (hns : ∀ a, ¬ EndsInSonicSimple name.data a) :
    (∀ p d, name.data = p ++ d → d ≠ [] → d.all isDigit = true →
        (∀ c, p.getLast? = some c → isDigit c = false) →
        GetPhysicalIndex name al = (min (digitsValue d : Int) maxInt, true)) ∧
    ((name.data = [] ∨ ∃ p c, name.data = p ++ [c] ∧ isDigit c = false) →
        GetPhysicalIndex name al = (0, false)) := by
  have hre : reColonSub name.data = none := reColonSub_none name.data hcolon
  have hal : aliasDigits al.data = none := by
    unfold aliasDigits
    rw [reSonicBreakout_none al.data hab, reSonicSimple_none al.data has]
    simp
  have h1 := reSonicBreakout_none name.data hnb
  have h2 := reSonicSimple_none name.data hns
  constructor
  · intro p d hname hd hall hp
    have h3 : reLastNum name.data = some d := by
      rw [hname]
      exact reLastNum_of p d hd hall hp
    unfold GetPhysicalIndex
    simp only [hdot, if_false, hre, hal, nameDigits, h1, h2, h3]
    rw [Atoi_digits d hd hall]
  · intro hend
    have h3 : reLastNum name.data = none := reLastNum_none name.data hend
    unfold GetPhysicalIndex
    simp only [hdot, if_false, hre, hal, nameDigits, h1, h2, h3]

/-- Witness of C18: `GetPhysicalIndex("GigabitEthernet0/10", "") = (10, true)`, and
`GetPhysicalIndex("uplink", "") = (0, false)`. -/
theorem C18_trailing_digits_witness :
    GetPhysicalIndex "GigabitEthernet0/10" "" = (10, true) ∧
    GetPhysicalIndex "uplink" "" = (0, false) :=
  ⟨((C18_trailing_digits "GigabitEthernet0/10" "" (by decide)
      (not_endsInColonSub _ (by decide)) (not_containsSonicBreakout _ (by decide))
      (not_endsInSonicSimple _ (by decide)) (not_containsSonicBreakout _ (by decide))
      (not_endsInSonicSimple _ (by decide))).1 "GigabitEthernet0/".data "10".data
      (by decide) (by decide) (by decide) (by decide)).trans (by decide),
   (C18_trailing_digits "uplink" "" (by decide)
      (not_endsInColonSub _ (by decide)) (not_containsSonicBreakout _ (by decide))
      (not_endsInSonicSimple _ (by decide)) (not_containsSonicBreakout _ (by decide))
      (not_endsInSonicSimple _ (by decide))).2
      (Or.inr ⟨"uplin".data, 'k', by decide, by decide⟩)⟩

/-- Counterexample to C18 as stated: the name `Gi99999999999999999999` meets every
condition of the claim and ends in a run of digits that writes 99 999 999 999 999 999 999,
yet the index returned is `2^63 - 1`. -/
theorem C18_counterexample :
    ('.' ∉ "Gi99999999999999999999".data ∧
      (∀ x, ¬ EndsInColonSub "Gi99999999999999999999".data x) ∧
      ¬ ContainsSonicBreakout "".data ∧ (∀ a, ¬ EndsInSonicSimple "".data a) ∧
      ¬ ContainsSonicBreakout "Gi99999999999999999999".data ∧
      (∀ a, ¬ EndsInSonicSimple "Gi99999999999999999999".data a)) ∧
    "Gi99999999999999999999".data = "Gi".data ++ "99999999999999999999".data ∧
    "99999999999999999999".data.all isDigit = true ∧
    digitsValue "99999999999999999999".data = 99999999999999999999 ∧
    GetPhysicalIndex "Gi99999999999999999999" "" = (9223372036854775807, true) :=
  ⟨⟨by decide, not_endsInColonSub _ (by decide), not_containsSonicBreakout _ (by decide),
    not_endsInSonicSimple _ (by decide), not_containsSonicBreakout _ (by decide),
    not_endsInSonicSimple _ (by decide)⟩, by decide, by decide, by decide, by decide⟩

/-! ## Config synthesizer: lemmas and the claim -/

theorem sortInts_sorted (l : List Int) : (sortInts l).Sorted (fun a b => a ≤ b) :=
  List.sorted_insertionSort _ l

/-- On a sorted list the loop that drops an element equal to its predecessor leaves a
strictly ascending list with the same elements. -/
theorem uniqueLoop_sorted (prev : Int) (l : List Int)
    (h : (prev :: l).Sorted (fun a b => a ≤ b)) :
    (prev :: uniqueLoop prev l).Pairwise (fun a b => a < b) ∧
    ∀ y, y ∈ prev :: uniqueLoop prev l ↔ y ∈ prev :: l := by
  induction l generalizing prev with
  | nil => simp [uniqueLoop]
  | cons x xs ih =>
    have hpx : prev ≤ x := List.rel_of_sorted_cons h x (by simp)
    have hxs : (x :: xs).Sorted (fun a b => a ≤ b) := List.Sorted.of_cons h
    obtain ⟨ih1, ih2⟩ := ih x hxs
    unfold uniqueLoop
    by_cases hne : x ≠ prev
    · rw [if_pos hne]
      refine ⟨List.pairwise_cons.mpr ⟨?_, ih1⟩, ?_⟩
      · intro y hy
        have hy2 : y ∈ x :: xs := (ih2 y).mp hy
        have hxy : x ≤ y := by
          rcases List.mem_cons.mp hy2 with h1 | h1
          · rw [h1]
          · exact List.rel_of_sorted_cons hxs y h1
        have : prev ≠ x := fun e => hne e.symm
        omega
      · intro y
        rw [List.mem_cons, ih2 y]
        simp
    · have hx : x = prev := not_not.mp hne
      rw [if_neg hne]
      subst hx
      refine ⟨ih1, ?_⟩
      intro y
      rw [ih2 y]
      simp

/-- The indices `uniqueIndices` keeps are strictly ascending and are the collected ones. -/
theorem uniqueIndices_spec (l : List Int) :
    (uniqueIndices l).Pairwise (fun a b => a < b) ∧ ∀ y, y ∈ uniqueIndices l ↔ y ∈ l := by
  have hs := sortInts_sorted l
  have hm := fun y => mem_sortInts y l
  unfold uniqueIndices
  cases hsl : sortInts l with
  | nil =>
    simp only [List.Pairwise.nil, true_and]
    intro y
    rw [← hm y, hsl]
  | cons x rest =>
    rw [hsl] at hs
    obtain ⟨h1, h2⟩ := uniqueLoop_sorted x rest hs
    refine ⟨h1, fun y => ?_⟩
    rw [← hm y, hsl]
    exact h2 y

/-- The last element of a non-empty strictly ascending list is its largest. -/
theorem getLastD_max (l : List Int) (d : Int) (hne : l ≠ [])
    (h : l.Pairwise (fun a b => a < b)) : l.getLastD d ∈ l ∧ ∀ x ∈ l, x ≤ l.getLastD d := by
  induction l generalizing d with
  | nil => exact absurd rfl hne
  | cons a as ih =>
    cases as with
    | nil => simp [List.getLastD]
    | cons b bs =>
      obtain ⟨h1, h2⟩ := List.pairwise_cons.mp h
      obtain ⟨i1, i2⟩ := ih a (by simp) h2
      have hl : (a :: b :: bs).getLastD d = (b :: bs).getLastD a := rfl
      rw [hl]
      refine ⟨List.mem_cons_of_mem _ i1, ?_⟩
      intro x hx
      rcases List.mem_cons.mp hx with hxa | hxb
      · have := h1 _ i1
        omega
      · exact i2 x hxb

/-- C14. The config synthesizer fails with "no valid ports found" exactly when every row of
the poll result is ignored, or has no physical index, or has index 0 while `allow_port_zero`
is false.  Otherwise it returns one section with id "sec-1", title "All Ports", port type
"RJ45", layout "odd_top", 2 rows and, as `port_ranges`, the range format of a list of
indices that is strictly ascending and holds exactly the indices some non-ignored row
classifies to; `detected_ports` is the largest index of that list. -/
theorem C14_generate_config (snmpData : List SNMPResult) (allowPortZero : Bool) :
    (GenerateConfigFromSNMP snmpData allowPortZero = Except.error "no valid ports found" ↔
      ∀ r ∈ snmpData, IsIgnoredInterface r.IfName = true ∨
        (GetPhysicalIndex r.IfName r.IfAlias).2 = false ∨
        ((GetPhysicalIndex r.IfName r.IfAlias).1 = 0 ∧ allowPortZero = false)) ∧
    ((∃ r ∈ snmpData, IsIgnoredInterface r.IfName = false ∧
        (GetPhysicalIndex r.IfName r.IfAlias).2 = true ∧
        ((GetPhysicalIndex r.IfName r.IfAlias).1 ≠ 0 ∨ allowPortZero = true)) →
      GenerateConfigFromSNMP snmpData allowPortZero =
        Except.ok
          ({ Sections :=
              [{ ID := "sec-1", Title := "All Ports", Type_ := "RJ45", PortType := "RJ45",
                 Layout := "odd_top", LayoutType := "odd_top", Rows := 2,
                 PortRanges :=
                   indicesToRangeString (uniqueIndices (collectPhyIndices allowPortZero snmpData)),
                 Ports := [] }] },
           (uniqueIndices (collectPhyIndices allowPortZero snmpData)).getLastD 0) ∧
      (uniqueIndices (collectPhyIndices allowPortZero snmpData)).Pairwise (fun a b => a < b) ∧
      (∀ x, x ∈ uniqueIndices (collectPhyIndices allowPortZero snmpData) ↔
        ∃ r ∈ snmpData, IsIgnoredInterface r.IfName = false ∧
          GetPhysicalIndex r.IfName r.IfAlias = (x, true) ∧ (x ≠ 0 ∨ allowPortZero = true)) ∧
      (uniqueIndices (collectPhyIndices allowPortZero snmpData)).getLastD 0 ∈
        uniqueIndices (collectPhyIndices allowPortZero snmpData) ∧
      ∀ x ∈ uniqueIndices (collectPhyIndices allowPortZero snmpData),
        x ≤ (uniqueIndices (collectPhyIndices allowPortZero snmpData)).getLastD 0) := by
  have hcl : ∀ (x : Int) (r : SNMPResult), classifiesTo allowPortZero x r = true ↔
      (IsIgnoredInterface r.IfName = false ∧
        GetPhysicalIndex r.IfName r.IfAlias = (x, true) ∧ (x ≠ 0 ∨ allowPortZero = true)) := by
    intro x r
    unfold classifiesTo
    rw [Prod.ext_iff]
    cases allowPortZero <;> cases IsIgnoredInterface r.IfName <;>
      cases (GetPhysicalIndex r.IfName r.IfAlias).2 <;>
      by_cases hx : x = 0 <;> simp [hx]
  have hmem : ∀ x, x ∈ collectPhyIndices allowPortZero snmpData ↔
      ∃ r ∈ snmpData, IsIgnoredInterface r.IfName = false ∧
        GetPhysicalIndex r.IfName r.IfAlias = (x, true) ∧ (x ≠ 0 ∨ allowPortZero = true) := by
    intro x
    rw [mem_collectPhyIndices]
    constructor
    · rintro ⟨r, hr, hc⟩
      exact ⟨r, hr, (hcl x r).mp hc⟩
    · rintro ⟨r, hr, hc⟩
      exact ⟨r, hr, (hcl x r).mpr hc⟩
  constructor
  · unfold GenerateConfigFromSNMP
    constructor
    · intro h
      split_ifs at h with hempty
      intro r hr
      by_contra hcon
      push_neg at hcon
      have : (GetPhysicalIndex r.IfName r.IfAlias).1 ∈ collectPhyIndices allowPortZero snmpData := by
        rw [hmem]
        refine ⟨r, hr, by simpa using hcon.1, Prod.ext rfl (by simpa using hcon.2.1), ?_⟩
        by_cases h0 : (GetPhysicalIndex r.IfName r.IfAlias).1 = 0
        · right
          simpa using hcon.2.2 h0
        · left
          exact h0
      rw [hempty] at this
      simp at this
    · intro h
      have hempty : collectPhyIndices allowPortZero snmpData = [] := by
        apply List.eq_nil_iff_forall_not_mem.mpr
        intro x hx
        obtain ⟨r, hr, h1, h2, h3⟩ := (hmem x).mp hx
        have hx1 : (GetPhysicalIndex r.IfName r.IfAlias).1 = x := by rw [h2]
        have hx2 : (GetPhysicalIndex r.IfName r.IfAlias).2 = true := by rw [h2]
        rcases h r hr with g | g | g
        · rw [h1] at g
          exact absurd g (by simp)
        · rw [hx2] at g
          exact absurd g (by simp)
        · rw [hx1] at g
          rcases h3 with h3 | h3
          · exact h3 g.1
          · rw [g.2] at h3
            exact absurd h3 (by simp)
      rw [if_pos hempty]
  · rintro ⟨r, hr, h1, h2, h3⟩
    have hin : (GetPhysicalIndex r.IfName r.IfAlias).1 ∈ collectPhyIndices allowPortZero snmpData :=
      (hmem _).mpr ⟨r, hr, h1, Prod.ext rfl h2, h3⟩
    have hne : collectPhyIndices allowPortZero snmpData ≠ [] := List.ne_nil_of_mem hin
    obtain ⟨hs1, hs2⟩ := uniqueIndices_spec (collectPhyIndices allowPortZero snmpData)
    have hune : uniqueIndices (collectPhyIndices allowPortZero snmpData) ≠ [] :=
      List.ne_nil_of_mem ((hs2 _).mpr hin)
    obtain ⟨hm1, hm2⟩ := getLastD_max _ 0 hune hs1
    refine ⟨?_, hs1, fun x => (hs2 x).trans (hmem x), hm1, hm2⟩
    unfold GenerateConfigFromSNMP
    rw [if_neg hne]

/-- Witness of C14: rows with the physical indices 3, 1, 2, 10, 5, 6 and 5 again give
`port_ranges` "1-3, 5-6, 10" and `detected_ports` 10. -/
theorem C14_generate_config_witness :
    uniqueIndices (collectPhyIndices false rangeRows) = [1, 2, 3, 5, 6, 10] ∧
    GenerateConfigFromSNMP rangeRows false =
      Except.ok
        ({ Sections :=
            [{ ID := "sec-1", Title := "All Ports", Type_ := "RJ45", PortType := "RJ45",
               Layout := "odd_top", LayoutType := "odd_top", Rows := 2,
               PortRanges := "1-3, 5-6, 10", Ports := [] }] }, 10) :=
  ⟨by decide,
   ((C14_generate_config rangeRows false).2
      ⟨{ IfIndex := 103, IfName := "GigabitEthernet0/3" }, by decide, by decide, by decide,
        Or.inl (by decide)⟩).1.trans rfl⟩

/-! ## The rows `PollSNMP` returns: lemmas and the claim -/

theorem updateRow_keys (f : SNMPResult → SNMPResult) (idx : Int) (raw : List (Int × SNMPResult)) :
    (updateRow f idx raw).map Prod.fst =
      if idx ∈ raw.map Prod.fst then raw.map Prod.fst else raw.map Prod.fst ++ [idx] := by
  induction raw with
  | nil => simp [updateRow]
  | cons x rest ih =>
    obtain ⟨k, r⟩ := x
    unfold updateRow
    by_cases hk : k = idx
    · simp [hk]
    · have hk2 : ¬ idx = k := fun e => hk e.symm
      rw [if_neg hk]
      simp only [List.map_cons, ih, List.mem_cons, hk2, false_or]
      split_ifs <;> simp

theorem updateRow_nodup (f : SNMPResult → SNMPResult) (idx : Int) (raw : List (Int × SNMPResult))
    (h : (raw.map Prod.fst).Nodup) : ((updateRow f idx raw).map Prod.fst).Nodup := by
  rw [updateRow_keys]
  split_ifs with hmem
  · exact h
  · rw [List.nodup_append]
    refine ⟨h, by simp, ?_⟩
    intro a ha hb
    simp only [List.mem_singleton] at hb
    rw [hb] at ha
    exact hmem ha

theorem ifWalkStep_nodup (o : IfOid) (raw raw2 : List (Int × SNMPResult)) (pdu : SnmpPDU)
    (hs : ifWalkStep o raw pdu = some raw2) (h : (raw.map Prod.fst).Nodup) :
    (raw2.map Prod.fst).Nodup := by
  unfold ifWalkStep at hs
  split_ifs at hs with hpos
  · cases o <;> simp only at hs
    · split at hs
      · simp only [Option.some.injEq] at hs
        rw [← hs]
        exact updateRow_nodup _ _ raw h
      · exact absurd hs (by simp)
    · split at hs
      · simp only [Option.some.injEq] at hs
        rw [← hs]
        exact updateRow_nodup _ _ raw h
      · exact absurd hs (by simp)
    all_goals
      simp only [Option.some.injEq] at hs
      rw [← hs]
      exact updateRow_nodup _ _ raw h
  · simp only [Option.some.injEq] at hs
    rw [← hs]
    exact h

/-- The keys of `rawResults` are pairwise different: it is a map. -/
theorem collectIf_nodup (pdus : List (IfOid × SnmpPDU)) (raw0 raw : List (Int × SNMPResult))
    (hs : collectIf raw0 pdus = some raw) (h : (raw0.map Prod.fst).Nodup) :
    (raw.map Prod.fst).Nodup := by
  induction pdus generalizing raw0 with
  | nil =>
    simp only [collectIf, Option.some.injEq] at hs
    rw [← hs]; exact h
  | cons x rest ih =>
    obtain ⟨o, pdu⟩ := x
    unfold collectIf at hs
    cases hstep : ifWalkStep o raw0 pdu with
    | none => rw [hstep] at hs; exact absurd hs (by simp)
    | some raw2 =>
      rw [hstep] at hs
      exact ih raw2 hs (ifWalkStep_nodup o raw0 raw2 pdu hstep h)

theorem attachDOM_name (env : PollEnv) (res : SNMPResult) :
    (attachDOM env res).IfName = res.IfName := by
  unfold attachDOM
  split_ifs
  · split <;> rfl
  · rfl

theorem applyQBridge_name (env : PollEnv) (res : SNMPResult) :
    (applyQBridge env res).IfName = res.IfName := by
  unfold applyQBridge
  split_ifs
  · split <;> rfl
  · rfl

/-- The reconciliation leaves `ifName` as it was collected. -/
theorem reconcileRow_name (env : PollEnv) (cache : TrafficCache) (idx : Int) (res : SNMPResult) :
    (reconcileRow env cache idx res).IfName = res.IfName := by
  unfold reconcileRow
  rw [applyQBridge_name]
  unfold vendorRow applyVendorTables
  split_ifs
  · exact attachDOM_name env _
  · exact attachDOM_name env _

/-- Every cache entry the loop changes is the entry of a raw row with a non-empty name. -/
theorem reconcileLoop_cache_writes (env : PollEnv) (cache : TrafficCache)
    (raw : List (Int × SNMPResult)) (k : String)
    (h : (reconcileLoop env cache raw).1 k ≠ cache k) :
    ∃ idx res, (idx, res) ∈ raw ∧ res.IfName.data ≠ [] ∧ k = cacheKey env.ID idx := by
  induction raw generalizing cache with
  | nil => exact absurd rfl h
  | cons x rest ih =>
    obtain ⟨i, r⟩ := x
    unfold reconcileLoop at h
    split_ifs at h with hname
    · obtain ⟨idx, res, hm, hn, hk⟩ := ih cache h
      exact ⟨idx, res, List.mem_cons_of_mem _ hm, hn, hk⟩
    · simp only at h
      by_cases hk : k = cacheKey env.ID i
      · exact ⟨i, r, by simp, hname, hk⟩
      · by_cases hstep : (reconcileLoop env (cacheAfterRow env cache i r) rest).1 k =
            cacheAfterRow env cache i r k
        · rw [hstep] at h
          unfold cacheAfterRow cacheSet at h
          rw [if_neg hk] at h
          exact absurd rfl h
        · obtain ⟨idx, res, hm, hn, hk2⟩ := ih _ hstep
          exact ⟨idx, res, List.mem_cons_of_mem _ hm, hn, hk2⟩

/-- The keys of `finalResults`, in the order of the loop. -/
theorem reconcileLoop_keys (env : PollEnv) (cache : TrafficCache) (raw : List (Int × SNMPResult)) :
    (reconcileLoop env cache raw).2.map Prod.fst =
      ((raw.filter (fun e => decide (e.2.IfName.data ≠ []))).map Prod.fst).map
        (fun i => String.mk (Itoa i)) := by
  induction raw generalizing cache with
  | nil => rfl
  | cons x rest ih =>
    obtain ⟨i, r⟩ := x
    unfold reconcileLoop
    by_cases hname : r.IfName.data = []
    · rw [if_pos hname, ih cache, List.filter_cons_of_neg (by simp [hname])]
    · rw [if_neg hname, List.filter_cons_of_pos (by simp [hname])]
      simp only [List.map_cons, ih]

/-- The keys of `finalResults` are pairwise different. -/
theorem reconcileLoop_keys_nodup (env : PollEnv) (cache : TrafficCache)
    (raw : List (Int × SNMPResult)) (h : (raw.map Prod.fst).Nodup) :
    ((reconcileLoop env cache raw).2.map Prod.fst).Nodup := by
  rw [reconcileLoop_keys]
  apply List.Nodup.map
  · intro i j hij
    exact Itoa_injective i j (congrArg String.data hij)
  · exact List.Nodup.sublist (List.Sublist.map _ (List.filter_sublist _)) h

/-- C20. Let `raw` be the rows the six interface walks collected and `final`, `cache2` the
map and the rate cache the reconciliation loop of `PollSNMP` leaves.  Every row of `final`
has a non-empty `ifName` and is stored under the decimal string of its own `ifIndex`; every
collected row with a non-empty `ifName` has its row in `final`, under the decimal string of
its index and with its name; for a collected row with an empty `ifName` no entry of `final`
has the decimal string of its index as key, and its entry of the rate cache is as before the
poll.  Every cache entry the poll changes is the entry of a collected row with a non-empty
`ifName`, and no two entries of `final` have the same key. -/
theorem C20_final_rows (env : PollEnv) (cache : TrafficCache) (pdus : List (IfOid × SnmpPDU))
    (raw : List (Int × SNMPResult)) (hcol : collectIf [] pdus = some raw) :
    (∀ e ∈ (reconcileLoop env cache raw).2,
      e.2.IfName.data ≠ [] ∧ e.1 = String.mk (Itoa e.2.IfIndex)) ∧
    (∀ idx res, (idx, res) ∈ raw → res.IfName.data ≠ [] →
      ∃ row, (String.mk (Itoa idx), row) ∈ (reconcileLoop env cache raw).2 ∧
        row.IfIndex = idx ∧ row.IfName = res.IfName) ∧
    (∀ idx res, (idx, res) ∈ raw → res.IfName.data = [] →
      (∀ e ∈ (reconcileLoop env cache raw).2, e.1 ≠ String.mk (Itoa idx)) ∧
      (reconcileLoop env cache raw).1 (cacheKey env.ID idx) = cache (cacheKey env.ID idx)) ∧
    (∀ k, (reconcileLoop env cache raw).1 k ≠ cache k →
      ∃ idx res, (idx, res) ∈ raw ∧ res.IfName.data ≠ [] ∧ k = cacheKey env.ID idx) ∧
    ((reconcileLoop env cache raw).2.map Prod.fst).Nodup := by
  have hnd := collectIf_nodup pdus [] raw hcol (by simp)
  have hcoll := collectIf_asCollected pdus [] raw hcol (by simp)
  have huniq : ∀ idx r1 r2, (idx, r1) ∈ raw → (idx, r2) ∈ raw → r1 = r2 := by
    intro idx r1 r2 h1 h2
    have hinj := List.inj_on_of_nodup_map hnd h1 h2 rfl
    exact (Prod.mk.inj hinj).2
  refine ⟨?_, ?_, ?_, fun k hk => reconcileLoop_cache_writes env cache raw k hk,
    reconcileLoop_keys_nodup env cache raw hnd⟩
  · intro e he
    obtain ⟨idx, res, c, hm, hn, hee⟩ := mem_reconcileLoop env cache raw e he
    have hidx : res.IfIndex = idx := (hcoll (idx, res) hm).1
    rw [hee]
    simp only
    rw [reconcileRow_name, (reconcileRow_mode env c idx res).1, hidx]
    exact ⟨hn, rfl⟩
  · intro idx res hm hn
    have hidx : res.IfIndex = idx := (hcoll (idx, res) hm).1
    refine ⟨reconcileRow env cache idx res, (reconcileLoop_entry env cache raw hnd idx res hm hn).1,
      ?_, reconcileRow_name env cache idx res⟩
    rw [(reconcileRow_mode env cache idx res).1, hidx]
  · intro idx res hm hn
    constructor
    · intro e he hkey
      obtain ⟨i2, r2, c, hm2, hn2, hee⟩ := mem_reconcileLoop env cache raw e he
      rw [hee] at hkey
      have hi : i2 = idx := Itoa_injective i2 idx (congrArg String.data hkey)
      rw [hi] at hm2
      rw [huniq idx r2 res hm2 hm] at hn2
      exact hn2 hn
    · by_contra hne
      obtain ⟨i2, r2, hm2, hn2, hk⟩ := reconcileLoop_cache_writes env cache raw _ hne
      have hi : idx = i2 := cacheKey_injective env.ID idx i2 hk
      rw [← hi] at hm2
      rw [huniq idx r2 res hm2 hm] at hn2
      exact hn2 hn

/-- Witness of C20: ifIndex 7 answers with the name `Gi0/7`, ifIndex 8 with a counter only;
the map returned holds the row of 7 under "7" and nothing else, and the cache has an entry
for 7 and none for 8. -/
theorem C20_final_rows_witness :
    collectIf [] mixedPdus = some mixedRaw ∧
    ((reconcileLoop emptyEnv (fun _ => none) mixedRaw).2.map
      (fun e => (e.1, e.2.IfIndex, e.2.IfName)) = [("7", 7, "Gi0/7")]) ∧
    (∀ e ∈ (reconcileLoop emptyEnv (fun _ => none) mixedRaw).2, e.1 ≠ String.mk (Itoa 8)) ∧
    (reconcileLoop emptyEnv (fun _ => none) mixedRaw).1 (cacheKey emptyEnv.ID 8) = none ∧
    (reconcileLoop emptyEnv (fun _ => none) mixedRaw).1 (cacheKey emptyEnv.ID 7) =
      some { Timestamp := 0, InOctets := 1000, OutOctets := 0 } :=
  ⟨by decide, by decide,
   ((C20_final_rows emptyEnv (fun _ => none) mixedPdus mixedRaw (by decide)).2.2.1 8
      { IfIndex := 8, InOctets := 4000 } (by decide) (by decide)).1,
   by decide, by decide⟩

/-! ## Range format: lemmas and the claim -/

/-- Between two `int` values in ascending order the test `curr == prev+1` is not affected
by wrap-around. -/
theorem wrapInt_succ_iff (prev curr : Int) (h1 : minInt ≤ prev) (h2 : prev ≤ curr)
    (h3 : curr ≤ maxInt) : curr = wrapInt (prev + 1) ↔ curr = prev + 1 := by
  unfold wrapInt
  unfold minInt at h1
  unfold maxInt at h3
  omega

/-- The loop of `indicesToRangeString`, read as a list of runs. -/
theorem rangeLoop_runs (rest : List Int) : ∀ (start prev : Int) (parts : List (List Char)),
    start ≤ prev → minInt ≤ prev → (prev :: rest).Sorted (fun a b => a ≤ b) →
    (∀ x ∈ prev :: rest, x ≤ maxInt) →
    ∃ (b : Int) (tail : List (Int × Int)),
      rangeLoop start prev parts rest = parts ++ ((start, b) :: tail).map runText ∧
      prev ≤ b ∧
      (∀ r ∈ (start, b) :: tail, r.1 ≤ r.2 ∧
        ∀ k, r.1 ≤ k → k ≤ r.2 → (start ≤ k ∧ k ≤ prev) ∨ k ∈ rest) ∧
      (∀ x, (start ≤ x ∧ x ≤ prev) ∨ x ∈ rest → ∃ r ∈ (start, b) :: tail, r.1 ≤ x ∧ x ≤ r.2) ∧
      ((prev :: rest).Pairwise (fun a b => a < b) →
        ((start, b) :: tail).Pairwise (fun r s => r.2 + 1 < s.1)) := by
  induction rest with
  | nil =>
    intro start prev parts h1 _ _ _
    refine ⟨prev, [], rfl, le_refl _, ?_, ?_, ?_⟩
    · intro r hr
      simp only [List.mem_singleton] at hr
      rw [hr]
      exact ⟨h1, fun k hk1 hk2 => Or.inl ⟨hk1, hk2⟩⟩
    · intro x hx
      rcases hx with hx | hx
      · exact ⟨(start, prev), by simp, hx.1, hx.2⟩
      · simp at hx
    · intro _
      simp
  | cons curr rest ih =>
    intro start prev parts h1 hmin hs hmax
    have hpc : prev ≤ curr := List.rel_of_sorted_cons hs curr (by simp)
    have hs2 : (curr :: rest).Sorted (fun a b => a ≤ b) := List.Sorted.of_cons hs
    have hcm : curr ≤ maxInt := hmax curr (by simp)
    have hmax2 : ∀ x ∈ curr :: rest, x ≤ maxInt := fun x hx => hmax x (List.mem_cons_of_mem _ hx)
    by_cases hc : curr = prev + 1
    · have hcw : curr = wrapInt (prev + 1) := (wrapInt_succ_iff prev curr hmin hpc hcm).mpr hc
      obtain ⟨b, tail, heq, hb, hcont, hcov, hgap⟩ :=
        ih start curr parts (by omega) (by omega) hs2 hmax2
      refine ⟨b, tail, ?_, by omega, ?_, ?_, ?_⟩
      · rw [rangeLoop, if_pos hcw, heq]
      · intro r hr
        obtain ⟨g1, g2⟩ := hcont r hr
        refine ⟨g1, fun k hk1 hk2 => ?_⟩
        rcases g2 k hk1 hk2 with g | g
        · by_cases hk : k ≤ prev
          · exact Or.inl ⟨g.1, hk⟩
          · right
            have : k = curr := by omega
            rw [this]
            simp
        · exact Or.inr (List.mem_cons_of_mem _ g)
      · intro x hx
        apply hcov
        rcases hx with hx | hx
        · exact Or.inl ⟨hx.1, by omega⟩
        · rcases List.mem_cons.mp hx with hx | hx
          · exact Or.inl ⟨by omega, by omega⟩
          · exact Or.inr hx
      · intro hp
        exact hgap (List.Pairwise.of_cons hp)
    · have hcw : ¬ curr = wrapInt (prev + 1) :=
        fun e => hc ((wrapInt_succ_iff prev curr hmin hpc hcm).mp e)
      obtain ⟨b, tail, heq, hb, hcont, hcov, hgap⟩ :=
        ih curr curr (parts ++ [rangeItem start prev]) (le_refl _) (by omega) hs2 hmax2
      refine ⟨prev, (curr, b) :: tail, ?_, le_refl _, ?_, ?_, ?_⟩
      · rw [rangeLoop, if_neg hcw, heq]
        simp [runText, rangeItem]
      · intro r hr
        rcases List.mem_cons.mp hr with hr | hr
        · rw [hr]
          exact ⟨h1, fun k hk1 hk2 => Or.inl ⟨hk1, hk2⟩⟩
        · obtain ⟨g1, g2⟩ := hcont r hr
          refine ⟨g1, fun k hk1 hk2 => Or.inr ?_⟩
          rcases g2 k hk1 hk2 with g | g
          · have : k = curr := by omega
            rw [this]
            simp
          · exact List.mem_cons_of_mem _ g
      · intro x hx
        rcases hx with hx | hx
        · exact ⟨(start, prev), by simp, hx.1, hx.2⟩
        · have : (curr ≤ x ∧ x ≤ curr) ∨ x ∈ rest := by
            rcases List.mem_cons.mp hx with hx | hx
            · exact Or.inl ⟨by omega, by omega⟩
            · exact Or.inr hx
          obtain ⟨r, hr, g⟩ := hcov x this
          exact ⟨r, List.mem_cons_of_mem _ hr, g⟩
      · intro hp
        have hlt : prev < curr := List.rel_of_pairwise_cons hp (by simp)
        have hg := hgap (List.Pairwise.of_cons hp)
        refine List.pairwise_cons.mpr ⟨?_, hg⟩
        intro s hs
        rcases List.mem_cons.mp hs with hs | hs
        · rw [hs]
          show prev + 1 < curr
          omega
        · have h3 := List.rel_of_pairwise_cons hg hs
          have h4 : curr ≤ b := hb
          show prev + 1 < s.1
          simp only at h3
          omega

/-- The items of `indicesToRangeString`, read as a list of runs of the input. -/
theorem rangeItems_runs (X : List Int) (hX : ∀ x ∈ X, minInt ≤ x ∧ x ≤ maxInt) :
    ∃ runs : List (Int × Int),
      rangeItems X = runs.map runText ∧
      (∀ r ∈ runs, r.1 ≤ r.2 ∧ ∀ k, r.1 ≤ k → k ≤ r.2 → k ∈ X) ∧
      (∀ x ∈ X, ∃ r ∈ runs, r.1 ≤ x ∧ x ≤ r.2) ∧
      (X.Nodup → runs.Pairwise (fun r s => r.2 + 1 < s.1)) := by
  have hsorted := sortInts_sorted X
  have hmem := fun y => mem_sortInts y X
  have hperm : (sortInts X).Perm X := List.perm_insertionSort _ X
  unfold rangeItems
  cases hs : sortInts X with
  | nil =>
    refine ⟨[], rfl, by simp, ?_, by simp⟩
    intro x hx
    rw [← hmem x, hs] at hx
    simp at hx
  | cons a rest =>
    rw [hs] at hsorted hperm
    have ha : a ∈ X := by
      rw [← hmem a, hs]
      simp
    obtain ⟨b, tail, heq, _, hcont, hcov, hgap⟩ := rangeLoop_runs rest a a [] (le_refl _)
      (hX a ha).1 hsorted (fun x hx => (hX x ((hmem x).mp (by rw [hs]; exact hx))).2)
    refine ⟨(a, b) :: tail, by simpa using heq, ?_, ?_, ?_⟩
    · intro r hr
      obtain ⟨g1, g2⟩ := hcont r hr
      refine ⟨g1, fun k hk1 hk2 => ?_⟩
      rw [← hmem k, hs]
      rcases g2 k hk1 hk2 with g | g
      · have : k = a := by omega
        rw [this]
        simp
      · exact List.mem_cons_of_mem _ g
    · intro x hx
      rw [← hmem x, hs] at hx
      apply hcov
      rcases List.mem_cons.mp hx with hx | hx
      · exact Or.inl ⟨by omega, by omega⟩
      · exact Or.inr hx
    · intro hnd
      have hnd2 : (a :: rest).Nodup := hperm.nodup_iff.mpr hnd
      apply hgap
      exact List.Sorted.lt_of_le hsorted hnd2

/-- C15. For a list `X` of `int` values: the empty list gives the empty string; otherwise
the result is the texts of a list of runs joined by ", ", where the text of a run from `A` to
`B` is the bare `A` when `A = B` and `A-B` with `A < B` otherwise; every run consists of
elements of `X` and every element of `X` lies in a run.  When `X` has no repeated element the
runs are in ascending order and each is a maximal run of consecutive integers of `X`:
neither the integer before its first element nor the one after its last is in `X`. -/
theorem C15_range_format (X : List Int) (hX : ∀ x ∈ X, minInt ≤ x ∧ x ≤ maxInt) :
    indicesToRangeString [] = "" ∧
    ∃ runs : List (Int × Int),
      indicesToRangeString X = String.mk (Join (runs.map runText) ", ".data) ∧
      (X ≠ [] → runs ≠ []) ∧
      (∀ r ∈ runs, (r.1 = r.2 ∧ runText r = Itoa r.1) ∨
        (r.1 < r.2 ∧ runText r = Itoa r.1 ++ '-' :: Itoa r.2)) ∧
      (∀ r ∈ runs, ∀ k, r.1 ≤ k → k ≤ r.2 → k ∈ X) ∧
      (∀ x ∈ X, ∃ r ∈ runs, r.1 ≤ x ∧ x ≤ r.2) ∧
      (X.Nodup → runs.Pairwise (fun r s => r.2 < s.1) ∧
        ∀ r ∈ runs, r.1 - 1 ∉ X ∧ r.2 + 1 ∉ X) := by
  refine ⟨rfl, ?_⟩
  obtain ⟨runs, heq, hcont, hcov, hgap⟩ := rangeItems_runs X hX
  refine ⟨runs, ?_, ?_, ?_, fun r hr => (hcont r hr).2, hcov, ?_⟩
  · unfold indicesToRangeString
    by_cases hnil : X = []
    · rw [hnil] at heq
      have : runs = [] := by
        have h0 : rangeItems [] = [] := rfl
        rw [h0] at heq
        exact List.map_eq_nil_iff.mp heq.symm
      rw [if_pos hnil, this]
      rfl
    · rw [if_neg hnil, heq]
  · intro hne hruns
    obtain ⟨x, hx⟩ := List.exists_mem_of_ne_nil X hne
    obtain ⟨r, hr, _⟩ := hcov x hx
    rw [hruns] at hr
    simp at hr
  · intro r hr
    have hle := (hcont r hr).1
    by_cases he : r.1 = r.2
    · left
      exact ⟨he, by unfold runText; rw [if_pos he]⟩
    · right
      exact ⟨by omega, by unfold runText; rw [if_neg he]⟩
  · intro hnd
    have hg := hgap hnd
    have hle : ∀ r ∈ runs, r.1 ≤ r.2 := fun r hr => (hcont r hr).1
    have hsym : runs.Pairwise (fun r s => r.2 + 1 < s.1 ∨ s.2 + 1 < r.1) :=
      hg.imp (fun h => Or.inl h)
    have hall : ∀ r ∈ runs, ∀ s ∈ runs, r ≠ s → (r.2 + 1 < s.1 ∨ s.2 + 1 < r.1) := by
      intro r hr s hs hne
      exact List.Pairwise.forall (fun a b hab => hab.symm) hsym hr hs hne
    refine ⟨hg.imp (fun h => by omega), ?_⟩
    intro r hr
    constructor
    · intro hin
      obtain ⟨s, hs, h1, h2⟩ := hcov _ hin
      by_cases hrs : r = s
      · rw [← hrs] at h1
        omega
      · have := hall r hr s hs hrs
        have := hle s hs
        have := hle r hr
        omega
    · intro hin
      obtain ⟨s, hs, h1, h2⟩ := hcov _ hin
      by_cases hrs : r = s
      · rw [← hrs] at h2
        omega
      · have := hall r hr s hs hrs
        have := hle s hs
        have := hle r hr
        omega

/-- Witness of C15: `[3, 1, 2, 10, 6, 5]` gives "1-3, 5-6, 10", the runs being 1 to 3, 5 to
6 and 10. -/
theorem C15_range_format_witness :
    indicesToRangeString [3, 1, 2, 10, 6, 5] = "1-3, 5-6, 10" ∧
    String.mk (Join ([((1 : Int), (3 : Int)), (5, 6), (10, 10)].map runText) ", ".data) =
      "1-3, 5-6, 10" ∧
    ∃ runs : List (Int × Int),
      indicesToRangeString [3, 1, 2, 10, 6, 5] = String.mk (Join (runs.map runText) ", ".data) ∧
      (([3, 1, 2, 10, 6, 5] : List Int) ≠ [] → runs ≠ []) ∧
      (∀ r ∈ runs, (r.1 = r.2 ∧ runText r = Itoa r.1) ∨
        (r.1 < r.2 ∧ runText r = Itoa r.1 ++ '-' :: Itoa r.2)) ∧
      (∀ r ∈ runs, ∀ k, r.1 ≤ k → k ≤ r.2 → k ∈ ([3, 1, 2, 10, 6, 5] : List Int)) ∧
      (∀ x ∈ ([3, 1, 2, 10, 6, 5] : List Int), ∃ r ∈ runs, r.1 ≤ x ∧ x ≤ r.2) ∧
      (([3, 1, 2, 10, 6, 5] : List Int).Nodup → runs.Pairwise (fun r s => r.2 < s.1) ∧
        ∀ r ∈ runs, r.1 - 1 ∉ ([3, 1, 2, 10, 6, 5] : List Int) ∧
          r.2 + 1 ∉ ([3, 1, 2, 10, 6, 5] : List Int)) :=
  ⟨by decide, by decide, (C15_range_format [3, 1, 2, 10, 6, 5] (by decide)).2⟩

/-! ## Range parser: lemmas and the claim -/

theorem Split_ne_nil (sep : Char) (t : List Char) : Split sep t ≠ [] := by
  cases t with
  | nil => simp [Split]
  | cons c cs =>
    unfold Split
    split_ifs
    · simp
    · split <;> simp

/-- No item of `strings.Split` contains the separator. -/
theorem Split_mem_no_sep (sep : Char) (t : List Char) : ∀ p ∈ Split sep t, sep ∉ p := by
  induction t with
  | nil => simp [Split]
  | cons c cs ih =>
    intro p hp
    unfold Split at hp
    split_ifs at hp with hc
    · rcases List.mem_cons.mp hp with h | h
      · rw [h]; simp
      · exact ih p h
    · cases hs : Split sep cs with
      | nil => exact absurd hs (Split_ne_nil sep cs)
      | cons q qs =>
        rw [hs] at hp ih
        simp only [List.mem_cons] at hp
        rcases hp with h | h
        · rw [h]
          intro hmem
          rcases List.mem_cons.mp hmem with h1 | h1
          · exact hc h1.symm
          · exact ih q (by simp) h1
        · exact ih p (by simp [h])

/-- Joining the items of `strings.Split` with the separator gives the text back. -/
theorem Split_join (sep : Char) (t : List Char) : Join (Split sep t) [sep] = t := by
  unfold Join
  induction t with
  | nil => rfl
  | cons c cs ih =>
    unfold Split
    cases hs : Split sep cs with
    | nil => exact absurd hs (Split_ne_nil sep cs)
    | cons q qs =>
      rw [hs] at ih
      split_ifs with hc
      · rw [List.intercalate, List.intersperse_cons_cons, List.flatten_cons, List.flatten_cons,
          ← List.intercalate, ih, hc]
        rfl
      · simp only
        cases qs with
        | nil =>
          simp only [List.intercalate, List.intersperse_single, List.flatten_cons, List.flatten_nil,
            List.append_nil] at ih ⊢
          rw [ih]
        | cons r rs =>
          rw [List.intercalate, List.intersperse_cons_cons, List.flatten_cons] at ih ⊢
          rw [← ih]
          rfl

theorem Split_no_sep (sep : Char) (t : List Char) (h : sep ∉ t) : Split sep t = [t] := by
  induction t with
  | nil => rfl
  | cons c cs ih =>
    have hc : ¬ c = sep := fun e => h (by simp [e])
    have hcs : sep ∉ cs := fun e => h (List.mem_cons_of_mem _ e)
    unfold Split
    rw [if_neg hc, ih hcs]

theorem Split_append (sep : Char) (a b : List Char) (h : sep ∉ a) :
    Split sep (a ++ sep :: b) = a :: Split sep b := by
  induction a with
  | nil => simp [Split]
  | cons c cs ih =>
    have hc : ¬ c = sep := fun e => h (by simp [e])
    have hcs : sep ∉ cs := fun e => h (List.mem_cons_of_mem _ e)
    rw [List.cons_append, Split, if_neg hc, ih hcs]

/-- `strings.Split` yields two items exactly for a text with one separator. -/
theorem Split_eq_pair (sep : Char) (t a b : List Char) :
    Split sep t = [a, b] ↔ t = a ++ sep :: b ∧ sep ∉ a ∧ sep ∉ b := by
  constructor
  · intro h
    have hj := Split_join sep t
    have hm := Split_mem_no_sep sep t
    rw [h] at hj hm
    refine ⟨?_, hm a (by simp), hm b (by simp)⟩
    rw [← hj]
    simp [Join, List.intercalate]
  · rintro ⟨ht, ha, hb⟩
    rw [ht, Split_append sep a b ha, Split_no_sep sep b hb]

/-- The list the expansion loop builds, when it ends. -/
theorem expandRange_eq (A B : Int) (hB : B ≠ maxInt) :
    expandRange A B =
      some ((List.range (B + 1 - A).toNat).map (fun k : Nat => A + (k : Int))) := by
  unfold expandRange
  rw [if_neg hB]
  congr 1
  generalize List.range (B + 1 - A).toNat = l
  induction l with
  | nil => rfl
  | cons x xs ih => exact congrArg (List.cons (A + (x : Int))) ih

/-- The expansion of a range that does not end at the largest `int`: the integers from
`A` to `B`, ascending. -/
theorem expandRange_spec (A B : Int) (hB : B ≠ maxInt) :
    ∃ l, expandRange A B = some l ∧ l.Pairwise (fun x y => x < y) ∧
      ∀ k, k ∈ l ↔ A ≤ k ∧ k ≤ B := by
  refine ⟨_, expandRange_eq A B hB, ?_, ?_⟩
  · rw [List.pairwise_map]
    have : (List.range (B + 1 - A).toNat).Pairwise (fun a b => a < b) := List.pairwise_lt_range _
    refine List.Pairwise.imp ?_ this
    intro a b hab
    show A + (a : Int) < A + (b : Int)
    omega
  · intro k
    simp only [List.mem_map, List.mem_range]
    constructor
    · rintro ⟨n, hn, rfl⟩
      omega
    · intro hk
      exact ⟨(k - A).toNat, by omega, by omega⟩

/-- What `parsePortRanges` appends for one item. -/
theorem parsePart_yields (p : List Char) (hfin : ∀ A, ¬ IsRangeItem (TrimSpace p) A maxInt) :
    ∃ l, parsePart p = some l ∧ ItemYields (TrimSpace p) l := by
  unfold parsePart
  by_cases h1 : TrimSpace p = []
  · rw [if_pos h1]
    refine ⟨[], rfl, Or.inr (Or.inr ⟨?_, ?_, rfl⟩)⟩
    · intro N hN
      rw [h1] at hN
      have h0 : (Atoi []).2 = true := by rw [hN.2]
      exact absurd h0 (by decide)
    · rintro A B ⟨a, b, ht, _⟩
      rw [h1] at ht
      exact absurd ht (by simp)
  · rw [if_neg h1]
    by_cases h2 : '-' ∈ TrimSpace p
    · rw [if_pos h2]
      have hnonum : ∀ N, ¬ IsNumberItem (TrimSpace p) N := fun N hN => hN.1 h2
      by_cases hpair : ∃ a b, Split '-' (TrimSpace p) = [a, b]
      · obtain ⟨a, b, hs⟩ := hpair
        obtain ⟨ht, ha, hb⟩ := (Split_eq_pair '-' _ a b).mp hs
        have huniq : ∀ A B, IsRangeItem (TrimSpace p) A B →
            Atoi (TrimSpace a) = (A, true) ∧ Atoi (TrimSpace b) = (B, true) := by
          rintro A B ⟨a2, b2, ht2, ha2, hb2, hA, hB⟩
          have hs2 := (Split_eq_pair '-' _ a2 b2).mpr ⟨ht2, ha2, hb2⟩
          rw [hs] at hs2
          simp only [List.cons.injEq, and_true] at hs2
          rw [hs2.1, hs2.2]
          exact ⟨hA, hB⟩
        rw [hs]
        simp only
        by_cases hc : (Atoi (TrimSpace a)).2 = true ∧ (Atoi (TrimSpace b)).2 = true ∧
            (Atoi (TrimSpace a)).1 ≤ (Atoi (TrimSpace b)).1
        · rw [if_pos hc]
          have hr : IsRangeItem (TrimSpace p) (Atoi (TrimSpace a)).1 (Atoi (TrimSpace b)).1 :=
            ⟨a, b, ht, ha, hb, Prod.ext rfl hc.1, Prod.ext rfl hc.2.1⟩
          have hB : (Atoi (TrimSpace b)).1 ≠ maxInt := by
            intro e
            rw [e] at hr
            exact hfin _ hr
          obtain ⟨l, hl, hl1, hl2⟩ := expandRange_spec (Atoi (TrimSpace a)).1 _ hB
          exact ⟨l, hl, Or.inr (Or.inl ⟨_, _, hr, hc.2.2, hl1, hl2⟩)⟩
        · rw [if_neg hc]
          refine ⟨[], rfl, Or.inr (Or.inr ⟨hnonum, ?_, rfl⟩)⟩
          intro A B hr
          obtain ⟨hA, hB⟩ := huniq A B hr
          by_contra hlt
          apply hc
          rw [hA, hB]
          exact ⟨rfl, rfl, by simpa using hlt⟩
      · have hno : ∀ A B, ¬ IsRangeItem (TrimSpace p) A B := by
          rintro A B ⟨a, b, ht, ha, hb, _⟩
          exact hpair ⟨a, b, (Split_eq_pair '-' _ a b).mpr ⟨ht, ha, hb⟩⟩
        refine ⟨[], ?_, Or.inr (Or.inr ⟨hnonum, fun A B hr => absurd hr (hno A B), rfl⟩)⟩
        split
        · rename_i a b hs
          exact absurd ⟨a, b, hs⟩ hpair
        · rfl
    · rw [if_neg h2]
      have hnorange : ∀ A B, ¬ IsRangeItem (TrimSpace p) A B := by
        rintro A B ⟨a, b, ht, _⟩
        apply h2
        rw [ht]
        simp
      by_cases h3 : (Atoi (TrimSpace p)).2 = true
      · rw [if_pos h3]
        exact ⟨_, rfl, Or.inl ⟨_, ⟨h2, Prod.ext rfl h3⟩, rfl⟩⟩
      · rw [if_neg h3]
        refine ⟨[], rfl, Or.inr (Or.inr ⟨?_, fun A B hr => absurd hr (hnorange A B), rfl⟩)⟩
        intro N hN
        apply h3
        rw [hN.2]

theorem parseParts_yields (parts : List (List Char))
    (hfin : ∀ p ∈ parts, ∀ A, ¬ IsRangeItem (TrimSpace p) A maxInt) :
    ∃ ls : List (List Int),
      List.Forall₂ (fun p l => ItemYields (TrimSpace p) l) parts ls ∧
      parseParts parts = some ls.flatten := by
  induction parts with
  | nil => exact ⟨[], List.Forall₂.nil, rfl⟩
  | cons p rest ih =>
    obtain ⟨l, hl, hy⟩ := parsePart_yields p (hfin p (by simp))
    obtain ⟨ls, hf, hls⟩ := ih (fun q hq => hfin q (List.mem_cons_of_mem _ hq))
    refine ⟨l :: ls, List.Forall₂.cons hy hf, ?_⟩
    rw [parseParts, hl, hls]
    rfl

/-- C16, as the code has it. Let the items of `s` be its comma separated pieces with the
white space around them removed, and let no item be a range that ends at the largest `int`.
Then `parsePortRanges(s)` returns the ascending sort of the concatenation, over the items in
order, of: `[N]` for an item without `-` that atoi accepts as `N`; `A, A+1, …, B` for an item
`a-b` with exactly one `-` whose parts, white space around them removed, atoi accepts as `A`
and `B` with `A ≤ B`; and nothing for every other item. -/
theorem C16_parse_ranges (s : String)
    (hfin : ∀ p ∈ Split ',' s.data, ∀ A, ¬ IsRangeItem (TrimSpace p) A maxInt) :
    (∀ p ∈ Split ',' s.data, ',' ∉ p) ∧ Join (Split ',' s.data) [','] = s.data ∧
    ∃ (ls : List (List Int)) (result : List Int),
      List.Forall₂ (fun p l => ItemYields (TrimSpace p) l) (Split ',' s.data) ls ∧
      parsePortRanges s = some result ∧
      result.Sorted (fun a b => a ≤ b) ∧ result.Perm ls.flatten := by
  refine ⟨Split_mem_no_sep ',' s.data, Split_join ',' s.data, ?_⟩
  obtain ⟨ls, hf, hls⟩ := parseParts_yields (Split ',' s.data) hfin
  refine ⟨ls, sortInts ls.flatten, hf, ?_, sortInts_sorted _, List.perm_insertionSort _ _⟩
  unfold parsePortRanges
  rw [hls]
  rfl

theorem Atoi_le_maxInt (s : List Char) : (Atoi s).1 ≤ maxInt := by
  have hb : ∀ (neg : Bool) (body : List Char), (atoiBody neg body).1 ≤ maxInt := by
    intro neg body
    unfold atoiBody
    split_ifs with h1 h2 h3 h4
    · decide
    · decide
    · show -(digitsValue body : Int) ≤ maxInt
      unfold maxInt
      omega
    · exact le_refl _
    · show (digitsValue body : Int) ≤ maxInt
      omega
  unfold Atoi
  split
  · decide
  · split_ifs
    · exact hb _ _
    · exact hb _ _
    · exact hb _ _

/-- An item whose expansion ends is not a range that ends at the largest `int`. -/
theorem not_isRangeItem_max (p : List Char) (h : parsePart p ≠ none) :
    ∀ A, ¬ IsRangeItem (TrimSpace p) A maxInt := by
  rintro A ⟨a, b, ht, ha, hb, hA, hB⟩
  apply h
  rw [parsePart_none_iff]
  refine ⟨a, b, (Split_eq_pair '-' _ a b).mpr ⟨ht, ha, hb⟩, by rw [ht]; simp, by rw [ht]; simp,
    by rw [hA], by rw [hB], ?_, by rw [hB]⟩
  rw [hB]
  exact Atoi_le_maxInt _

/-- Witness of C16: "1-3, 5, 8-10" gives `[1, 2, 3, 5, 8, 9, 10]`. -/
theorem C16_parse_ranges_witness :
    parsePortRanges "1-3, 5, 8-10" = some [1, 2, 3, 5, 8, 9, 10] ∧
    Split ',' "1-3, 5, 8-10".data = ["1-3".data, " 5".data, " 8-10".data] ∧
    ∃ (ls : List (List Int)) (result : List Int),
      List.Forall₂ (fun p l => ItemYields (TrimSpace p) l) (Split ',' "1-3, 5, 8-10".data) ls ∧
      parsePortRanges "1-3, 5, 8-10" = some result ∧
      result.Sorted (fun a b => a ≤ b) ∧ result.Perm ls.flatten :=
  ⟨by decide, by decide,
   (C16_parse_ranges "1-3, 5, 8-10"
      (fun p hp => not_isRangeItem_max p
        ((by decide : ∀ q ∈ Split ',' "1-3, 5, 8-10".data, parsePart q ≠ none) p hp))).2.2⟩

/-- Counterexample to C16 as stated.  The item `-5` is one atoi accepts, as -5, yet
`parsePortRanges` yields nothing for it; and of the item `1 - 3` the two parts, `1 ` and
` 3`, are not accepted by atoi as they stand, yet the item yields 1, 2, 3. -/
theorem C16_counterexample :
    (Atoi "-5".data = (-5, true) ∧ parsePortRanges "-5" = some []) ∧
    (Split '-' "1 - 3".data = ["1 ".data, " 3".data] ∧ (Atoi "1 ".data).2 = false ∧
      (Atoi " 3".data).2 = false ∧ parsePortRanges "1 - 3" = some [1, 2, 3]) := by
  decide

/-! ## Range round trip: lemmas -/

theorem isDigit_not_spaceUnicode (c : Char) (h : isDigit c = true) : isSpaceUnicode c = false := by
  unfold isDigit at h
  unfold isSpaceUnicode
  simp only [Bool.and_eq_true, decide_eq_true_eq] at h
  simp only [Bool.or_eq_false_iff, decide_eq_false_iff_not]
  omega

/-- The numeral of a non-negative `int` is a non-empty run of digits. -/
theorem Itoa_digits (n : Int) (h : 0 ≤ n) : (Itoa n).all isDigit = true ∧ Itoa n ≠ [] := by
  unfold Itoa
  rw [if_neg (by omega)]
  exact natDecimal_digits _

theorem digits_no_char (s : List Char) (hs : s.all isDigit = true) (c : Char)
    (hc : isDigit c = false) : c ∉ s := by
  intro hmem
  have := List.all_eq_true.mp hs c hmem
  rw [hc] at this
  exact absurd this (by decide)

/-- `strconv.Atoi` reads the numeral of a non-negative `int` back. -/
theorem Atoi_Itoa (n : Int) (h0 : 0 ≤ n) (h1 : n ≤ maxInt) : Atoi (Itoa n) = (n, true) := by
  obtain ⟨hd, hne⟩ := Itoa_digits n h0
  have hv : (digitsValue (Itoa n) : Int) = n := by
    unfold Itoa
    rw [if_neg (by omega), natDecimal_value]
    omega
  cases hs : Itoa n with
  | nil => exact absurd hs hne
  | cons c r =>
    rw [hs] at hd hv
    have hc : isDigit c = true := by
      simp only [List.all_cons, Bool.and_eq_true] at hd
      exact hd.1
    have hm : ¬ c = '-' := by
      intro e
      rw [e] at hc
      exact absurd hc (by decide)
    have hp : ¬ c = '+' := by
      intro e
      rw [e] at hc
      exact absurd hc (by decide)
    unfold Atoi
    simp only [hm, hp, if_false]
    rw [atoiBody_digits (c :: r) (by simp) hd, hv, if_neg (by omega)]

/-- `strings.TrimSpace` leaves a text that neither begins nor ends with white space. -/
theorem TrimSpace_eq (s : List Char) (h1 : ∀ c, s.head? = some c → isSpaceUnicode c = false)
    (h2 : ∀ c, s.getLast? = some c → isSpaceUnicode c = false) : TrimSpace s = s := by
  have hd : ∀ t : List Char, (∀ c, t.head? = some c → isSpaceUnicode c = false) →
      t.dropWhile isSpaceUnicode = t := by
    intro t ht
    cases t with
    | nil => rfl
    | cons x xs =>
      have := ht x rfl
      simp [List.dropWhile, this]
  unfold TrimSpace
  rw [hd s h1, hd s.reverse (by rw [List.head?_reverse]; exact h2), List.reverse_reverse]

theorem TrimSpace_space_cons (t : List Char) : TrimSpace (' ' :: t) = TrimSpace t := by
  unfold TrimSpace
  rw [List.dropWhile_cons_of_pos (by decide)]

/-- `strings.TrimSpace` leaves a text that begins and ends with a digit. -/
theorem TrimSpace_digits (s : List Char)
    (h1 : ∀ c, s.head? = some c → isDigit c = true)
    (h2 : ∀ c, s.getLast? = some c → isDigit c = true) : TrimSpace s = s :=
  TrimSpace_eq s (fun c hc => isDigit_not_spaceUnicode c (h1 c hc))
    (fun c hc => isDigit_not_spaceUnicode c (h2 c hc))

theorem all_head (s : List Char) (p : Char → Bool) (hs : s.all p = true) :
    ∀ c, s.head? = some c → p c = true := by
  intro c hc
  exact List.all_eq_true.mp hs c (List.mem_of_mem_head? hc)

theorem all_getLast (s : List Char) (p : Char → Bool) (hs : s.all p = true) :
    ∀ c, s.getLast? = some c → p c = true := by
  intro c hc
  exact List.all_eq_true.mp hs c (List.mem_of_getLast?_eq_some hc)

/-- What `parsePortRanges` appends for the text of a run of non-negative integers that does
not end at the largest `int`, or has one element: the integers of the run. -/
theorem parsePart_runText (a b : Int) (h0 : 0 ≤ a) (hab : a ≤ b) (hb : b ≤ maxInt)
    (hmax : a = b ∨ b ≠ maxInt) : parsePart (runText (a, b)) = some (intRange a b) := by
  obtain ⟨had, hane⟩ := Itoa_digits a h0
  obtain ⟨hbd, hbne⟩ := Itoa_digits b (by omega)
  have hta : TrimSpace (Itoa a) = Itoa a :=
    TrimSpace_digits _ (all_head _ _ had) (all_getLast _ _ had)
  have htb : TrimSpace (Itoa b) = Itoa b :=
    TrimSpace_digits _ (all_head _ _ hbd) (all_getLast _ _ hbd)
  have hma : '-' ∉ Itoa a := digits_no_char _ had '-' (by decide)
  have hmb : '-' ∉ Itoa b := digits_no_char _ hbd '-' (by decide)
  unfold runText
  by_cases he : a = b
  · simp only [he, if_true]
    unfold parsePart
    rw [htb, if_neg hbne, if_neg hmb, Atoi_Itoa b (by omega) hb]
    simp only [if_true]
    unfold intRange
    have : (b + 1 - b).toNat = 1 := by omega
    rw [this]
    have h1 : List.range 1 = [0] := rfl
    rw [h1, List.map_singleton]
    simp
  · have hb2 : b ≠ maxInt := by
      rcases hmax with h | h
      · exact absurd h he
      · exact h
    simp only [he, if_false]
    have htrim : TrimSpace (Itoa a ++ '-' :: Itoa b) = Itoa a ++ '-' :: Itoa b := by
      apply TrimSpace_digits
      · intro c hc
        cases hs : Itoa a with
        | nil => exact absurd hs hane
        | cons x xs =>
          rw [hs] at hc had
          simp only [List.cons_append, List.head?_cons, Option.some.injEq] at hc
          simp only [List.all_cons, Bool.and_eq_true] at had
          rw [← hc]
          exact had.1
      · intro c hc
        have : (Itoa a ++ '-' :: Itoa b).getLast? = (Itoa b).getLast? := by
          rw [List.getLast?_append, List.getLast?_cons]
          cases hl : (Itoa b).getLast? with
          | none => exact absurd (List.getLast?_eq_none_iff.mp hl) hbne
          | some x => rfl
        rw [this] at hc
        exact all_getLast _ _ hbd c hc
    unfold parsePart
    rw [htrim, if_neg (by simp), if_pos (by simp),
      (Split_eq_pair '-' _ (Itoa a) (Itoa b)).mpr ⟨rfl, hma, hmb⟩]
    simp only
    rw [hta, htb, Atoi_Itoa a h0 (by omega), Atoi_Itoa b (by omega) hb]
    simp only [true_and, hab, if_true]
    exact expandRange_eq a b hb2

theorem intRange_spec (a b : Int) :
    (intRange a b).Pairwise (fun x y => x < y) ∧ ∀ k, k ∈ intRange a b ↔ a ≤ k ∧ k ≤ b := by
  unfold intRange
  constructor
  · rw [List.pairwise_map]
    have : (List.range (b + 1 - a).toNat).Pairwise (fun x y => x < y) := List.pairwise_lt_range _
    refine List.Pairwise.imp ?_ this
    intro x y hxy
    show a + (x : Int) < a + (y : Int)
    omega
  · intro k
    simp only [List.mem_map, List.mem_range]
    constructor
    · rintro ⟨n, hn, rfl⟩
      omega
    · intro hk
      exact ⟨(k - a).toNat, by omega, by omega⟩

/-- The items of `strings.Split` on the comma, for items joined by ", ": every item but the
first begins with the space. -/
theorem Split_comma_join (xs : List (List Char)) : ∀ (x : List Char),
    (∀ it ∈ x :: xs, ',' ∉ it) →
    Split ',' (Join (x :: xs) ", ".data) = x :: xs.map (fun t => ' ' :: t) := by
  induction xs with
  | nil =>
    intro x h
    have : Join [x] ", ".data = x := by simp [Join, List.intercalate]
    rw [this]
    exact Split_no_sep ',' x (h x (by simp))
  | cons y ys ih =>
    intro x h
    have hj : Join (x :: y :: ys) ", ".data = x ++ ',' :: (' ' :: Join (y :: ys) ", ".data) := by
      unfold Join
      rw [List.intercalate, List.intersperse_cons_cons, List.flatten_cons, List.flatten_cons,
        ← List.intercalate]
      rfl
    rw [hj, Split_append ',' x _ (h x (by simp))]
    have hsp : Split ',' (' ' :: Join (y :: ys) ", ".data) =
        (' ' :: y) :: ys.map (fun t => ' ' :: t) := by
      rw [Split, if_neg (by decide), ih y (fun it hit => h it (List.mem_cons_of_mem _ hit))]
    rw [hsp]
    rfl

theorem parsePart_space_cons (t : List Char) : parsePart (' ' :: t) = parsePart t := by
  unfold parsePart
  rw [TrimSpace_space_cons]

theorem parseParts_of (parts : List (List Char)) (ls : List (List Int))
    (h : List.Forall₂ (fun p l => parsePart p = some l) parts ls) :
    parseParts parts = some ls.flatten := by
  induction h with
  | nil => rfl
  | cons hp _ ih =>
    rw [parseParts, hp, ih]
    rfl

theorem runText_no_comma (r : Int × Int) (h0 : 0 ≤ r.1) (h1 : r.1 ≤ r.2) : ',' ∉ runText r := by
  obtain ⟨had, _⟩ := Itoa_digits r.1 h0
  obtain ⟨hbd, _⟩ := Itoa_digits r.2 (by omega)
  have ha := digits_no_char _ had ',' (by decide)
  have hb := digits_no_char _ hbd ',' (by decide)
  unfold runText
  split_ifs
  · exact ha
  · intro hmem
    rcases List.mem_append.mp hmem with h | h
    · exact ha h
    · rcases List.mem_cons.mp h with h | h
      · exact absurd h (by decide)
      · exact hb h

/-- Round trip of the range format: for a list of non-negative `int` values without
repetition that does not hold both the largest `int` and its predecessor,
`parsePortRanges(indicesToRangeString(S))` returns the elements of `S` in ascending order. -/
theorem parse_format_roundtrip (S : List Int) (hnd : S.Nodup)
    (hS : ∀ x ∈ S, 0 ≤ x ∧ x ≤ maxInt) (hmax : maxInt ∈ S → maxInt - 1 ∉ S) :
    parsePortRanges (indicesToRangeString S) = some (sortInts S) := by
  by_cases hnil : S = []
  · rw [hnil]
    rfl
  obtain ⟨runs, heq, hcont, hcov, hgap⟩ :=
    rangeItems_runs S (fun x hx => ⟨by have := (hS x hx).1; unfold minInt; omega, (hS x hx).2⟩)
  have hg := hgap hnd
  have hr0 : ∀ r ∈ runs, 0 ≤ r.1 ∧ r.1 ≤ r.2 ∧ r.2 ≤ maxInt ∧ (r.1 = r.2 ∨ r.2 ≠ maxInt) := by
    intro r hr
    obtain ⟨h1, h2⟩ := hcont r hr
    have ha := hS r.1 (h2 r.1 (le_refl _) h1)
    have hb := hS r.2 (h2 r.2 h1 (le_refl _))
    refine ⟨ha.1, h1, hb.2, ?_⟩
    by_cases he : r.1 = r.2
    · exact Or.inl he
    · right
      intro hm
      have h3 : maxInt ∈ S := by rw [← hm]; exact h2 r.2 h1 (le_refl _)
      have h4 : maxInt - 1 ∈ S := h2 (maxInt - 1) (by omega) (by omega)
      exact hmax h3 h4
  have hparts : ∀ rs : List (Int × Int), (∀ r ∈ rs, r ∈ runs) →
      List.Forall₂ (fun p l => parsePart p = some l) (rs.map runText)
        (rs.map (fun r => intRange r.1 r.2)) := by
    intro rs
    induction rs with
    | nil => intro _; exact List.Forall₂.nil
    | cons r rest ih =>
      intro hin
      obtain ⟨h0, h1, h2, h3⟩ := hr0 r (hin r (by simp))
      exact List.Forall₂.cons (parsePart_runText r.1 r.2 h0 h1 h2 h3)
        (ih (fun q hq => hin q (List.mem_cons_of_mem _ hq)))
  have hparse : parseParts (Split ',' (Join (runs.map runText) ", ".data)) =
      some (runs.map (fun r => intRange r.1 r.2)).flatten := by
    cases hruns : runs with
    | nil =>
      obtain ⟨x, hx⟩ := List.exists_mem_of_ne_nil S hnil
      obtain ⟨r, hr, _⟩ := hcov x hx
      rw [hruns] at hr
      simp at hr
    | cons r rest =>
      have hcomma : ∀ it ∈ runText r :: rest.map runText, ',' ∉ it := by
        intro it hit
        have : it ∈ runs.map runText := by rw [hruns]; exact hit
        obtain ⟨q, hq, hqe⟩ := List.mem_map.mp this
        rw [← hqe]
        exact runText_no_comma q (hr0 q hq).1 (hr0 q hq).2.1
      rw [List.map_cons, Split_comma_join (rest.map runText) (runText r) hcomma]
      apply parseParts_of
      have hall := hparts (r :: rest) (fun q hq => by rw [hruns]; exact hq)
      simp only [List.map_cons] at hall ⊢
      cases hall with
      | cons h1 h2 =>
        refine List.Forall₂.cons h1 ?_
        rw [List.forall₂_map_left_iff] at h2 ⊢
        rw [List.forall₂_map_left_iff]
        exact h2.imp (fun {a b} hab => by rw [parsePart_space_cons]; exact hab)
  have hstr : indicesToRangeString S = String.mk (Join (runs.map runText) ", ".data) := by
    unfold indicesToRangeString
    rw [if_neg hnil, heq]
  rw [hstr]
  unfold parsePortRanges
  simp only
  rw [hparse, Option.map_some']
  congr 1
  have hmemL : ∀ x, x ∈ (runs.map (fun r => intRange r.1 r.2)).flatten ↔ x ∈ S := by
    intro x
    simp only [List.mem_flatten, List.mem_map]
    constructor
    · rintro ⟨l, ⟨r, hr, rfl⟩, hx⟩
      have := ((intRange_spec r.1 r.2).2 x).mp hx
      exact (hcont r hr).2 x this.1 this.2
    · intro hx
      obtain ⟨r, hr, h1, h2⟩ := hcov x hx
      exact ⟨_, ⟨r, hr, rfl⟩, ((intRange_spec r.1 r.2).2 x).mpr ⟨h1, h2⟩⟩
  have hpw : (runs.map (fun r => intRange r.1 r.2)).flatten.Pairwise (fun x y => x < y) := by
    rw [List.pairwise_flatten]
    constructor
    · intro l hl
      obtain ⟨r, _, hre⟩ := List.mem_map.mp hl
      rw [← hre]
      exact (intRange_spec r.1 r.2).1
    · rw [List.pairwise_map]
      refine List.Pairwise.imp ?_ hg
      intro r s hrs x hx y hy
      have h1 := ((intRange_spec r.1 r.2).2 x).mp hx
      have h2 := ((intRange_spec s.1 s.2).2 y).mp hy
      omega
  have hndL : (runs.map (fun r => intRange r.1 r.2)).flatten.Nodup :=
    hpw.imp (fun h => ne_of_lt h)
  have hperm : (runs.map (fun r => intRange r.1 r.2)).flatten.Perm S :=
    (List.perm_ext_iff_of_nodup hndL hnd).mpr hmemL
  exact List.eq_of_perm_of_sorted
    (((List.perm_insertionSort _ _).trans hperm).trans (List.perm_insertionSort _ _).symm)
    (sortInts_sorted _) (sortInts_sorted _)

/-- C11 at the largest `int`: the list `[2^63 - 2, 2^63 - 1]` is formatted as
"9223372036854775806-9223372036854775807", and on that text the expansion loop
`for i := start; i <= end; i++` of `parsePortRanges` does not end: there is no result. -/
theorem C11_roundtrip_largest_int :
    indicesToRangeString [9223372036854775806, 9223372036854775807] =
      "9223372036854775806-9223372036854775807" ∧
    parsePortRanges "9223372036854775806-9223372036854775807" = none ∧
    parsePortRanges (indicesToRangeString [9223372036854775806, 9223372036854775807]) ≠
      some [9223372036854775806, 9223372036854775807] := by
  decide

/-! ## VLAN bitmap round trip: lemmas and the claim -/

/-- The test `(b>>(7-bit))&1 == 1` reads bit `7 - bit` of the byte. -/
theorem bitSet_eq_testBit (b k : Nat) : bitSet b k = b.testBit (7 - k) := by
  unfold bitSet
  rw [Nat.testBit_to_div_mod]

theorem vlanBits_sorted (offset : Int) (i b : Nat) (bits : List Nat)
    (hb : bits.Pairwise (fun x y => x < y)) :
    (vlanBits offset i b bits).Pairwise (fun x y => x < y) := by
  induction bits with
  | nil => simp [vlanBits]
  | cons bit rest ih =>
    obtain ⟨h1, h2⟩ := List.pairwise_cons.mp hb
    unfold vlanBits
    split_ifs with h
    · refine List.pairwise_cons.mpr ⟨?_, ih h2⟩
      intro y hy
      obtain ⟨k, hk, _, hyk, _⟩ := (mem_vlanBits offset i b rest y).mp hy
      have := h1 k hk
      omega
    · exact ih h2

/-- The ids decoded from the bytes at positions `i`, `i + 1`, … are ascending and lie in
the window of those bytes. -/
theorem parseVlanBitmapFrom_sorted (offset : Int) (bytes : List Nat) : ∀ i : Nat,
    (parseVlanBitmapFrom offset i bytes).Pairwise (fun x y => x < y) ∧
    ∀ v ∈ parseVlanBitmapFrom offset i bytes,
      offset + 8 * (i : Int) ≤ v ∧ v < offset + 8 * ((i : Int) + (bytes.length : Int)) := by
  induction bytes with
  | nil =>
    intro i
    simp [parseVlanBitmapFrom]
  | cons b bs ih =>
    intro i
    obtain ⟨ih1, ih2⟩ := ih (i + 1)
    have hfirst : ∀ x ∈ vlanBits offset i b (List.range 8),
        offset + 8 * (i : Int) ≤ x ∧ x < offset + 8 * ((i : Int) + 1) := by
      intro x hx
      obtain ⟨k, hk, _, hxk, _⟩ := (mem_vlanBits offset i b _ x).mp hx
      have := List.mem_range.mp hk
      omega
    unfold parseVlanBitmapFrom
    constructor
    · rw [List.pairwise_append]
      refine ⟨vlanBits_sorted offset i b _ (List.pairwise_lt_range 8), ih1, ?_⟩
      intro x hx y hy
      have h1 := hfirst x hx
      have h2 := ih2 y hy
      push_cast at h2
      omega
    · intro v hv
      rcases List.mem_append.mp hv with h | h
      · have := hfirst v h
        simp only [List.length_cons]
        push_cast
        omega
      · have := ih2 v h
        simp only [List.length_cons]
        push_cast at this ⊢
        omega

/-- The ids decoded from one string that encodes `V`: the elements of `V` in the window
of the string. -/
theorem mem_decode_of_encodes (V : List Int) (O : Int) (s : List Nat)
    (h : EncodesVlans V O s) (v : Int) :
    v ∈ parseVlanBitmap s O ↔ v ∈ V ∧ O ≤ v ∧ v < O + 1024 ∧ 0 < v ∧ v < 4096 := by
  obtain ⟨hlen, henc⟩ := h
  unfold parseVlanBitmap
  rw [mem_parseVlanBitmapFrom]
  constructor
  · rintro ⟨j, b, hj, hv⟩
    obtain ⟨k, hk, hset, hvk, hpos, hlt⟩ := (mem_vlanBits O (0 + j) b _ v).mp hv
    have hk8 : k < 8 := List.mem_range.mp hk
    have hj128 : j < 128 := by
      rw [← hlen]
      exact (List.get?_eq_some.mp hj).1
    have hget : s.getD j 0 = b := by
      rw [List.getD_eq_getElem?_getD, ← List.get?_eq_getElem?, hj]
      rfl
    have hin : O + 8 * (j : Int) + (k : Int) ∈ V := by
      apply (henc j hj128 k hk8).mp
      rw [hget, ← bitSet_eq_testBit]
      exact hset
    have hvk2 : v = O + 8 * (j : Int) + (k : Int) := by
      rw [hvk]
      push_cast
      ring
    rw [hvk2]
    refine ⟨hin, by omega, by omega, by omega, by omega⟩
  · rintro ⟨hV, h1, h2, h3, h4⟩
    have hj : ((v - O) / 8).toNat < 128 := by omega
    have hk : ((v - O) % 8).toNat < 8 := by omega
    have hid : O + 8 * (((v - O) / 8).toNat : Int) + (((v - O) % 8).toNat : Int) = v := by omega
    have hbit := (henc _ hj _ hk).mpr (by rw [hid]; exact hV)
    have hlt : ((v - O) / 8).toNat < s.length := by rw [hlen]; exact hj
    refine ⟨((v - O) / 8).toNat, s.getD ((v - O) / 8).toNat 0, ?_, ?_⟩
    · rw [List.getD_eq_getElem?_getD, List.get?_eq_getElem?, List.getElem?_eq_getElem hlt]
      rfl
    · rw [mem_vlanBits]
      refine ⟨((v - O) % 8).toNat, List.mem_range.mpr hk, ?_, ?_, h3, h4⟩
      · rw [bitSet_eq_testBit]
        exact hbit
      · push_cast
        omega

/-- C12. Let `V` be a set of VLAN ids `v` with `0 < v < 4095`, and let four 128-byte octet
strings encode it, one per offset 0, 1024, 2048, 3072: bit `7 - k` of byte `i` of the string
of offset `O` is set exactly when `O + 8·i + k` is in `V`.  Then the concatenation of
`parseVlanBitmap` of the four strings with their offsets, in offset order, is strictly
ascending and its elements are exactly the elements of `V`. -/
theorem C12_vlan_roundtrip (V : List Int) (s0 s1 s2 s3 : List Nat)
    (hV : ∀ v ∈ V, 0 < v ∧ v < 4095)
    (h0 : EncodesVlans V 0 s0) (h1 : EncodesVlans V 1024 s1)
    (h2 : EncodesVlans V 2048 s2) (h3 : EncodesVlans V 3072 s3) :
    (parseVlanBitmap s0 0 ++ parseVlanBitmap s1 1024 ++ parseVlanBitmap s2 2048 ++
      parseVlanBitmap s3 3072).Pairwise (fun x y => x < y) ∧
    ∀ v, v ∈ parseVlanBitmap s0 0 ++ parseVlanBitmap s1 1024 ++ parseVlanBitmap s2 2048 ++
      parseVlanBitmap s3 3072 ↔ v ∈ V := by
  have m0 := mem_decode_of_encodes V 0 s0 h0
  have m1 := mem_decode_of_encodes V 1024 s1 h1
  have m2 := mem_decode_of_encodes V 2048 s2 h2
  have m3 := mem_decode_of_encodes V 3072 s3 h3
  have p0 := (parseVlanBitmapFrom_sorted 0 s0 0).1
  have p1 := (parseVlanBitmapFrom_sorted 1024 s1 0).1
  have p2 := (parseVlanBitmapFrom_sorted 2048 s2 0).1
  have p3 := (parseVlanBitmapFrom_sorted 3072 s3 0).1
  constructor
  · rw [List.pairwise_append, List.pairwise_append, List.pairwise_append]
    refine ⟨⟨⟨p0, p1, ?_⟩, p2, ?_⟩, p3, ?_⟩
    · intro x hx y hy
      have a := (m0 x).mp hx
      have b := (m1 y).mp hy
      omega
    · intro x hx y hy
      have b := (m2 y).mp hy
      rcases List.mem_append.mp hx with hx | hx
      · have a := (m0 x).mp hx
        omega
      · have a := (m1 x).mp hx
        omega
    · intro x hx y hy
      have b := (m3 y).mp hy
      rcases List.mem_append.mp hx with hx | hx
      · rcases List.mem_append.mp hx with hx | hx
        · have a := (m0 x).mp hx
          omega
        · have a := (m1 x).mp hx
          omega
      · have a := (m2 x).mp hx
        omega
  · intro v
    simp only [List.mem_append]
    rw [m0, m1, m2, m3]
    constructor
    · rintro (((h | h) | h) | h) <;> exact h.1
    · intro hv
      have := hV v hv
      by_cases c0 : v < 1024
      · exact Or.inl (Or.inl (Or.inl ⟨hv, by omega, by omega, by omega, by omega⟩))
      · by_cases c1 : v < 2048
        · exact Or.inl (Or.inl (Or.inr ⟨hv, by omega, by omega, by omega, by omega⟩))
        · by_cases c2 : v < 3072
          · exact Or.inl (Or.inr ⟨hv, by omega, by omega, by omega, by omega⟩)
          · exact Or.inr ⟨hv, by omega, by omega, by omega, by omega⟩

/-- Witness of C12: the set 1, 2, 3, 100, 1024, 2049, 4094, encoded into four 128-byte
strings, is decoded as `[1, 2, 3, 100, 1024, 2049, 4094]`. -/
theorem C12_vlan_roundtrip_witness :
    parseVlanBitmap vlanString0 0 ++ parseVlanBitmap vlanString1 1024 ++
      parseVlanBitmap vlanString2 2048 ++ parseVlanBitmap vlanString3 3072 =
      [1, 2, 3, 100, 1024, 2049, 4094] ∧
    ∀ v, v ∈ parseVlanBitmap vlanString0 0 ++ parseVlanBitmap vlanString1 1024 ++
      parseVlanBitmap vlanString2 2048 ++ parseVlanBitmap vlanString3 3072 ↔
        v ∈ ([4094, 1, 2, 3, 100, 1024, 2049] : List Int) :=
  ⟨by decide!,
   (C12_vlan_roundtrip [4094, 1, 2, 3, 100, 1024, 2049] vlanString0 vlanString1 vlanString2
      vlanString3 (by decide) (by decide!) (by decide!) (by decide!) (by decide!)).2⟩

/-! ## Port bitmaps: lemmas and the claim -/

theorem mem_portBits (i b : Nat) (bits : List Nat) (p : Int) :
    p ∈ portBits i b bits ↔
      ∃ bit ∈ bits, bitSet b bit = true ∧ p = (i : Int) * 8 + (bit : Int) + 1 := by
  induction bits with
  | nil => simp [portBits]
  | cons bit rest ih =>
    unfold portBits
    split_ifs with h
    · rw [List.mem_cons, ih]
      constructor
      · rintro (h1 | ⟨k, hk, hrest⟩)
        · exact ⟨bit, by simp, h, h1⟩
        · exact ⟨k, List.mem_cons_of_mem _ hk, hrest⟩
      · rintro ⟨k, hk, h1, h2⟩
        rcases List.mem_cons.mp hk with hk1 | hk2
        · left; rw [h2, hk1]
        · right; exact ⟨k, hk2, h1, h2⟩
    · rw [ih]
      constructor
      · rintro ⟨k, hk, hrest⟩
        exact ⟨k, List.mem_cons_of_mem _ hk, hrest⟩
      · rintro ⟨k, hk, h1, h2⟩
        rcases List.mem_cons.mp hk with hk1 | hk2
        · rw [hk1] at h1
          exact absurd h1 h
        · exact ⟨k, hk2, h1, h2⟩

theorem portBits_sorted (i b : Nat) (bits : List Nat) (hb : bits.Pairwise (fun x y => x < y)) :
    (portBits i b bits).Pairwise (fun x y => x < y) := by
  induction bits with
  | nil => simp [portBits]
  | cons bit rest ih =>
    obtain ⟨h1, h2⟩ := List.pairwise_cons.mp hb
    unfold portBits
    split_ifs with h
    · refine List.pairwise_cons.mpr ⟨?_, ih h2⟩
      intro y hy
      obtain ⟨k, hk, _, hyk⟩ := (mem_portBits i b rest y).mp hy
      have := h1 k hk
      omega
    · exact ih h2

theorem portBits_length (i b : Nat) (bits : List Nat) :
    (portBits i b bits).length = (bits.filter (fun k => bitSet b k)).length := by
  induction bits with
  | nil => rfl
  | cons bit rest ih =>
    unfold portBits
    by_cases h : bitSet b bit = true
    · rw [if_pos h, List.filter_cons_of_pos h, List.length_cons, List.length_cons, ih]
    · rw [if_neg h, List.filter_cons_of_neg h, ih]

/-- The bits the loop tests, `7 - k` for `k` from 0 to 7, are the eight bits of the byte. -/
theorem bitSet_count (b : Nat) :
    ((List.range 8).filter (fun k => bitSet b k)).length = setBitCount b := by
  unfold setBitCount
  have h1 : (List.range 8).filter (fun k => bitSet b k) =
      (List.range 8).filter (fun k => b.testBit (7 - k)) := by
    congr 1
    funext k
    exact bitSet_eq_testBit b k
  rw [h1, ← List.countP_eq_length_filter, ← List.countP_eq_length_filter]
  have h2 : (List.range 8).map (fun k => b.testBit (7 - k)) =
      ((List.range 8).map (fun k => b.testBit k)).reverse := rfl
  have h3 : ∀ f : Nat → Bool, (List.range 8).countP f = ((List.range 8).map f).countP id := by
    intro f
    rw [List.countP_map]
    rfl
  rw [h3 (fun k => b.testBit (7 - k)), h3 (fun k => b.testBit k), h2, List.countP_reverse]

/-- The ports decoded from the bytes at positions `i`, `i + 1`, …: which they are, that they
ascend, and how many they are. -/
theorem parsePortBitmapFrom_spec (bytes : List Nat) : ∀ i : Nat,
    (∀ p, p ∈ parsePortBitmapFrom i bytes ↔
      ∃ j k : Nat, j < bytes.length ∧ k < 8 ∧ (bytes.getD j 0).testBit (7 - k) = true ∧
        p = 8 * ((i : Int) + (j : Int)) + (k : Int) + 1) ∧
    (parsePortBitmapFrom i bytes).Pairwise (fun x y => x < y) ∧
    (parsePortBitmapFrom i bytes).length = (bytes.map setBitCount).sum := by
  induction bytes with
  | nil =>
    intro i
    simp [parsePortBitmapFrom]
  | cons b bs ih =>
    intro i
    obtain ⟨ih1, ih2, ih3⟩ := ih (i + 1)
    have hfirst : ∀ p, p ∈ portBits i b (List.range 8) ↔
        ∃ k : Nat, k < 8 ∧ b.testBit (7 - k) = true ∧ p = 8 * (i : Int) + (k : Int) + 1 := by
      intro p
      rw [mem_portBits]
      constructor
      · rintro ⟨k, hk, hs, hp⟩
        exact ⟨k, List.mem_range.mp hk, by rw [← bitSet_eq_testBit]; exact hs, by omega⟩
      · rintro ⟨k, hk, hs, hp⟩
        exact ⟨k, List.mem_range.mpr hk, by rw [bitSet_eq_testBit]; exact hs, by omega⟩
    unfold parsePortBitmapFrom
    refine ⟨?_, ?_, ?_⟩
    · intro p
      rw [List.mem_append, hfirst, ih1]
      constructor
      · rintro (⟨k, hk, hs, hp⟩ | ⟨j, k, hj, hk, hs, hp⟩)
        · exact ⟨0, k, by simp, hk, by simpa using hs, by rw [hp]; push_cast; ring⟩
        · refine ⟨j + 1, k, by simpa using hj, hk, by simpa using hs, ?_⟩
          rw [hp]
          push_cast
          ring
      · rintro ⟨j, k, hj, hk, hs, hp⟩
        cases j with
        | zero =>
          left
          exact ⟨k, hk, by simpa using hs, by rw [hp]; push_cast; ring⟩
        | succ j =>
          right
          refine ⟨j, k, by simpa using hj, hk, by simpa using hs, ?_⟩
          rw [hp]
          push_cast
          ring
    · rw [List.pairwise_append]
      refine ⟨portBits_sorted i b _ (List.pairwise_lt_range 8), ih2, ?_⟩
      intro x hx y hy
      obtain ⟨k, hk, _, hxk⟩ := (hfirst x).mp hx
      obtain ⟨j, k2, _, _, _, hy2⟩ := (ih1 y).mp hy
      push_cast at hy2
      omega
    · rw [List.length_append, portBits_length, bitSet_count, ih3, List.map_cons, List.sum_cons]

/-- C24. For every octet string `b`, `parsePortBitmap(b)` contains the port `p` exactly when
`p = 8·i + k + 1` for a byte index `i < len(b)` and a `k` in 0..7 such that bit `7 - k` of
`b[i]` is set; the result is strictly ascending, so that each such port appears once, and
its length is the number of set bits of `b`. -/
theorem C24_port_bitmap (bytes : List Nat) :
    (∀ p, p ∈ parsePortBitmap bytes ↔
      ∃ i k : Nat, i < bytes.length ∧ k < 8 ∧ (bytes.getD i 0).testBit (7 - k) = true ∧
        p = 8 * (i : Int) + (k : Int) + 1) ∧
    (parsePortBitmap bytes).Pairwise (fun x y => x < y) ∧
    (parsePortBitmap bytes).Nodup ∧
    (parsePortBitmap bytes).length = (bytes.map setBitCount).sum := by
  obtain ⟨h1, h2, h3⟩ := parsePortBitmapFrom_spec bytes 0
  refine ⟨?_, h2, h2.imp (fun h => ne_of_lt h), h3⟩
  intro p
  unfold parsePortBitmap
  rw [h1 p]
  simp

/-! ## The outcome of `PollSNMP`: the claims -/

/-- C21. Once all workers have finished and the `select` has taken the workers-done case,
`PollSNMP` fails exactly when `rawResults` is empty and at least one error was recorded; the
error it returns is then a recorded one (the first), there is no map and the rate cache is
untouched.  Otherwise it succeeds with the reconciled map; in particular it succeeds whenever
a row survives the reconciliation, however many errors were recorded. -/
theorem C21_poll_failure_iff (env : PollEnv) (cache : TrafficCache) (ctxErr : String)
    (w : Collected) :
    ((PollSNMP env cache ctxErr SelectCase.workersDone w).1.err ≠ none ↔
      w.raw = [] ∧ w.errs ≠ []) ∧
    ((PollSNMP env cache ctxErr SelectCase.workersDone w).1.err ≠ none →
      (∃ e ∈ w.errs, (PollSNMP env cache ctxErr SelectCase.workersDone w).1.err = some e) ∧
      (PollSNMP env cache ctxErr SelectCase.workersDone w).1.results = none ∧
      (PollSNMP env cache ctxErr SelectCase.workersDone w).2 = cache) ∧
    ((PollSNMP env cache ctxErr SelectCase.workersDone w).1.err = none →
      (PollSNMP env cache ctxErr SelectCase.workersDone w).1.results =
        some (reconcileLoop env cache w.raw).2 ∧
      (PollSNMP env cache ctxErr SelectCase.workersDone w).2 = (reconcileLoop env cache w.raw).1) ∧
    ((reconcileLoop env cache w.raw).2 ≠ [] →
      (PollSNMP env cache ctxErr SelectCase.workersDone w).1.err = none) ∧
    (PollSNMP env cache ctxErr SelectCase.workersDone w).1.sysInfo = w.sysInfo := by
  have hP : PollSNMP env cache ctxErr SelectCase.workersDone w = pollAfterWait env cache w := rfl
  rw [hP]
  unfold pollAfterWait
  by_cases hc : 0 < w.errs.length ∧ w.raw.length = 0
  · rw [if_pos hc]
    obtain ⟨h1, h2⟩ := hc
    have hraw : w.raw = [] := List.length_eq_zero.mp h2
    cases herrs : w.errs with
    | nil => rw [herrs] at h1; simp at h1
    | cons e rest =>
      simp only [List.head?_cons, ne_eq, not_false_eq_true, true_iff, hraw, true_and,
        Option.some.injEq, List.mem_cons, exists_eq_or_imp, reconcileLoop, forall_const,
        not_true_eq_false, false_implies, and_true, reduceCtorEq, true_or, and_self, implies_true]
  · rw [if_neg hc]
    have hno : ¬ (w.raw = [] ∧ w.errs ≠ []) := by
      rintro ⟨h1, h2⟩
      apply hc
      rw [h1]
      exact ⟨List.length_pos.mpr h2, rfl⟩
    simp only [ne_eq, not_true_eq_false, false_iff, hno, not_false_eq_true, false_implies,
      forall_const, and_self, implies_true]

/-- Witness of C21: with one row collected and one error recorded the poll succeeds and
returns the row under "5"; with no row and two errors it fails with the first of them. -/
theorem C21_poll_failure_iff_witness :
    ((PollSNMP firstPoll (fun _ => none) "context canceled" SelectCase.workersDone
        oneRowOneError).1.err = none ∧
      (PollSNMP firstPoll (fun _ => none) "context canceled" SelectCase.workersDone
        oneRowOneError).1.results.map (fun l => l.map (fun e => (e.1, e.2.IfName))) =
        some [("5", "Ethernet5")]) ∧
    (PollSNMP firstPoll (fun _ => none) "context canceled" SelectCase.workersDone
        noRowTwoErrors).1 =
      { results := none, sysInfo := {}, err := some "dial udp: i/o timeout" } :=
  ⟨⟨(C21_poll_failure_iff firstPoll (fun _ => none) "context canceled" oneRowOneError).2.2.2.1
      (by decide), by decide⟩, by decide⟩

/-- C22, as the code has it. When the `select` of `PollSNMP` takes the case of the token,
which it does whenever the token is tripped while the workers-done signal has not been
given, `PollSNMP` returns the error of the context, no map and an empty system information,
and leaves the rate cache as it was, whatever the workers have collected. -/
theorem C22_cancelled_at_wait (env : PollEnv) (cache : TrafficCache) (ctxErr : String)
    (t : PollTiming) (w : Collected) (hctx : t.ctxAtSelect = true)
    (hfirst : t.doneAtSelect = false ∨ t.pick = SelectCase.ctxDone) :
    PollSNMPRun env cache ctxErr t w =
      some ({ results := none, sysInfo := {}, err := some ctxErr }, cache) := by
  unfold PollSNMPRun selectTakes
  rw [hctx]
  rcases hfirst with h | h
  · rw [h]
    rfl
  · cases hd : t.doneAtSelect
    · rfl
    · simp only [Option.map_some', h]
      rfl

/-- Witness of C22: the token is tripped while the workers still run and one row has been
collected; the poll returns the cancellation error and the cache has no entry. -/
theorem C22_cancelled_at_wait_witness :
    TrippedDuringPoll earlyCancel ∧
    (PollSNMPRun firstPoll (fun _ => none) "context canceled" earlyCancel oneRowOneError).map
      (fun r => (r.1, r.2 (cacheKey 1 5))) =
      some ({ results := none, sysInfo := {}, err := some "context canceled" }, none) :=
  ⟨Or.inl rfl,
   by rw [C22_cancelled_at_wait firstPoll (fun _ => none) "context canceled" earlyCancel
        oneRowOneError rfl (Or.inl rfl)]; rfl⟩

/-- Counterexample to C22 as stated.  A token tripped after the `select` has taken the
workers-done case, and a token tripped together with the workers-done signal when the
runtime picks that case, are tripped while the poll is in progress; yet `PollSNMP` returns
no error, returns the map with the row of ifIndex 5 and writes its rate-cache entry. -/
theorem C22_counterexample :
    (TrippedDuringPoll lateCancel ∧
      (PollSNMPRun firstPoll (fun _ => none) "context canceled" lateCancel oneRowOneError).map
        (fun r => (r.1.err, r.1.results.map (fun l => l.map (fun e => e.1)), r.2 (cacheKey 1 5))) =
        some (none, some ["5"],
          some { Timestamp := 1000, InOctets := 1000000, OutOctets := 500000 })) ∧
    (TrippedDuringPoll bothReady ∧
      (PollSNMPRun firstPoll (fun _ => none) "context canceled" bothReady oneRowOneError).map
        (fun r => (r.1.err, r.1.results.map (fun l => l.map (fun e => e.1)), r.2 (cacheKey 1 5))) =
        some (none, some ["5"],
          some { Timestamp := 1000, InOctets := 1000000, OutOctets := 500000 })) :=
  ⟨⟨Or.inr rfl, by decide⟩, ⟨Or.inl rfl, by decide⟩⟩

/-! ## The error channel: the claim -/

theorem mem_workerSteps (s t : WorkerState) (h : t ∈ workerSteps s) :
    (0 < s.failing ∧ s.buffered < errChanCapacity ∧ t.failing = s.failing - 1 ∧
      t.connected = s.connected ∧ t.buffered = s.buffered + 1 ∧ t.finished = s.finished + 1) ∨
    (0 < s.connected ∧ t.failing = s.failing ∧ t.connected = s.connected - 1 ∧
      t.buffered = s.buffered ∧ t.finished = s.finished + 1) := by
  unfold workerSteps at h
  rcases List.mem_append.mp h with h1 | h1
  · split_ifs at h1 with hc
    · simp only [List.mem_singleton] at h1
      rw [h1]
      exact Or.inl ⟨hc.1, hc.2, rfl, rfl, rfl, rfl⟩
    · simp at h1
  · split_ifs at h1 with hc
    · simp only [List.mem_singleton] at h1
      rw [h1]
      exact Or.inr ⟨hc, rfl, rfl, rfl, rfl⟩
    · simp at h1

/-- While the main goroutine waits, the workers that have returned are those that connected
and those whose error found room in the channel. -/
theorem workers_invariant (f : Nat) (hf : f ≤ pollWorkers.length) (s : WorkerState)
    (h : WorkersReach (workersStart f) s) :
    s.buffered ≤ errChanCapacity ∧ s.failing + s.buffered = f ∧
    s.finished = s.buffered + (pollWorkers.length - f - s.connected) ∧
    s.connected ≤ pollWorkers.length - f := by
  induction h with
  | refl =>
    unfold workersStart
    simp only
    unfold errChanCapacity
    omega
  | tail _ hstep ih =>
    obtain ⟨i1, i2, i3, i4⟩ := ih
    rcases mem_workerSteps _ _ hstep with ⟨h1, h2, e1, e2, e3, e4⟩ | ⟨h1, e1, e2, e3, e4⟩
    · rw [e1, e2, e3, e4]
      omega
    · rw [e1, e2, e3, e4]
      omega

/-- With at most as many failing workers as the channel has room for, the workers can all
return. -/
theorem workers_finish (f : Nat) (hf : f ≤ errChanCapacity) (hp : f ≤ pollWorkers.length) :
    ∃ s, WorkersReach (workersStart f) s ∧ allWorkersDone s := by
  have hsend : ∀ k : Nat, k ≤ f →
      WorkersReach (workersStart f)
        { failing := f - k, connected := pollWorkers.length - f, buffered := k, finished := k } := by
    intro k
    induction k with
    | zero => intro _; exact Relation.ReflTransGen.refl
    | succ k ih =>
      intro hk
      refine Relation.ReflTransGen.tail (ih (by omega)) ?_
      unfold workerSteps
      have h1 : 0 < f - k ∧ k < errChanCapacity := ⟨by omega, by omega⟩
      simp only [h1, and_self, if_true]
      apply List.mem_append_left
      have : f - k - 1 = f - (k + 1) := by omega
      rw [this]
      simp
  have hret : ∀ j : Nat, j ≤ pollWorkers.length - f →
      WorkersReach (workersStart f)
        { failing := 0, connected := pollWorkers.length - f - j, buffered := f,
          finished := f + j } := by
    intro j
    induction j with
    | zero =>
      intro _
      have := hsend f (le_refl _)
      simpa using this
    | succ j ih =>
      intro hj
      refine Relation.ReflTransGen.tail (ih (by omega)) ?_
      unfold workerSteps
      have h1 : 0 < pollWorkers.length - f - j := by omega
      simp only [h1, if_true]
      apply List.mem_append_right
      have : pollWorkers.length - f - j - 1 = pollWorkers.length - f - (j + 1) := by omega
      rw [this]
      simp
      omega
  refine ⟨_, hret (pollWorkers.length - f) (le_refl _), ?_⟩
  unfold allWorkersDone
  simp only
  omega

/-- C26 at the failing input. A poll starts 12 workers that may each send one error, and the
error channel holds 10.  When every worker fails to connect, no interleaving lets more than
10 of them return: in every state the workers can reach, two or more are still blocked in
`errChan <- err`, and the state in which `doneChan` is closed is never reached.  With at
most 10 failing workers the workers can all return. -/
theorem C26_error_channel_too_small :
    pollWorkers.length = 12 ∧ errChanCapacity = 10 ∧
    (∀ s, WorkersReach (workersStart pollWorkers.length) s →
      s.finished ≤ 10 ∧ 2 ≤ s.failing ∧ ¬ allWorkersDone s) ∧
    (∀ f, f ≤ 10 → ∃ s, WorkersReach (workersStart f) s ∧ allWorkersDone s) := by
  have hlen : pollWorkers.length = 12 := rfl
  refine ⟨hlen, rfl, ?_, ?_⟩
  · intro s hs
    obtain ⟨h1, h2, h3, h4⟩ := workers_invariant pollWorkers.length (le_refl _) s hs
    unfold allWorkersDone
    unfold errChanCapacity at h1
    rw [hlen] at h2 h3 h4 ⊢
    omega
  · intro f hf
    exact workers_finish f hf (by rw [hlen]; omega)

/-! ## Scale multiplier: lemmas and the claim -/

/-- The `float64` product of `float64(r)` and a multiplier `m` that is within `2^-53` of
`M` differs from `r * M` by at most `2^-51` of its magnitude. -/
theorem scaled_err (r m M : ℚ) (hM : 0 ≤ M) (hm : |m - M| * 2 ^ 53 ≤ M) :
    |roundF64 (roundF64 r * m) - r * M| * 2 ^ 51 ≤ |r * M| := by
  have ha := roundF64_err r
  have hf := roundF64_err (roundF64 r * m)
  generalize roundF64 (roundF64 r * m) = f at hf
  generalize roundF64 r = a at ha hf
  have hX : 0 ≤ |r| := abs_nonneg r
  have a1 : |a - r| ≤ |r| / 2 ^ 53 := (le_div_iff₀ (by positivity)).mpr ha
  have m1 : |m - M| ≤ M / 2 ^ 53 := (le_div_iff₀ (by positivity)).mpr hm
  have a2 : |a| ≤ |r| * (1 + 1 / 2 ^ 53) := by
    have h := abs_add (a - r) r
    rw [sub_add_cancel] at h
    have e : |r| * (1 + 1 / 2 ^ 53) = |r| / 2 ^ 53 + |r| := by ring
    linarith
  have m2 : |m| ≤ M * (1 + 1 / 2 ^ 53) := by
    have h := abs_add (m - M) M
    rw [sub_add_cancel, abs_of_nonneg hM] at h
    have e : M * (1 + 1 / 2 ^ 53) = M / 2 ^ 53 + M := by ring
    linarith
  have hM1 : 0 ≤ M * (1 + 1 / 2 ^ 53) := mul_nonneg hM (by norm_num)
  have p1 : |a * m| ≤ |r| * M * (1 + 1 / 2 ^ 53) ^ 2 := by
    rw [abs_mul]
    calc |a| * |m| ≤ |r| * (1 + 1 / 2 ^ 53) * (M * (1 + 1 / 2 ^ 53)) :=
          mul_le_mul a2 m2 (abs_nonneg _) (mul_nonneg hX (by norm_num))
      _ = |r| * M * (1 + 1 / 2 ^ 53) ^ 2 := by ring
  have p2 : |a * m - r * M| ≤ |r| * M * (2 / 2 ^ 53 + 1 / 2 ^ 106) := by
    have e : a * m - r * M = (a - r) * m + r * (m - M) := by ring
    rw [e]
    calc |(a - r) * m + r * (m - M)| ≤ |(a - r) * m| + |r * (m - M)| := abs_add _ _
      _ = |a - r| * |m| + |r| * |m - M| := by rw [abs_mul, abs_mul]
      _ ≤ |r| / 2 ^ 53 * (M * (1 + 1 / 2 ^ 53)) + |r| * (M / 2 ^ 53) :=
          add_le_add (mul_le_mul a1 m2 (abs_nonneg _) (by positivity))
            (mul_le_mul_of_nonneg_left m1 hX)
      _ = |r| * M * (2 / 2 ^ 53 + 1 / 2 ^ 106) := by ring
  have f1 : |f - a * m| ≤ |a * m| / 2 ^ 53 := (le_div_iff₀ (by positivity)).mpr hf
  have hXM : 0 ≤ |r| * M := mul_nonneg hX hM
  have tri : |f - r * M| ≤ |f - a * m| + |a * m - r * M| := abs_sub_le f (a * m) (r * M)
  have tot : |f - r * M| ≤ |r| * M * ((1 + 1 / 2 ^ 53) ^ 2 / 2 ^ 53 + (2 / 2 ^ 53 + 1 / 2 ^ 106)) := by
    have : |a * m| / 2 ^ 53 ≤ |r| * M * (1 + 1 / 2 ^ 53) ^ 2 / 2 ^ 53 :=
      div_le_div_of_nonneg_right p1 (by positivity)
    have e : |r| * M * ((1 + 1 / 2 ^ 53) ^ 2 / 2 ^ 53 + (2 / 2 ^ 53 + 1 / 2 ^ 106)) =
        |r| * M * (1 + 1 / 2 ^ 53) ^ 2 / 2 ^ 53 + |r| * M * (2 / 2 ^ 53 + 1 / 2 ^ 106) := by ring
    linarith
  have num : ((1 + 1 / 2 ^ 53) ^ 2 / 2 ^ 53 + (2 / 2 ^ 53 + 1 / 2 ^ 106) : ℚ) * 2 ^ 51 ≤ 1 := by
    norm_num
  rw [abs_mul, abs_of_nonneg hM]
  calc |f - r * M| * 2 ^ 51
      ≤ |r| * M * ((1 + 1 / 2 ^ 53) ^ 2 / 2 ^ 53 + (2 / 2 ^ 53 + 1 / 2 ^ 106)) * 2 ^ 51 :=
        mul_le_mul_of_nonneg_right tot (by positivity)
    _ = |r| * M * (((1 + 1 / 2 ^ 53) ^ 2 / 2 ^ 53 + (2 / 2 ^ 53 + 1 / 2 ^ 106)) * 2 ^ 51) := by
        ring
    _ ≤ |r| * M * 1 := mul_le_mul_of_nonneg_left num hXM
    _ = |r| * M := mul_one _

/-- Every multiplier is within `2^-53` of the power of ten of its code. -/
theorem getScaleMultiplier_err (c : Int) :
    0 ≤ scalePower c ∧ |getScaleMultiplier c - scalePower c| * 2 ^ 53 ≤ scalePower c := by
  by_cases h : 1 ≤ c ∧ c ≤ 12
  · obtain ⟨h1, h2⟩ := h
    interval_cases c <;> exact ⟨by decide!, by decide!⟩
  · have h1 : roundF64 1 = 1 := by decide!
    have hc : ¬ c = 1 ∧ ¬ c = 2 ∧ ¬ c = 3 ∧ ¬ c = 4 ∧ ¬ c = 5 ∧ ¬ c = 6 ∧ ¬ c = 7 ∧ ¬ c = 8 ∧
        ¬ c = 9 ∧ ¬ c = 10 ∧ ¬ c = 11 ∧ ¬ c = 12 := by omega
    obtain ⟨a1, a2, a3, a4, a5, a6, a7, a8, a9, a10, a11, a12⟩ := hc
    unfold scalePower getScaleMultiplier
    rw [if_neg h, h1]
    simp only [a1, a2, a3, a4, a5, a6, a7, a8, a9, a10, a11, a12, if_false]
    norm_num

/-- C25, as the code has it. `getScaleMultiplier` maps the scale codes 1, 2, …, 12 to the
`float64` nearest to ten raised to the exponents −24, −21, …, +9 (the exponent of code `c`
is `3·(c − 9)`): for the codes 9 to 12 that is the power itself, for the codes 1 to 8 a
value that differs from the power by at most `2^-53` of it.  Every other code is mapped to
1.  For every raw value the scaled value is the `float64` product of the raw value,
converted to `float64`, and the multiplier; it differs from the raw value times the power
of ten (times 1 for another code) by at most `2^-51` of that product.  For a raw value of
magnitude below `2^53` the conversion is exact; for the codes 9 to 12 and a product of
magnitude below `2^53` the scaled value is the raw value times the power of ten. -/
theorem C25_scale_multiplier (c raw : Int) :
    [1, 2, 3, 4, 5, 6, 7, 8, 9, 10, 11, 12].map scaleExponent =
      [-24, -21, -18, -15, -12, -9, -6, -3, 0, 3, 6, 9] ∧
    (1 ≤ c → c ≤ 12 →
      getScaleMultiplier c = roundF64 ((10 : ℚ) ^ scaleExponent c) ∧
      |getScaleMultiplier c - (10 : ℚ) ^ scaleExponent c| * 2 ^ 53 ≤ (10 : ℚ) ^ scaleExponent c) ∧
    (9 ≤ c → c ≤ 12 → getScaleMultiplier c = (10 : ℚ) ^ scaleExponent c) ∧
    ((c < 1 ∨ 12 < c) → getScaleMultiplier c = 1) ∧
    scaledValue raw c = roundF64 (roundF64 (raw : ℚ) * getScaleMultiplier c) ∧
    |scaledValue raw c - (raw : ℚ) * scalePower c| * 2 ^ 51 ≤ |(raw : ℚ) * scalePower c| ∧
    (raw.natAbs < 2 ^ 53 → scaledValue raw c = roundF64 ((raw : ℚ) * getScaleMultiplier c)) ∧
    (9 ≤ c → c ≤ 12 → (raw * 10 ^ (scaleExponent c).toNat).natAbs < 2 ^ 53 →
      scaledValue raw c = (raw : ℚ) * (10 : ℚ) ^ scaleExponent c) := by
  refine ⟨by decide, ?_, ?_, ?_, rfl, ?_, ?_, ?_⟩
  · intro h1 h2
    interval_cases c <;> exact ⟨by decide!, by decide!⟩
  · intro h1 h2
    interval_cases c <;> decide!
  · intro h
    have h1 : roundF64 1 = 1 := by decide!
    unfold getScaleMultiplier
    rw [h1]
    have : ¬ c = 1 ∧ ¬ c = 2 ∧ ¬ c = 3 ∧ ¬ c = 4 ∧ ¬ c = 5 ∧ ¬ c = 6 ∧ ¬ c = 7 ∧ ¬ c = 8 ∧
        ¬ c = 9 ∧ ¬ c = 10 ∧ ¬ c = 11 ∧ ¬ c = 12 := by omega
    obtain ⟨a1, a2, a3, a4, a5, a6, a7, a8, a9, a10, a11, a12⟩ := this
    simp only [a1, a2, a3, a4, a5, a6, a7, a8, a9, a10, a11, a12, if_false]
  · obtain ⟨hM, hm⟩ := getScaleMultiplier_err c
    exact scaled_err (raw : ℚ) (getScaleMultiplier c) (scalePower c) hM hm
  · intro h
    unfold scaledValue
    rw [roundF64_intCast raw h]
  · intro h1 h2 h3
    have hraw : raw.natAbs < 2 ^ 53 := by
      have hp : 1 ≤ (10 ^ (scaleExponent c).toNat : ℤ).natAbs := by
        rw [Int.natAbs_pow]
        exact Nat.one_le_pow _ _ (by decide)
      rw [Int.natAbs_mul] at h3
      calc raw.natAbs = raw.natAbs * 1 := (Nat.mul_one _).symm
        _ ≤ raw.natAbs * (10 ^ (scaleExponent c).toNat : ℤ).natAbs := Nat.mul_le_mul_left _ hp
        _ < 2 ^ 53 := h3
    have hm : getScaleMultiplier c = (((10 : ℤ) ^ (scaleExponent c).toNat : ℤ) : ℚ) ∧
        (10 : ℚ) ^ scaleExponent c = (((10 : ℤ) ^ (scaleExponent c).toNat : ℤ) : ℚ) := by
      interval_cases c <;> exact ⟨by decide!, by decide!⟩
    unfold scaledValue
    rw [roundF64_intCast raw hraw, hm.1, hm.2]
    have e : (raw : ℚ) * (((10 : ℤ) ^ (scaleExponent c).toNat : ℤ) : ℚ) =
        ((raw * 10 ^ (scaleExponent c).toNat : ℤ) : ℚ) := by push_cast; ring
    rw [e]
    exact roundF64_intCast _ h3

/-- Witness of C25: the raw value 3300 with scale code 8 (milli) is scaled to the `float64`
product `3300 * 1e-3`, which is 3.3000000000000003; with scale code 10 (kilo) it is
3 300 000; with the unknown code 0 it is 3300. -/
theorem C25_scale_multiplier_witness :
    scaledValue 3300 8 = 7430939385161319 / 2251799813685248 ∧
    scaledValue 3300 10 = 3300000 ∧ scaledValue 3300 0 = 3300 ∧
    getScaleMultiplier 0 = 1 :=
  ⟨by decide!,
   ((C25_scale_multiplier 10 3300).2.2.2.2.2.2.2 (by decide) (by decide) (by decide)).trans
     (by decide!),
   by decide!, (C25_scale_multiplier 0 3300).2.2.2.1 (Or.inl (by decide))⟩

/-- Counterexample to C25 as stated: the multiplier of scale code 8 is the `float64`
`1e-3`, which is not ten to the power −3, and the raw value 3300 is scaled to the `float64`
3.3000000000000003, not to `3300 × 10^-3 = 3.3`; the raw value `2^53 + 1` with scale code 9
is scaled to `2^53`, not to itself. -/
theorem C25_counterexample :
    scaleExponent 8 = -3 ∧
    getScaleMultiplier 8 = 1152921504606847 / 1152921504606846976 ∧
    getScaleMultiplier 8 ≠ (10 : ℚ) ^ scaleExponent 8 ∧
    scaledValue 3300 8 = 7430939385161319 / 2251799813685248 ∧
    scaledValue 3300 8 ≠ 3300 * (10 : ℚ) ^ scaleExponent 8 ∧
    (scaleExponent 9 = 0 ∧ scaledValue 9007199254740993 9 = 9007199254740992 ∧
      scaledValue 9007199254740993 9 ≠ 9007199254740993 * (10 : ℚ) ^ scaleExponent 9) := by
  decide!

/-! ## Sensor loop: lemmas and the claim -/

/-- Decoding an entry into a block lays the readings of the entry over the block. -/
theorem sensorDom_merge (log10 : ℚ → ℚ) (dom : DOMInfo) (s : SensorData) :
    sensorDom log10 dom s = mergeDom dom (sensorDom log10 {} s) := by
  unfold sensorDom
  by_cases h8 : s.Type_ = 8
  · rw [if_pos h8, if_pos h8]
    cases dom
    rfl
  by_cases h9 : s.Type_ = 9
  · rw [if_neg h8, if_pos h9, if_neg h8, if_pos h9]
    cases dom
    rfl
  by_cases h10 : s.Type_ = 10
  · rw [if_neg h8, if_neg h9, if_pos h10, if_neg h8, if_neg h9, if_pos h10]
    cases dom
    rfl
  by_cases h11 : s.Type_ = 11
  · rw [if_neg h8, if_neg h9, if_neg h10, if_pos h11, if_neg h8, if_neg h9, if_neg h10,
      if_pos h11]
    by_cases hv : 0 < scaledValue s.Value s.Scale
    · rw [if_pos hv, if_pos hv]
      by_cases htx : Contains (ToLower s.Descr.data) "tx".data = true ∨
          Contains (ToLower s.Descr.data) "output".data = true <;>
        by_cases hrx : Contains (ToLower s.Descr.data) "rx".data = true ∨
            Contains (ToLower s.Descr.data) "input".data = true <;>
        simp only [htx, hrx, if_true, if_false] <;>
        cases dom <;> rfl
    · rw [if_neg hv, if_neg hv]
      cases dom
      rfl
  · rw [if_neg h8, if_neg h9, if_neg h10, if_neg h11, if_neg h8, if_neg h9, if_neg h10,
      if_neg h11]
    cases dom
    rfl

theorem readings_comm (d x y : Option F64) (h : readingsAgree x y) :
    (if y.isSome then y else (if x.isSome then x else d)) =
      (if x.isSome then x else (if y.isSome then y else d)) := by
  rcases h with h | h | h
  · rw [h]; simp
  · rw [h]; simp
  · rw [h]

theorem mergeDom_comm (d x y : DOMInfo) (h : DomAgree x y) :
    mergeDom (mergeDom d x) y = mergeDom (mergeDom d y) x := by
  obtain ⟨h1, h2, h3, h4, h5⟩ := h
  unfold mergeDom
  simp only [DOMInfo.mk.injEq]
  exact ⟨readings_comm _ _ _ h1, readings_comm _ _ _ h2, readings_comm _ _ _ h3,
    readings_comm _ _ _ h4, readings_comm _ _ _ h5⟩

theorem sensorStep_unusable (log10 : ℚ → ℚ) (m : Int → Option DOMInfo) (s : SensorData)
    (h : sensorUsable s = false) : sensorStep log10 m s = m := by
  unfold sensorUsable at h
  unfold sensorStep
  by_cases h1 : s.Descr.data = [] ∨ s.Type_ = 0
  · rw [if_pos h1]
  · rw [if_neg h1]
    have h2 : (GetPhysicalIndex s.Descr "").2 = false := by
      rcases not_or.mp h1 with ⟨a, b⟩
      simpa [a, b] using h
    rw [h2]
    rfl

theorem sensorStep_usable (log10 : ℚ → ℚ) (m : Int → Option DOMInfo) (s : SensorData)
    (h : sensorUsable s = true) :
    sensorStep log10 m s =
      mapSet m (GetPhysicalIndex s.Descr "").1
        (mergeDom ((m (GetPhysicalIndex s.Descr "").1).getD {}) (sensorDom log10 {} s)) := by
  unfold sensorUsable at h
  simp only [Bool.and_eq_true, Bool.not_eq_true', Bool.or_eq_false_iff,
    decide_eq_false_iff_not] at h
  unfold sensorStep
  rw [if_neg (not_or.mpr h.1), if_pos h.2, sensorDom_merge]

/-- Two entries that do not compete can be visited in either order. -/
theorem sensorStep_comm (log10 : ℚ → ℚ) (m : Int → Option DOMInfo) (a b : SensorData)
    (h : SensorsAgree log10 a b) :
    sensorStep log10 (sensorStep log10 m a) b = sensorStep log10 (sensorStep log10 m b) a := by
  cases ha : sensorUsable a with
  | false => rw [sensorStep_unusable log10 m a ha, sensorStep_unusable log10 _ a ha]
  | true =>
    cases hb : sensorUsable b with
    | false => rw [sensorStep_unusable log10 m b hb, sensorStep_unusable log10 _ b hb]
    | true =>
      rw [sensorStep_usable log10 m a ha, sensorStep_usable log10 m b hb,
        sensorStep_usable log10 _ b hb, sensorStep_usable log10 _ a ha]
      by_cases hp : (GetPhysicalIndex a.Descr "").1 = (GetPhysicalIndex b.Descr "").1
      · have hagree := h ha hb hp
        funext k
        unfold mapSet
        rw [hp]
        by_cases hk : k = (GetPhysicalIndex b.Descr "").1
        · simp only [hk, if_true, Option.getD_some]
          rw [mergeDom_comm _ _ _ hagree]
        · simp only [hk, if_false]
      · have hp2 : ¬ (GetPhysicalIndex b.Descr "").1 = (GetPhysicalIndex a.Descr "").1 :=
          fun e => hp e.symm
        funext k
        unfold mapSet
        by_cases hka : k = (GetPhysicalIndex a.Descr "").1
        · have hkb : ¬ k = (GetPhysicalIndex b.Descr "").1 := fun e => hp (hka.symm.trans e)
          simp only [hka, hp, hp2, if_true, if_false]
        · by_cases hkb : k = (GetPhysicalIndex b.Descr "").1
          · simp only [hkb, hp, hp2, if_true, if_false]
          · simp only [hka, hkb, hp, hp2, if_false]

/-- C28, as the code has it. When no two collected sensor entries compete, that is, no two
usable entries that classify to the same physical index set the same reading to different
values, the map from physical index to DOM readings that the sensor loop builds is the same
for every two orders in which the entries are visited. -/
theorem C28_dom_order_independent (log10 : ℚ → ℚ) (l1 l2 : List SensorData)
    (hperm : l1.Perm l2) (hagree : ∀ a ∈ l1, ∀ b ∈ l1, SensorsAgree log10 a b) :
    sensorLoop log10 l1 = sensorLoop log10 l2 := by
  unfold sensorLoop
  exact List.Perm.foldl_eq' hperm
    (fun a ha b hb m => sensorStep_comm log10 m a b (hagree a ha b hb)) _

/-- Witness of C28: a temperature and a voltage sensor of port 5, visited in either order,
give the block with both readings. -/
theorem C28_dom_order_independent_witness :
    sensorLoop (fun _ => 0) [tempA, voltA] = sensorLoop (fun _ => 0) [voltA, tempA] ∧
    sensorLoop (fun _ => 0) [tempA, voltA] 5 =
      some { Temperature := some { bits := 4629137466983448576 },
             Voltage := some { bits := 4614613358185178727 } } :=
  ⟨C28_dom_order_independent (fun _ => 0) [tempA, voltA] [voltA, tempA]
      (List.Perm.swap voltA tempA [])
      (by
        intro a ha b hb _ _ _
        simp only [List.mem_cons, List.mem_singleton, List.not_mem_nil, or_false] at ha hb
        rcases ha with rfl | rfl <;> rcases hb with rfl | rfl <;>
          exact ⟨by decide!, by decide!, by decide!, by decide!, by decide!⟩),
   by decide!⟩

/-- Counterexample to C28 as stated: two temperature sensors of port 5 that read 30 and 40.
Visited in the order A, B the temperature of port 5 is 40; in the order B, A it is 30.  (No
entry of type 11 takes part, so that `math.Log10` is not consulted.) -/
theorem C28_counterexample :
    [tempA, tempB].Perm [tempB, tempA] ∧
    (sensorLoop (fun _ => 0) [tempA, tempB] 5).map (fun d => d.Temperature) =
      some (some { bits := 4630826316843712512 }) ∧
    (sensorLoop (fun _ => 0) [tempB, tempA] 5).map (fun d => d.Temperature) =
      some (some { bits := 4629137466983448576 }) ∧
    sensorLoop (fun _ => 0) [tempA, tempB] ≠ sensorLoop (fun _ => 0) [tempB, tempA] := by
  have h1 : (sensorLoop (fun _ => 0) [tempA, tempB] 5).map (fun d => d.Temperature) =
      some (some { bits := 4630826316843712512 }) := by decide!
  have h2 : (sensorLoop (fun _ => 0) [tempB, tempA] 5).map (fun d => d.Temperature) =
      some (some { bits := 4629137466983448576 }) := by decide!
  refine ⟨List.Perm.swap tempB tempA [], h1, h2, ?_⟩
  intro h
  rw [h, h2] at h1
  exact absurd h1 (by decide)

/-! ## Q-BRIDGE fallback: lemmas and the claim -/

theorem allowedOf_mapSet (info : Int → Option QBridgeInfo) (j i : Int) (rec : QBridgeInfo) :
    allowedOf (mapSet info j rec) i = if i = j then rec.AllowedVlans else allowedOf info i := by
  unfold allowedOf mapSet
  by_cases h : i = j
  · simp [h]
  · simp [h]

theorem allowedOf_qbAddAllowed (base : Int → Option Int) (v i : Int) (ports : List Int) :
    ∀ info : Int → Option QBridgeInfo,
      allowedOf (qbAddAllowed base v info ports) i =
        allowedOf info i ++ (ports.filter (fun p => decide (base p = some i))).map (fun _ => v) := by
  induction ports with
  | nil => intro info; simp [qbAddAllowed]
  | cons p rest ih =>
    intro info
    unfold qbAddAllowed
    cases hb : base p with
    | none =>
      simp only
      rw [ih info, List.filter_cons_of_neg (by simp [hb])]
    | some j =>
      simp only
      rw [ih, allowedOf_mapSet]
      by_cases hij : i = j
      · rw [if_pos hij, List.filter_cons_of_pos (by simp [hb, hij])]
        simp only [List.map_cons, List.append_assoc, List.singleton_append]
        rw [hij]
        rfl
      · have : ¬ j = i := fun e => hij e.symm
        rw [if_neg hij, List.filter_cons_of_neg (by simp [hb, this])]

theorem allowedOf_qbSetNative (base : Int → Option Int) (v i : Int) (ports : List Int) :
    ∀ info : Int → Option QBridgeInfo,
      allowedOf (qbSetNative base v info ports) i = allowedOf info i := by
  induction ports with
  | nil => intro info; rfl
  | cons p rest ih =>
    intro info
    unfold qbSetNative
    cases hb : base p with
    | none => exact ih info
    | some j =>
      simp only
      rw [ih, allowedOf_mapSet]
      by_cases hij : i = j
      · rw [if_pos hij, hij]
        rfl
      · rw [if_neg hij]

/-- Every record of the map has a native VLAN that is not negative. -/
theorem native_qbAddAllowed (base : Int → Option Int) (v : Int) (ports : List Int) :
    ∀ info : Int → Option QBridgeInfo, (∀ i r, info i = some r → 0 ≤ r.NativeVlan) →
      ∀ i r, qbAddAllowed base v info ports i = some r → 0 ≤ r.NativeVlan := by
  induction ports with
  | nil => intro info h; exact h
  | cons p rest ih =>
    intro info h
    unfold qbAddAllowed
    cases hb : base p with
    | none => exact ih info h
    | some j =>
      simp only
      apply ih
      intro i r hr
      unfold mapSet at hr
      by_cases hij : i = j
      · rw [if_pos hij] at hr
        simp only [Option.some.injEq] at hr
        rw [← hr]
        simp only
        cases hj : info j with
        | none => simp
        | some r0 => simpa using h j r0 hj
      · rw [if_neg hij] at hr
        exact h i r hr

theorem native_qbSetNative (base : Int → Option Int) (v : Int) (hv : 0 < v) (ports : List Int) :
    ∀ info : Int → Option QBridgeInfo, (∀ i r, info i = some r → 0 ≤ r.NativeVlan) →
      ∀ i r, qbSetNative base v info ports i = some r → 0 ≤ r.NativeVlan := by
  induction ports with
  | nil => intro info h; exact h
  | cons p rest ih =>
    intro info h
    unfold qbSetNative
    cases hb : base p with
    | none => exact ih info h
    | some j =>
      simp only
      apply ih
      intro i r hr
      unfold mapSet at hr
      by_cases hij : i = j
      · rw [if_pos hij] at hr
        simp only [Option.some.injEq] at hr
        rw [← hr]
        exact le_of_lt hv
      · rw [if_neg hij] at hr
        exact h i r hr

/-- The allowed list the egress walk builds for `i` holds the VLANs whose egress bitmap
contains a base port mapped to `i`. -/
theorem mem_allowedOf_egress (base : Int → Option Int) (i v : Int) (egress : List SnmpPDU) :
    ∀ info : Int → Option QBridgeInfo,
      v ∈ allowedOf (egress.foldl (egressStep base) info) i ↔
        v ∈ allowedOf info i ∨ EgressHas base egress i v := by
  induction egress with
  | nil =>
    intro info
    unfold EgressHas
    simp
  | cons pdu rest ih =>
    intro info
    rw [List.foldl_cons, ih]
    have hstep : v ∈ allowedOf (egressStep base info pdu) i ↔
        v ∈ allowedOf info i ∨
          (extractIndex pdu.Name oidDot1qVlanStaticEgressPorts = v ∧ 0 < v ∧
            ∃ b, pdu.Value = PduValue.octets b ∧
              ∃ port ∈ parsePortBitmap b, base port = some i) := by
      unfold egressStep
      by_cases hpos : 0 < extractIndex pdu.Name oidDot1qVlanStaticEgressPorts
      · rw [if_pos hpos]
        cases hval : pdu.Value with
        | octets b =>
          simp only
          rw [allowedOf_qbAddAllowed, List.mem_append]
          constructor
          · rintro (h | h)
            · exact Or.inl h
            · obtain ⟨port, hport, hv⟩ := List.mem_map.mp h
              obtain ⟨hin, hbase⟩ := List.mem_filter.mp hport
              exact Or.inr ⟨hv, by rw [← hv]; exact hpos, b, rfl, port, hin, by simpa using hbase⟩
          · rintro (h | ⟨hv, _, b2, hb2, port, hin, hbase⟩)
            · exact Or.inl h
            · right
              simp only [PduValue.octets.injEq] at hb2
              rw [hb2]
              exact List.mem_map.mpr ⟨port, List.mem_filter.mpr ⟨hin, by simpa using hbase⟩, hv⟩
        | number n =>
          simp only
          constructor
          · exact fun h => Or.inl h
          · rintro (h | ⟨_, _, b2, hb2, _⟩)
            · exact h
            · exact absurd hb2 (by simp)
        | other =>
          simp only
          constructor
          · exact fun h => Or.inl h
          · rintro (h | ⟨_, _, b2, hb2, _⟩)
            · exact h
            · exact absurd hb2 (by simp)
      · rw [if_neg hpos]
        constructor
        · exact fun h => Or.inl h
        · rintro (h | ⟨hv, hv0, _⟩)
          · exact h
          · rw [hv] at hpos
            exact absurd hv0 hpos
    have hcons : EgressHas base (pdu :: rest) i v ↔
        (extractIndex pdu.Name oidDot1qVlanStaticEgressPorts = v ∧ 0 < v ∧
          ∃ b, pdu.Value = PduValue.octets b ∧
            ∃ port ∈ parsePortBitmap b, base port = some i) ∨ EgressHas base rest i v := by
      unfold EgressHas
      exact List.exists_mem_cons_iff _ _ _
    rw [hstep, hcons, or_assoc]

theorem native_egress (base : Int → Option Int) (egress : List SnmpPDU) :
    ∀ info : Int → Option QBridgeInfo, (∀ i r, info i = some r → 0 ≤ r.NativeVlan) →
      ∀ i r, egress.foldl (egressStep base) info i = some r → 0 ≤ r.NativeVlan := by
  induction egress with
  | nil => intro info h; exact h
  | cons pdu rest ih =>
    intro info h
    rw [List.foldl_cons]
    apply ih
    unfold egressStep
    split_ifs
    · cases hval : pdu.Value with
      | octets b => exact native_qbAddAllowed base _ _ info h
      | number n => exact h
      | other => exact h
    · exact h

theorem untagged_spec (base : Int → Option Int) (untagged : List SnmpPDU) :
    ∀ info : Int → Option QBridgeInfo, (∀ i r, info i = some r → 0 ≤ r.NativeVlan) →
      (∀ i r, untagged.foldl (untaggedStep base) info i = some r → 0 ≤ r.NativeVlan) ∧
      ∀ i, allowedOf (untagged.foldl (untaggedStep base) info) i = allowedOf info i := by
  induction untagged with
  | nil => intro info h; exact ⟨h, fun _ => rfl⟩
  | cons pdu rest ih =>
    intro info h
    rw [List.foldl_cons]
    have hstep : (∀ i r, untaggedStep base info pdu i = some r → 0 ≤ r.NativeVlan) ∧
        ∀ i, allowedOf (untaggedStep base info pdu) i = allowedOf info i := by
      unfold untaggedStep
      split_ifs with hpos
      · cases hval : pdu.Value with
        | octets b =>
          exact ⟨native_qbSetNative base _ hpos _ info h,
            fun i => allowedOf_qbSetNative base _ i _ info⟩
        | number n => exact ⟨h, fun _ => rfl⟩
        | other => exact ⟨h, fun _ => rfl⟩
      · exact ⟨h, fun _ => rfl⟩
    obtain ⟨i1, i2⟩ := ih _ hstep.1
    exact ⟨i1, fun i => (i2 i).trans (hstep.2 i)⟩

/-- The records of `qBridgeVlanInfo` after the Q-BRIDGE phase. -/
theorem qBridgeWalks_spec (base : Int → Option Int) (egress untagged : List SnmpPDU)
    (i : Int) (r : QBridgeInfo) (h : qBridgeWalks base egress untagged i = some r) :
    0 ≤ r.NativeVlan ∧ ∀ v, v ∈ r.AllowedVlans ↔ EgressHas base egress i v := by
  unfold qBridgeWalks at h
  have h0 : ∀ (i : Int) (r : QBridgeInfo),
      (fun _ => none : Int → Option QBridgeInfo) i = some r → 0 ≤ r.NativeVlan := by
    intro i r hr
    exact absurd hr (by simp)
  obtain ⟨u1, u2⟩ := untagged_spec base untagged _ (native_egress base egress _ h0)
  refine ⟨u1 i r h, fun v => ?_⟩
  have ha : r.AllowedVlans = allowedOf (List.foldl (untaggedStep base)
      (List.foldl (egressStep base) (fun _ => none) egress) untagged) i := by
    unfold allowedOf
    rw [h]
    rfl
  rw [ha, u2 i, mem_allowedOf_egress]
  unfold allowedOf
  simp

theorem nativeOf_mapSet (info : Int → Option QBridgeInfo) (j i : Int) (rec : QBridgeInfo) :
    nativeOf (mapSet info j rec) i = if i = j then rec.NativeVlan else nativeOf info i := by
  unfold nativeOf mapSet
  by_cases h : i = j
  · simp [h]
  · simp [h]

theorem nativeOf_qbAddAllowed (base : Int → Option Int) (v i : Int) (ports : List Int) :
    ∀ info : Int → Option QBridgeInfo,
      nativeOf (qbAddAllowed base v info ports) i = nativeOf info i := by
  induction ports with
  | nil => intro info; rfl
  | cons p rest ih =>
    intro info
    unfold qbAddAllowed
    cases hb : base p with
    | none => exact ih info
    | some j =>
      simp only
      rw [ih, nativeOf_mapSet]
      by_cases hij : i = j
      · rw [if_pos hij, hij]
        rfl
      · rw [if_neg hij]

theorem nativeOf_qbSetNative (base : Int → Option Int) (v i : Int) (ports : List Int) :
    ∀ info : Int → Option QBridgeInfo,
      nativeOf (qbSetNative base v info ports) i =
        if ports.any (fun p => decide (base p = some i)) = true then v else nativeOf info i := by
  induction ports with
  | nil => intro info; simp [qbSetNative]
  | cons p rest ih =>
    intro info
    unfold qbSetNative
    cases hb : base p with
    | none =>
      simp only
      rw [ih info]
      simp [hb]
    | some j =>
      simp only
      rw [ih, nativeOf_mapSet]
      by_cases hij : i = j
      · rw [if_pos hij]
        simp [hb, hij]
      · have : ¬ j = i := fun e => hij e.symm
        rw [if_neg hij]
        simp [hb, this]

/-- The allowed list the egress walk builds for `i`: what it was before, followed by the
VLAN of every binding once for each port of its bitmap mapped to `i`. -/
theorem allowedOf_egress (base : Int → Option Int) (i : Int) (egress : List SnmpPDU) :
    ∀ info : Int → Option QBridgeInfo,
      allowedOf (egress.foldl (egressStep base) info) i =
        allowedOf info i ++ egressVlans base egress i := by
  induction egress with
  | nil => intro info; simp [egressVlans]
  | cons pdu rest ih =>
    intro info
    rw [List.foldl_cons, ih]
    have hstep : allowedOf (egressStep base info pdu) i =
        allowedOf info i ++ egressOf base i pdu := by
      unfold egressStep egressOf
      by_cases hpos : 0 < extractIndex pdu.Name oidDot1qVlanStaticEgressPorts
      · rw [if_pos hpos, if_pos hpos]
        cases hval : pdu.Value with
        | octets b => exact allowedOf_qbAddAllowed base _ i _ info
        | number n => simp
        | other => simp
      · rw [if_neg hpos, if_neg hpos]
        simp
    rw [hstep]
    simp [egressVlans, List.append_assoc]

theorem nativeOf_egress (base : Int → Option Int) (i : Int) (egress : List SnmpPDU) :
    ∀ info : Int → Option QBridgeInfo,
      nativeOf (egress.foldl (egressStep base) info) i = nativeOf info i := by
  induction egress with
  | nil => intro info; rfl
  | cons pdu rest ih =>
    intro info
    rw [List.foldl_cons, ih]
    unfold egressStep
    split_ifs
    · cases hval : pdu.Value with
      | octets b => exact nativeOf_qbAddAllowed base _ i _ info
      | number n => rfl
      | other => rfl
    · rfl

theorem nativeOf_untaggedStep (base : Int → Option Int) (i : Int) (pdu : SnmpPDU)
    (info : Int → Option QBridgeInfo) :
    nativeOf (untaggedStep base info pdu) i =
      if untaggedHits base i pdu = true then
        extractIndex pdu.Name oidDot1qVlanStaticUntaggedPorts
      else nativeOf info i := by
  unfold untaggedStep untaggedHits
  by_cases hpos : 0 < extractIndex pdu.Name oidDot1qVlanStaticUntaggedPorts
  · rw [if_pos hpos]
    cases hval : pdu.Value with
    | octets b =>
      simp only [hpos, decide_True, Bool.true_and]
      exact nativeOf_qbSetNative base _ i _ info
    | number n => simp
    | other => simp
  · rw [if_neg hpos]
    simp [hpos]

/-- The native VLAN the untagged walk leaves for `i`: the VLAN of the last binding whose
bitmap contains a base port mapped to `i`, and what it was before when there is none. -/
theorem nativeOf_untagged (base : Int → Option Int) (i : Int) (untagged : List SnmpPDU) :
    ∀ info : Int → Option QBridgeInfo,
      nativeOf (untagged.foldl (untaggedStep base) info) i =
        ((untagged.reverse.find? (untaggedHits base i)).map
          (fun pdu => extractIndex pdu.Name oidDot1qVlanStaticUntaggedPorts)).getD
          (nativeOf info i) := by
  induction untagged with
  | nil => intro info; rfl
  | cons pdu rest ih =>
    intro info
    rw [List.foldl_cons, ih, nativeOf_untaggedStep, List.reverse_cons, List.find?_append]
    cases hf : List.find? (untaggedHits base i) rest.reverse with
    | some x => simp
    | none =>
      by_cases hh : untaggedHits base i pdu = true
      · simp [hh]
      · simp [hh]

/-- The VLANs of the allowed list are those whose egress bitmap contains a base port mapped
to `i`. -/
theorem mem_egressVlans (base : Int → Option Int) (egress : List SnmpPDU) (i v : Int) :
    v ∈ egressVlans base egress i ↔ EgressHas base egress i v := by
  have h := mem_allowedOf_egress base i v egress (fun _ => none)
  rw [allowedOf_egress] at h
  simpa [allowedOf] using h

/-- The record of `i` after the Q-BRIDGE phase, read with the zero record when there is
none. -/
theorem qBridgeWalks_record (base : Int → Option Int) (egress untagged : List SnmpPDU) (i : Int) :
    allowedOf (qBridgeWalks base egress untagged) i = egressVlans base egress i ∧
    nativeOf (qBridgeWalks base egress untagged) i = untaggedVlan base untagged i := by
  have h0 : ∀ (i : Int) (r : QBridgeInfo),
      (fun _ => none : Int → Option QBridgeInfo) i = some r → 0 ≤ r.NativeVlan := by
    intro i r hr
    exact absurd hr (by simp)
  unfold qBridgeWalks
  constructor
  · rw [(untagged_spec base untagged _ (native_egress base egress _ h0)).2 i, allowedOf_egress]
    simp [allowedOf]
  · rw [nativeOf_untagged, nativeOf_egress]
    rfl

theorem length_le_one_of_all_eq {α : Type} (l : List α) (hn : l.Nodup)
    (h : ∀ x ∈ l, ∀ y ∈ l, x = y) : l.length ≤ 1 := by
  match l, hn, h with
  | [], _, _ => simp
  | [_], _, _ => simp
  | a :: b :: t, hn, h =>
    have hab : a = b := h a (by simp) b (by simp)
    rw [hab] at hn
    simp at hn

theorem egressOf_eq (base : Int → Option Int) (i : Int) (pdu : SnmpPDU) :
    ∀ x ∈ egressOf base i pdu, x = extractIndex pdu.Name oidDot1qVlanStaticEgressPorts := by
  intro x hx
  unfold egressOf at hx
  split_ifs at hx with hpos
  · cases hval : pdu.Value with
    | octets b =>
      rw [hval] at hx
      simp only [List.mem_map] at hx
      obtain ⟨_, _, h⟩ := hx
      exact h.symm
    | number n => rw [hval] at hx; simp at hx
    | other => rw [hval] at hx; simp at hx
  · simp at hx

theorem egressOf_nodup (base : Int → Option Int) (i : Int) (pdu : SnmpPDU)
    (hinj : ∀ p q, base p = some i → base q = some i → p = q) :
    (egressOf base i pdu).Nodup := by
  have hlen : (egressOf base i pdu).length ≤ 1 := by
    unfold egressOf
    split_ifs with hpos
    · cases hval : pdu.Value with
      | octets b =>
        simp only [List.length_map]
        apply length_le_one_of_all_eq
        · exact ((parsePortBitmapFrom_spec b 0).2.1.imp (fun h => ne_of_lt h)).filter _
        · intro x hx y hy
          have hx2 := (List.mem_filter.mp hx).2
          have hy2 := (List.mem_filter.mp hy).2
          exact hinj x y (by simpa using hx2) (by simpa using hy2)
      | number n => simp
      | other => simp
    · simp
  match h : egressOf base i pdu, hlen with
  | [], _ => simp
  | [_], _ => simp
  | _ :: _ :: _, hl => simp at hl

/-- When no two base ports are mapped to `i` and the egress walk delivers every VLAN once,
the allowed list of `i` holds no VLAN twice. -/
theorem egressVlans_nodup (base : Int → Option Int) (egress : List SnmpPDU) (i : Int)
    (hinj : ∀ p q, base p = some i → base q = some i → p = q)
    (hwalk : (egress.map (fun pdu => extractIndex pdu.Name oidDot1qVlanStaticEgressPorts)).Nodup) :
    (egressVlans base egress i).Nodup := by
  induction egress with
  | nil => simp [egressVlans]
  | cons pdu rest ih =>
    simp only [List.map_cons, List.nodup_cons] at hwalk
    have hrest := ih hwalk.2
    unfold egressVlans at hrest ⊢
    rw [List.map_cons, List.flatten_cons, List.nodup_append]
    refine ⟨egressOf_nodup base i pdu hinj, hrest, ?_⟩
    intro x hx hx2
    have e1 := egressOf_eq base i pdu x hx
    obtain ⟨l, hl, hxl⟩ := List.mem_flatten.mp hx2
    obtain ⟨pdu2, hp2, hl2⟩ := List.mem_map.mp hl
    rw [← hl2] at hxl
    have e2 := egressOf_eq base i pdu2 x hxl
    apply hwalk.1
    rw [← e1, e2]
    exact List.mem_map_of_mem _ hp2

/-- C23, as the code has it. Let `qBridgeVlanInfo` be the map the Q-BRIDGE phase builds, and
`r` a row as the vendor tables leave it.  When `vlan_id` is 0, the mode is "access" and
`allowed_vlans` is empty, `allowed_vlans` becomes the range format of the list that holds,
in walk order, the VLANs whose static egress port bitmap contains a base port mapped to the
ifIndex of `r`, each once for every such port of its bitmap, and `vlan_id` becomes the
untagged (native) VLAN of the ifIndex: the VLAN of the last binding of the untagged walk
whose bitmap contains a base port mapped to it, 0 when there is none; nothing else of the
row changes.  These two are the allowed list and the native VLAN of the record of the
ifIndex, when there is one; the list holds no VLAN twice when no two base ports are mapped
to the ifIndex and the egress walk delivers every VLAN once.  When one of the three conditions fails, in particular when
`vlan_id` is not 0 or the mode is "trunk", or when there is no record, the row stays as it
is.  Every retained row is a row the vendor tables left, treated so. -/
theorem C23_qbridge_fallback (env : PollEnv) (base : Int → Option Int)
    (egress untagged : List SnmpPDU)
    (henv : env.qBridgeVlanInfo = qBridgeWalks base egress untagged) (r : SNMPResult) :
    (r.VlanID = 0 → r.Mode = "access" → r.AllowedVlans = "" →
      applyQBridge env r =
        { r with AllowedVlans := indicesToRangeString (egressVlans base egress r.IfIndex)
                 VlanID := untaggedVlan base untagged r.IfIndex } ∧
      ∀ info, env.qBridgeVlanInfo r.IfIndex = some info →
        info.AllowedVlans = egressVlans base egress r.IfIndex ∧
        info.NativeVlan = untaggedVlan base untagged r.IfIndex ∧
        (applyQBridge env r).AllowedVlans = indicesToRangeString info.AllowedVlans ∧
        (applyQBridge env r).VlanID = info.NativeVlan) ∧
    (∀ v, v ∈ egressVlans base egress r.IfIndex ↔ EgressHas base egress r.IfIndex v) ∧
    ((∀ p q, base p = some r.IfIndex → base q = some r.IfIndex → p = q) →
      (egress.map (fun pdu => extractIndex pdu.Name oidDot1qVlanStaticEgressPorts)).Nodup →
      (egressVlans base egress r.IfIndex).Nodup) ∧
    ((r.VlanID ≠ 0 ∨ r.Mode ≠ "access" ∨ r.AllowedVlans ≠ "") → applyQBridge env r = r) ∧
    (r.Mode = "trunk" → applyQBridge env r = r) ∧
    (env.qBridgeVlanInfo r.IfIndex = none → applyQBridge env r = r) ∧
    (∀ (cache : TrafficCache) (raw : List (Int × SNMPResult)),
      ∀ e ∈ (reconcileLoop env cache raw).2, ∃ idx res c, (idx, res) ∈ raw ∧
        e.2 = applyQBridge env (vendorRow env c idx res)) := by
  have hlen : ∀ s : String, s.data.length = 0 ↔ s = "" := by
    intro s
    constructor
    · intro h
      have : s.data = [] := List.length_eq_zero.mp h
      cases s
      simp only at this
      rw [this]
    · intro h
      rw [h]
      rfl
  obtain ⟨hall, hnat⟩ := qBridgeWalks_record base egress untagged r.IfIndex
  rw [← henv] at hall hnat
  refine ⟨?_, mem_egressVlans base egress r.IfIndex, egressVlans_nodup base egress r.IfIndex,
    ?_, ?_, ?_, ?_⟩
  · intro h1 h2 h3
    have hcond : r.VlanID = 0 ∧ r.Mode = "access" ∧ r.AllowedVlans.data.length = 0 :=
      ⟨h1, h2, (hlen _).mpr h3⟩
    cases hinfo : env.qBridgeVlanInfo r.IfIndex with
    | none =>
      refine ⟨?_, fun info hi => absurd hi (by simp)⟩
      have e1 : egressVlans base egress r.IfIndex = [] := by
        rw [← hall]
        unfold allowedOf
        rw [hinfo]
        rfl
      have e2 : untaggedVlan base untagged r.IfIndex = 0 := by
        rw [← hnat]
        unfold nativeOf
        rw [hinfo]
        rfl
      have e3 : indicesToRangeString [] = "" := by decide
      rw [e1, e2, e3, ← h1, ← h3]
      unfold applyQBridge
      rw [if_pos hcond, hinfo]
    | some info =>
      have a1 : info.AllowedVlans = egressVlans base egress r.IfIndex := by
        rw [← hall]
        unfold allowedOf
        rw [hinfo]
        rfl
      have a2 : info.NativeVlan = untaggedVlan base untagged r.IfIndex := by
        rw [← hnat]
        unfold nativeOf
        rw [hinfo]
        rfl
      have hn : 0 ≤ info.NativeVlan :=
        (qBridgeWalks_spec base egress untagged r.IfIndex info (by rw [← henv]; exact hinfo)).1
      have hA : (if 0 < info.AllowedVlans.length then indicesToRangeString info.AllowedVlans
          else r.AllowedVlans) = indicesToRangeString info.AllowedVlans := by
        by_cases hl : 0 < info.AllowedVlans.length
        · rw [if_pos hl]
        · rw [if_neg hl, h3]
          have : info.AllowedVlans = [] := List.length_eq_zero.mp (by omega)
          rw [this]
          rfl
      have hV : (if 0 < info.NativeVlan then info.NativeVlan else r.VlanID) =
          info.NativeVlan := by
        by_cases hl : 0 < info.NativeVlan
        · rw [if_pos hl]
        · rw [if_neg hl, h1]
          omega
      have heq : applyQBridge env r =
          { r with AllowedVlans := indicesToRangeString info.AllowedVlans
                   VlanID := info.NativeVlan } := by
        unfold applyQBridge
        rw [if_pos hcond, hinfo]
        simp only
        rw [hA, hV]
      refine ⟨by rw [heq, a1, a2], ?_⟩
      intro info2 hi2
      simp only [Option.some.injEq] at hi2
      rw [← hi2]
      exact ⟨a1, a2, by rw [heq], by rw [heq]⟩
  · intro h
    unfold applyQBridge
    rw [if_neg]
    rintro ⟨h1, h2, h3⟩
    rcases h with h | h | h
    · exact h h1
    · exact h h2
    · exact h ((hlen _).mp h3)
  · intro h
    unfold applyQBridge
    rw [if_neg]
    rintro ⟨_, h2, _⟩
    rw [h] at h2
    exact absurd h2 (by decide)
  · intro h
    unfold applyQBridge
    split_ifs
    · rw [h]
    · rfl
  · intro cache raw e he
    obtain ⟨idx, res, c, hm, _, hee⟩ := mem_reconcileLoop env cache raw e he
    refine ⟨idx, res, c, hm, ?_⟩
    rw [hee]
    rfl

/-- Witness of C23: base port 3 is ifIndex 10, the egress bitmaps of the VLANs 20 and 30
hold port 3 and the untagged bitmap of VLAN 20 holds it; the access row of ifIndex 10 with
`vlan_id` 0 gets `allowed_vlans` "20, 30" and `vlan_id` 20.  With the untagged bitmaps of
the VLANs 20 and then 30 holding port 3, the untagged VLAN is 30. -/
theorem C23_qbridge_fallback_witness :
    qbEnv.qBridgeVlanInfo 10 = some { NativeVlan := 20, AllowedVlans := [20, 30] } ∧
    egressVlans qbBase qbEgress 10 = [20, 30] ∧ untaggedVlan qbBase qbUntagged 10 = 20 ∧
    untaggedVlan qbBase qbUntaggedTwo 10 = 30 ∧
    applyQBridge qbEnv { IfIndex := 10, IfName := "Gi0/10", Mode := "access" } =
      { IfIndex := 10, IfName := "Gi0/10", Mode := "access", AllowedVlans := "20, 30",
        VlanID := 20 } ∧
    (reconcileLoop qbEnv (fun _ => none) [(10, { IfIndex := 10, IfName := "Gi0/10" })]).2.map
      (fun e => (e.1, e.2.Mode, e.2.VlanID, e.2.AllowedVlans)) = [("10", "access", 20, "20, 30")] :=
  ⟨by decide, by decide, by decide, by decide,
   ((C23_qbridge_fallback qbEnv qbBase qbEgress qbUntagged rfl
      { IfIndex := 10, IfName := "Gi0/10", Mode := "access" }).1 rfl rfl rfl).1.trans (by decide),
   by decide⟩

/-- Counterexample to C23 as stated: the base ports 3 and 4 are both ifIndex 10 and the
egress bitmaps of the VLANs 20 and 21 hold both ports.  The VLANs whose egress bitmap
contains a base port of ifIndex 10 are 20 and 21, whose range format is "20-21"; the allowed
list of the record holds each of them twice and the row gets "20, 20-21, 21". -/
theorem C23_counterexample :
    qbEnvTwo.qBridgeVlanInfo 10 = some { NativeVlan := 0, AllowedVlans := [20, 20, 21, 21] } ∧
    (egressVlans qbBaseTwo qbEgressTwo 10).dedup = [20, 21] ∧
    indicesToRangeString [20, 21] = "20-21" ∧
    (applyQBridge qbEnvTwo { IfIndex := 10, IfName := "Gi0/10", Mode := "access" }).AllowedVlans =
      "20, 20-21, 21" ∧
    (reconcileLoop qbEnvTwo (fun _ => none) [(10, { IfIndex := 10, IfName := "Gi0/10" })]).2.map
      (fun e => (e.1, e.2.Mode, e.2.VlanID, e.2.AllowedVlans)) =
      [("10", "access", 0, "20, 20-21, 21")] := by
  decide

/-! ## Synthesized layout and view: lemmas and the claim -/

theorem Atoi_digits_range (d : List Char) (hne : d ≠ []) (hd : d.all isDigit = true) :
    0 ≤ (Atoi d).1 ∧ (Atoi d).1 ≤ maxInt := by
  rw [Atoi_digits d hne hd]
  unfold maxInt
  constructor
  · exact le_min (by omega) (by omega)
  · exact min_le_right _ _

theorem reSonicBreakout_digits (s d : List Char) (h : reSonicBreakout s = some d) :
    d ≠ [] ∧ d.all isDigit = true := by
  obtain ⟨pre, t, _, ht⟩ := findFirst_some matchSonicBreakoutAt s d h
  obtain ⟨e, t2, hh, ws1, ws2, ws3, b, post, _, _, _, hane, had, _⟩ :=
    matchSonicBreakoutAt_some t d ht
  exact ⟨hane, had⟩

theorem reSonicSimple_digits (s d : List Char) (h : reSonicSimple s = some d) :
    d ≠ [] ∧ d.all isDigit = true := by
  obtain ⟨pre, t, _, ht⟩ := findFirst_some matchSonicSimpleAt s d h
  obtain ⟨e, t2, hh, ws, _, _, _, hne, hd⟩ := matchSonicSimpleAt_some t d ht
  exact ⟨hne, hd⟩

theorem reLastNum_digits (s d : List Char) (h : reLastNum s = some d) :
    d ≠ [] ∧ d.all isDigit = true := by
  obtain ⟨pre, t, _, ht⟩ := findFirst_some matchLastNumAt s d h
  unfold matchLastNumAt at ht
  split_ifs at ht with hc
  simp only [Option.some.injEq] at ht
  rw [← ht]
  exact hc

/-- A physical index is an `int` that is not negative. -/
theorem GetPhysicalIndex_range (name al : String) (h : (GetPhysicalIndex name al).2 = true) :
    0 ≤ (GetPhysicalIndex name al).1 ∧ (GetPhysicalIndex name al).1 ≤ maxInt := by
  by_cases hdot : '.' ∈ name.data
  · unfold GetPhysicalIndex at h
    rw [if_pos hdot] at h
    exact absurd h (by decide)
  · unfold GetPhysicalIndex at h ⊢
    rw [if_neg hdot] at h ⊢
    cases h1 : reColonSub name.data with
    | some d =>
      obtain ⟨_, _, _, hne, hd, _⟩ := reColonSub_some name.data d h1
      exact Atoi_digits_range d hne hd
    | none =>
      rw [h1] at h
      simp only at h ⊢
      cases h2 : aliasDigits al.data with
      | some d =>
        have hd : d ≠ [] ∧ d.all isDigit = true := by
          unfold aliasDigits at h2
          split_ifs at h2 with hal
          cases h3 : reSonicBreakout al.data with
          | some d2 =>
            rw [h3] at h2
            simp only [Option.some.injEq] at h2
            rw [← h2]
            exact reSonicBreakout_digits _ _ h3
          | none =>
            rw [h3] at h2
            exact reSonicSimple_digits _ _ h2
        exact Atoi_digits_range d hd.1 hd.2
      | none =>
        rw [h2] at h
        simp only at h ⊢
        cases h3 : nameDigits name.data with
        | some d =>
          have hd : d ≠ [] ∧ d.all isDigit = true := by
            unfold nameDigits at h3
            cases h4 : reSonicBreakout name.data with
            | some d2 =>
              rw [h4] at h3
              simp only [Option.some.injEq] at h3
              rw [← h3]
              exact reSonicBreakout_digits _ _ h4
            | none =>
              rw [h4] at h3
              simp only at h3
              cases h5 : reSonicSimple name.data with
              | some d3 =>
                rw [h5] at h3
                simp only [Option.some.injEq] at h3
                rw [← h3]
                exact reSonicSimple_digits _ _ h5
              | none =>
                rw [h5] at h3
                exact reLastNum_digits _ _ h3
          exact Atoi_digits_range d hd.1 hd.2
        | none =>
          rw [h3] at h
          exact absurd h (by decide)

/-- The synthesized layout, mapped against the poll result it was synthesized from, unless
the classified indices hold both the largest `int` and its predecessor: the view has the
one section of the layout; its ports are the entries of the classified indices, in
ascending order, each index once; no entry is a placeholder; an index with one row has that
row's port status, an index with more rows a breakout parent whose children are the port
statuses of a rearrangement of its rows; and every row that classifies does so to an index
of the view. -/
theorem synthesized_view_complete (rows : List SNMPResult) (allow : Bool) (cfg : SwitchConfig)
    (maxPort : Int) (hgen : GenerateConfigFromSNMP rows allow = Except.ok (cfg, maxPort))
    (hmax : maxInt ∈ uniqueIndices (collectPhyIndices allow rows) →
      maxInt - 1 ∉ uniqueIndices (collectPhyIndices allow rows)) :
    ∃ sec v, cfg.Sections = [sec] ∧
      mapConfigToView cfg rows allow = some [v] ∧ v = { sec with Ports := v.Ports } ∧
      v.Ports = (uniqueIndices (collectPhyIndices allow rows)).map
        (fun idx => portEntry sec idx (snmpByPhyIdx rows allow idx)) ∧
      (uniqueIndices (collectPhyIndices allow rows)).Pairwise (fun a b => a < b) ∧
      (∀ idx ∈ uniqueIndices (collectPhyIndices allow rows),
        rowsAt rows allow idx ≠ [] ∧
        portEntry sec idx (snmpByPhyIdx rows allow idx) ≠ placeholder sec idx ∧
        ((∃ r, rowsAt rows allow idx = [r] ∧
            portEntry sec idx (snmpByPhyIdx rows allow idx) =
              createPortStatus idx sec.PortType r false) ∨
          (2 ≤ (rowsAt rows allow idx).length ∧
            (portEntry sec idx (snmpByPhyIdx rows allow idx)).IsBreakout = true ∧
            ∃ sorted : List SNMPResult, sorted.Perm (rowsAt rows allow idx) ∧
              (portEntry sec idx (snmpByPhyIdx rows allow idx)).BreakoutPorts =
                sorted.map (fun r => createPortStatus idx sec.PortType r true)))) ∧
      (∀ r ∈ rows, ∀ idx, classifiesTo allow idx r = true →
        idx ∈ uniqueIndices (collectPhyIndices allow rows) ∧ r ∈ rowsAt rows allow idx ∧
        ∀ idx2, r ∈ rowsAt rows allow idx2 → idx2 = idx) := by
  obtain ⟨hsorted, hmemU⟩ := uniqueIndices_spec (collectPhyIndices allow rows)
  have hmem : ∀ x, x ∈ uniqueIndices (collectPhyIndices allow rows) ↔
      ∃ r ∈ rows, classifiesTo allow x r = true :=
    fun x => (hmemU x).trans (mem_collectPhyIndices allow x rows)
  have hrange : ∀ x ∈ uniqueIndices (collectPhyIndices allow rows), 0 ≤ x ∧ x ≤ maxInt := by
    intro x hx
    obtain ⟨r, _, hc⟩ := (hmem x).mp hx
    have hc2 := hc
    unfold classifiesTo at hc2
    simp only [Bool.and_eq_true, decide_eq_true_eq] at hc2
    have := GetPhysicalIndex_range r.IfName r.IfAlias hc2.1.1.2
    rw [hc2.1.2] at this
    exact this
  have hzero : ∀ x ∈ uniqueIndices (collectPhyIndices allow rows),
      (!(decide (x = 0) && !allow)) = true := by
    intro x hx
    obtain ⟨r, _, hc⟩ := (hmem x).mp hx
    unfold classifiesTo at hc
    simp only [Bool.and_eq_true] at hc
    exact hc.2
  have hparse : parsePortRanges
      (indicesToRangeString (uniqueIndices (collectPhyIndices allow rows))) =
      some (uniqueIndices (collectPhyIndices allow rows)) := by
    rw [parse_format_roundtrip _ (hsorted.imp (fun h => ne_of_lt h)) hrange hmax]
    congr 1
    exact List.Sorted.insertionSort_eq (hsorted.imp (fun h => le_of_lt h))
  unfold GenerateConfigFromSNMP at hgen
  split_ifs at hgen with hempty
  simp only [Except.ok.injEq, Prod.mk.injEq] at hgen
  obtain ⟨hcfg, _⟩ := hgen
  have hsec : ∃ sec : PortSection, cfg.Sections = [sec] ∧ sec.PortType = "RJ45" ∧
      sec.PortRanges = indicesToRangeString (uniqueIndices (collectPhyIndices allow rows)) ∧
      sec =
        { ID := "sec-1", Title := "All Ports", Type_ := "RJ45", PortType := "RJ45",
          Layout := "odd_top", LayoutType := "odd_top", Rows := 2,
          PortRanges := indicesToRangeString (uniqueIndices (collectPhyIndices allow rows)),
          Ports := [] } := ⟨_, by rw [← hcfg], rfl, rfl, rfl⟩
  obtain ⟨sec, hsecs, _, _, hseceq⟩ := hsec
  have hports : ∃ ports : List PortStatus, ports =
      (uniqueIndices (collectPhyIndices allow rows)).map
        (fun idx => portEntry sec idx (snmpByPhyIdx rows allow idx)) := ⟨_, rfl⟩
  obtain ⟨ports, hportsEq⟩ := hports
  refine ⟨sec, { sec with Ports := ports }, hsecs, ?_, rfl, hportsEq, hsorted, ?_, ?_⟩
  · unfold mapConfigToView
    rw [hsecs]
    have hp2 : parsePortRanges sec.PortRanges =
        some (uniqueIndices (collectPhyIndices allow rows)) := by
      rw [hseceq]
      exact hparse
    simp only [mapSections, hp2, sectionPorts_eq]
    rw [List.filter_eq_self.mpr hzero, hportsEq]
  · intro idx hidx
    obtain ⟨r, hr, hc⟩ := (hmem idx).mp hidx
    have hne : rowsAt rows allow idx ≠ [] := by
      intro he
      have : r ∈ rowsAt rows allow idx := List.mem_filter.mpr ⟨hr, hc⟩
      rw [he] at this
      simp at this
    obtain ⟨_, p1, p2⟩ := portEntry_rowsAt sec idx rows allow
    have hcases : (∃ r, rowsAt rows allow idx = [r]) ∨ 2 ≤ (rowsAt rows allow idx).length := by
      cases hl : rowsAt rows allow idx with
      | nil => exact absurd hl hne
      | cons a rest =>
        cases rest with
        | nil => exact Or.inl ⟨a, rfl⟩
        | cons b rest2 => right; simp
    refine ⟨hne, ?_, ?_⟩
    · rcases hcases with ⟨r1, h1⟩ | h2
      · rw [p1 r1 h1]
        intro he
        have := congrArg PortStatus.Status he
        simp only [createPortStatus, placeholder] at this
        have hn := congrArg PortStatus.IfName he
        simp only [createPortStatus, placeholder] at hn
        have hin : r1 ∈ rowsAt rows allow idx := by rw [h1]; simp
        have hcl := (List.mem_filter.mp hin).2
        unfold classifiesTo at hcl
        simp only [Bool.and_eq_true, Bool.not_eq_true', decide_eq_true_eq] at hcl
        have hign := hcl.1.1.1
        rw [hn] at hign
        have hpo : IsIgnoredInterface (String.mk ("Port ".data ++ Itoa idx)) = true := by
          unfold IsIgnoredInterface
          by_cases hd : '.' ∈ (String.mk ("Port ".data ++ Itoa idx)).data
          · rw [if_pos hd]
          · rw [if_neg hd]
            have hpre : HasPrefix (ToLower (String.mk ("Port ".data ++ Itoa idx)).data) "po".data
                = true := rfl
            split_ifs
            · rfl
            · unfold ignoredPrefixes
              simp only [List.any_cons, hpre, Bool.or_true, Bool.true_or]
        rw [hpo] at hign
        exact absurd hign (by decide)
      · rw [p2 h2]
        intro he
        have := congrArg PortStatus.IsBreakout he
        simp [placeholder] at this
    · rcases hcases with ⟨r1, h1⟩ | h2
      · exact Or.inl ⟨r1, h1, p1 r1 h1⟩
      · right
        refine ⟨h2, by rw [p2 h2], sortByIfName (rowsAt rows allow idx),
          (sortByIfName_spec _).1, by rw [p2 h2]⟩
  · intro r hr idx hc
    refine ⟨(hmem idx).mpr ⟨r, hr, hc⟩, List.mem_filter.mpr ⟨hr, hc⟩, ?_⟩
    intro idx2 h2
    have hc2 := (List.mem_filter.mp h2).2
    rw [((classifiesTo_iff allow idx r).mp hc).2, ((classifiesTo_iff allow idx2 r).mp hc2).2]

/-- C27 at the largest `int`. For a poll result with two interfaces whose names end in
`2^63 - 2` and `2^63 - 1` the synthesizer succeeds and writes the range
"9223372036854775806-9223372036854775807"; mapping that layout against the same poll result
does not return, because the expansion loop of `parsePortRanges` does not end. -/
theorem C27_synthesized_view_largest_int :
    (GenerateConfigFromSNMP largestRows false).toOption.map
      (fun r => (r.1.Sections.map (fun sec => sec.PortRanges), r.2)) =
      some (["9223372036854775806-9223372036854775807"], 9223372036854775807) ∧
    (∀ cfg maxPort, GenerateConfigFromSNMP largestRows false = Except.ok (cfg, maxPort) →
      mapConfigToView cfg largestRows false = none) := by
  refine ⟨by decide, ?_⟩
  intro cfg maxPort h
  unfold GenerateConfigFromSNMP at h
  split_ifs at h with hempty
  simp only [Except.ok.injEq, Prod.mk.injEq] at h
  rw [← h.1]
  rfl

end NwViz
